import Mathlib

/-!
The contig splitting of canu / bogart (`AS_BAT_CreateUnitigs.C`).

A shallow embedding of the breakpoint model, the contig splitter `splitTig`,
`copyTig`, the breakpoint discovery `checkRead`, and the steps of `createUnitigs`
(sentinels, confused edges, intersections, sort, split, provenance, backbone
trim), followed by the properties established for them.  Embedded besides are
the GF(4) tables of `sequence-shiftregister-gf4.H`, the range handling of
`extractParameters::finalize` and `numberToBase` of `sequence.H`, the
accumulator `trimStat`, and the block loop of `Process_Overlaps`.

Conventions of the embedding.

* `uint32` / `uint64` values are natural numbers; every place where the C++
  arithmetic can wrap carries an explicit `% 2^32` or `% 2^64`.
* `int32` coordinates are integers.  Signed arithmetic is exact (signed overflow
  is undefined in C++, so no wrapped value is modelled for it).
* A pointer to a unit of a `TigVector` is the index of that unit in the vector.
* An access outside an array, or a failed `assert`, is a result `Except.error`.
-/

namespace Canu

/-! ## Breakpoint model -/

/-- The class `breakPointEnd`: owning contig, position, and the begin/end flag. -/
structure breakPointEnd where
  _tigID : Nat
  _pos   : Nat
  _bgn   : Bool
deriving DecidableEq, Repr

/-- The 64-bit key both comparison operators build:
`a = _tigID; a <<= 32; a |= _pos; a <<= 1; a |= _bgn`, all in `uint64`. -/
def breakPointEnd.key (x : breakPointEnd) : Nat :=
  let a0 := x._tigID % 2 ^ 32
  let a1 := (a0 <<< 32) % 2 ^ 64
  let a2 := a1 ||| (x._pos % 2 ^ 32)
  let a3 := (a2 <<< 1) % 2 ^ 64
  a3 ||| (if x._bgn then 1 else 0)

/-- The member `breakPointEnd::operator<`. -/
def breakPointEnd.lt (a b : breakPointEnd) : Bool :=
  decide (a.key < b.key)

/-- The member `breakPointEnd::operator==`. -/
def breakPointEnd.eq (a b : breakPointEnd) : Bool :=
  decide (a.key = b.key)

/-- Neither operand is less than the other under `operator<`. -/
def breakPointEnd.incomparable (a b : breakPointEnd) : Prop :=
  a.lt b = false ∧ b.lt a = false

/-- Being a result of `std::sort` with `operator<`: a rearrangement of the input
in which no element is less than an earlier one. -/
def IsSortOf (input output : List breakPointEnd) : Prop :=
  output.Perm input ∧ output.Pairwise (fun a b => breakPointEnd.lt b a = false)

/-! ## Reads, units and unit collections -/

/-- Modelled from the spec: the interval of a read placement ("begin, end, not
necessarily begin<end; orientation is encoded by which bound is larger").  Its
class is declared in a header that is not among the sources; `bgn` and `end`
are `int32`. -/
structure SeqInterval where
  bgn  : Int
  end_ : Int
deriving DecidableEq, Repr

/-- Modelled from the spec: `position.min()`, the smaller bound. -/
def SeqInterval.min (p : SeqInterval) : Int := if p.bgn < p.end_ then p.bgn else p.end_

/-- Modelled from the spec: `position.max()`, the larger bound. -/
def SeqInterval.max (p : SeqInterval) : Int := if p.bgn < p.end_ then p.end_ else p.bgn

/-- Modelled from the spec: `position.isForward()`, begin below end. -/
def SeqInterval.isForward (p : SeqInterval) : Bool := decide (p.bgn < p.end_)

/-- The read placement `ufNode`: the fields the splitter reads. -/
structure ufNode where
  ident    : Nat
  position : SeqInterval
deriving DecidableEq, Repr

/-- The sequence unit `Unitig`: the fields the splitter reads and writes. -/
structure Unitig where
  _id            : Nat
  ufpath         : List ufNode
  _length        : Int
  _isUnassembled : Bool
  _isRepeat      : Bool
deriving DecidableEq, Repr

/-- The unit collection `TigVector`; an entry `none` is a NULL unit. -/
abbrev TigVector := List (Option Unitig)

/-- Conversion of an `int32` to `uint32`, as in `uint32 lo = read.position.min()`. -/
def toUInt32 (x : Int) : Nat := (x % 2 ^ 32).toNat

def UINT32_MAX : Nat := 4294967295

def INT32_MAX : Int := 2147483647

/-- Modelled from the spec: a unit as its constructor leaves it, empty and with
neither flag set. -/
def freshUnitig (id : Nat) : Unitig :=
  { _id := id, ufpath := [], _length := 0, _isUnassembled := false, _isRepeat := false }

/-- Modelled from the spec: `TigVector::newUnitig`, which appends a fresh empty
unit to the append-only collection; the unit's id is its index.  Returns the
collection and the pointer (index) of the new unit. -/
def newUnitig (tigs : TigVector) : TigVector × Nat :=
  (tigs ++ [some (freshUnitig tigs.length)], tigs.length)

/-- Modelled from the spec: `Unitig::addRead(node, offset, report)`, which
appends the placement with both coordinates shifted by `offset` and keeps the
unit's length at the largest coordinate seen. -/
def Unitig.addRead (t : Unitig) (node : ufNode) (offset : Int) : Unitig :=
  let moved : ufNode :=
    { node with position := { bgn := node.position.bgn + offset,
                              end_ := node.position.end_ + offset } }
  { t with ufpath := t.ufpath ++ [moved],
           _length := if t._length < moved.position.max then moved.position.max
                      else t._length }

/-- The call `ptr->addRead(node, offset, false)` through a pointer into a collection. -/
def addReadAt (tigs : TigVector) (ptr : Nat) (node : ufNode) (offset : Int) : TigVector :=
  tigs.modify (Option.map (fun t => t.addRead node offset)) ptr

/-- The function `copyTig`. -/
def copyTig (tigs : TigVector) (oldtig : Unitig) : TigVector × Nat :=
  let fresh := newUnitig tigs
  let newtig := fresh.2
  let flagged := fresh.1.modify
    (Option.map (fun t => { t with _isUnassembled := oldtig._isUnassembled,
                                   _isRepeat := oldtig._isRepeat })) newtig
  (oldtig.ufpath.foldl (fun ts rd => addReadAt ts newtig rd 0) flagged, newtig)

/-! ## The contig splitter `splitTig` -/

/-- What stops a run: an access outside an array, a failed `assert`, a NULL
unit dereferenced, or (for the bounded loops of the embedding) no fuel left. -/
inductive Fault where
  | outOfBounds
  | assertFailed
  | nullTig
  | outOfFuel
deriving DecidableEq, Repr

/-- The loop `for (tt=0; tt < BP.size()-1; tt++)` that finds the pieces the two
end points of a read are in.  The list argument is the part of `BP` from index
`tt` on. -/
def scanPieces (lo hi : Nat) : List breakPointEnd → Nat → Nat → Nat → Nat × Nat
  | [], _, bgnBP, endBP => (bgnBP, endBP)
  | p :: tl, tt, bgnBP, endBP =>
    match tl with
    | [] => (bgnBP, endBP)
    | n :: _ =>
      scanPieces lo hi tl (tt + 1)
        (if p._pos ≤ lo ∧ lo < n._pos then tt else bgnBP)
        (if p._pos < hi ∧ hi ≤ n._pos then tt else endBP)

/-- The fallback loop `for (finBP=bgnBP+1; finBP < endBP; finBP++)` with its
`break`; the first argument bounds the number of iterations. -/
def searchFree (BP : List breakPointEnd) (endBP : Nat) : Nat → Nat → Except Fault Nat
  | 0, finBP => if finBP < endBP then .error .outOfFuel else .ok finBP
  | fuel + 1, finBP =>
    if finBP < endBP then
      match BP[finBP]? with
      | none => .error .outOfBounds
      | some a =>
        if a._bgn = false then
          match BP[finBP + 1]? with
          | none => .error .outOfBounds
          | some b => if b._bgn = true then .ok finBP
                      else searchFree BP endBP fuel (finBP + 1)
        else searchFree BP endBP fuel (finBP + 1)
    else .ok finBP

/-- The piece selection of `splitTig` for one read with span `lo`, `hi`
(lines 162-216): the piece index `finBP`.  Vector sizes are below `2^32`, so
the only index arithmetic that can wrap is `bgnBP+1` at `bgnBP = UINT32_MAX`. -/
def selectPiece (BP : List breakPointEnd) (lo hi : Nat) : Except Fault Nat :=
  if BP = [] then .error .outOfBounds else
  let found := scanPieces lo hi BP 0 UINT32_MAX UINT32_MAX
  let bgnBP := found.1
  let endBP := found.2
  if bgnBP = endBP then .ok bgnBP
  else
    match BP[(bgnBP + 1) % 2 ^ 32]? with
    | none => .error .outOfBounds
    | some nx =>
      if nx._bgn = true then .ok bgnBP
      else
        match BP[endBP]? with
        | none => .error .outOfBounds
        | some ld =>
          if ld._bgn = false then .ok endBP
          else
            match searchFree BP endBP (endBP - (bgnBP + 1) % 2 ^ 32) ((bgnBP + 1) % 2 ^ 32) with
            | .error e => .error e
            | .ok finBP => if finBP = endBP then .error .assertFailed else .ok finBP

/-- The arrays `splitTig` works on.  `newTigs` and `lowCoord` are the first
`BP.size()+2` entries of the caller's arrays (the entries the move pass resets);
`nMoved` is the array of the count pass. -/
structure SplitState where
  tigs     : TigVector
  newTigs  : List (Option Nat)
  lowCoord : List Int
  nMoved   : List Nat
deriving DecidableEq, Repr

/-- One iteration of the loop over the reads in `splitTig` (lines 137-238). -/
def splitTigRead (BP : List breakPointEnd) (doMove : Bool) (st : SplitState) (read : ufNode) :
    Except Fault SplitState :=
  match selectPiece BP (toUInt32 read.position.min) (toUInt32 read.position.max) with
  | .error e => .error e
  | .ok finBP =>
    if doMove = true then
      match st.newTigs[finBP]? with
      | none => .error .outOfBounds
      | some none =>
        let fresh := newUnitig st.tigs
        .ok { st with tigs := addReadAt fresh.1 fresh.2 read (- read.position.min),
                      newTigs := st.newTigs.set finBP (some fresh.2),
                      lowCoord := st.lowCoord.set finBP read.position.min }
      | some (some ptr) =>
        match st.lowCoord[finBP]? with
        | none => .error .outOfBounds
        | some low => .ok { st with tigs := addReadAt st.tigs ptr read (- low) }
    else
      match st.nMoved[finBP]? with
      | none => .error .outOfBounds
      | some c => .ok { st with nMoved := st.nMoved.set finBP ((c + 1) % 2 ^ 32) }

/-- The loop over the reads of the tig. -/
def splitTigLoop (BP : List breakPointEnd) (doMove : Bool) :
    SplitState → List ufNode → Except Fault SplitState
  | st, [] => .ok st
  | st, read :: rest =>
    match splitTigRead BP doMove st read with
    | .error e => .error e
    | .ok st1 => splitTigLoop BP doMove st1 rest

/-- The function `splitTig`: the returned count `nTigsCreated` and the arrays
after the call. -/
def splitTig (tigs : TigVector) (tig : Unitig) (BP : List breakPointEnd) (doMove : Bool) :
    Except Fault (Nat × SplitState) :=
  let init : SplitState :=
    { tigs := tigs,
      newTigs := if doMove = true then List.replicate (BP.length + 2) none else [],
      lowCoord := if doMove = true then List.replicate (BP.length + 2) INT32_MAX else [],
      nMoved := if doMove = false then List.replicate (BP.length + 2) 0 else [] }
  match splitTigLoop BP doMove init tig.ufpath with
  | .error e => .error e
  | .ok st =>
    .ok (if doMove = false then ((st.nMoved.take BP.length).filter (fun c => 0 < c)).length
         else 0, st)

/-! ## The split, provenance and trim steps of `createUnitigs` -/

/-- Modelled from the spec: the provenance record `tigLoc` ("the id of the
input contig it was cut from and the coordinate window within that contig");
its class is declared in a header that is not among the sources. -/
structure tigLoc where
  cID  : Nat
  cBgn : Int
  cEnd : Int
  uID  : Nat
deriving DecidableEq, Repr

/-- The output of `createUnitigs` under construction. -/
structure CreateState where
  unitigs      : TigVector
  unitigSource : List tigLoc
deriving DecidableEq, Repr

/-- The call `vector::resize(n)`; `dflt` is a default-constructed element. -/
def resize {α : Type} (dflt : α) (v : List α) (n : Nat) : List α :=
  v.take n ++ List.replicate (n - v.length) dflt

/-- The loop `for (tt=0; tt<nTigs; tt++) if (newTigs[tt]) ...` that records
where the new units came from (lines 793-805); the list argument is
`[0, ..., nTigs-1]`. -/
def recordSources (unitigs : TigVector) (tig : Unitig) (newTigs : List (Option Nat))
    (lowCoord : List Int) : List Nat → List tigLoc → Except Fault (List tigLoc)
  | [], src => .ok src
  | tt :: more, src =>
    match newTigs[tt]? with
    | none => .error .outOfBounds
    | some none => recordSources unitigs tig newTigs lowCoord more src
    | some (some ptr) =>
      match unitigs[ptr]?, lowCoord[tt]? with
      | some (some u), some low =>
        if u._id < src.length then
          recordSources unitigs tig newTigs lowCoord more
            (src.set u._id { cID := tig._id, cBgn := low, cEnd := low + u._length, uID := u._id })
        else .error .outOfBounds
      | _, _ => .error .outOfBounds

/-- The body of the walk of `createUnitigs` for one contig and its breakpoint
list `BP` (lines 775-805): count pass, then move pass or `copyTig`, then the
provenance records. -/
def splitContig (dflt : tigLoc) (contigs : TigVector) (st : CreateState) (tig : Unitig)
    (BP : List breakPointEnd) :
    Except Fault CreateState :=
  match splitTig contigs tig BP false with
  | .error e => .error e
  | .ok counted =>
    let nTigs := counted.1
    let moved : Except Fault (TigVector × List (Option Nat) × List Int) :=
      if 1 < nTigs then
        match splitTig st.unitigs tig BP true with
        | .error e => .error e
        | .ok r => .ok (r.2.tigs, r.2.newTigs, r.2.lowCoord)
      else
        let c := copyTig st.unitigs tig
        .ok (c.1, [some c.2], [0])
    match moved with
    | .error e => .error e
    | .ok (unitigs, newTigs, lowCoord) =>
      match recordSources unitigs tig newTigs lowCoord (List.range nTigs)
              (resize dflt st.unitigSource (unitigs.length + 1)) with
      | .error e => .error e
      | .ok src => .ok { unitigs := unitigs, unitigSource := src }

/-- The filter of lines 761-765 that builds `BP` from a run of the sorted pool,
dropping a breakpoint equal to the last one kept in position and flag. -/
def buildBP : List breakPointEnd → List breakPointEnd → List breakPointEnd
  | BP, [] => BP
  | BP, b :: more =>
    match BP.getLast? with
    | none => buildBP (BP ++ [b]) more
    | some back =>
      if back._pos ≠ b._pos ∨ back._bgn ≠ b._bgn then buildBP (BP ++ [b]) more
      else buildBP BP more

/-- The sentinel breakpoints of lines 602-611, for the contigs from index `ti` on. -/
def sentinelBreaks : TigVector → Nat → List breakPointEnd
  | [], _ => []
  | none :: more, ti => sentinelBreaks more (ti + 1)
  | some tig :: more, ti =>
    if tig._isUnassembled = true then sentinelBreaks more (ti + 1)
    else { _tigID := ti, _pos := 0, _bgn := true }
         :: { _tigID := ti, _pos := toUInt32 tig._length, _bgn := false }
         :: sentinelBreaks more (ti + 1)

/-- A result of `sort(breaks.begin(), breaks.end())`: insertion by `operator<`. -/
def sortBreaks (breaks : List breakPointEnd) : List breakPointEnd :=
  breaks.insertionSort (fun a b => a.key ≤ b.key)

/-- The walk `while (ss < breaks.size())` over the sorted pool (lines 749-810);
the list argument is the pool from index `ss` on, the first argument bounds the
number of runs. -/
def walkBreaks (dflt : tigLoc) (contigs : TigVector) :
    Nat → List breakPointEnd → CreateState → Except Fault CreateState
  | _, [], st => .ok st
  | 0, _ :: _, _ => .error .outOfFuel
  | fuel + 1, b :: more, st =>
    match contigs[b._tigID]? with
    | some (some tig) =>
      match splitContig dflt contigs st tig
              (buildBP [] (b :: more.takeWhile (fun x => x._tigID = b._tigID))) with
      | .error e => .error e
      | .ok st1 =>
        walkBreaks dflt contigs fuel (more.dropWhile (fun x => x._tigID = b._tigID)) st1
    | _ => .error .nullTig

/-- The scan `while (isBackbone(ufpath[ii].ident) == false) ii++` followed by the
copy of the remaining reads, in `stripNonBackboneFromStart`. -/
def stripScan (isBackbone : Nat → Bool) : List ufNode → Except Fault (List ufNode)
  | [] => .error .outOfBounds
  | rd :: rest =>
    if isBackbone rd.ident = false then stripScan isBackbone rest else .ok (rd :: rest)

/-- Modelled from the spec: the calls `cleanUp()` and `reverseComplement()` that
end `stripNonBackboneFromStart` ("physically reversing the unit's read order
after each trim"); neither function is among the sources. -/
def cleanUpReverse (tig : Unitig) : Unitig :=
  { tig with ufpath := tig.ufpath.reverse }

/-- The function `stripNonBackboneFromStart`. -/
def stripNonBackboneFromStart (isBackbone : Nat → Bool) (tig : Unitig) : Except Fault Unitig :=
  match stripScan isBackbone tig.ufpath with
  | .error e => .error e
  | .ok kept => .ok (cleanUpReverse { tig with ufpath := kept })

/-- The body of the trim loop of `createUnitigs` for one unit (lines 820-847). -/
def trimUnitig (isBackbone : Nat → Bool) : Option Unitig → Except Fault (Option Unitig)
  | none => .ok none
  | some tig =>
    if tig._isUnassembled = true then .ok (some tig)
    else if (tig.ufpath.filter (fun rd => isBackbone rd.ident)).length = 0 then .ok (some tig)
    else
      match stripNonBackboneFromStart isBackbone tig with
      | .error e => .error e
      | .ok t1 =>
        match stripNonBackboneFromStart isBackbone t1 with
        | .error e => .error e
        | .ok t2 => .ok (some t2)

/-- The trim loop of `createUnitigs` over all output units (lines 819-848). -/
def trimUnitigs (isBackbone : Nat → Bool) : TigVector → Except Fault TigVector
  | [] => .ok []
  | u :: more =>
    match trimUnitig isBackbone u with
    | .error e => .error e
    | .ok u1 =>
      match trimUnitigs isBackbone more with
      | .error e => .error e
      | .ok more1 => .ok (u1 :: more1)

/-- The steps of `createUnitigs` from the sort on (lines 734-849): sort the pool,
walk it contig by contig splitting each one into the output collection, then
trim the output units.  `out` is the output collection and the provenance table
as the caller passes them in. -/
def createUnitigsFrom (dflt : tigLoc) (isBackbone : Nat → Bool) (contigs : TigVector)
    (out : CreateState) (breaks : List breakPointEnd) : Except Fault CreateState :=
  match walkBreaks dflt contigs breaks.length (sortBreaks breaks) out with
  | .error e => .error e
  | .ok st =>
    match trimUnitigs isBackbone st.unitigs with
    | .error e => .error e
    | .ok trimmed => .ok { st with unitigs := trimmed }

/-! ## Breakpoint discovery: `checkRead` and the pool of `createUnitigs` -/

def INT32_MIN : Int := -2147483648

/-- Modelled from the spec: the candidate alignment `overlapPlacement` of a boundary
read against a unit ("verified interval, orientation, covered-fraction interval,
and the index range `[firstIdx, lastIdx]` of foreign-unit reads spanned"), with
the fields `checkRead` computes with; its class is declared in a header that is
not among the sources. -/
structure overlapPlacement where
  tigID    : Nat
  verified : SeqInterval
  covered  : SeqInterval
  tigFidx  : Nat
  tigLidx  : Nat
deriving DecidableEq, Repr

/-- Modelled from the spec: the pairwise overlap record `BAToverlap`, with the read
it leads to and the stored error value that `erate()` converts; its class is
declared in a header that is not among the sources. -/
structure BAToverlap where
  b_iid  : Nat
  evalue : Nat
deriving DecidableEq, Repr

/-- The class `confusedEdge` of `AS_BAT_MarkRepeatReads.H`. -/
structure confusedEdge where
  aid : Nat
  a3p : Bool
  bid : Nat
deriving DecidableEq, Repr

/-- Modelled from the spec: the external collaborators `checkRead` and
`createUnitigs` call, none of them among the sources, as the functions of their
arguments they are during one pass: `RI->readLength`, `OC->getOverlaps`,
`isOverlapping`, the test `overlapConsistentWithTig(6, min, max, erate) < 0.5`
(as a function of the unit, the interval and the error values of the overlaps
the scan counted, whose mean is `erate`), `placeReadUsingOverlaps`, and
`inUnitig` / `ufpathIdx` of the contig collection. -/
structure Collaborators where
  readLength             : Nat → Nat
  getOverlaps            : Nat → List BAToverlap
  isOverlapping          : SeqInterval → SeqInterval → Bool
  lowSimilarity          : Unitig → Int → Int → List Nat → Bool
  placeReadUsingOverlaps : TigVector → Nat → List overlapPlacement
  inUnitig               : Nat → Nat
  ufpathIdx              : Nat → Nat

/-- The local constant `bool beVerbose = true;` of `checkRead`. -/
def beVerbose : Bool := true

/-- The function `findEnd`: the results `isLow` and `coord`. -/
def findEnd (op : overlapPlacement) (rdAfwd isFirst : Bool) : Bool × Int :=
  if (isFirst = true ∧ rdAfwd = true ∧ op.verified.isForward = true) ∨
     (isFirst = true ∧ rdAfwd = false ∧ op.verified.isForward = false) ∨
     (isFirst = false ∧ rdAfwd = false ∧ op.verified.isForward = true) ∨
     (isFirst = false ∧ rdAfwd = true ∧ op.verified.isForward = false)
  then (false, INT32_MIN)
  else (true, INT32_MAX)

/-- The variables the anchor scan of `checkRead` updates: the error values
summed into `erate` (in scan order), `rdB` and `coord`. -/
structure AnchorScan where
  erates : List Nat
  rdB    : Option ufNode
  coord  : Int
deriving DecidableEq, Repr

/-- The body of the inner loop of the anchor scan (lines 418-456) for the read
`rdBii` and one overlap. -/
def scanOverlap (op : overlapPlacement) (isLow : Bool) (rdBii : ufNode) (s : AnchorScan)
    (ov : BAToverlap) : AnchorScan :=
  if ov.b_iid ≠ rdBii.ident then s
  else
    let s1 : AnchorScan := { s with erates := s.erates ++ [ov.evalue] }
    let s2 : AnchorScan :=
      if isLow = false ∧ rdBii.position.max < op.verified.max then
        if rdBii.position.max > s1.coord ∧ rdBii.position.min < op.verified.min then
          { s1 with rdB := some rdBii, coord := rdBii.position.max }
        else s1
      else s1
    if isLow = true ∧ rdBii.position.min > op.verified.min then
      if rdBii.position.min < s2.coord ∧ rdBii.position.max > op.verified.max then
        { s2 with rdB := some rdBii, coord := rdBii.position.min }
      else s2
    else s2

/-- The outer loop of the anchor scan, over the indices `ii` of the list; the
read `tgB->ufpath[ii]` is fetched in the inner loop, so only when the boundary
read has an overlap. -/
def scanReads (tgB : Unitig) (op : overlapPlacement) (isLow : Bool) (ovl : List BAToverlap) :
    List Nat → AnchorScan → Except Fault AnchorScan
  | [], s => .ok s
  | ii :: more, s =>
    if ovl = [] then scanReads tgB op isLow ovl more s
    else
      match tgB.ufpath[ii]? with
      | none => .error .outOfBounds
      | some rdBii => scanReads tgB op isLow ovl more (ovl.foldl (scanOverlap op isLow rdBii) s)

/-- The test `op.verified.max() - op.verified.min() < minOverlap` of `checkRead`
(line 384): an `int32` difference compared with the `uint32` threshold. -/
def tooSmall (op : overlapPlacement) (minOverlap : Nat) : Bool :=
  decide (toUInt32 (op.verified.max - op.verified.min) < minOverlap)

/-- The reads `tgB->ufpath[op.tigFidx]` and `tgB->ufpath[op.tigLidx]` that the
two log lines of `checkRead` fetch (lines 500 and 519). -/
def logReads (tgB : Unitig) (op : overlapPlacement) : Except Fault Unit :=
  match tgB.ufpath[op.tigFidx]?, tgB.ufpath[op.tigLidx]? with
  | some _, some _ => .ok ()
  | _, _ => .error .outOfBounds

/-- The flag `toSelf` of `checkRead` (line 356). -/
def toSelf (env : Collaborators) (tgA tgB : Unitig) (rdA : ufNode) (op : overlapPlacement) :
    Bool :=
  decide (tgA._id = tgB._id) && env.isOverlapping op.verified rdA.position

/-- The value `is5` of `checkRead` (line 368). -/
def is5 (isFirst : Bool) (rdA : ufNode) : Bool :=
  decide (isFirst = rdA.position.isForward)

/-- The flag `expected5` of `checkRead` (line 370). -/
def expected5 (isFirst : Bool) (rdA : ufNode) (op : overlapPlacement) : Bool :=
  is5 isFirst rdA && decide (op.covered.bgn ≠ 0)

/-- The flag `expected3` of `checkRead` (line 376): the `int32` bound
`covered.end` compared with the `uint32` read length. -/
def expected3 (env : Collaborators) (isFirst : Bool) (rdA : ufNode) (op : overlapPlacement) :
    Bool :=
  !is5 isFirst rdA && decide (toUInt32 op.covered.end_ ≠ env.readLength rdA.ident)

/-- The block `if (toSelf == false)` of `checkRead` up to the end of the scan
(lines 404-456): `findEnd`, then the loops over the reads
`op.tigFidx .. op.tigLidx` of `tgB` and the overlaps of the boundary read.  The
result is `isLow` and the scan variables.  With `op.tigLidx == UINT32_MAX` the
loop condition `ii <= op.tigLidx` never fails. -/
def anchorScan (env : Collaborators) (tgB : Unitig) (rdA : ufNode) (isFirst : Bool)
    (op : overlapPlacement) : Except Fault (Bool × AnchorScan) :=
  let found := findEnd op rdA.position.isForward isFirst
  if op.tigLidx = UINT32_MAX then .error .outOfFuel
  else
    match scanReads tgB op found.1 (env.getOverlaps rdA.ident)
            (List.range' op.tigFidx (op.tigLidx + 1 - op.tigFidx))
            { erates := [], rdB := none, coord := found.2 } with
    | .error e => .error e
    | .ok s => .ok (found.1, s)

/-- The test `toSelf || expected5 || expected3 || tooSmall || isContained ||
noOverlaps || notSimilar` of `checkRead` (line 497), from the scan variables;
`isContained` is never set and is left out. -/
def disqualified (env : Collaborators) (tgA tgB : Unitig) (rdA : ufNode) (minOverlap : Nat)
    (isFirst : Bool) (op : overlapPlacement) (s : AnchorScan) : Bool :=
  toSelf env tgA tgB rdA op || expected5 isFirst rdA op || expected3 env isFirst rdA op
    || tooSmall op minOverlap || (!toSelf env tgA tgB rdA op && s.rdB.isNone)
    || env.lowSimilarity tgB op.verified.min op.verified.max s.erates

/-- The body of the loop over the placements in `checkRead` (lines 334-526), for
one placement, with the local constant `beVerbose` as the parameter `verbose`:
the breakpoint pushed to `breaks`, if any. -/
def checkPlacementWith (verbose : Bool) (env : Collaborators) (contigs : TigVector)
    (tgA : Unitig) (rdA : ufNode) (minOverlap : Nat) (isFirst : Bool)
    (op : overlapPlacement) : Except Fault (Option breakPointEnd) :=
  match contigs[op.tigID]? with
  | some (some tgB) =>
    if tgB._isUnassembled = true then .ok none else
    if toSelf env tgA tgB rdA op = true ∧ verbose = false then .ok none else
    if expected5 isFirst rdA op = true ∧ verbose = false then .ok none else
    if expected3 env isFirst rdA op = true ∧ verbose = false then .ok none else
    if tooSmall op minOverlap = true ∧ verbose = false then .ok none else
    let scanned : Except Fault (Bool × AnchorScan) :=
      if toSelf env tgA tgB rdA op = false then anchorScan env tgB rdA isFirst op
      else .ok (false, { erates := [], rdB := none, coord := 0 })
    match scanned with
    | .error e => .error e
    | .ok (isLow, s) =>
      let noOverlaps := !toSelf env tgA tgB rdA op && s.rdB.isNone
      if noOverlaps = true ∧ verbose = false then .ok none else
      let notSimilar := env.lowSimilarity tgB op.verified.min op.verified.max s.erates
      if notSimilar = true ∧ verbose = false then .ok none else
      if disqualified env tgA tgB rdA minOverlap isFirst op s = true then
        if verbose = true then
          match logReads tgB op with
          | .error e => .error e
          | .ok _ => .ok none
        else .ok none
      else
        if verbose = true then
          match logReads tgB op with
          | .error e => .error e
          | .ok _ => .ok (some { _tigID := op.tigID, _pos := toUInt32 s.coord, _bgn := isLow })
        else .ok (some { _tigID := op.tigID, _pos := toUInt32 s.coord, _bgn := isLow })
  | _ => .error .nullTig

/-- The body of the loop over the placements in `checkRead`, as the code has it:
`beVerbose` is `true`. -/
def checkPlacement (env : Collaborators) (contigs : TigVector) (tgA : Unitig) (rdA : ufNode)
    (minOverlap : Nat) (isFirst : Bool) (op : overlapPlacement) :
    Except Fault (Option breakPointEnd) :=
  checkPlacementWith beVerbose env contigs tgA rdA minOverlap isFirst op

/-- The loop over the placements in `checkRead`, collecting `breaks`, with
`beVerbose` as a parameter. -/
def checkReadLoopWith (verbose : Bool) (env : Collaborators) (contigs : TigVector)
    (tgA : Unitig) (rdA : ufNode) (minOverlap : Nat) (isFirst : Bool) :
    List overlapPlacement → List breakPointEnd → Except Fault (List breakPointEnd)
  | [], breaks => .ok breaks
  | op :: more, breaks =>
    match checkPlacementWith verbose env contigs tgA rdA minOverlap isFirst op with
    | .error e => .error e
    | .ok none =>
      checkReadLoopWith verbose env contigs tgA rdA minOverlap isFirst more breaks
    | .ok (some b) =>
      checkReadLoopWith verbose env contigs tgA rdA minOverlap isFirst more (breaks ++ [b])

/-- The loop over the placements in `checkRead`, as the code has it. -/
def checkReadLoop (env : Collaborators) (contigs : TigVector) (tgA : Unitig) (rdA : ufNode)
    (minOverlap : Nat) (isFirst : Bool) (placements : List overlapPlacement)
    (breaks : List breakPointEnd) : Except Fault (List breakPointEnd) :=
  checkReadLoopWith beVerbose env contigs tgA rdA minOverlap isFirst placements breaks

/-- The function `checkRead` with `beVerbose` as a parameter: the returned
`uint32` and the shared pool `breakpoints` after the call. -/
def checkReadWith (verbose : Bool) (env : Collaborators) (contigs : TigVector) (tgA : Unitig)
    (rdA : ufNode) (rdAplacements : List overlapPlacement) (breakpoints : List breakPointEnd)
    (minOverlap maxPlacements : Nat) (isFirst : Bool) :
    Except Fault (Nat × List breakPointEnd) :=
  match checkReadLoopWith verbose env contigs tgA rdA minOverlap isFirst rdAplacements [] with
  | .error e => .error e
  | .ok breaks =>
    .ok (breaks.length % 2 ^ 32,
         if breaks.length = 0 then breakpoints
         else if breaks.length > maxPlacements then breakpoints
         else breakpoints ++ breaks)

/-- The function `checkRead`: the returned `uint32` and the shared pool
`breakpoints` after the call. -/
def checkRead (env : Collaborators) (contigs : TigVector) (tgA : Unitig) (rdA : ufNode)
    (rdAplacements : List overlapPlacement) (breakpoints : List breakPointEnd)
    (minOverlap maxPlacements : Nat) (isFirst : Bool) :
    Except Fault (Nat × List breakPointEnd) :=
  checkReadWith beVerbose env contigs tgA rdA rdAplacements breakpoints minOverlap
    maxPlacements isFirst

/-- The breakpoint `bp(tid, coord, isLow)` that `createUnitigs` builds for a
confused read end (lines 636-651): `coord` and `isLow` start as `0` and `false`,
and are set from the orientation of the read and the end that is confused. -/
def confusedPoint (tid : Nat) (rda : ufNode) (a3p : Bool) : breakPointEnd :=
  let fwd := rda.position.isForward
  let c1 : Nat × Bool :=
    if (fwd = true ∧ a3p = true) ∨ (fwd = false ∧ a3p = false)
    then (toUInt32 rda.position.max, false) else (0, false)
  let c2 : Nat × Bool :=
    if (fwd = true ∧ a3p = false) ∨ (fwd = false ∧ a3p = true)
    then (toUInt32 rda.position.min, true) else c1
  { _tigID := tid, _pos := c2.1, _bgn := c2.2 }

/-- The body of the loop over the confused edges in `createUnitigs`
(lines 623-657), for one edge.  `breaks.back()` of an empty pool is an access
outside the array. -/
def confusedBreak (env : Collaborators) (contigs : TigVector) (breaks : List breakPointEnd)
    (ce : confusedEdge) : Except Fault (List breakPointEnd) :=
  let tid := env.inUnitig ce.aid
  match contigs[tid]? with
  | none => .error .outOfBounds
  | some none => .ok breaks
  | some (some tig) =>
    if tig._isUnassembled = true then .ok breaks
    else
      match tig.ufpath[env.ufpathIdx ce.aid]? with
      | none => .error .outOfBounds
      | some rda =>
        let bp := confusedPoint tid rda ce.a3p
        match breaks.getLast? with
        | none => .error .outOfBounds
        | some back => if back.eq bp = true then .ok breaks else .ok (breaks ++ [bp])

/-- The loop over the confused edges. -/
def confusedBreaks (env : Collaborators) (contigs : TigVector) :
    List confusedEdge → List breakPointEnd → Except Fault (List breakPointEnd)
  | [], breaks => .ok breaks
  | ce :: more, breaks =>
    match confusedBreak env contigs breaks ce with
    | .error e => .error e
    | .ok breaks1 => confusedBreaks env contigs more breaks1

/-- The loop of `createUnitigs` that looks for intersections (lines 677-710),
over the contigs of the list argument: `checkRead` on the first and on the last
read of every contig that is not flagged unassembled.  `firstRead()` and
`lastRead()` are taken as the ends of the read list ("its first and its last
read"); the histogram `numP` is diagnostic output and is left out. -/
def intersectionBreaks (env : Collaborators) (contigs : TigVector)
    (minIntersectLen maxPlacements : Nat) :
    List (Option Unitig) → List breakPointEnd → Except Fault (List breakPointEnd)
  | [], breaks => .ok breaks
  | none :: more, breaks =>
    intersectionBreaks env contigs minIntersectLen maxPlacements more breaks
  | some tig :: more, breaks =>
    if tig._isUnassembled = true then
      intersectionBreaks env contigs minIntersectLen maxPlacements more breaks
    else
      match tig.ufpath.head?, tig.ufpath.getLast? with
      | some fi, some li =>
        match checkRead env contigs tig fi (env.placeReadUsingOverlaps contigs fi.ident)
                breaks minIntersectLen maxPlacements true with
        | .error e => .error e
        | .ok npf =>
          match checkRead env contigs tig li (env.placeReadUsingOverlaps contigs li.ident)
                  npf.2 minIntersectLen maxPlacements false with
          | .error e => .error e
          | .ok npr =>
            intersectionBreaks env contigs minIntersectLen maxPlacements more npr.2
      | _, _ => .error .outOfBounds

/-- The pool `breaks` of `createUnitigs` before the sort (lines 588-710):
sentinels, then confused edges, then intersections. -/
def discoverBreaks (env : Collaborators) (contigs : TigVector)
    (minIntersectLen maxPlacements : Nat) (confusedEdges : List confusedEdge) :
    Except Fault (List breakPointEnd) :=
  match confusedBreaks env contigs confusedEdges (sentinelBreaks contigs 0) with
  | .error e => .error e
  | .ok breaks => intersectionBreaks env contigs minIntersectLen maxPlacements contigs breaks

/-- The function `createUnitigs`. -/
def createUnitigs (env : Collaborators) (dflt : tigLoc) (isBackbone : Nat → Bool)
    (contigs : TigVector) (out : CreateState) (minIntersectLen maxPlacements : Nat)
    (confusedEdges : List confusedEdge) : Except Fault CreateState :=
  match discoverBreaks env contigs minIntersectLen maxPlacements confusedEdges with
  | .error e => .error e
  | .ok breaks => createUnitigsFrom dflt isBackbone contigs out breaks

/-- Every breakpoint of a pool names a contig that is there and is not flagged
unassembled. -/
def NamesAssembled (contigs : TigVector) (pool : List breakPointEnd) : Prop :=
  ∀ b ∈ pool, ∃ tig, contigs[b._tigID]? = some (some tig) ∧ tig._isUnassembled = false

/-! ## Notions used to state the properties -/

/-- The read ids held by one entry of a collection. -/
def unitReadIds : Option Unitig → List Nat
  | none => []
  | some t => t.ufpath.map (fun rd => rd.ident)

/-- The read ids held by the units of a collection, as a list. -/
def readIds (tigs : TigVector) : List Nat :=
  (tigs.map unitReadIds).flatten

/-- A read with both coordinates shifted by `off`, as `addRead` stores it. -/
def shiftRead (off : Int) (rd : ufNode) : ufNode :=
  { rd with position := { bgn := rd.position.bgn + off, end_ := rd.position.end_ + off } }

/-- The piece `splitTig` selects for a read, when the selection succeeds. -/
def pieceOf (BP : List breakPointEnd) (rd : ufNode) : Option Nat :=
  match selectPiece BP (toUInt32 rd.position.min) (toUInt32 rd.position.max) with
  | .ok finBP => some finBP
  | .error _ => none

/-- The reads of a list that `splitTig` assigns to piece `k`, in list order. -/
def pieceReads (BP : List breakPointEnd) (k : Nat) (reads : List ufNode) : List ufNode :=
  reads.filter (fun rd => pieceOf BP rd = some k)

/-- The state of the move pass of `splitTig` after the reads `done` have been
processed, starting from a collection of `n0` units: what each slot of `newTigs`
and `lowCoord` holds, and what the new units hold. -/
structure MoveInv (BP : List breakPointEnd) (old : TigVector) (done : List ufNode)
    (st : SplitState) : Prop where
  newTigs_length : st.newTigs.length = BP.length + 2
  lowCoord_length : st.lowCoord.length = BP.length + 2
  old_kept : st.tigs.take old.length = old
  old_le : old.length ≤ st.tigs.length
  empty_slot : ∀ k : Nat, st.newTigs[k]? = some none → pieceReads BP k done = []
  full_slot : ∀ k ptr : Nat, st.newTigs[k]? = some (some ptr) →
    old.length ≤ ptr ∧
    ∃ u first rest, st.tigs[ptr]? = some (some u) ∧ u._id = ptr ∧
      u._isUnassembled = false ∧ u._isRepeat = false ∧
      pieceReads BP k done = first :: rest ∧
      st.lowCoord[k]? = some first.position.min ∧
      u.ufpath = (pieceReads BP k done).map (shiftRead (- first.position.min))
  slot_inj : ∀ k1 k2 ptr : Nat, st.newTigs[k1]? = some (some ptr) →
    st.newTigs[k2]? = some (some ptr) → k1 = k2
  slot_surj : ∀ ptr : Nat, old.length ≤ ptr → ptr < st.tigs.length →
    ∃ k : Nat, st.newTigs[k]? = some (some ptr)
  covered : (readIds (st.tigs.drop old.length)).Perm (done.map (fun rd => rd.ident))

/-- The rank of a breakpoint inside its contig: position, then flag, end before
begin. -/
def breakPointEnd.rank (x : breakPointEnd) : Nat :=
  x._pos * 2 + (if x._bgn then 1 else 0)

/-- Modelled from the spec: the trim of one read list, the list with its maximal leading run and
its maximal trailing run of reads that are not backbone reads removed, in the
original order. -/
def trimEnds (isBackbone : Nat → Bool) (reads : List ufNode) : List ufNode :=
  (reads.dropWhile (fun rd => !isBackbone rd.ident)).rdropWhile
    (fun rd => !isBackbone rd.ident)

/-- The distinct piece indices that `splitTig` assigns to at least one read of a
list. -/
def populatedPieces (BP : List breakPointEnd) (reads : List ufNode) : List Nat :=
  (reads.filterMap (pieceOf BP)).dedup

/-- The breakpoints of the placements of a list that `checkRead` does not
disqualify, in placement order, with `beVerbose` as a parameter. -/
def survivorsWith (verbose : Bool) (env : Collaborators) (contigs : TigVector) (tgA : Unitig)
    (rdA : ufNode) (minOverlap : Nat) (isFirst : Bool) (placements : List overlapPlacement) :
    List breakPointEnd :=
  placements.filterMap (fun op =>
    match checkPlacementWith verbose env contigs tgA rdA minOverlap isFirst op with
    | .ok (some b) => some b
    | _ => none)

/-- The breakpoints of the placements of a list that `checkRead` does not
disqualify, in placement order. -/
def survivors (env : Collaborators) (contigs : TigVector) (tgA : Unitig) (rdA : ufNode)
    (minOverlap : Nat) (isFirst : Bool) (placements : List overlapPlacement) :
    List breakPointEnd :=
  survivorsWith beVerbose env contigs tgA rdA minOverlap isFirst placements

/-- The position test of the anchor scan for a read of the other contig: above
the verified interval on both sides for a low-coordinate break, below it on both
sides for a high-coordinate break. -/
def anchorTest (op : overlapPlacement) (isLow : Bool) (x : ufNode) : Prop :=
  if isLow = true then x.position.min > op.verified.min ∧ x.position.max > op.verified.max
  else x.position.max < op.verified.max ∧ x.position.min < op.verified.min

/-- The reads among which the anchor of a placement is sought: the reads of `tgB`
with index in `[tigFidx, tigLidx]` that have an overlap with the boundary read
and pass the position test. -/
def anchorCandidate (env : Collaborators) (tgB : Unitig) (rdA : ufNode) (op : overlapPlacement)
    (isLow : Bool) (x : ufNode) : Prop :=
  (∃ ii : Nat, op.tigFidx ≤ ii ∧ ii ≤ op.tigLidx ∧ tgB.ufpath[ii]? = some x) ∧
  (∃ ov ∈ env.getOverlaps rdA.ident, ov.b_iid = x.ident) ∧
  anchorTest op isLow x

/-- The coordinate of a read the anchor scan works with: `min` for a
low-coordinate break, `max` for a high-coordinate break. -/
def anchorCoord (isLow : Bool) (x : ufNode) : Int :=
  if isLow = true then x.position.min else x.position.max

/-- The state of the anchor scan after the reads described by `C` have been
tested, starting from `coord = c0`: `coord` is beyond no tested read, and `rdB`
is a tested read at `coord`, or NULL with `coord` still `c0`. -/
def ScanInv (isLow : Bool) (c0 : Int) (C : ufNode → Prop) (s : AnchorScan) : Prop :=
  (∀ x, C x → if isLow = true then s.coord ≤ anchorCoord isLow x
              else anchorCoord isLow x ≤ s.coord) ∧
  (∀ r, s.rdB = some r → C r ∧ s.coord = anchorCoord isLow r) ∧
  (s.rdB = none → s.coord = c0) ∧
  (if isLow = true then s.coord ≤ c0 else c0 ≤ s.coord)

/-- The length `addRead` leaves in a unit made from an empty one by adding the
reads of a list: the largest `max` coordinate among them, and at least 0. -/
def spanLength (reads : List ufNode) : Int :=
  reads.foldl (fun m rd => if m < rd.position.max then rd.position.max else m) 0

/-- The runs `breaks[ss..ee)` the walk of `createUnitigs` takes from the pool
(lines 749-758 and 808): a breakpoint and the breakpoints after it up to the
first one of another `_tigID`; the first argument bounds the number of runs. -/
def poolRuns : Nat → List breakPointEnd → List (List breakPointEnd)
  | _, [] => []
  | 0, _ :: _ => []
  | fuel + 1, b :: more =>
    (b :: more.takeWhile (fun x => x._tigID = b._tigID))
      :: poolRuns fuel (more.dropWhile (fun x => x._tigID = b._tigID))

/-- The body of the walk of `createUnitigs`, run by run: the contig of the first
breakpoint of the run is looked up and split on the list built from the run. -/
def walkRuns (dflt : tigLoc) (contigs : TigVector) :
    List (List breakPointEnd) → CreateState → Except Fault CreateState
  | [], st => .ok st
  | [] :: _, _ => .error .outOfBounds
  | (b :: more) :: rest, st =>
    match contigs[b._tigID]? with
    | some (some tig) =>
      match splitContig dflt contigs st tig (buildBP [] (b :: more)) with
      | .error e => .error e
      | .ok st1 => walkRuns dflt contigs rest st1
    | _ => .error .nullTig

/-! ## Other tools of the repository

The tables of `sequence-shiftregister-gf4.H`, the functions
`extractParameters::finalize` and `shiftRegisterParameters::numberToBase` of
`sequence.H`, the class `trimStat` of `trimStat.H`, and the block loop of
`Process_Overlaps` in `overlapInCore-Process_Overlaps.C`. -/

/-- The table `gf4add[4][4]` (`sequence-shiftregister-gf4.H`, lines 38-43). -/
def gf4add : List (List Nat) :=
  [ [0, 1, 2, 3],
    [1, 0, 3, 2],
    [2, 3, 0, 1],
    [3, 2, 1, 0] ]

/-- The table `gf4mult[4][4]` (`sequence-shiftregister-gf4.H`, lines 45-50). -/
def gf4mult : List (List Nat) :=
  [ [0, 0, 0, 0],
    [0, 1, 2, 3],
    [0, 2, 3, 1],
    [0, 3, 1, 2] ]

/-- The access `table[a][b]` to a two-dimensional table; `none` outside it. -/
def tableAt (table : List (List Nat)) (a b : Nat) : Option Nat :=
  match table[a]? with
  | none => none
  | some row => row[b]?

def UINT64_MAX : Nat := 18446744073709551615

/-- The six range lists of the class `extractParameters` (`sequence.H`, line
146), all of `vector<uint64>`. -/
structure extractParameters where
  baseBgn : List Nat
  baseEnd : List Nat
  seqsBgn : List Nat
  seqsEnd : List Nat
  lensBgn : List Nat
  lensEnd : List Nat
deriving DecidableEq, Repr

/-- The ways `extractParameters::finalize` stops without returning: the call
`exit(1)` after the message "sequences begin at 1, not zero", and an access
past the end of a vector. -/
inductive Halt where
  | exit1
  | outOfBounds
deriving DecidableEq, Repr

/-- The loop over the sequence ranges in `finalize` (lines 124-131), on the part
of `seqsBgn` from index `si` on: a begin of zero stops the program, every other
begin is decreased by one. -/
def finalizeSeqs : List Nat → Except Halt (List Nat)
  | [] => .ok []
  | bgn :: rest =>
    if bgn = 0 then .error .exit1
    else match finalizeSeqs rest with
      | .error e => .error e
      | .ok more => .ok ((bgn - 1) :: more)

/-- The loop over the base ranges in `finalize` (lines 133-136), on the parts of
`baseBgn` and `baseEnd` from index `bi` on: an end equal to its begin is
increased by one, in `uint64`. -/
def finalizeBases : List Nat → List Nat → Except Halt (List Nat)
  | [], ends => .ok ends
  | _ :: _, [] => .error .outOfBounds
  | bgn :: bgns, end_ :: ends =>
    match finalizeBases bgns ends with
    | .error e => .error e
    | .ok more => .ok ((if bgn = end_ then (end_ + 1) % 2 ^ 64 else end_) :: more)

/-- The function `extractParameters::finalize` (`sequence.H`, lines 101-137), for
lists of fewer than `2^32` ranges (the loop counters are `uint32`). -/
def extractParameters.finalize (p : extractParameters) : Except Halt extractParameters :=
  let p1 : extractParameters :=
    if p.baseBgn.length = 0 then
      { p with baseBgn := p.baseBgn ++ [0], baseEnd := p.baseEnd ++ [UINT64_MAX] }
    else p
  let p2 : extractParameters :=
    if p1.seqsBgn.length = 0 then
      { p1 with seqsBgn := p1.seqsBgn ++ [1], seqsEnd := p1.seqsEnd ++ [UINT64_MAX] }
    else p1
  let p3 : extractParameters :=
    if p2.lensBgn.length = 0 then
      { p2 with lensBgn := p2.lensBgn ++ [0], lensEnd := p2.lensEnd ++ [UINT64_MAX] }
    else p2
  match finalizeSeqs p3.seqsBgn with
  | .error e => .error e
  | .ok seqsBgn =>
    match finalizeBases p3.baseBgn p3.baseEnd with
    | .error e => .error e
    | .ok baseEnd => .ok { p3 with seqsBgn := seqsBgn, baseEnd := baseEnd }

/-- The function `shiftRegisterParameters::numberToBase` (`sequence.H`, lines
395-402): `number = (number << 1) + 'A'` in `uint32`, `'E'` replaced by `'T'`,
and the result converted to `char`, given as its character code. -/
def numberToBase (number : Nat) : Nat :=
  let number1 := ((number <<< 1) % 2 ^ 32 + ('A').toNat) % 2 ^ 32
  let number2 := if number1 = ('E').toNat then ('T').toNat else number1
  number2 % 2 ^ 8

/-- The class `trimStat` (`trimStat.H`): `uint32 nReads`, `uint64 nBases`,
`vector<uint32> histo`. -/
structure trimStat where
  nReads : Nat
  nBases : Nat
  histo  : List Nat
deriving DecidableEq, Repr

/-- The constructor `trimStat()` (lines 32-35); the vector starts empty. -/
def trimStat.fresh : trimStat := { nReads := 0, nBases := 0, histo := [] }

/-- The operator `trimStat::operator+=` (lines 37-44) for a `uint32` value
`bases`. -/
def trimStat.add (s : trimStat) (bases : Nat) : trimStat :=
  { nReads := (s.nReads + 1) % 2 ^ 32,
    nBases := (s.nBases + bases) % 2 ^ 64,
    histo := s.histo ++ [bases] }

/-- The three `uint32` variables the block loop of `Process_Overlaps` reads and
writes: `WA->bgnID`, `WA->endID` and `G.curRefID`. -/
structure WorkBlock where
  bgnID    : Nat
  endID    : Nat
  curRefID : Nat
deriving DecidableEq, Repr

/-- The choice of the next block in the critical section of `Process_Overlaps`
(lines 159-165), in `uint32` arithmetic. -/
def nextBlock (endRefID perThread : Nat) (s : WorkBlock) : WorkBlock :=
  let bgnID := s.curRefID
  let endID := (s.curRefID + perThread + (2 ^ 32 - 1)) % 2 ^ 32
  let endID := if endID > endRefID then endRefID else endID
  { bgnID := bgnID, endID := endID, curRefID := (endID + 1) % 2 ^ 32 }

/-- The loop `while (WA->bgnID < G.endRefID)` of `Process_Overlaps` (lines
86-167) for one worker: the blocks `(bgnID, endID)` whose reads the inner loop
`for (fi=WA->bgnID; fi<=WA->endID; fi++)` runs over, in the order they are
processed, and the variables when the loop is left. -/
def Process_Overlaps (endRefID perThread : Nat) :
    Nat → WorkBlock → Except Fault (List (Nat × Nat) × WorkBlock)
  | 0, _ => .error .outOfFuel
  | fuel + 1, s =>
    if s.bgnID < endRefID then
      match Process_Overlaps endRefID perThread fuel (nextBlock endRefID perThread s) with
      | .error e => .error e
      | .ok (blocks, last) => .ok ((s.bgnID, s.endID) :: blocks, last)
    else .ok ([], s)

/-- The read ids the inner loop `for (fi=bgnID; fi<=endID; fi++)` runs over for
one block with `endID` below `UINT32_MAX`. -/
def blockIds (block : Nat × Nat) : List Nat :=
  List.range' block.1 (block.2 + 1 - block.1)

/-! ## Scenario data -/

/-- The contig of the scenarios: length 1000, reads at
[0,200], [150,400], [380,600], [590,1000]. -/
def scenarioTig : Unitig :=
  { _id := 0,
    ufpath := [⟨1, ⟨0, 200⟩⟩, ⟨2, ⟨150, 400⟩⟩, ⟨3, ⟨380, 600⟩⟩, ⟨4, ⟨590, 1000⟩⟩],
    _length := 1000, _isUnassembled := false, _isRepeat := false }

/-- The breakpoint pool of scenario B: the sentinels of the contig and the pair
`(U, 400, end)`, `(U, 400, begin)`. -/
def scenarioBreaks : List breakPointEnd :=
  sentinelBreaks [some scenarioTig] 0 ++ [⟨0, 400, false⟩, ⟨0, 400, true⟩]

/-- A default-constructed provenance record, for the scenarios. -/
def scenarioLoc : tigLoc := { cID := UINT32_MAX, cBgn := 0, cEnd := 0, uID := UINT32_MAX }

/-- The breakpoint list of scenario B after sorting and de-duplication. -/
def scenarioBP : List breakPointEnd :=
  [⟨0, 0, true⟩, ⟨0, 400, false⟩, ⟨0, 400, true⟩, ⟨0, 1000, false⟩]

/-- The scenario contig without its two middle reads: reads at [0,200] and
[590,1000] only. -/
def gapTig : Unitig :=
  { _id := 0, ufpath := [⟨1, ⟨0, 200⟩⟩, ⟨4, ⟨590, 1000⟩⟩],
    _length := 1000, _isUnassembled := false, _isRepeat := false }

/-- A breakpoint list with a begin boundary inside the contig: the sentinels of
the scenario contig and `(U, 400, begin)`. -/
def softBP : List breakPointEnd :=
  [⟨0, 0, true⟩, ⟨0, 400, true⟩, ⟨0, 1000, false⟩]

/-- The boundary contig of the discovery scenarios. -/
def discTgA : Unitig :=
  { _id := 0, ufpath := [⟨1, ⟨0, 300⟩⟩], _length := 300,
    _isUnassembled := false, _isRepeat := false }

/-- The contig the boundary read of the discovery scenarios aligns to. -/
def discTgB : Unitig :=
  { _id := 1, ufpath := [⟨5, ⟨100, 500⟩⟩, ⟨6, ⟨150, 550⟩⟩, ⟨7, ⟨100, 205⟩⟩], _length := 1000,
    _isUnassembled := false, _isRepeat := false }

/-- The contigs of the discovery scenarios. -/
def discContigs : TigVector := [some discTgA, some discTgB]

/-- Scenario C: a placement whose verified interval has length 8. -/
def smallOp : overlapPlacement :=
  { tigID := 1, verified := ⟨200, 208⟩, covered := ⟨0, 300⟩, tigFidx := 2, tigLidx := 2 }

/-- A placement whose verified interval has length 10. -/
def exactOp : overlapPlacement :=
  { tigID := 1, verified := ⟨200, 210⟩, covered := ⟨0, 300⟩, tigFidx := 2, tigLidx := 2 }

/-- The collaborators of the discovery scenarios: the boundary read has length
300 and overlaps the three reads of the other contig, nothing overlaps the
boundary read's own position, no placement is of low similarity, and the
boundary read has one placement. -/
def discEnv : Collaborators :=
  { readLength := fun _ => 300,
    getOverlaps := fun _ => [⟨5, 0⟩, ⟨6, 0⟩, ⟨7, 0⟩],
    isOverlapping := fun _ _ => false,
    lowSimilarity := fun _ _ _ _ => false,
    placeReadUsingOverlaps := fun _ ident => if ident = 1 then [exactOp] else [],
    inUnitig := fun _ => 0,
    ufpathIdx := fun _ => 0 }

/-- Scenario D: three placements of one boundary read that all survive. -/
def threeOps : List overlapPlacement :=
  [{ tigID := 1, verified := ⟨200, 600⟩, covered := ⟨0, 300⟩, tigFidx := 0, tigLidx := 0 },
   { tigID := 1, verified := ⟨300, 700⟩, covered := ⟨0, 300⟩, tigFidx := 1, tigLidx := 1 },
   { tigID := 1, verified := ⟨400, 800⟩, covered := ⟨0, 300⟩, tigFidx := 0, tigLidx := 1 }]

/-- The contigs of the discovery scenarios, followed by a NULL entry and a contig
flagged unassembled. -/
def discContigsU : TigVector :=
  discContigs ++ [none, some { _id := 3, ufpath := [⟨9, ⟨0, 100⟩⟩], _length := 100,
                               _isUnassembled := true, _isRepeat := false }]

/-- The collaborators of the discovery scenarios, except that every interval
overlaps the boundary read's own position. -/
def selfEnv : Collaborators :=
  { discEnv with isOverlapping := fun _ _ => true }

/-- A placement of the boundary read of the discovery scenarios on its own
contig. -/
def selfOp : overlapPlacement :=
  { tigID := 0, verified := ⟨0, 200⟩, covered := ⟨0, 300⟩, tigFidx := 0, tigLidx := 0 }

/-- The placement `exactOp`, except that the alignment starts at base 5 of the
boundary read. -/
def usedOp : overlapPlacement :=
  { exactOp with covered := ⟨5, 300⟩ }

/-- A contig whose only read starts at coordinate 5. -/
def lateTig : Unitig :=
  { _id := 0, ufpath := [⟨1, ⟨5, 100⟩⟩], _length := 100,
    _isUnassembled := false, _isRepeat := false }

/-- Extraction parameters with the two sequence ranges `[1, 10]` and `[5, 7]` and
no other range. -/
def twoSeqRanges : extractParameters :=
  { baseBgn := [], baseEnd := [], seqsBgn := [1, 5], seqsEnd := [10, 7],
    lensBgn := [], lensEnd := [] }

/-- A pool with contig ids on both sides of `2^31`: the sentinels of contig `0`
and of contig `2^31`, both of length 5. -/
def wrapPool : List breakPointEnd :=
  [⟨0, 0, true⟩, ⟨2147483648, 0, true⟩, ⟨0, 5, false⟩, ⟨2147483648, 5, false⟩]

/-! ## Lemmas on the key -/

theorem key_closed_form (x : breakPointEnd) :
    x.key = (x._tigID % 2 ^ 31) * 2 ^ 33 + (x._pos % 2 ^ 32) * 2
              + (if x._bgn then 1 else 0) := by
  unfold breakPointEnd.key
  simp only [Nat.shiftLeft_eq]
  have h1 : x._tigID % 2 ^ 32 * 2 ^ 32 % 2 ^ 64 ||| x._pos % 2 ^ 32
      = 2 ^ 32 * (x._tigID % 2 ^ 32) + x._pos % 2 ^ 32 := by
    rw [Nat.mul_add_lt_is_or (Nat.mod_lt _ (by norm_num))]
    congr 1
    have : x._tigID % 2 ^ 32 < 2 ^ 32 := Nat.mod_lt _ (by norm_num)
    omega
  rw [h1]
  have hb : (if x._bgn then 1 else 0) < 2 ^ 1 := by split <;> norm_num
  have h2 : (2 ^ 32 * (x._tigID % 2 ^ 32) + x._pos % 2 ^ 32) * 2 ^ 1 % 2 ^ 64
      = 2 ^ 1 * ((x._tigID % 2 ^ 31) * 2 ^ 32 + x._pos % 2 ^ 32) := by
    have : x._pos % 2 ^ 32 < 2 ^ 32 := Nat.mod_lt _ (by norm_num)
    omega
  rw [h2, ← Nat.mul_add_lt_is_or hb]
  omega

/-- For contig ids below `2^31` (no bit is shifted out of the key) `operator<` is
the lexicographic order on `(tigID, pos, bgn)`. -/
theorem lt_iff_lex_of_small (a b : breakPointEnd)
    (ha : a._tigID < 2 ^ 31) (hb : b._tigID < 2 ^ 31)
    (hpa : a._pos < 2 ^ 32) (hpb : b._pos < 2 ^ 32) :
    a.lt b = true ↔
      (a._tigID < b._tigID ∨ (a._tigID = b._tigID ∧ a._pos < b._pos) ∨
        (a._tigID = b._tigID ∧ a._pos = b._pos ∧ a._bgn = false ∧ b._bgn = true)) := by
  unfold breakPointEnd.lt
  rw [decide_eq_true_iff, key_closed_form, key_closed_form,
    Nat.mod_eq_of_lt ha, Nat.mod_eq_of_lt hb, Nat.mod_eq_of_lt hpa, Nat.mod_eq_of_lt hpb]
  cases a._bgn <;> cases b._bgn <;> simp <;> omega

theorem key_le_of_not_lt {a b : breakPointEnd} (h : b.lt a = false) : a.key ≤ b.key := by
  unfold breakPointEnd.lt at h
  simpa using h

theorem sorted_keys_unique {input s1 s2 : List breakPointEnd}
    (h1 : IsSortOf input s1) (h2 : IsSortOf input s2) :
    s1.map breakPointEnd.key = s2.map breakPointEnd.key := by
  have hp : (s1.map breakPointEnd.key).Perm (s2.map breakPointEnd.key) :=
    (h1.1.trans h2.1.symm).map _
  have hs : ∀ s : List breakPointEnd,
      s.Pairwise (fun a b => breakPointEnd.lt b a = false) →
      (s.map breakPointEnd.key).Sorted (· ≤ ·) := by
    intro s hs
    rw [List.Sorted, List.pairwise_map]
    exact hs.imp (fun h => key_le_of_not_lt h)
  exact List.eq_of_perm_of_sorted hp (hs _ h1.2) (hs _ h2.2)

/-! ## Lemmas on the piece selection -/

theorem scanPieces_cons_cons (lo hi : Nat) (p n : breakPointEnd) (rest : List breakPointEnd)
    (tt b e : Nat) :
    scanPieces lo hi (p :: n :: rest) tt b e =
      scanPieces lo hi (n :: rest) (tt + 1)
        (if p._pos ≤ lo ∧ lo < n._pos then tt else b)
        (if p._pos < hi ∧ hi ≤ n._pos then tt else e) := by
  simp [scanPieces]

theorem scanPieces_single (lo hi : Nat) (p : breakPointEnd) (tt b e : Nat) :
    scanPieces lo hi [p] tt b e = (b, e) := by
  simp [scanPieces]

/-- The begin-piece found by the scan over a list sorted by position. -/
theorem scan_fst_spec (lo hi : Nat) :
    ∀ (l : List breakPointEnd) (tt b e : Nat),
      l.Pairwise (fun x y => x._pos ≤ y._pos) →
      (∀ p tl, l = p :: tl → lo < p._pos → (scanPieces lo hi l tt b e).1 = b) ∧
      (∀ p tl, l = p :: tl → p._pos ≤ lo → (∃ q ∈ tl, lo < q._pos) →
        ∃ i x y, (scanPieces lo hi l tt b e).1 = tt + i ∧ l[i]? = some x ∧
          l[i + 1]? = some y ∧ x._pos ≤ lo ∧ lo < y._pos) := by
  intro l
  induction l with
  | nil => intro tt b e _; exact ⟨fun p tl h => List.noConfusion h, fun p tl h => List.noConfusion h⟩
  | cons p0 tl0 ih =>
    intro tt b e hs
    cases tl0 with
    | nil =>
      refine ⟨?_, ?_⟩
      · intro p tl h _; simp [scanPieces]
      · intro p tl h _ hq
        cases h
        obtain ⟨q, hq, _⟩ := hq
        cases hq
    | cons n rest =>
      rw [scanPieces_cons_cons]
      have hs' : (n :: rest).Pairwise (fun x y => x._pos ≤ y._pos) := (List.pairwise_cons.1 hs).2
      have hpn : p0._pos ≤ n._pos := (List.pairwise_cons.1 hs).1 n (List.mem_cons_self _ _)
      refine ⟨?_, ?_⟩
      · intro p tl h hlt
        cases h
        have hc : ¬ (p0._pos ≤ lo ∧ lo < n._pos) := by omega
        rw [if_neg hc]
        exact (ih (tt + 1) b _ hs').1 n rest rfl (by omega)
      · intro p tl h hle hq
        cases h
        by_cases hn : lo < n._pos
        · rw [if_pos (show p0._pos ≤ lo ∧ lo < n._pos from ⟨hle, hn⟩)]
          refine ⟨0, p0, n, ?_, by simp, by simp, hle, hn⟩
          exact (ih (tt + 1) tt _ hs').1 n rest rfl hn
        · have hc : ¬ (p0._pos ≤ lo ∧ lo < n._pos) := fun h => hn h.2
          rw [if_neg hc]
          obtain ⟨q, hq, hqlt⟩ := hq
          have hq' : q ∈ rest := by
            rcases List.mem_cons.1 hq with h | h
            · subst h; exact absurd hqlt hn
            · exact h
          obtain ⟨i, x, y, hr, hx, hy, h1, h2⟩ :=
            (ih (tt + 1) b _ hs').2 n rest rfl (by omega) ⟨q, hq', hqlt⟩
          exact ⟨i + 1, x, y, by rw [hr]; omega, by simpa using hx, by simpa using hy, h1, h2⟩

/-- The end-piece found by the scan over a list sorted by position. -/
theorem scan_snd_spec (lo hi : Nat) :
    ∀ (l : List breakPointEnd) (tt b e : Nat),
      l.Pairwise (fun x y => x._pos ≤ y._pos) →
      (∀ p tl, l = p :: tl → hi ≤ p._pos → (scanPieces lo hi l tt b e).2 = e) ∧
      (∀ p tl, l = p :: tl → p._pos < hi → (∃ q ∈ tl, hi ≤ q._pos) →
        ∃ i x y, (scanPieces lo hi l tt b e).2 = tt + i ∧ l[i]? = some x ∧
          l[i + 1]? = some y ∧ x._pos < hi ∧ hi ≤ y._pos) := by
  intro l
  induction l with
  | nil => intro tt b e _; exact ⟨fun p tl h => List.noConfusion h, fun p tl h => List.noConfusion h⟩
  | cons p0 tl0 ih =>
    intro tt b e hs
    cases tl0 with
    | nil =>
      refine ⟨?_, ?_⟩
      · intro p tl h _; simp [scanPieces]
      · intro p tl h _ hq
        cases h
        obtain ⟨q, hq, _⟩ := hq
        cases hq
    | cons n rest =>
      rw [scanPieces_cons_cons]
      have hs' : (n :: rest).Pairwise (fun x y => x._pos ≤ y._pos) := (List.pairwise_cons.1 hs).2
      have hpn : p0._pos ≤ n._pos := (List.pairwise_cons.1 hs).1 n (List.mem_cons_self _ _)
      refine ⟨?_, ?_⟩
      · intro p tl h hlt
        cases h
        have hc : ¬ (p0._pos < hi ∧ hi ≤ n._pos) := by omega
        rw [if_neg hc]
        exact (ih (tt + 1) _ e hs').1 n rest rfl (by omega)
      · intro p tl h hle hq
        cases h
        by_cases hn : hi ≤ n._pos
        · rw [if_pos (show p0._pos < hi ∧ hi ≤ n._pos from ⟨hle, hn⟩)]
          refine ⟨0, p0, n, ?_, by simp, by simp, hle, hn⟩
          exact (ih (tt + 1) _ tt hs').1 n rest rfl hn
        · have hc : ¬ (p0._pos < hi ∧ hi ≤ n._pos) := fun h => hn h.2
          rw [if_neg hc]
          obtain ⟨q, hq, hqlt⟩ := hq
          have hq' : q ∈ rest := by
            rcases List.mem_cons.1 hq with h | h
            · subst h; exact absurd hqlt hn
            · exact h
          obtain ⟨i, x, y, hr, hx, hy, h1, h2⟩ :=
            (ih (tt + 1) _ e hs').2 n rest rfl (by omega) ⟨q, hq', hqlt⟩
          exact ⟨i + 1, x, y, by rw [hr]; omega, by simpa using hx, by simpa using hy, h1, h2⟩

/-! ## The comparison operators -/

/-- C5: `operator<` is not the lexicographic order on `(tigID, pos, bgn)` for all
32-bit contig ids: the key needs 65 bits, the shift by one drops the top bit of
`_tigID`, and contig `0` is not less than contig `2^31` at the same position. -/
theorem operator_lt_drops_top_bit :
    (0 : Nat) < 2147483648 ∧ 2147483648 < 2 ^ 32 ∧
    breakPointEnd.lt ⟨0, 5, true⟩ ⟨2147483648, 5, true⟩ = false ∧
    breakPointEnd.eq ⟨0, 5, true⟩ ⟨2147483648, 5, true⟩ = true := by
  refine ⟨by norm_num, by norm_num, ?_, ?_⟩
  · unfold breakPointEnd.lt; rw [key_closed_form, key_closed_form]; simp
  · unfold breakPointEnd.eq; rw [key_closed_form, key_closed_form]; simp

/-- C6 as stated fails: at equal contig and position the begin-type breakpoint is
not less than the end-type one. -/
theorem begin_not_before_end_at_tie :
    breakPointEnd.lt ⟨0, 400, true⟩ ⟨0, 400, false⟩ = false := by
  unfold breakPointEnd.lt; rw [key_closed_form, key_closed_form]; simp

/-- C6 amended: for two breakpoints with the same contig id and position, the
end-type breakpoint compares less than the begin-type one, and not the other way
round, so end sorts before begin at equal position. -/
theorem end_before_begin_at_tie (tigID pos : Nat) :
    breakPointEnd.lt ⟨tigID, pos, false⟩ ⟨tigID, pos, true⟩ = true ∧
    breakPointEnd.lt ⟨tigID, pos, true⟩ ⟨tigID, pos, false⟩ = false := by
  unfold breakPointEnd.lt
  rw [key_closed_form, key_closed_form]
  simp

/-- C7: `operator<` is a strict weak ordering on all breakpoints: irreflexive,
transitive, with incomparability an equivalence relation; and any two results of
sorting the same breakpoints have the same sequence of keys. -/
theorem operator_lt_strict_weak_order :
    (∀ a : breakPointEnd, a.lt a = false) ∧
    (∀ a b c : breakPointEnd, a.lt b = true → b.lt c = true → a.lt c = true) ∧
    (∀ a : breakPointEnd, a.incomparable a) ∧
    (∀ a b : breakPointEnd, a.incomparable b → b.incomparable a) ∧
    (∀ a b c : breakPointEnd, a.incomparable b → b.incomparable c → a.incomparable c) ∧
    (∀ input s1 s2 : List breakPointEnd, IsSortOf input s1 → IsSortOf input s2 →
      s1.map breakPointEnd.key = s2.map breakPointEnd.key) := by
  refine ⟨?_, ?_, ?_, ?_, ?_, ?_⟩
  · intro a; simp [breakPointEnd.lt]
  · intro a b c; simp only [breakPointEnd.lt, decide_eq_true_iff]; omega
  · intro a; simp [breakPointEnd.incomparable, breakPointEnd.lt]
  · intro a b h; exact ⟨h.2, h.1⟩
  · intro a b c
    simp only [breakPointEnd.incomparable, breakPointEnd.lt, decide_eq_false_iff_not]
    omega
  · intro input s1 s2 h1 h2
    exact sorted_keys_unique h1 h2

/-- C7 at a concrete triple: transitivity through the tie at position 400. -/
theorem operator_lt_strict_weak_order_witness :
    breakPointEnd.lt ⟨0, 0, true⟩ ⟨0, 400, false⟩ = true ∧
    breakPointEnd.lt ⟨0, 400, false⟩ ⟨0, 400, true⟩ = true ∧
    breakPointEnd.lt ⟨0, 0, true⟩ ⟨0, 400, true⟩ = true :=
  have h1 : breakPointEnd.lt ⟨0, 0, true⟩ ⟨0, 400, false⟩ = true := by
    unfold breakPointEnd.lt; rw [key_closed_form, key_closed_form]; simp
  have h2 : breakPointEnd.lt ⟨0, 400, false⟩ ⟨0, 400, true⟩ = true := by
    unfold breakPointEnd.lt; rw [key_closed_form, key_closed_form]; simp
  ⟨h1, h2, operator_lt_strict_weak_order.2.1 _ _ _ h1 h2⟩

/-- The fallback search started at an end-type boundary, with a begin-type
boundary at `endBP`, stops at the first free piece before `endBP`. -/
theorem searchFree_spec (BP : List breakPointEnd) (endBP : Nat) :
    ∀ (fuel fin : Nat) (a z : breakPointEnd), fuel = endBP - fin → fin ≤ endBP →
      BP[fin]? = some a → a._bgn = false → BP[endBP]? = some z → z._bgn = true →
      ∃ r x y, searchFree BP endBP fuel fin = .ok r ∧ fin ≤ r ∧ r < endBP ∧
        BP[r]? = some x ∧ x._bgn = false ∧ BP[r + 1]? = some y ∧ y._bgn = true ∧
        (∀ j u v, fin ≤ j → j < r → BP[j]? = some u → BP[j + 1]? = some v →
          ¬ (u._bgn = false ∧ v._bgn = true)) := by
  intro fuel
  induction fuel with
  | zero =>
    intro fin a z hf hle ha hab hz hzb
    have : fin = endBP := by omega
    subst this
    rw [ha] at hz
    cases hz
    rw [hab] at hzb
    cases hzb
  | succ fuel ih =>
    intro fin a z hf hle ha hab hz hzb
    have hlt : fin < endBP := by omega
    have hlen : endBP < BP.length := by
      rcases Nat.lt_or_ge endBP BP.length with h | h
      · exact h
      · rw [List.getElem?_eq_none h] at hz; cases hz
    have hy : ∃ y, BP[fin + 1]? = some y := by
      have : fin + 1 < BP.length := by omega
      exact ⟨BP[fin + 1], List.getElem?_eq_getElem this⟩
    obtain ⟨y, hy⟩ := hy
    by_cases hyb : y._bgn = true
    · refine ⟨fin, a, y, ?_, le_refl _, hlt, ha, hab, hy, hyb, ?_⟩
      · simp [searchFree, hlt, ha, hab, hy, hyb]
      · intro j u v h1 h2; omega
    · have hyb' : y._bgn = false := by simpa using hyb
      obtain ⟨r, x, w, hr, h1, h2, h3, h4, h5, h6, h7⟩ :=
        ih (fin + 1) y z (by omega) (by omega) hy hyb' hz hzb
      refine ⟨r, x, w, ?_, by omega, h2, h3, h4, h5, h6, ?_⟩
      · simp [searchFree, hlt, ha, hab, hy, hyb', hr]
      · intro j u v hj1 hj2 hu hv
        rcases Nat.eq_or_lt_of_le hj1 with h | h
        · subst h
          rw [hy] at hv
          cases hv
          simp [hyb']
        · exact h7 j u v (by omega) hj2 hu hv

theorem pos_le_of_sorted {BP : List breakPointEnd}
    (hs : BP.Pairwise (fun x y => x._pos ≤ y._pos)) {i j : Nat} {x y : breakPointEnd}
    (hij : i ≤ j) (hx : BP[i]? = some x) (hy : BP[j]? = some y) : x._pos ≤ y._pos := by
  rcases Nat.eq_or_lt_of_le hij with h | h
  · subst h
    rw [hx] at hy
    cases hy
    exact le_refl _
  · obtain ⟨h1, rfl⟩ := List.getElem?_eq_some_iff.1 hx
    obtain ⟨h2, rfl⟩ := List.getElem?_eq_some_iff.1 hy
    exact List.pairwise_iff_getElem.1 hs i j h1 h2 h

/-- The outcome of the piece selection on a breakpoint list sorted by position
for a read inside the span of the list. -/
theorem selectPiece_spec (BP : List breakPointEnd) (lo hi : Nat)
    (hlen : 2 ≤ BP.length) (hsize : BP.length < 2 ^ 32)
    (hsorted : BP.Pairwise (fun x y => x._pos ≤ y._pos))
    (hfirst : ∃ f, BP.head? = some f ∧ f._pos ≤ lo)
    (hlohi : lo < hi)
    (hlast : ∃ z, BP.getLast? = some z ∧ hi ≤ z._pos) :
    ∃ bgnBP endBP finBP,
      scanPieces lo hi BP 0 UINT32_MAX UINT32_MAX = (bgnBP, endBP) ∧
      (∃ p n, BP[bgnBP]? = some p ∧ BP[bgnBP + 1]? = some n ∧ p._pos ≤ lo ∧ lo < n._pos) ∧
      (∃ p n, BP[endBP]? = some p ∧ BP[endBP + 1]? = some n ∧ p._pos < hi ∧ hi ≤ n._pos) ∧
      selectPiece BP lo hi = .ok finBP ∧
      bgnBP ≤ finBP ∧ finBP ≤ endBP ∧ endBP + 2 ≤ BP.length := by
  obtain ⟨f, hf, hflo⟩ := hfirst
  obtain ⟨z, hz, hzhi⟩ := hlast
  cases BP with
  | nil => simp at hlen
  | cons f0 tl =>
    simp only [List.head?_cons, Option.some.injEq] at hf
    subst hf
    have hzmem : z ∈ tl := by
      cases tl with
      | nil => simp at hlen
      | cons n rest =>
        rw [List.getLast?_cons_cons] at hz
        exact List.mem_of_getLast?_eq_some hz
    obtain ⟨i, x, y, hi1, hx, hy, hxlo, hylo⟩ :=
      (scan_fst_spec lo hi (f0 :: tl) 0 UINT32_MAX UINT32_MAX hsorted).2 f0 tl rfl hflo
        ⟨z, hzmem, by omega⟩
    obtain ⟨j, u, v, hj1, hu, hv, huhi, hvhi⟩ :=
      (scan_snd_spec lo hi (f0 :: tl) 0 UINT32_MAX UINT32_MAX hsorted).2 f0 tl rfl (by omega)
        ⟨z, hzmem, hzhi⟩
    rw [Nat.zero_add] at hi1 hj1
    have hij : i ≤ j := by
      by_contra hcon
      have h1 : v._pos ≤ x._pos := pos_le_of_sorted hsorted (by omega) hv hx
      omega
    have hjlen : j + 1 < (f0 :: tl).length := (List.getElem?_eq_some_iff.1 hv).1
    have hscan : scanPieces lo hi (f0 :: tl) 0 UINT32_MAX UINT32_MAX = (i, j) :=
      Prod.ext hi1 hj1
    have hsel : ∃ finBP, selectPiece (f0 :: tl) lo hi = .ok finBP ∧ i ≤ finBP ∧ finBP ≤ j := by
      unfold selectPiece
      rw [if_neg (List.cons_ne_nil _ _), hscan]
      simp only
      by_cases hije : i = j
      · rw [if_pos hije]; exact ⟨i, rfl, le_refl _, hij⟩
      · rw [if_neg hije]
        have hmod : (i + 1) % 2 ^ 32 = i + 1 := Nat.mod_eq_of_lt (by omega)
        rw [hmod, hy]
        simp only
        by_cases hyb : y._bgn = true
        · rw [if_pos hyb]; exact ⟨i, rfl, le_refl _, hij⟩
        · rw [if_neg hyb, hu]
          simp only
          by_cases hub : u._bgn = false
          · rw [if_pos hub]; exact ⟨j, rfl, hij, le_refl _⟩
          · rw [if_neg hub]
            obtain ⟨r, a, b, hr, h1, h2, _⟩ :=
              searchFree_spec (f0 :: tl) j (j - (i + 1)) (i + 1) y u rfl (by omega) hy
                (by simpa using hyb) hu (by simpa using hub)
            rw [hr]
            simp only
            rw [if_neg (by omega)]
            exact ⟨r, rfl, by omega, by omega⟩
    obtain ⟨finBP, hsel, h1, h2⟩ := hsel
    exact ⟨i, j, finBP, hscan, ⟨x, y, hx, hy, hxlo, hylo⟩, ⟨u, v, hu, hv, huhi, hvhi⟩,
      hsel, h1, h2, by omega⟩

/-! ## Lemmas on units and collections -/

theorem modify_append_last {α : Type} (f : α → α) (l : List α) (a : α) :
    (l ++ [a]).modify f l.length = l ++ [f a] := by
  induction l with
  | nil => simp
  | cons x l ih => simp [ih]

theorem addRead_zero_ufpath (t : Unitig) (rd : ufNode) :
    (t.addRead rd 0).ufpath = t.ufpath ++ [rd] := by
  cases rd with
  | mk ident position =>
    cases position
    simp [Unitig.addRead]

theorem addReadAt_last (tigs : TigVector) (u : Unitig) (rd : ufNode) (off : Int) :
    addReadAt (tigs ++ [some u]) tigs.length rd off = tigs ++ [some (u.addRead rd off)] := by
  unfold addReadAt
  rw [modify_append_last]
  rfl

theorem foldl_addReadAt_last (tigs : TigVector) :
    ∀ (reads : List ufNode) (u : Unitig),
      reads.foldl (fun ts rd => addReadAt ts tigs.length rd 0) (tigs ++ [some u]) =
        tigs ++ [some (reads.foldl (fun t rd => t.addRead rd 0) u)] := by
  intro reads
  induction reads with
  | nil => intro u; rfl
  | cons rd rest ih =>
    intro u
    rw [List.foldl_cons, addReadAt_last, ih]
    rfl

theorem foldl_addRead_zero :
    ∀ (reads : List ufNode) (u : Unitig),
      (reads.foldl (fun t rd => t.addRead rd 0) u).ufpath = u.ufpath ++ reads ∧
      (reads.foldl (fun t rd => t.addRead rd 0) u)._id = u._id ∧
      (reads.foldl (fun t rd => t.addRead rd 0) u)._isUnassembled = u._isUnassembled ∧
      (reads.foldl (fun t rd => t.addRead rd 0) u)._isRepeat = u._isRepeat := by
  intro reads
  induction reads with
  | nil => intro u; simp
  | cons rd rest ih =>
    intro u
    rw [List.foldl_cons]
    obtain ⟨h1, h2, h3, h4⟩ := ih (u.addRead rd 0)
    rw [h1, h2, h3, h4, addRead_zero_ufpath]
    simp [Unitig.addRead]

/-- What `copyTig` appends: one unit, holding the reads of the old unit in order
and unchanged, with the flags of the old unit. -/
theorem copyTig_spec (tigs : TigVector) (oldtig : Unitig) :
    ∃ u : Unitig, copyTig tigs oldtig = (tigs ++ [some u], tigs.length) ∧
      u.ufpath = oldtig.ufpath ∧ u._id = tigs.length ∧
      u._isUnassembled = oldtig._isUnassembled ∧ u._isRepeat = oldtig._isRepeat := by
  unfold copyTig newUnitig freshUnitig
  simp only
  rw [modify_append_last]
  simp only [Option.map_some']
  rw [foldl_addReadAt_last]
  refine ⟨_, rfl, ?_⟩
  obtain ⟨h1, h2, h3, h4⟩ := foldl_addRead_zero oldtig.ufpath
    { _id := tigs.length, ufpath := [], _length := 0,
      _isUnassembled := oldtig._isUnassembled, _isRepeat := oldtig._isRepeat }
  rw [h1, h2, h3, h4]
  simp

theorem toUInt32_of_nonneg {x : Int} (h0 : 0 ≤ x) (h1 : x < 2 ^ 32) :
    toUInt32 x = x.toNat := by
  unfold toUInt32
  rw [Int.emod_eq_of_lt h0 h1]

theorem length_resize {α : Type} (dflt : α) (v : List α) (n : Nat) :
    (resize dflt v n).length = n := by
  unfold resize
  simp
  omega

/-! ## Lemmas on the sentinel-only breakpoint list -/

theorem selectPiece_sentinels (t1 t2 L lo hi : Nat) (h1 : lo < L) (h2 : 0 < hi) (h3 : hi ≤ L) :
    selectPiece [⟨t1, 0, true⟩, ⟨t2, L, false⟩] lo hi = .ok 0 := by
  simp [selectPiece, scanPieces, h1, h2, h3]

theorem read_span_in_range {rd : ufNode} {L : Int} (hL : L ≤ INT32_MAX)
    (h : 0 ≤ rd.position.min ∧ rd.position.min < rd.position.max ∧ rd.position.max ≤ L) :
    toUInt32 rd.position.min = rd.position.min.toNat ∧
    toUInt32 rd.position.max = rd.position.max.toNat ∧
    toUInt32 L = L.toNat ∧
    rd.position.min.toNat < rd.position.max.toNat ∧ rd.position.max.toNat ≤ L.toNat := by
  unfold INT32_MAX at hL
  obtain ⟨h0, h1, h2⟩ := h
  refine ⟨toUInt32_of_nonneg h0 (by omega), toUInt32_of_nonneg (by omega) (by omega),
    toUInt32_of_nonneg (by omega) (by omega), by omega, by omega⟩

/-- The count pass over reads that all select piece `0`. -/
theorem countLoop_all_zero (BP : List breakPointEnd) :
    ∀ (reads : List ufNode) (st : SplitState) (c : Nat) (rest : List Nat),
      st.nMoved = c :: rest →
      (∀ rd ∈ reads,
        selectPiece BP (toUInt32 rd.position.min) (toUInt32 rd.position.max) = .ok 0) →
      splitTigLoop BP false st reads =
        .ok { st with nMoved := ((c + reads.length) % 2 ^ 32) :: rest } ∨
      (reads = [] ∧ splitTigLoop BP false st reads = .ok st) := by
  intro reads
  induction reads with
  | nil => intro st c rest _ _; right; exact ⟨rfl, rfl⟩
  | cons rd more ih =>
    intro st c rest hst hall
    left
    have hsel := hall rd (List.mem_cons_self _ _)
    have hstep : splitTigRead BP false st rd =
        .ok { st with nMoved := ((c + 1) % 2 ^ 32) :: rest } := by
      simp [splitTigRead, hsel, hst]
    unfold splitTigLoop
    rw [hstep]
    simp only
    rcases ih { st with nMoved := ((c + 1) % 2 ^ 32) :: rest } ((c + 1) % 2 ^ 32) rest rfl
        (fun r hr => hall r (List.mem_cons_of_mem _ hr)) with h | ⟨h1, h2⟩
    · rw [h]
      simp only [List.length_cons]
      congr 3
      omega
    · subst h1
      rw [h2]
      simp

/-- The count pass on the sentinel-only list of a non-empty contig returns `1`. -/
theorem splitTig_count_sentinels (contigs : TigVector) (tig : Unitig) (tid : Nat)
    (hne : tig.ufpath ≠ []) (hcnt : tig.ufpath.length < 2 ^ 32)
    (hL : tig._length ≤ INT32_MAX)
    (hreads : ∀ rd ∈ tig.ufpath, 0 ≤ rd.position.min ∧
      rd.position.min < rd.position.max ∧ rd.position.max ≤ tig._length) :
    ∃ s, splitTig contigs tig
      [⟨tid, 0, true⟩, ⟨tid, toUInt32 tig._length, false⟩] false = .ok (1, s) := by
  have hall : ∀ rd ∈ tig.ufpath,
      selectPiece [⟨tid, 0, true⟩, ⟨tid, toUInt32 tig._length, false⟩]
        (toUInt32 rd.position.min) (toUInt32 rd.position.max) = .ok 0 := by
    intro rd hrd
    obtain ⟨e1, e2, e3, e4, e5⟩ := read_span_in_range hL (hreads rd hrd)
    rw [e1, e2, e3]
    exact selectPiece_sentinels _ _ _ _ _ (by omega) (by omega) e5
  have hpos : 0 < tig.ufpath.length := List.length_pos.2 hne
  have hloop : splitTigLoop [⟨tid, 0, true⟩, ⟨tid, toUInt32 tig._length, false⟩] false
      { tigs := contigs, newTigs := [], lowCoord := [], nMoved := [0, 0, 0, 0] } tig.ufpath =
      .ok { tigs := contigs, newTigs := [], lowCoord := [],
            nMoved := [tig.ufpath.length, 0, 0, 0] } := by
    rcases countLoop_all_zero _ tig.ufpath
        { tigs := contigs, newTigs := [], lowCoord := [], nMoved := [0, 0, 0, 0] }
        0 [0, 0, 0] rfl hall with h | ⟨h, _⟩
    · rw [h, Nat.zero_add, Nat.mod_eq_of_lt hcnt]
    · exact absurd h hne
  refine ⟨{ tigs := contigs, newTigs := [], lowCoord := [],
            nMoved := [tig.ufpath.length, 0, 0, 0] }, ?_⟩
  simp [splitTig, List.replicate, hloop, List.filter, hpos]

/-! ## Single-piece copy and the scenarios -/

/-- C8: for a non-empty contig whose reads satisfy `0 <= min < max <= length` and
whose breakpoint list is only the two sentinels, the count pass of `splitTig`
returns 1, and the split step of `createUnitigs` appends exactly one unit, the
one `copyTig` makes, holding the same reads in the same order with unchanged
coordinates and the same unassembled and repeat flags. -/
theorem single_piece_copy (dflt : tigLoc) (contigs : TigVector) (st : CreateState)
    (tig : Unitig) (tid : Nat)
    (hne : tig.ufpath ≠ []) (hcnt : tig.ufpath.length < 2 ^ 32)
    (hL : tig._length ≤ INT32_MAX)
    (hreads : ∀ rd ∈ tig.ufpath, 0 ≤ rd.position.min ∧
      rd.position.min < rd.position.max ∧ rd.position.max ≤ tig._length) :
    (∃ s, splitTig contigs tig
      [⟨tid, 0, true⟩, ⟨tid, toUInt32 tig._length, false⟩] false = .ok (1, s)) ∧
    ∃ u src,
      splitContig dflt contigs st tig
        [⟨tid, 0, true⟩, ⟨tid, toUInt32 tig._length, false⟩] =
        .ok { unitigs := st.unitigs ++ [some u], unitigSource := src } ∧
      (copyTig st.unitigs tig).1 = st.unitigs ++ [some u] ∧
      u.ufpath = tig.ufpath ∧
      u._isUnassembled = tig._isUnassembled ∧ u._isRepeat = tig._isRepeat := by
  obtain ⟨s, hs⟩ := splitTig_count_sentinels contigs tig tid hne hcnt hL hreads
  obtain ⟨u, hu, hpath, hid, hun, hrep⟩ := copyTig_spec st.unitigs tig
  have hsplit : ∃ src, splitContig dflt contigs st tig
      [⟨tid, 0, true⟩, ⟨tid, toUInt32 tig._length, false⟩] =
      .ok { unitigs := st.unitigs ++ [some u], unitigSource := src } := by
    unfold splitContig
    rw [hs]
    simp only [lt_irrefl, if_false, hu]
    have h1 : (st.unitigs ++ [some u])[st.unitigs.length]? = some (some u) := by simp
    simp only [List.range_succ, List.range_zero, List.nil_append, recordSources,
      List.getElem?_cons_zero, h1, hid, length_resize, List.length_append,
      List.length_singleton]
    rw [if_pos (by omega)]
    exact ⟨_, rfl⟩
  obtain ⟨src, hsrc⟩ := hsplit
  exact ⟨⟨s, hs⟩, u, src, hsrc, by rw [hu], hpath, hun, hrep⟩

/-- C8 at scenario A: the contig of length 1000 with reads [0,200], [150,400],
[380,600], [590,1000] and the sentinels only. -/
theorem single_piece_copy_witness :
    (∃ s, splitTig [some scenarioTig] scenarioTig
      [⟨0, 0, true⟩, ⟨0, toUInt32 scenarioTig._length, false⟩] false = .ok (1, s)) ∧
    ∃ u src,
      splitContig scenarioLoc [some scenarioTig] { unitigs := [], unitigSource := [] }
        scenarioTig [⟨0, 0, true⟩, ⟨0, toUInt32 scenarioTig._length, false⟩] =
        .ok { unitigs := [] ++ [some u], unitigSource := src } ∧
      (copyTig [] scenarioTig).1 = [] ++ [some u] ∧
      u.ufpath = scenarioTig.ufpath ∧
      u._isUnassembled = scenarioTig._isUnassembled ∧ u._isRepeat = scenarioTig._isRepeat :=
  single_piece_copy scenarioLoc [some scenarioTig] { unitigs := [], unitigSource := [] }
    scenarioTig 0 (by decide) (by decide) (by decide) (by decide)

/-! ## Piece selection -/

/-- C2: for a breakpoint list with at least two entries sorted by non-decreasing
position and a read with `BP[0].pos <= lo < hi <= BP[last].pos`, the scan finds
both `bgnBP` and `endBP`, the selection returns a piece `finBP` (so the assertion
`finBP != endBP` of the fallback branch does not fail), and
`bgnBP <= finBP <= endBP <= BP.size()-2`. -/
theorem piece_selection_total (BP : List breakPointEnd) (lo hi : Nat)
    (hlen : 2 ≤ BP.length) (hsize : BP.length < 2 ^ 32)
    (hsorted : BP.Pairwise (fun x y => x._pos ≤ y._pos))
    (hfirst : ∃ f, BP.head? = some f ∧ f._pos ≤ lo)
    (hlohi : lo < hi)
    (hlast : ∃ z, BP.getLast? = some z ∧ hi ≤ z._pos) :
    ∃ bgnBP endBP finBP,
      scanPieces lo hi BP 0 UINT32_MAX UINT32_MAX = (bgnBP, endBP) ∧
      (∃ p n, BP[bgnBP]? = some p ∧ BP[bgnBP + 1]? = some n ∧ p._pos ≤ lo ∧ lo < n._pos) ∧
      (∃ p n, BP[endBP]? = some p ∧ BP[endBP + 1]? = some n ∧ p._pos < hi ∧ hi ≤ n._pos) ∧
      selectPiece BP lo hi = .ok finBP ∧
      bgnBP ≤ finBP ∧ finBP ≤ endBP ∧ endBP ≤ BP.length - 2 := by
  obtain ⟨b, e, f, h1, h2, h3, h4, h5, h6, h7⟩ :=
    selectPiece_spec BP lo hi hlen hsize hsorted hfirst hlohi hlast
  exact ⟨b, e, f, h1, h2, h3, h4, h5, h6, by omega⟩

/-- C2 at the read [380,600] of scenario B, which takes the fallback branch. -/
theorem piece_selection_total_witness :
    selectPiece scenarioBP 380 600 = .ok 1 ∧
    ∃ bgnBP endBP finBP,
      scanPieces 380 600 scenarioBP 0 UINT32_MAX UINT32_MAX = (bgnBP, endBP) ∧
      (∃ p n, scenarioBP[bgnBP]? = some p ∧ scenarioBP[bgnBP + 1]? = some n ∧
        p._pos ≤ 380 ∧ 380 < n._pos) ∧
      (∃ p n, scenarioBP[endBP]? = some p ∧ scenarioBP[endBP + 1]? = some n ∧
        p._pos < 600 ∧ 600 ≤ n._pos) ∧
      selectPiece scenarioBP 380 600 = .ok finBP ∧
      bgnBP ≤ finBP ∧ finBP ≤ endBP ∧ endBP ≤ scenarioBP.length - 2 :=
  ⟨rfl,
   piece_selection_total scenarioBP 380 600 (by decide) (by decide) (by decide)
    ⟨_, rfl, by decide⟩ (by decide) ⟨_, rfl, by decide⟩⟩

/-! ## Scenario B and the provenance loop -/

/-- C9 as stated fails: in scenario B the split makes three units, and no unit
holds both read [380,600] (id 3) and read [590,1000] (id 4). -/
theorem scenarioB_reads_apart :
    ∃ st, walkBreaks scenarioLoc [some scenarioTig] scenarioBreaks.length
        (sortBreaks scenarioBreaks) { unitigs := [], unitigSource := [] } = .ok st ∧
      st.unitigs.length = 3 ∧
      ∀ u ∈ st.unitigs, ¬ (3 ∈ unitReadIds u ∧ 4 ∈ unitReadIds u) :=
  ⟨_, rfl, by decide, by decide⟩

/-- C9 amended: in scenario B, sorting, de-duplicating and splitting yields three
output pieces: reads [0,200] and [150,400] in the first; read [380,600] alone in
the second, the zero-width piece between the end and the begin boundary at 400,
rebased so that former position 380 becomes 0; read [590,1000] alone in the
third, rebased so that former position 590 becomes 0. -/
theorem scenarioB_three_pieces :
    sortBreaks scenarioBreaks = scenarioBP ∧
    buildBP [] scenarioBP = scenarioBP ∧
    walkBreaks scenarioLoc [some scenarioTig] scenarioBreaks.length
      (sortBreaks scenarioBreaks) { unitigs := [], unitigSource := [] } =
    .ok { unitigs :=
            [some ⟨0, [⟨1, ⟨0, 200⟩⟩, ⟨2, ⟨150, 400⟩⟩], 400, false, false⟩,
             some ⟨1, [⟨3, ⟨0, 220⟩⟩], 220, false, false⟩,
             some ⟨2, [⟨4, ⟨0, 410⟩⟩], 410, false, false⟩],
          unitigSource :=
            [⟨0, 0, 400, 0⟩, ⟨0, 380, 600, 1⟩, ⟨0, 590, 1000, 2⟩, scenarioLoc] } :=
  ⟨by decide, by decide, rfl⟩

/-- C3: a unit made by the move pass is left without a provenance record.  With
reads [0,200] and [590,1000] and the breakpoints of scenario B, pieces 0 and 2
are populated and piece 1 is not; the count pass returns 2, the loop over
`tt < nTigs` visits slots 0 and 1 only, and the record of unit 1 (made for piece
2) stays as default-constructed, whatever the default is. -/
theorem provenance_missed_after_hole (dflt : tigLoc) :
    (∃ s, splitTig [some gapTig] gapTig scenarioBP false = .ok (2, s)) ∧
    (∃ n s, splitTig [] gapTig scenarioBP true = .ok (n, s) ∧
      s.newTigs = [some 0, none, some 1, none, none, none]) ∧
    splitContig dflt [some gapTig] { unitigs := [], unitigSource := [] } gapTig scenarioBP =
    .ok { unitigs :=
            [some ⟨0, [⟨1, ⟨0, 200⟩⟩], 200, false, false⟩,
             some ⟨1, [⟨4, ⟨0, 410⟩⟩], 410, false, false⟩],
          unitigSource := [⟨0, 0, 200, 0⟩, dflt, dflt] } :=
  ⟨⟨_, rfl⟩, ⟨_, _, rfl, rfl⟩, rfl⟩

theorem pieceOf_eq_some {BP : List breakPointEnd} {rd : ufNode} {k : Nat} :
    pieceOf BP rd = some k ↔
      selectPiece BP (toUInt32 rd.position.min) (toUInt32 rd.position.max) = .ok k := by
  unfold pieceOf
  cases h : selectPiece BP (toUInt32 rd.position.min) (toUInt32 rd.position.max) with
  | error e => simp
  | ok j => simp

theorem pieceReads_snoc (BP : List breakPointEnd) (k : Nat) (done : List ufNode) (rd : ufNode) :
    pieceReads BP k (done ++ [rd]) =
      pieceReads BP k done ++ (if pieceOf BP rd = some k then [rd] else []) := by
  unfold pieceReads
  rw [List.filter_append]
  congr 1
  by_cases h : pieceOf BP rd = some k
  · simp [h]
  · simp [h]

theorem addRead_ufpath (u : Unitig) (rd : ufNode) (off : Int) :
    (u.addRead rd off).ufpath = u.ufpath ++ [shiftRead off rd] := rfl

theorem addRead_id (u : Unitig) (rd : ufNode) (off : Int) :
    (u.addRead rd off)._id = u._id := rfl

theorem addRead_isUnassembled (u : Unitig) (rd : ufNode) (off : Int) :
    (u.addRead rd off)._isUnassembled = u._isUnassembled := rfl

theorem addRead_isRepeat (u : Unitig) (rd : ufNode) (off : Int) :
    (u.addRead rd off)._isRepeat = u._isRepeat := rfl

theorem length_addReadAt (tigs : TigVector) (ptr : Nat) (rd : ufNode) (off : Int) :
    (addReadAt tigs ptr rd off).length = tigs.length := by
  unfold addReadAt
  simp

theorem getElem?_addReadAt_eq (tigs : TigVector) (ptr : Nat) (rd : ufNode) (off : Int)
    (u : Unitig) (h : tigs[ptr]? = some (some u)) :
    (addReadAt tigs ptr rd off)[ptr]? = some (some (u.addRead rd off)) := by
  unfold addReadAt
  rw [List.getElem?_modify_eq, h]
  rfl

theorem getElem?_addReadAt_ne (tigs : TigVector) (ptr q : Nat) (rd : ufNode) (off : Int)
    (h : ptr ≠ q) : (addReadAt tigs ptr rd off)[q]? = tigs[q]? := by
  unfold addReadAt
  exact List.getElem?_modify_ne _ _ h

theorem take_addReadAt (tigs : TigVector) (ptr n : Nat) (rd : ufNode) (off : Int)
    (h : n ≤ ptr) : (addReadAt tigs ptr rd off).take n = tigs.take n := by
  apply List.ext_getElem?
  intro i
  rw [List.getElem?_take, List.getElem?_take]
  by_cases hi : i < n
  · rw [if_pos hi, if_pos hi]
    exact getElem?_addReadAt_ne _ _ _ _ _ (by omega)
  · rw [if_neg hi, if_neg hi]

theorem readIds_append (a b : TigVector) : readIds (a ++ b) = readIds a ++ readIds b := by
  unfold readIds
  simp

theorem readIds_cons (x : Option Unitig) (b : TigVector) :
    readIds (x :: b) = unitReadIds x ++ readIds b := by
  unfold readIds
  simp

theorem readIds_addReadAt :
    ∀ (tigs : TigVector) (ptr : Nat) (rd : ufNode) (off : Int) (u : Unitig),
      tigs[ptr]? = some (some u) →
      (readIds (addReadAt tigs ptr rd off)).Perm (readIds tigs ++ [rd.ident]) := by
  intro tigs
  induction tigs with
  | nil => intro ptr rd off u h; simp at h
  | cons x more ih =>
    intro ptr rd off u h
    cases ptr with
    | zero =>
      simp only [List.getElem?_cons_zero, Option.some.injEq] at h
      subst h
      unfold addReadAt
      rw [List.modify_zero_cons, readIds_cons, readIds_cons]
      simp only [Option.map_some', unitReadIds, addRead_ufpath, List.map_append, List.map_cons,
        List.map_nil, List.append_assoc]
      apply List.Perm.append_left
      exact List.perm_append_comm
    | succ p =>
      simp only [List.getElem?_cons_succ] at h
      have := ih p rd off u h
      unfold addReadAt at this ⊢
      rw [List.modify_succ_cons, readIds_cons, readIds_cons, List.append_assoc]
      exact List.Perm.append_left _ this

theorem drop_addReadAt (tigs : TigVector) (ptr n : Nat) (rd : ufNode) (off : Int)
    (h : n ≤ ptr) :
    (addReadAt tigs ptr rd off).drop n = addReadAt (tigs.drop n) (ptr - n) rd off := by
  unfold addReadAt
  exact List.drop_modify_of_ge _ _ _ _ h

theorem moveInv_init (BP : List breakPointEnd) (old : TigVector) (nm : List Nat) :
    MoveInv BP old []
      { tigs := old, newTigs := List.replicate (BP.length + 2) none,
        lowCoord := List.replicate (BP.length + 2) INT32_MAX, nMoved := nm } where
  newTigs_length := by simp
  lowCoord_length := by simp
  old_kept := by simp
  old_le := le_refl _
  empty_slot := by intro k _; rfl
  full_slot := by
    intro k ptr h
    simp only [List.getElem?_replicate] at h
    split at h <;> simp at h
  slot_inj := by
    intro k1 k2 ptr h
    simp only [List.getElem?_replicate] at h
    split at h <;> simp at h
  slot_surj := by
    intro ptr h1 h2
    simp only at h2
    omega
  covered := by simp [readIds]

/-- One iteration of the move pass that opens a new unit. -/
theorem moveInv_step_new {BP : List breakPointEnd} {old : TigVector} {done : List ufNode}
    {st : SplitState} (hinv : MoveInv BP old done st) (rd : ufNode) (k : Nat)
    (hk : pieceOf BP rd = some k) (hslot : st.newTigs[k]? = some none) :
    MoveInv BP old (done ++ [rd])
      { st with tigs := addReadAt (newUnitig st.tigs).1 (newUnitig st.tigs).2 rd
                          (- rd.position.min),
                newTigs := st.newTigs.set k (some (newUnitig st.tigs).2),
                lowCoord := st.lowCoord.set k rd.position.min } := by
  have hklt : k < st.newTigs.length := by
    rcases Nat.lt_or_ge k st.newTigs.length with h | h
    · exact h
    · rw [List.getElem?_eq_none h] at hslot; cases hslot
  have htigs : addReadAt (newUnitig st.tigs).1 (newUnitig st.tigs).2 rd (- rd.position.min)
      = st.tigs ++ [some ((freshUnitig st.tigs.length).addRead rd (- rd.position.min))] := by
    unfold newUnitig
    exact addReadAt_last _ _ _ _
  have hother : ∀ k', k' ≠ k → pieceReads BP k' (done ++ [rd]) = pieceReads BP k' done := by
    intro k' hne
    rw [pieceReads_snoc, if_neg (by rw [hk]; intro h; exact hne (Option.some.inj h).symm)]
    simp
  have hnew : ∀ k', k' ≠ k →
      (st.newTigs.set k (some (newUnitig st.tigs).2))[k']? = st.newTigs[k']? := by
    intro k' hne
    exact List.getElem?_set_ne (Ne.symm hne)
  have hat : (st.newTigs.set k (some (newUnitig st.tigs).2))[k]? = some (some st.tigs.length) := by
    rw [List.getElem?_set_self hklt]
    rfl
  rw [htigs]
  refine
    { newTigs_length := by simp [hinv.newTigs_length]
      lowCoord_length := by simp [hinv.lowCoord_length]
      old_kept := ?_
      old_le := ?_
      empty_slot := ?_
      full_slot := ?_
      slot_inj := ?_
      slot_surj := ?_
      covered := ?_ }
  · show (st.tigs ++ _).take old.length = old
    rw [List.take_append_of_le_length hinv.old_le]
    exact hinv.old_kept
  · show old.length ≤ (st.tigs ++ _).length
    have := hinv.old_le
    simp only [List.length_append, List.length_singleton]
    omega
  · intro k' h
    have hne : k' ≠ k := by
      intro he
      subst he
      rw [hat] at h
      cases h
    rw [hother k' hne]
    rw [hnew k' hne] at h
    exact hinv.empty_slot k' h
  · intro k' ptr h
    by_cases he : k' = k
    · subst he
      rw [hat] at h
      simp only [Option.some.injEq] at h
      subst h
      refine ⟨hinv.old_le, (freshUnitig st.tigs.length).addRead rd (- rd.position.min), rd, [],
        ?_, rfl, rfl, rfl, ?_, ?_, ?_⟩
      · show (st.tigs ++ _)[st.tigs.length]? = _
        simp
      · rw [pieceReads_snoc, hinv.empty_slot k' hslot, if_pos hk]
        rfl
      · show (st.lowCoord.set k' rd.position.min)[k']? = _
        rw [List.getElem?_set_self (by rw [hinv.lowCoord_length, ← hinv.newTigs_length]; exact hklt)]
      · rw [pieceReads_snoc, hinv.empty_slot k' hslot, if_pos hk]
        rfl
    · rw [hnew k' he] at h
      obtain ⟨h1, u, first, rest, h2, h3, h4, h5, h6, h7, h8⟩ := hinv.full_slot k' ptr h
      have hplt : ptr < st.tigs.length := (List.getElem?_eq_some_iff.1 h2).1
      refine ⟨h1, u, first, rest, ?_, h3, h4, h5, ?_, ?_, ?_⟩
      · show (st.tigs ++ _)[ptr]? = _
        rw [List.getElem?_append_left hplt]
        exact h2
      · rw [hother k' he]; exact h6
      · show (st.lowCoord.set k rd.position.min)[k']? = _
        rw [List.getElem?_set_ne (Ne.symm he)]
        exact h7
      · rw [hother k' he]; exact h8
  · intro k1 k2 ptr h1 h2
    have hfresh : ∀ k', k' ≠ k → st.newTigs[k']? = some (some ptr) → ptr < st.tigs.length := by
      intro k' _ h
      obtain ⟨_, u, _, _, h2, _⟩ := hinv.full_slot k' ptr h
      exact (List.getElem?_eq_some_iff.1 h2).1
    by_cases e1 : k1 = k
    · by_cases e2 : k2 = k
      · rw [e1, e2]
      · subst e1
        rw [hat] at h1
        simp only [Option.some.injEq] at h1
        rw [hnew k2 e2] at h2
        have := hfresh k2 e2 h2
        omega
    · by_cases e2 : k2 = k
      · subst e2
        rw [hat] at h2
        simp only [Option.some.injEq] at h2
        rw [hnew k1 e1] at h1
        have := hfresh k1 e1 h1
        omega
      · rw [hnew k1 e1] at h1
        rw [hnew k2 e2] at h2
        exact hinv.slot_inj k1 k2 ptr h1 h2
  · intro ptr h1 h2
    simp only [List.length_append, List.length_singleton] at h2
    by_cases he : ptr = st.tigs.length
    · exact ⟨k, by rw [hat, he]⟩
    · obtain ⟨k', hk'⟩ := hinv.slot_surj ptr h1 (by omega)
      have hne : k' ≠ k := by
        intro e
        subst e
        rw [hslot] at hk'
        cases hk'
      exact ⟨k', by rw [hnew k' hne]; exact hk'⟩
  · show (readIds ((st.tigs ++ _).drop old.length)).Perm _
    rw [List.drop_append_of_le_length hinv.old_le, readIds_append, List.map_append]
    apply List.Perm.append hinv.covered
    simp [readIds, unitReadIds, addRead_ufpath, shiftRead, freshUnitig]

/-- One iteration of the move pass that adds to a unit made earlier. -/
theorem moveInv_step_old {BP : List breakPointEnd} {old : TigVector} {done : List ufNode}
    {st : SplitState} (hinv : MoveInv BP old done st) (rd : ufNode) (k ptr : Nat)
    (hk : pieceOf BP rd = some k) (hslot : st.newTigs[k]? = some (some ptr)) :
    ∃ low, st.lowCoord[k]? = some low ∧
      MoveInv BP old (done ++ [rd]) { st with tigs := addReadAt st.tigs ptr rd (- low) } := by
  obtain ⟨hple, u, first, rest, hu, hid, hun, hrep, hpr, hlow, hpath⟩ :=
    hinv.full_slot k ptr hslot
  refine ⟨first.position.min, hlow, ?_⟩
  have hother : ∀ k', k' ≠ k → pieceReads BP k' (done ++ [rd]) = pieceReads BP k' done := by
    intro k' hne
    rw [pieceReads_snoc, if_neg (by rw [hk]; intro h; exact hne (Option.some.inj h).symm)]
    simp
  refine
    { newTigs_length := hinv.newTigs_length
      lowCoord_length := hinv.lowCoord_length
      old_kept := ?_
      old_le := ?_
      empty_slot := ?_
      full_slot := ?_
      slot_inj := hinv.slot_inj
      slot_surj := ?_
      covered := ?_ }
  · show (addReadAt st.tigs ptr rd _).take old.length = old
    rw [take_addReadAt _ _ _ _ _ hple]
    exact hinv.old_kept
  · show old.length ≤ (addReadAt st.tigs ptr rd _).length
    rw [length_addReadAt]
    exact hinv.old_le
  · intro k' h
    have h' : st.newTigs[k']? = some none := h
    have hne : k' ≠ k := by
      intro he
      subst he
      rw [hslot] at h'
      cases h'
    rw [hother k' hne]
    exact hinv.empty_slot k' h'
  · intro k' ptr' h
    have h' : st.newTigs[k']? = some (some ptr') := h
    by_cases he : k' = k
    · subst he
      rw [hslot] at h'
      simp only [Option.some.injEq] at h'
      subst h'
      refine ⟨hple, u.addRead rd (- first.position.min), first, rest ++ [rd], ?_, ?_, ?_, ?_,
        ?_, hlow, ?_⟩
      · exact getElem?_addReadAt_eq _ _ _ _ _ hu
      · rw [addRead_id]; exact hid
      · rw [addRead_isUnassembled]; exact hun
      · rw [addRead_isRepeat]; exact hrep
      · rw [pieceReads_snoc, if_pos hk, hpr]
        rfl
      · rw [addRead_ufpath, hpath, pieceReads_snoc, if_pos hk, List.map_append]
        rfl
    · obtain ⟨h1, u', first', rest', h2, h3, h4, h5, h6, h7, h8⟩ := hinv.full_slot k' ptr' h'
      have hpne : ptr ≠ ptr' := by
        intro e
        subst e
        exact he (hinv.slot_inj k' k ptr h' hslot)
      refine ⟨h1, u', first', rest', ?_, h3, h4, h5, ?_, h7, ?_⟩
      · show (addReadAt st.tigs ptr rd _)[ptr']? = _
        rw [getElem?_addReadAt_ne _ _ _ _ _ hpne]
        exact h2
      · rw [hother k' he]; exact h6
      · rw [hother k' he]; exact h8
  · intro p h1 h2
    have h2' : p < (addReadAt st.tigs ptr rd (- first.position.min)).length := h2
    rw [length_addReadAt] at h2'
    exact hinv.slot_surj p h1 h2'
  · show (readIds ((addReadAt st.tigs ptr rd _).drop old.length)).Perm _
    rw [drop_addReadAt _ _ _ _ _ hple, List.map_append]
    have hu' : (st.tigs.drop old.length)[ptr - old.length]? = some (some u) := by
      rw [List.getElem?_drop]
      rw [show old.length + (ptr - old.length) = ptr by omega]
      exact hu
    exact (readIds_addReadAt _ _ rd _ u hu').trans (List.Perm.append hinv.covered (List.Perm.refl _))

/-- One iteration of the move pass, for a read whose piece selection succeeds
within the arrays. -/
theorem moveInv_step {BP : List breakPointEnd} {old : TigVector} {done : List ufNode}
    {st : SplitState} (hinv : MoveInv BP old done st) (rd : ufNode) (k : Nat)
    (hk : pieceOf BP rd = some k) (hlt : k < BP.length + 2) :
    ∃ st', splitTigRead BP true st rd = .ok st' ∧ MoveInv BP old (done ++ [rd]) st' := by
  have hsel := pieceOf_eq_some.1 hk
  have hklt : k < st.newTigs.length := by rw [hinv.newTigs_length]; exact hlt
  unfold splitTigRead
  rw [hsel]
  simp only [if_true]
  cases hslot : st.newTigs[k]? with
  | none =>
    rw [List.getElem?_eq_none_iff] at hslot
    omega
  | some slot =>
    cases slot with
    | none => exact ⟨_, rfl, moveInv_step_new hinv rd k hk hslot⟩
    | some ptr =>
      obtain ⟨low, hlow, h⟩ := moveInv_step_old hinv rd k ptr hk hslot
      simp only [hlow]
      exact ⟨_, rfl, h⟩

/-- A successful iteration of the move pass selected a piece within the arrays. -/
theorem piece_of_move_ok {BP : List breakPointEnd} {old : TigVector} {done : List ufNode}
    {st st' : SplitState} (hinv : MoveInv BP old done st) (rd : ufNode)
    (h : splitTigRead BP true st rd = .ok st') :
    ∃ k, pieceOf BP rd = some k ∧ k < BP.length + 2 := by
  unfold splitTigRead at h
  cases hsel : selectPiece BP (toUInt32 rd.position.min) (toUInt32 rd.position.max) with
  | error e => rw [hsel] at h; cases h
  | ok k =>
    refine ⟨k, pieceOf_eq_some.2 hsel, ?_⟩
    rw [hsel] at h
    simp only [if_true] at h
    rw [← hinv.newTigs_length]
    by_contra hge
    rw [List.getElem?_eq_none (by omega)] at h
    cases h

/-- The move pass runs through when every read selects a piece within the
arrays, and its final state satisfies the invariant for all the reads. -/
theorem moveLoop_total (BP : List breakPointEnd) (old : TigVector) :
    ∀ (reads done : List ufNode) (st : SplitState), MoveInv BP old done st →
      (∀ rd ∈ reads, ∃ k, pieceOf BP rd = some k ∧ k < BP.length + 2) →
      ∃ st', splitTigLoop BP true st reads = .ok st' ∧ MoveInv BP old (done ++ reads) st' := by
  intro reads
  induction reads with
  | nil =>
    intro done st hinv _
    exact ⟨st, rfl, by rw [List.append_nil]; exact hinv⟩
  | cons rd more ih =>
    intro done st hinv hall
    obtain ⟨k, hk, hlt⟩ := hall rd (List.mem_cons_self _ _)
    obtain ⟨st1, h1, hinv1⟩ := moveInv_step hinv rd k hk hlt
    obtain ⟨st2, h2, hinv2⟩ := ih (done ++ [rd]) st1 hinv1
      (fun r hr => hall r (List.mem_cons_of_mem _ hr))
    refine ⟨st2, ?_, ?_⟩
    · unfold splitTigLoop
      rw [h1]
      exact h2
    · rw [List.append_assoc] at hinv2
      exact hinv2

/-- A move pass that ran through leaves the invariant for all the reads, and
every read selected a piece within the arrays. -/
theorem moveLoop_ok (BP : List breakPointEnd) (old : TigVector) :
    ∀ (reads done : List ufNode) (st st' : SplitState), MoveInv BP old done st →
      splitTigLoop BP true st reads = .ok st' →
      MoveInv BP old (done ++ reads) st' ∧
      ∀ rd ∈ reads, ∃ k, pieceOf BP rd = some k ∧ k < BP.length + 2 := by
  intro reads
  induction reads with
  | nil =>
    intro done st st' hinv h
    unfold splitTigLoop at h
    cases h
    exact ⟨by rw [List.append_nil]; exact hinv, by intro rd hrd; cases hrd⟩
  | cons rd more ih =>
    intro done st st' hinv h
    unfold splitTigLoop at h
    cases h1 : splitTigRead BP true st rd with
    | error e => rw [h1] at h; cases h
    | ok st1 =>
      rw [h1] at h
      obtain ⟨k, hk, hlt⟩ := piece_of_move_ok hinv rd h1
      obtain ⟨st1', h1', hinv1⟩ := moveInv_step hinv rd k hk hlt
      rw [h1] at h1'
      cases h1'
      obtain ⟨hinv2, hall⟩ := ih (done ++ [rd]) st1 st' hinv1 h
      refine ⟨by rw [List.append_assoc] at hinv2; exact hinv2, ?_⟩
      intro r hr
      rcases List.mem_cons.1 hr with e | e
      · subst e; exact ⟨k, hk, hlt⟩
      · exact hall r e

/-- The move pass of `splitTig` on reads that all select a piece. -/
theorem splitTig_move_total (tigs : TigVector) (tig : Unitig) (BP : List breakPointEnd)
    (hall : ∀ rd ∈ tig.ufpath, ∃ k, pieceOf BP rd = some k ∧ k < BP.length + 2) :
    ∃ st', splitTig tigs tig BP true = .ok (0, st') ∧ MoveInv BP tigs tig.ufpath st' := by
  obtain ⟨st', h, hinv⟩ := moveLoop_total BP tigs tig.ufpath [] _ (moveInv_init BP tigs []) hall
  refine ⟨st', ?_, by simpa using hinv⟩
  unfold splitTig
  simp only [if_true, Bool.true_eq_false, if_false]
  rw [h]

/-- A move pass of `splitTig` that returned. -/
theorem splitTig_move_ok (tigs : TigVector) (tig : Unitig) (BP : List breakPointEnd)
    (n : Nat) (st' : SplitState) (h : splitTig tigs tig BP true = .ok (n, st')) :
    MoveInv BP tigs tig.ufpath st' ∧
    ∀ rd ∈ tig.ufpath, ∃ k, pieceOf BP rd = some k ∧ k < BP.length + 2 := by
  unfold splitTig at h
  simp only [if_true, Bool.true_eq_false, if_false] at h
  cases hl : splitTigLoop BP true
      { tigs := tigs, newTigs := List.replicate (BP.length + 2) none,
        lowCoord := List.replicate (BP.length + 2) INT32_MAX, nMoved := [] } tig.ufpath with
  | error e => rw [hl] at h; cases h
  | ok s =>
    rw [hl] at h
    simp only [Except.ok.injEq, Prod.mk.injEq] at h
    obtain ⟨_, rfl⟩ := h
    have := moveLoop_ok BP tigs tig.ufpath [] _ s (moveInv_init BP tigs []) hl
    simpa using this

/-- The count pass runs through when every read selects a piece within the array. -/
theorem countLoop_total (BP : List breakPointEnd) :
    ∀ (reads : List ufNode) (st : SplitState), st.nMoved.length = BP.length + 2 →
      (∀ rd ∈ reads, ∃ k, pieceOf BP rd = some k ∧ k < BP.length + 2) →
      ∃ st', splitTigLoop BP false st reads = .ok st' ∧
        st'.nMoved.length = BP.length + 2 := by
  intro reads
  induction reads with
  | nil => intro st h _; exact ⟨st, rfl, h⟩
  | cons rd more ih =>
    intro st hlen hall
    obtain ⟨k, hk, hlt⟩ := hall rd (List.mem_cons_self _ _)
    have hsel := pieceOf_eq_some.1 hk
    have hget : st.nMoved[k]? = some st.nMoved[k] := List.getElem?_eq_getElem (by omega)
    have hstep : splitTigRead BP false st rd =
        .ok { st with nMoved := st.nMoved.set k ((st.nMoved[k] + 1) % 2 ^ 32) } := by
      unfold splitTigRead
      rw [hsel]
      simp only [Bool.false_eq_true, if_false, hget]
    obtain ⟨st', h', hl'⟩ := ih { st with nMoved := st.nMoved.set k ((st.nMoved[k] + 1) % 2 ^ 32) }
      (by simp [hlen]) (fun r hr => hall r (List.mem_cons_of_mem _ hr))
    refine ⟨st', ?_, hl'⟩
    unfold splitTigLoop
    rw [hstep]
    exact h'

theorem splitTig_count_total (tigs : TigVector) (tig : Unitig) (BP : List breakPointEnd)
    (hall : ∀ rd ∈ tig.ufpath, ∃ k, pieceOf BP rd = some k ∧ k < BP.length + 2) :
    ∃ n st', splitTig tigs tig BP false = .ok (n, st') ∧ n ≤ BP.length := by
  obtain ⟨st', h, _⟩ := countLoop_total BP tig.ufpath
    { tigs := tigs, newTigs := [], lowCoord := [],
      nMoved := List.replicate (BP.length + 2) 0 } (by simp) hall
  refine ⟨((st'.nMoved.take BP.length).filter (fun c => 0 < c)).length, st', ?_, ?_⟩
  · unfold splitTig
    simp only [Bool.false_eq_true, if_false, if_true]
    rw [h]
  · exact (List.length_filter_le _ _).trans (by simp)

/-! ## Lemmas on the split step of `createUnitigs` -/

theorem recordSources_ok (unitigs : TigVector) (tig : Unitig) (newTigs : List (Option Nat))
    (lowCoord : List Int) :
    ∀ (tts : List Nat) (src : List tigLoc), src.length = unitigs.length + 1 →
      (∀ tt ∈ tts, tt < newTigs.length ∧
        ∀ ptr, newTigs[tt]? = some (some ptr) →
          ∃ u low, unitigs[ptr]? = some (some u) ∧ lowCoord[tt]? = some low ∧ u._id = ptr) →
      ∃ src', recordSources unitigs tig newTigs lowCoord tts src = .ok src' ∧
        src'.length = unitigs.length + 1 := by
  intro tts
  induction tts with
  | nil => intro src h _; exact ⟨src, rfl, h⟩
  | cons tt more ih =>
    intro src hlen hall
    obtain ⟨hlt, hptr⟩ := hall tt (List.mem_cons_self _ _)
    have hmore := fun t ht => hall t (List.mem_cons_of_mem _ ht)
    unfold recordSources
    rw [List.getElem?_eq_getElem hlt]
    cases hslot : newTigs[tt] with
    | none => exact ih src hlen hmore
    | some ptr =>
      obtain ⟨u, low, hu, hlow, hid⟩ := hptr ptr (by rw [List.getElem?_eq_getElem hlt, hslot])
      have hplt : ptr < unitigs.length := (List.getElem?_eq_some_iff.1 hu).1
      simp only [hu, hlow]
      rw [if_pos (by omega)]
      exact ih _ (by simp [hlen]) hmore

/-- The split step for one contig runs through when every read selects a piece,
and the units it appends hold exactly the reads of the contig. -/
theorem splitContig_covers (dflt : tigLoc) (contigs : TigVector) (st : CreateState)
    (tig : Unitig) (BP : List breakPointEnd)
    (hall : ∀ rd ∈ tig.ufpath, ∃ k, pieceOf BP rd = some k ∧ k < BP.length + 2) :
    ∃ st' new, splitContig dflt contigs st tig BP = .ok st' ∧
      st'.unitigs = st.unitigs ++ new ∧
      (readIds new).Perm (tig.ufpath.map (fun rd => rd.ident)) := by
  obtain ⟨n, s, hcount, hn⟩ := splitTig_count_total contigs tig BP hall
  unfold splitContig
  rw [hcount]
  simp only
  by_cases hsplit : 1 < n
  · rw [if_pos hsplit]
    obtain ⟨m, hmove, hinv⟩ := splitTig_move_total st.unitigs tig BP hall
    rw [hmove]
    simp only
    obtain ⟨src', hsrc, _⟩ := recordSources_ok m.tigs tig m.newTigs m.lowCoord (List.range n)
      (resize dflt st.unitigSource (m.tigs.length + 1)) (length_resize _ _ _) (by
        intro tt htt
        rw [List.mem_range] at htt
        refine ⟨by rw [hinv.newTigs_length]; omega, ?_⟩
        intro ptr hptr
        obtain ⟨_, u, first, _, hu, hid, _, _, _, hlow, _⟩ := hinv.full_slot tt ptr hptr
        exact ⟨u, _, hu, hlow, hid⟩)
    rw [hsrc]
    refine ⟨_, m.tigs.drop st.unitigs.length, rfl, ?_, hinv.covered⟩
    show m.tigs = st.unitigs ++ m.tigs.drop st.unitigs.length
    conv_lhs => rw [← List.take_append_drop st.unitigs.length m.tigs, hinv.old_kept]
  · rw [if_neg hsplit]
    obtain ⟨u, hu, hpath, hid, _, _⟩ := copyTig_spec st.unitigs tig
    rw [hu]
    simp only
    obtain ⟨src', hsrc, _⟩ := recordSources_ok (st.unitigs ++ [some u]) tig
      [some st.unitigs.length] [0] (List.range n)
      (resize dflt st.unitigSource ((st.unitigs ++ [some u]).length + 1)) (length_resize _ _ _) (by
        intro tt htt
        rw [List.mem_range] at htt
        have h0 : tt = 0 := by omega
        subst h0
        refine ⟨by simp, ?_⟩
        intro ptr hptr
        simp only [List.getElem?_cons_zero, Option.some.injEq] at hptr
        subst hptr
        exact ⟨u, 0, by simp, rfl, hid⟩)
    rw [hsrc]
    refine ⟨_, [some u], rfl, rfl, ?_⟩
    simp [readIds, unitReadIds, hpath]

/-! ## Lemmas on the breakpoint list `createUnitigs` builds -/

/-- What the de-duplication keeps is a sub-list of the run, starting with the
first breakpoint of the run. -/
theorem buildBP_sublist :
    ∀ (run acc : List breakPointEnd),
      ∃ kept, buildBP acc run = acc ++ kept ∧ kept.Sublist run ∧
        (acc = [] → kept.head? = run.head?) := by
  intro run
  induction run with
  | nil => intro acc; exact ⟨[], by simp [buildBP], List.Sublist.refl _, fun _ => rfl⟩
  | cons b more ih =>
    intro acc
    unfold buildBP
    cases hback : acc.getLast? with
    | none =>
      obtain ⟨kept, h1, h2, _⟩ := ih (acc ++ [b])
      refine ⟨b :: kept, ?_, h2.cons₂ b, fun _ => rfl⟩
      simp only [h1, List.append_assoc, List.singleton_append]
    | some back =>
      simp only
      by_cases hd : back._pos ≠ b._pos ∨ back._bgn ≠ b._bgn
      · rw [if_pos hd]
        obtain ⟨kept, h1, h2, _⟩ := ih (acc ++ [b])
        refine ⟨b :: kept, ?_, h2.cons₂ b, ?_⟩
        · simp only [h1, List.append_assoc, List.singleton_append]
        · intro he; subst he; simp at hback
      · rw [if_neg hd]
        obtain ⟨kept, h1, h2, _⟩ := ih acc
        refine ⟨kept, h1, h2.cons b, ?_⟩
        intro he; subst he; simp at hback

/-- The de-duplication keeps the position and the flag of the last breakpoint. -/
theorem buildBP_last :
    ∀ (run acc : List breakPointEnd),
      (buildBP acc run).getLast?.map (fun z => (z._pos, z._bgn)) =
        (acc ++ run).getLast?.map (fun z => (z._pos, z._bgn)) := by
  intro run
  induction run with
  | nil => intro acc; simp [buildBP]
  | cons b more ih =>
    intro acc
    unfold buildBP
    cases hback : acc.getLast? with
    | none =>
      simp only
      rw [ih (acc ++ [b]), List.append_assoc]
      rfl
    | some back =>
      simp only
      by_cases hd : back._pos ≠ b._pos ∨ back._bgn ≠ b._bgn
      · rw [if_pos hd, ih (acc ++ [b]), List.append_assoc]
        rfl
      · rw [if_neg hd, ih acc]
        have h1 : back._pos = b._pos := by
          by_contra h; exact hd (Or.inl h)
        have h2 : back._bgn = b._bgn := by
          by_contra h; exact hd (Or.inr h)
        cases more with
        | nil =>
          rw [List.append_nil, hback, List.getLast?_concat]
          simp [h1, h2]
        | cons c m =>
          rw [List.getLast?_append, List.getLast?_append, List.getLast?_cons_cons]

theorem rel_head_of_pairwise {α : Type} {R : α → α → Prop} {l : List α} {f x : α}
    (hp : l.Pairwise R) (hf : l.head? = some f) (hx : x ∈ l) : x = f ∨ R f x := by
  cases l with
  | nil => cases hx
  | cons a tl =>
    simp only [List.head?_cons, Option.some.injEq] at hf
    subst hf
    rcases List.mem_cons.1 hx with h | h
    · exact Or.inl h
    · exact Or.inr ((List.pairwise_cons.1 hp).1 x h)

theorem rel_last_of_pairwise {α : Type} {R : α → α → Prop} {l : List α} {z x : α}
    (hp : l.Pairwise R) (hz : l.getLast? = some z) (hx : x ∈ l) : x = z ∨ R x z := by
  obtain ⟨ys, rfl⟩ := List.getLast?_eq_some_iff.1 hz
  rcases List.mem_append.1 hx with h | h
  · exact Or.inr ((List.pairwise_append.1 hp).2.2 x h z (List.mem_singleton_self z))
  · exact Or.inl (List.mem_singleton.1 h)

/-- Within one contig, a breakpoint that is not less than another one does not
lie at a smaller position. -/
theorem pos_le_of_not_lt_same_tig {a b : breakPointEnd} (ht : a._tigID = b._tigID)
    (ha : a._pos < 2 ^ 32) (hb : b._pos < 2 ^ 32) (h : b.lt a = false) :
    a._pos ≤ b._pos := by
  have hk := key_le_of_not_lt h
  rw [key_closed_form, key_closed_form, ht, Nat.mod_eq_of_lt ha, Nat.mod_eq_of_lt hb] at hk
  have h1 : (if b._bgn = true then 1 else 0) ≤ 1 := by split <;> omega
  omega

/-- The list `createUnitigs` builds for one contig from a sorted run holding the
two sentinels: sorted by position, starting at position 0 and ending at or
after the contig length. -/
theorem builtBP_wellformed (tid len : Nat) (extra run : List breakPointEnd)
    (hextra : ∀ x ∈ extra, x._tigID = tid ∧ x._pos < 2 ^ 32)
    (hlen : len < 2 ^ 32) (hsize : extra.length + 2 < 2 ^ 32)
    (hsort : IsSortOf ([⟨tid, 0, true⟩, ⟨tid, len, false⟩] ++ extra) run) :
    (buildBP [] run).Pairwise (fun x y => x._pos ≤ y._pos) ∧
    (buildBP [] run).length < 2 ^ 32 ∧
    (∃ f, (buildBP [] run).head? = some f ∧ f._pos = 0) ∧
    (∃ z, (buildBP [] run).getLast? = some z ∧ len ≤ z._pos) := by
  obtain ⟨hperm, hpw⟩ := hsort
  have hmem : ∀ x ∈ run, x._tigID = tid ∧ x._pos < 2 ^ 32 := by
    intro x hx
    have hx' := hperm.mem_iff.1 hx
    simp only [List.cons_append, List.nil_append, List.mem_cons] at hx'
    rcases hx' with h | h | h
    · subst h; exact ⟨rfl, by norm_num⟩
    · subst h; exact ⟨rfl, hlen⟩
    · exact hextra x h
  have hrun : run.Pairwise (fun x y => x._pos ≤ y._pos) := by
    refine hpw.imp_of_mem ?_
    intro a b ha hb h
    exact pos_le_of_not_lt_same_tig ((hmem a ha).1.trans (hmem b hb).1.symm)
      (hmem a ha).2 (hmem b hb).2 h
  have hrunlen : run.length = extra.length + 2 := by
    rw [hperm.length_eq]
    simp
  have h0 : (⟨tid, 0, true⟩ : breakPointEnd) ∈ run := hperm.mem_iff.2 (by simp)
  have hL : (⟨tid, len, false⟩ : breakPointEnd) ∈ run := hperm.mem_iff.2 (by simp)
  obtain ⟨kept, hk, hsub, hhead⟩ := buildBP_sublist run []
  rw [List.nil_append] at hk
  have hlast := buildBP_last run []
  rw [List.nil_append] at hlast
  rw [hk] at hlast ⊢
  refine ⟨hrun.sublist hsub, ?_, ?_, ?_⟩
  · have := hsub.length_le
    omega
  · cases hr : run.head? with
    | none =>
      rw [List.head?_eq_none_iff] at hr
      rw [hr] at hrunlen
      simp at hrunlen
    | some f =>
      refine ⟨f, by rw [hhead rfl, hr], ?_⟩
      rcases rel_head_of_pairwise hrun hr h0 with h | h
      · rw [← h]
      · simpa using h
  · cases hr : run.getLast? with
    | none =>
      rw [List.getLast?_eq_none_iff] at hr
      rw [hr] at hrunlen
      simp at hrunlen
    | some z =>
      rw [hr] at hlast
      cases hkl : kept.getLast? with
      | none => rw [hkl] at hlast; simp at hlast
      | some z' =>
        rw [hkl] at hlast
        simp only [Option.map_some', Option.some.injEq, Prod.mk.injEq] at hlast
        refine ⟨z', rfl, ?_⟩
        rw [hlast.1]
        rcases rel_last_of_pairwise hrun hr hL with h | h
        · rw [← h]
        · exact h

/-- On a list sorted by position that starts at 0 and ends at or after the
contig length, every read inside the contig selects a piece of the list. -/
theorem read_selects (BP : List breakPointEnd) (rd : ufNode) (L : Int)
    (hL : L ≤ INT32_MAX)
    (hrd : 0 ≤ rd.position.min ∧ rd.position.min < rd.position.max ∧ rd.position.max ≤ L)
    (hsorted : BP.Pairwise (fun x y => x._pos ≤ y._pos)) (hsize : BP.length < 2 ^ 32)
    (hfirst : ∃ f, BP.head? = some f ∧ f._pos = 0)
    (hlast : ∃ z, BP.getLast? = some z ∧ toUInt32 L ≤ z._pos) :
    ∃ k, pieceOf BP rd = some k ∧ k + 2 ≤ BP.length := by
  obtain ⟨e1, e2, e3, e4, e5⟩ := read_span_in_range hL hrd
  obtain ⟨f, hf, hf0⟩ := hfirst
  obtain ⟨z, hz, hzL⟩ := hlast
  have hlen : 2 ≤ BP.length := by
    cases BP with
    | nil => simp at hf
    | cons a tl =>
      cases tl with
      | nil =>
        simp only [List.head?_cons, Option.some.injEq, List.getLast?_singleton] at hf hz
        subst hf
        subst hz
        omega
      | cons b tl' => simp
  obtain ⟨b, e, k, _, _, _, hsel, _, hke, hee⟩ :=
    selectPiece_spec BP (toUInt32 rd.position.min) (toUInt32 rd.position.max) hlen hsize hsorted
      ⟨f, hf, by omega⟩ (by omega) ⟨z, hz, by omega⟩
  exact ⟨k, pieceOf_eq_some.2 hsel, by omega⟩

theorem toUInt32_lt (x : Int) : toUInt32 x < 2 ^ 32 := by
  unfold toUInt32
  have h1 : 0 ≤ x % 2 ^ 32 := Int.emod_nonneg _ (by norm_num)
  have h2 : x % 2 ^ 32 < 2 ^ 32 := Int.emod_lt_of_pos _ (by norm_num)
  omega

/-- Every read of a contig selects a piece of the list `createUnitigs` builds for
the contig from a sorted run of its breakpoints. -/
theorem builtBP_selects (tig : Unitig) (tid : Nat) (extra run : List breakPointEnd)
    (hL : tig._length ≤ INT32_MAX)
    (hreads : ∀ rd ∈ tig.ufpath, 0 ≤ rd.position.min ∧
      rd.position.min < rd.position.max ∧ rd.position.max ≤ tig._length)
    (hextra : ∀ x ∈ extra, x._tigID = tid ∧ x._pos < 2 ^ 32)
    (hsize : extra.length + 2 < 2 ^ 32)
    (hsort : IsSortOf ([⟨tid, 0, true⟩, ⟨tid, toUInt32 tig._length, false⟩] ++ extra) run) :
    ∀ rd ∈ tig.ufpath, ∃ k, pieceOf (buildBP [] run) rd = some k ∧
      k < (buildBP [] run).length + 2 := by
  obtain ⟨h1, h2, h3, h4⟩ :=
    builtBP_wellformed tid (toUInt32 tig._length) extra run hextra (toUInt32_lt _) hsize hsort
  intro rd hrd
  obtain ⟨k, hk, hlt⟩ := read_selects (buildBP [] run) rd tig._length hL (hreads rd hrd) h1 h2 h3 h4
  exact ⟨k, hk, by omega⟩

/-! ## Coverage at the split step -/

/-- C1: for a contig whose reads all satisfy `0 <= min < max <= length`, and the
list `BP` that `createUnitigs` builds for it by de-duplicating a sorted run made
of its two sentinels and any further breakpoints of the contig, the split step
(count pass, then move pass when the count exceeds 1, otherwise `copyTig`) runs
through and the units it appends hold, taken together, exactly the read ids of
the contig: the list of their read ids is a rearrangement of the list of the
contig's read ids, so no read is lost and none is duplicated. -/
theorem split_step_covers_reads (dflt : tigLoc) (contigs : TigVector) (st : CreateState)
    (tig : Unitig) (tid : Nat) (extra run : List breakPointEnd)
    (hL : tig._length ≤ INT32_MAX)
    (hreads : ∀ rd ∈ tig.ufpath, 0 ≤ rd.position.min ∧
      rd.position.min < rd.position.max ∧ rd.position.max ≤ tig._length)
    (hextra : ∀ x ∈ extra, x._tigID = tid ∧ x._pos < 2 ^ 32)
    (hsize : extra.length + 2 < 2 ^ 32)
    (hsort : IsSortOf ([⟨tid, 0, true⟩, ⟨tid, toUInt32 tig._length, false⟩] ++ extra) run) :
    ∃ st' new, splitContig dflt contigs st tig (buildBP [] run) = .ok st' ∧
      st'.unitigs = st.unitigs ++ new ∧
      (readIds new).Perm (tig.ufpath.map (fun rd => rd.ident)) :=
  splitContig_covers dflt contigs st tig (buildBP [] run)
    (builtBP_selects tig tid extra run hL hreads hextra hsize hsort)

/-- C1 at scenario B: the contig of length 1000 with four reads, its sentinels
and the breakpoint pair at 400. -/
theorem split_step_covers_reads_witness :
    IsSortOf ([⟨0, 0, true⟩, ⟨0, toUInt32 scenarioTig._length, false⟩] ++
      [⟨0, 400, false⟩, ⟨0, 400, true⟩]) scenarioBP ∧
    ∃ st' new, splitContig scenarioLoc [some scenarioTig] { unitigs := [], unitigSource := [] }
        scenarioTig (buildBP [] scenarioBP) = .ok st' ∧
      st'.unitigs = [] ++ new ∧
      (readIds new).Perm (scenarioTig.ufpath.map (fun rd => rd.ident)) :=
  have hsort : IsSortOf ([⟨0, 0, true⟩, ⟨0, toUInt32 scenarioTig._length, false⟩] ++
      [⟨0, 400, false⟩, ⟨0, 400, true⟩]) scenarioBP := ⟨by decide, by decide⟩
  ⟨hsort,
   split_step_covers_reads scenarioLoc [some scenarioTig] { unitigs := [], unitigSource := [] }
    scenarioTig 0 [⟨0, 400, false⟩, ⟨0, 400, true⟩] scenarioBP (by decide) (by decide)
    (by decide) (by decide) hsort⟩

/-! ## Re-basing -/

theorem shiftRead_min (off : Int) (rd : ufNode) :
    (shiftRead off rd).position.min = rd.position.min + off := by
  unfold shiftRead SeqInterval.min
  simp only
  split <;> split <;> omega

theorem min_le_bgn_end (p : SeqInterval) : p.min ≤ p.bgn ∧ p.min ≤ p.end_ := by
  unfold SeqInterval.min
  split <;> omega

/-- What the move pass leaves in a unit it created: the reads of one piece, in
order, shifted by minus the `min` coordinate of the first of them. -/
theorem created_unit_spec {BP : List breakPointEnd} {old : TigVector} {reads : List ufNode}
    {st : SplitState} (hinv : MoveInv BP old reads st) (ptr : Nat) (u : Unitig)
    (hptr : old.length ≤ ptr) (hu : st.tigs[ptr]? = some (some u)) :
    ∃ k first rest, st.newTigs[k]? = some (some ptr) ∧
      pieceReads BP k reads = first :: rest ∧
      st.lowCoord[k]? = some first.position.min ∧
      u.ufpath = (pieceReads BP k reads).map (shiftRead (- first.position.min)) := by
  obtain ⟨k, hk⟩ := hinv.slot_surj ptr hptr (List.getElem?_eq_some_iff.1 hu).1
  obtain ⟨_, u', first, rest, hu', _, _, _, hpr, hlow, hpath⟩ := hinv.full_slot k ptr hk
  rw [hu] at hu'
  simp only [Option.some.injEq] at hu'
  subst hu'
  exact ⟨k, first, rest, hk, hpr, hlow, hpath⟩

/-- What the move pass does with one read that selects piece `k`: the slot of
the piece holds a unit the pass made, and that unit holds the read, shifted by
minus the `min` coordinate of the first read of the piece. -/
theorem read_added_spec {BP : List breakPointEnd} {old : TigVector} {reads : List ufNode}
    {st : SplitState} (hinv : MoveInv BP old reads st)
    (rd : ufNode) (hrd : rd ∈ reads) (k : Nat) (hk : pieceOf BP rd = some k)
    (hlt : k < BP.length + 2) :
    ∃ ptr u first rest, st.newTigs[k]? = some (some ptr) ∧ old.length ≤ ptr ∧
      st.tigs[ptr]? = some (some u) ∧
      pieceReads BP k reads = first :: rest ∧
      st.lowCoord[k]? = some first.position.min ∧
      u.ufpath = (pieceReads BP k reads).map (shiftRead (- first.position.min)) ∧
      shiftRead (- first.position.min) rd ∈ u.ufpath := by
  have hmem : rd ∈ pieceReads BP k reads :=
    List.mem_filter.2 ⟨hrd, by simpa using hk⟩
  have hklt : k < st.newTigs.length := by rw [hinv.newTigs_length]; exact hlt
  obtain ⟨slot, hget⟩ : ∃ slot, st.newTigs[k]? = some slot :=
    ⟨_, List.getElem?_eq_getElem hklt⟩
  cases slot with
  | none =>
    have := hinv.empty_slot k hget
    rw [this] at hmem
    cases hmem
  | some ptr =>
    obtain ⟨hple, u, first, rest, hu, _, _, _, hpr, hlow, hpath⟩ := hinv.full_slot k ptr hget
    refine ⟨ptr, u, first, rest, hget, hple, hu, hpr, hlow, hpath, ?_⟩
    rw [hpath]
    exact List.mem_map_of_mem _ hmem

/-- C10: for a contig whose reads are listed in non-decreasing order of `min`
coordinate, the move pass of `splitTig` runs through whenever every read selects
a piece, and whenever it returns: for every read of the contig the pass has made
a unit for the read's piece, the offset `lowCoord` of the piece is the least
`min` coordinate of the reads assigned to the piece, and the unit holds the read
with both coordinates shifted by minus that offset; every unit the pass made
holds exactly the reads of its piece shifted so, every coordinate in it is
`>= 0`, and the smallest `min` coordinate in it is exactly 0. -/
theorem move_pass_rebases (tigs : TigVector) (tig : Unitig) (BP : List breakPointEnd)
    (hsorted : tig.ufpath.Pairwise (fun a b => a.position.min ≤ b.position.min)) :
    ((∀ rd ∈ tig.ufpath, ∃ k, pieceOf BP rd = some k ∧ k < BP.length + 2) →
      ∃ st', splitTig tigs tig BP true = .ok (0, st')) ∧
    ∀ n st', splitTig tigs tig BP true = .ok (n, st') →
      (∀ rd ∈ tig.ufpath, ∃ k ptr u low,
        pieceOf BP rd = some k ∧
        st'.newTigs[k]? = some (some ptr) ∧ tigs.length ≤ ptr ∧
        st'.tigs[ptr]? = some (some u) ∧
        st'.lowCoord[k]? = some low ∧
        (∃ r ∈ pieceReads BP k tig.ufpath, r.position.min = low) ∧
        (∀ r ∈ pieceReads BP k tig.ufpath, low ≤ r.position.min) ∧
        (∃ m ∈ u.ufpath, m.ident = rd.ident ∧
          m.position.bgn = rd.position.bgn - low ∧
          m.position.end_ = rd.position.end_ - low)) ∧
      (∀ ptr u, tigs.length ≤ ptr → st'.tigs[ptr]? = some (some u) →
        ∃ k low, st'.newTigs[k]? = some (some ptr) ∧ st'.lowCoord[k]? = some low ∧
          (∃ rd ∈ pieceReads BP k tig.ufpath, rd.position.min = low) ∧
          (∀ rd ∈ pieceReads BP k tig.ufpath, low ≤ rd.position.min) ∧
          u.ufpath = (pieceReads BP k tig.ufpath).map (shiftRead (- low)) ∧
          (∀ m ∈ u.ufpath, 0 ≤ m.position.bgn ∧ 0 ≤ m.position.end_ ∧ 0 ≤ m.position.min) ∧
          (∃ m ∈ u.ufpath, m.position.min = 0)) := by
  have hleast : ∀ (k : Nat) (first : ufNode) (rest : List ufNode),
      pieceReads BP k tig.ufpath = first :: rest →
      ∀ rd ∈ pieceReads BP k tig.ufpath, first.position.min ≤ rd.position.min := by
    intro k first rest hpr rd hrd
    have hpw : (pieceReads BP k tig.ufpath).Pairwise
        (fun a b => a.position.min ≤ b.position.min) :=
      hsorted.sublist (List.filter_sublist _)
    rw [hpr] at hrd hpw
    rcases List.mem_cons.1 hrd with e | e
    · rw [e]
    · exact (List.pairwise_cons.1 hpw).1 rd e
  refine ⟨?_, ?_⟩
  · intro hall
    obtain ⟨st', h, _⟩ := splitTig_move_total tigs tig BP hall
    exact ⟨st', h⟩
  · intro n st' h
    obtain ⟨hinv, hall⟩ := splitTig_move_ok tigs tig BP n st' h
    refine ⟨?_, ?_⟩
    · intro rd hrd
      obtain ⟨k, hk, hlt⟩ := hall rd hrd
      obtain ⟨ptr, u, first, rest, hget, hple, hu, hpr, hlow, _, hin⟩ :=
        read_added_spec hinv rd hrd k hk hlt
      refine ⟨k, ptr, u, first.position.min, hk, hget, hple, hu, hlow,
        ⟨first, by rw [hpr]; exact List.mem_cons_self _ _, rfl⟩, hleast k first rest hpr,
        shiftRead (- first.position.min) rd, hin, rfl, ?_, ?_⟩
      · show rd.position.bgn + - first.position.min = _
        omega
      · show rd.position.end_ + - first.position.min = _
        omega
    · intro ptr u hptr hu
      obtain ⟨k, first, rest, hk, hpr, hlow, hpath⟩ := created_unit_spec hinv ptr u hptr hu
      have hmin := hleast k first rest hpr
      refine ⟨k, first.position.min, hk, hlow,
        ⟨first, by rw [hpr]; exact List.mem_cons_self _ _, rfl⟩, hmin, hpath, ?_, ?_⟩
      · intro m hm
        rw [hpath, List.mem_map] at hm
        obtain ⟨rd, hrd, rfl⟩ := hm
        have h1 := hmin rd hrd
        have h2 := min_le_bgn_end rd.position
        have h3 := shiftRead_min (- first.position.min) rd
        refine ⟨?_, ?_, by omega⟩
        · show 0 ≤ rd.position.bgn + - first.position.min
          omega
        · show 0 ≤ rd.position.end_ + - first.position.min
          omega
      · refine ⟨shiftRead (- first.position.min) first, ?_, ?_⟩
        · rw [hpath, hpr]
          exact List.mem_cons_self _ _
        · rw [shiftRead_min]
          omega

/-- C10 at scenario B: the move pass returns, and each of the four reads of the
scenario contig is in a unit made for its piece, shifted by the least `min` of
the piece. -/
theorem move_pass_rebases_witness :
    scenarioTig.ufpath.Pairwise (fun a b => a.position.min ≤ b.position.min) ∧
    (∃ st', splitTig [] scenarioTig scenarioBP true = .ok (0, st')) ∧
    ∀ n st', splitTig [] scenarioTig scenarioBP true = .ok (n, st') →
      (∀ rd ∈ scenarioTig.ufpath, ∃ k ptr u low,
        pieceOf scenarioBP rd = some k ∧
        st'.newTigs[k]? = some (some ptr) ∧ ([] : TigVector).length ≤ ptr ∧
        st'.tigs[ptr]? = some (some u) ∧
        st'.lowCoord[k]? = some low ∧
        (∃ r ∈ pieceReads scenarioBP k scenarioTig.ufpath, r.position.min = low) ∧
        (∀ r ∈ pieceReads scenarioBP k scenarioTig.ufpath, low ≤ r.position.min) ∧
        (∃ m ∈ u.ufpath, m.ident = rd.ident ∧
          m.position.bgn = rd.position.bgn - low ∧
          m.position.end_ = rd.position.end_ - low)) ∧
      (∀ ptr u, ([] : TigVector).length ≤ ptr → st'.tigs[ptr]? = some (some u) →
        ∃ k low, st'.newTigs[k]? = some (some ptr) ∧ st'.lowCoord[k]? = some low ∧
          (∃ rd ∈ pieceReads scenarioBP k scenarioTig.ufpath, rd.position.min = low) ∧
          (∀ rd ∈ pieceReads scenarioBP k scenarioTig.ufpath, low ≤ rd.position.min) ∧
          u.ufpath = (pieceReads scenarioBP k scenarioTig.ufpath).map (shiftRead (- low)) ∧
          (∀ m ∈ u.ufpath, 0 ≤ m.position.bgn ∧ 0 ≤ m.position.end_ ∧ 0 ≤ m.position.min) ∧
          (∃ m ∈ u.ufpath, m.position.min = 0)) :=
  have hs : scenarioTig.ufpath.Pairwise (fun a b => a.position.min ≤ b.position.min) := by
    decide
  ⟨hs,
    (move_pass_rebases [] scenarioTig scenarioBP hs).1 (by
      intro rd hrd
      simp only [scenarioTig, List.mem_cons, List.mem_singleton, List.not_mem_nil,
        or_false] at hrd
      rcases hrd with e | e | e | e
      · rw [e]; exact ⟨0, rfl, by decide⟩
      · rw [e]; exact ⟨0, rfl, by decide⟩
      · rw [e]; exact ⟨1, rfl, by decide⟩
      · rw [e]; exact ⟨2, rfl, by decide⟩),
    (move_pass_rebases [] scenarioTig scenarioBP hs).2⟩

/-! ## Lemmas on the walk over the sorted pool -/

/-- For contig ids below `2^31`, a breakpoint that is not less than another one
does not belong to a smaller contig id. -/
theorem tigID_le_of_not_lt {a b : breakPointEnd}
    (ha : a._tigID < 2 ^ 31) (hb : b._tigID < 2 ^ 31)
    (hpa : a._pos < 2 ^ 32) (hpb : b._pos < 2 ^ 32) (h : b.lt a = false) :
    a._tigID ≤ b._tigID := by
  have hk := key_le_of_not_lt h
  rw [key_closed_form, key_closed_form, Nat.mod_eq_of_lt ha, Nat.mod_eq_of_lt hb,
    Nat.mod_eq_of_lt hpa, Nat.mod_eq_of_lt hpb] at hk
  have h1 : (if b._bgn = true then 1 else 0) ≤ 1 := by split <;> omega
  omega

theorem sortBreaks_isSortOf (breaks : List breakPointEnd) :
    IsSortOf breaks (sortBreaks breaks) := by
  refine ⟨List.perm_insertionSort _ _, ?_⟩
  have hs : (sortBreaks breaks).Sorted (fun a b => a.key ≤ b.key) := by
    haveI : IsTotal breakPointEnd (fun a b => a.key ≤ b.key) := ⟨fun a b => Nat.le_total _ _⟩
    haveI : IsTrans breakPointEnd (fun a b => a.key ≤ b.key) :=
      ⟨fun a b c h1 h2 => Nat.le_trans h1 h2⟩
    exact List.sorted_insertionSort _ _
  refine List.Pairwise.imp ?_ hs
  intro a b h
  simp [breakPointEnd.lt]
  exact h

theorem mem_dropWhile_gt (t : Nat) :
    ∀ (more : List breakPointEnd), more.Pairwise (fun a b => a._tigID ≤ b._tigID) →
      (∀ x ∈ more, t ≤ x._tigID) →
      ∀ x ∈ more.dropWhile (fun x => decide (x._tigID = t)), t < x._tigID := by
  intro more
  induction more with
  | nil => intro _ _ x hx; simp at hx
  | cons c r ih =>
    intro hpw hge x hx
    by_cases hc : c._tigID = t
    · rw [List.dropWhile_cons_of_pos (by simpa using hc)] at hx
      exact ih (List.pairwise_cons.1 hpw).2 (fun y hy => hge y (List.mem_cons_of_mem _ hy)) x hx
    · rw [List.dropWhile_cons_of_neg (by simpa using hc)] at hx
      have hct : t < c._tigID := by
        have := hge c (List.mem_cons_self _ _)
        omega
      rcases List.mem_cons.1 hx with e | e
      · rw [e]; exact hct
      · have := (List.pairwise_cons.1 hpw).1 x e
        omega

theorem sentinelBreaks_mem :
    ∀ (l : TigVector) (off : Nat), ∀ x ∈ sentinelBreaks l off,
      off ≤ x._tigID ∧ x._pos < 2 ^ 32 ∧
      ∃ tig, l[x._tigID - off]? = some (some tig) ∧ tig._isUnassembled = false := by
  intro l
  induction l with
  | nil => intro off x hx; simp [sentinelBreaks] at hx
  | cons c more ih =>
    intro off x hx
    have hstep : ∀ y ∈ sentinelBreaks more (off + 1),
        off ≤ y._tigID ∧ y._pos < 2 ^ 32 ∧
        ∃ tig, (c :: more)[y._tigID - off]? = some (some tig) ∧ tig._isUnassembled = false := by
      intro y hy
      obtain ⟨h1, h2, tig, h3, h4⟩ := ih (off + 1) y hy
      refine ⟨by omega, h2, tig, ?_, h4⟩
      rw [show y._tigID - off = (y._tigID - (off + 1)) + 1 by omega, List.getElem?_cons_succ]
      exact h3
    cases c with
    | none => exact hstep x (by simpa [sentinelBreaks] using hx)
    | some tig =>
      by_cases hu : tig._isUnassembled = true
      · exact hstep x (by simpa [sentinelBreaks, hu] using hx)
      · have hlive : tig._isUnassembled = false := by simpa using hu
        simp only [sentinelBreaks, hlive, Bool.false_eq_true, if_false] at hx
        rcases List.mem_cons.1 hx with e1 | e1
        · rw [e1]
          exact ⟨le_refl _, by norm_num, tig, by simp, hlive⟩
        · rcases List.mem_cons.1 e1 with e2 | e2
          · rw [e2]
            exact ⟨le_refl _, toUInt32_lt _, tig, by simp, hlive⟩
          · exact hstep x e2

theorem sentinelBreaks_has :
    ∀ (l : TigVector) (off j : Nat) (tig : Unitig), l[j]? = some (some tig) →
      tig._isUnassembled = false →
      (⟨off + j, 0, true⟩ : breakPointEnd) ∈ sentinelBreaks l off ∧
      (⟨off + j, toUInt32 tig._length, false⟩ : breakPointEnd) ∈ sentinelBreaks l off := by
  intro l
  induction l with
  | nil => intro off j tig h; simp at h
  | cons c more ih =>
    intro off j tig h hlive
    cases j with
    | zero =>
      simp only [List.getElem?_cons_zero, Option.some.injEq] at h
      subst h
      simp [sentinelBreaks, hlive]
    | succ j =>
      simp only [List.getElem?_cons_succ] at h
      have := ih (off + 1) j tig h hlive
      rw [show off + 1 + j = off + (j + 1) by omega] at this
      cases c with
      | none => simpa [sentinelBreaks] using this
      | some t =>
        by_cases hu : t._isUnassembled = true
        · simpa [sentinelBreaks, hu] using this
        · have hl : t._isUnassembled = false := by simpa using hu
          simp only [sentinelBreaks, hl, Bool.false_eq_true, if_false]
          exact ⟨List.mem_cons_of_mem _ (List.mem_cons_of_mem _ this.1),
            List.mem_cons_of_mem _ (List.mem_cons_of_mem _ this.2)⟩

theorem stripScan_eq (isBackbone : Nat → Bool) :
    ∀ (l : List ufNode), (∃ rd ∈ l, isBackbone rd.ident = true) →
      stripScan isBackbone l = .ok (l.dropWhile (fun rd => !isBackbone rd.ident)) := by
  intro l
  induction l with
  | nil => intro h; obtain ⟨rd, hrd, _⟩ := h; cases hrd
  | cons c r ih =>
    intro h
    unfold stripScan
    by_cases hc : isBackbone c.ident = true
    · simp [hc]
    · have hc' : isBackbone c.ident = false := by simpa using hc
      rw [if_pos hc', List.dropWhile_cons_of_pos (by simp [hc'])]
      apply ih
      obtain ⟨rd, hrd, hb⟩ := h
      rcases List.mem_cons.1 hrd with e | e
      · subst e; rw [hc'] at hb; cases hb
      · exact ⟨rd, e, hb⟩

theorem mem_dropWhile_of_not {α : Type} (p : α → Bool) :
    ∀ (l : List α) (x : α), x ∈ l → p x = false → x ∈ l.dropWhile p := by
  intro l
  induction l with
  | nil => intro x hx; cases hx
  | cons c r ih =>
    intro x hx hp
    by_cases hc : p c = true
    · rw [List.dropWhile_cons_of_pos hc]
      rcases List.mem_cons.1 hx with e | e
      · subst e; rw [hp] at hc; cases hc
      · exact ih x e hp
    · rw [List.dropWhile_cons_of_neg hc]
      exact hx

/-- Dropping the leading reads that are not backbone reads lowers no count of a
backbone read id and raises no count at all. -/
theorem count_ids_dropWhile (isBackbone : Nat → Bool) (l : List ufNode) (id : Nat) :
    ((l.dropWhile (fun rd => !isBackbone rd.ident)).map (fun rd => rd.ident)).count id ≤
      (l.map (fun rd => rd.ident)).count id ∧
    (isBackbone id = true →
      ((l.dropWhile (fun rd => !isBackbone rd.ident)).map (fun rd => rd.ident)).count id =
        (l.map (fun rd => rd.ident)).count id) := by
  induction l with
  | nil => simp
  | cons c r ih =>
    by_cases hc : isBackbone c.ident = true
    · rw [List.dropWhile_cons_of_neg (by simp [hc])]
      exact ⟨le_refl _, fun _ => rfl⟩
    · have hc' : isBackbone c.ident = false := by simpa using hc
      rw [List.dropWhile_cons_of_pos (by simp [hc'])]
      refine ⟨?_, ?_⟩
      · rw [List.map_cons, List.count_cons]
        have := ih.1
        omega
      · intro hb
        have hne : c.ident ≠ id := by
          intro e
          rw [e, hb] at hc'
          cases hc'
        rw [List.map_cons, List.count_cons_of_ne (Ne.symm hne)]
        exact ih.2 hb

/-- The trim of one unit returns, and the unit keeps every backbone read and
gains no read. -/
theorem trimUnitig_spec (isBackbone : Nat → Bool) (u : Option Unitig) :
    ∃ u', trimUnitig isBackbone u = .ok u' ∧
      ∀ id, (unitReadIds u').count id ≤ (unitReadIds u).count id ∧
        (isBackbone id = true → (unitReadIds u').count id = (unitReadIds u).count id) := by
  cases u with
  | none => exact ⟨none, rfl, fun id => ⟨le_refl _, fun _ => rfl⟩⟩
  | some tig =>
    unfold trimUnitig
    simp only
    by_cases hu : tig._isUnassembled = true
    · rw [if_pos hu]
      exact ⟨some tig, rfl, fun id => ⟨le_refl _, fun _ => rfl⟩⟩
    · rw [if_neg hu]
      by_cases hbb : (tig.ufpath.filter (fun rd => isBackbone rd.ident)).length = 0
      · rw [if_pos hbb]
        exact ⟨some tig, rfl, fun id => ⟨le_refl _, fun _ => rfl⟩⟩
      · rw [if_neg hbb]
        have hex : ∃ rd ∈ tig.ufpath, isBackbone rd.ident = true := by
          cases hf : tig.ufpath.filter (fun rd => isBackbone rd.ident) with
          | nil => rw [hf] at hbb; simp at hbb
          | cons rd rest =>
            have hm : rd ∈ tig.ufpath.filter (fun rd => isBackbone rd.ident) := by
              rw [hf]; exact List.mem_cons_self _ _
            rw [List.mem_filter] at hm
            exact ⟨rd, hm.1, hm.2⟩
        obtain ⟨rd, hrd, hb⟩ := hex
        have h1 : stripNonBackboneFromStart isBackbone tig =
            .ok (cleanUpReverse
              { tig with ufpath := (tig.ufpath.dropWhile (fun rd => !isBackbone rd.ident)) }) := by
          unfold stripNonBackboneFromStart
          rw [stripScan_eq isBackbone _ ⟨rd, hrd, hb⟩]
        have hrd1 : rd ∈ (tig.ufpath.dropWhile (fun rd => !isBackbone rd.ident)).reverse :=
          List.mem_reverse.2 (mem_dropWhile_of_not _ _ rd hrd (by simp [hb]))
        have h2 : stripNonBackboneFromStart isBackbone (cleanUpReverse
              { tig with ufpath := (tig.ufpath.dropWhile (fun rd => !isBackbone rd.ident)) }) =
            .ok (cleanUpReverse
              { tig with ufpath := ((tig.ufpath.dropWhile
                  (fun rd => !isBackbone rd.ident)).reverse.dropWhile
                    (fun rd => !isBackbone rd.ident)) }) := by
          unfold stripNonBackboneFromStart
          simp only [cleanUpReverse]
          rw [stripScan_eq isBackbone _ ⟨rd, hrd1, hb⟩]
        rw [h1]
        simp only
        rw [h2]
        refine ⟨_, rfl, ?_⟩
        intro id
        simp only [unitReadIds, cleanUpReverse, List.map_reverse, List.count_reverse]
        have a1 := count_ids_dropWhile isBackbone tig.ufpath id
        have a2 := count_ids_dropWhile isBackbone
          (tig.ufpath.dropWhile (fun rd => !isBackbone rd.ident)).reverse id
        simp only [List.map_reverse, List.count_reverse] at a2
        refine ⟨a2.1.trans a1.1, fun hid => ?_⟩
        rw [a2.2 hid, a1.2 hid]

theorem trimUnitigs_spec (isBackbone : Nat → Bool) :
    ∀ (tigs : TigVector), ∃ tigs', trimUnitigs isBackbone tigs = .ok tigs' ∧
      ∀ id, (readIds tigs').count id ≤ (readIds tigs).count id ∧
        (isBackbone id = true → (readIds tigs').count id = (readIds tigs).count id) := by
  intro tigs
  induction tigs with
  | nil => exact ⟨[], rfl, fun id => ⟨le_refl _, fun _ => rfl⟩⟩
  | cons u more ih =>
    obtain ⟨u', hu, hcu⟩ := trimUnitig_spec isBackbone u
    obtain ⟨more', hm, hcm⟩ := ih
    refine ⟨u' :: more', ?_, ?_⟩
    · unfold trimUnitigs
      rw [hu]
      simp only
      rw [hm]
    · intro id
      rw [readIds_cons, readIds_cons, List.count_append, List.count_append]
      refine ⟨Nat.add_le_add (hcu id).1 (hcm id).1, fun hid => ?_⟩
      rw [(hcu id).2 hid, (hcm id).2 hid]

/-! ## Placement after the full pass -/

/-- The two pieces the scan finds on a list sorted by position for a read
inside the span of the list, each the only piece that holds its end point. -/
theorem scan_found (BP : List breakPointEnd) (lo hi : Nat)
    (hsorted : BP.Pairwise (fun x y => x._pos ≤ y._pos))
    (hfirst : ∃ f, BP.head? = some f ∧ f._pos ≤ lo)
    (hlohi : lo < hi)
    (hlast : ∃ z, BP.getLast? = some z ∧ hi ≤ z._pos) :
    ∃ bgnBP endBP,
      scanPieces lo hi BP 0 UINT32_MAX UINT32_MAX = (bgnBP, endBP) ∧
      (∃ p n, BP[bgnBP]? = some p ∧ BP[bgnBP + 1]? = some n ∧ p._pos ≤ lo ∧ lo < n._pos) ∧
      (∀ tt p n, BP[tt]? = some p → BP[tt + 1]? = some n → p._pos ≤ lo → lo < n._pos →
        tt = bgnBP) ∧
      (∃ p n, BP[endBP]? = some p ∧ BP[endBP + 1]? = some n ∧ p._pos < hi ∧ hi ≤ n._pos) ∧
      (∀ tt p n, BP[tt]? = some p → BP[tt + 1]? = some n → p._pos < hi → hi ≤ n._pos →
        tt = endBP) ∧
      bgnBP ≤ endBP := by
  obtain ⟨f, hf, hflo⟩ := hfirst
  obtain ⟨z, hz, hzhi⟩ := hlast
  cases BP with
  | nil => simp at hf
  | cons f0 tl =>
    simp only [List.head?_cons, Option.some.injEq] at hf
    subst hf
    have hzmem : z ∈ tl := by
      cases tl with
      | nil =>
        simp only [List.getLast?_singleton, Option.some.injEq] at hz
        subst hz
        omega
      | cons n rest =>
        rw [List.getLast?_cons_cons] at hz
        exact List.mem_of_getLast?_eq_some hz
    obtain ⟨i, x, y, hi1, hx, hy, hxlo, hylo⟩ :=
      (scan_fst_spec lo hi (f0 :: tl) 0 UINT32_MAX UINT32_MAX hsorted).2 f0 tl rfl hflo
        ⟨z, hzmem, by omega⟩
    obtain ⟨j, u, v, hj1, hu, hv, huhi, hvhi⟩ :=
      (scan_snd_spec lo hi (f0 :: tl) 0 UINT32_MAX UINT32_MAX hsorted).2 f0 tl rfl (by omega)
        ⟨z, hzmem, hzhi⟩
    rw [Nat.zero_add] at hi1 hj1
    refine ⟨i, j, Prod.ext hi1 hj1, ⟨x, y, hx, hy, hxlo, hylo⟩, ?_,
      ⟨u, v, hu, hv, huhi, hvhi⟩, ?_, ?_⟩
    · intro tt p n hp hn hplo hnlo
      by_contra hne
      rcases Nat.lt_or_gt_of_ne hne with h | h
      · have := pos_le_of_sorted hsorted (show tt + 1 ≤ i by omega) hn hx
        omega
      · have := pos_le_of_sorted hsorted (show i + 1 ≤ tt by omega) hy hp
        omega
    · intro tt p n hp hn hphi hnhi
      by_contra hne
      rcases Nat.lt_or_gt_of_ne hne with h | h
      · have := pos_le_of_sorted hsorted (show tt + 1 ≤ j by omega) hn hu
        omega
      · have := pos_le_of_sorted hsorted (show j + 1 ≤ tt by omega) hv hp
        omega
    · by_contra hcon
      have h1 : v._pos ≤ x._pos := pos_le_of_sorted hsorted (by omega) hv hx
      omega

/-- C19: for a breakpoint list sorted by non-decreasing position and a read with
`BP[0].pos <= lo < hi <= BP[last].pos`, exactly one piece `tt` has
`BP[tt].pos <= lo < BP[tt+1].pos` and the scan sets `bgnBP` to it, exactly one has
`BP[tt].pos < hi <= BP[tt+1].pos` and the scan sets `endBP` to it, neither piece
is of zero width, and `bgnBP <= endBP`. -/
theorem endpoint_lookup (BP : List breakPointEnd) (lo hi : Nat)
    (hsorted : BP.Pairwise (fun x y => x._pos ≤ y._pos))
    (hfirst : ∃ f, BP.head? = some f ∧ f._pos ≤ lo)
    (hlohi : lo < hi)
    (hlast : ∃ z, BP.getLast? = some z ∧ hi ≤ z._pos) :
    ∃ bgnBP endBP,
      scanPieces lo hi BP 0 UINT32_MAX UINT32_MAX = (bgnBP, endBP) ∧
      (∃ p n, BP[bgnBP]? = some p ∧ BP[bgnBP + 1]? = some n ∧ p._pos ≤ lo ∧ lo < n._pos ∧
        p._pos < n._pos) ∧
      (∀ tt p n, BP[tt]? = some p → BP[tt + 1]? = some n → p._pos ≤ lo → lo < n._pos →
        tt = bgnBP) ∧
      (∃ p n, BP[endBP]? = some p ∧ BP[endBP + 1]? = some n ∧ p._pos < hi ∧ hi ≤ n._pos ∧
        p._pos < n._pos) ∧
      (∀ tt p n, BP[tt]? = some p → BP[tt + 1]? = some n → p._pos < hi → hi ≤ n._pos →
        tt = endBP) ∧
      bgnBP ≤ endBP := by
  obtain ⟨b, e, hscan, ⟨p, n, h1, h2, h3, h4⟩, hub, ⟨q, m, g1, g2, g3, g4⟩, hue, hle⟩ :=
    scan_found BP lo hi hsorted hfirst hlohi hlast
  exact ⟨b, e, hscan, ⟨p, n, h1, h2, h3, h4, by omega⟩, hub,
    ⟨q, m, g1, g2, g3, g4, by omega⟩, hue, hle⟩

/-- C19 at the read [380,600] of scenario B. -/
theorem endpoint_lookup_witness :
    scanPieces 380 600 scenarioBP 0 UINT32_MAX UINT32_MAX = (0, 2) ∧
    ∃ bgnBP endBP,
      scanPieces 380 600 scenarioBP 0 UINT32_MAX UINT32_MAX = (bgnBP, endBP) ∧
      (∃ p n, scenarioBP[bgnBP]? = some p ∧ scenarioBP[bgnBP + 1]? = some n ∧
        p._pos ≤ 380 ∧ 380 < n._pos ∧ p._pos < n._pos) ∧
      (∀ tt p n, scenarioBP[tt]? = some p → scenarioBP[tt + 1]? = some n →
        p._pos ≤ 380 → 380 < n._pos → tt = bgnBP) ∧
      (∃ p n, scenarioBP[endBP]? = some p ∧ scenarioBP[endBP + 1]? = some n ∧
        p._pos < 600 ∧ 600 ≤ n._pos ∧ p._pos < n._pos) ∧
      (∀ tt p n, scenarioBP[tt]? = some p → scenarioBP[tt + 1]? = some n →
        p._pos < 600 → 600 ≤ n._pos → tt = endBP) ∧
      bgnBP ≤ endBP :=
  ⟨rfl, endpoint_lookup scenarioBP 380 600 (by decide) ⟨_, rfl, by decide⟩ (by decide)
    ⟨_, rfl, by decide⟩⟩

/-- C20: with `bgnBP` and `endBP` as the scan leaves them, a read with
`bgnBP == endBP` is placed there; a read with `bgnBP != endBP` is placed in
`bgnBP` when the boundary after `bgnBP` is begin-type, whatever the leading
boundary of `endBP`; it is placed in `endBP` when the boundary after `bgnBP` is
end-type and the leading boundary of `endBP` is end-type, and in no other case. -/
theorem tie_break_priority (BP : List breakPointEnd) (lo hi bgnBP endBP : Nat)
    (hne : BP ≠ []) (hsize : BP.length < 2 ^ 32)
    (hscan : scanPieces lo hi BP 0 UINT32_MAX UINT32_MAX = (bgnBP, endBP)) :
    (bgnBP = endBP → selectPiece BP lo hi = .ok bgnBP) ∧
    (∀ nx, bgnBP ≠ endBP → BP[bgnBP + 1]? = some nx → nx._bgn = true →
      selectPiece BP lo hi = .ok bgnBP) ∧
    (∀ nx ld, bgnBP ≠ endBP → BP[bgnBP + 1]? = some nx → nx._bgn = false →
      BP[endBP]? = some ld → ld._bgn = false → selectPiece BP lo hi = .ok endBP) ∧
    (∀ nx ld, bgnBP ≠ endBP → BP[bgnBP + 1]? = some nx → BP[endBP]? = some ld →
      selectPiece BP lo hi = .ok endBP → nx._bgn = false ∧ ld._bgn = false) := by
  have hmod : ∀ nx, BP[bgnBP + 1]? = some nx → (bgnBP + 1) % 2 ^ 32 = bgnBP + 1 := by
    intro nx h
    have := (List.getElem?_eq_some_iff.1 h).1
    exact Nat.mod_eq_of_lt (by omega)
  refine ⟨?_, ?_, ?_, ?_⟩
  · intro he
    unfold selectPiece
    rw [if_neg hne, hscan]
    simp only
    rw [if_pos he]
  · intro nx hd hnx hb
    unfold selectPiece
    rw [if_neg hne, hscan]
    simp only
    rw [if_neg hd, hmod nx hnx, hnx]
    simp only
    rw [if_pos hb]
  · intro nx ld hd hnx hb hld hlb
    unfold selectPiece
    rw [if_neg hne, hscan]
    simp only
    rw [if_neg hd, hmod nx hnx, hnx]
    simp only
    rw [if_neg (by rw [hb]; simp), hld]
    simp only
    rw [if_pos hlb]
  · intro nx ld hd hnx hld hsel
    unfold selectPiece at hsel
    rw [if_neg hne, hscan] at hsel
    simp only at hsel
    rw [if_neg hd, hmod nx hnx, hnx] at hsel
    simp only at hsel
    by_cases hb : nx._bgn = true
    · rw [if_pos hb] at hsel
      simp only [Except.ok.injEq] at hsel
      exact absurd hsel hd
    · rw [if_neg hb, hld] at hsel
      simp only at hsel
      by_cases hlb : ld._bgn = false
      · exact ⟨by simpa using hb, hlb⟩
      · rw [if_neg hlb] at hsel
        cases hs : searchFree BP endBP (endBP - (bgnBP + 1)) (bgnBP + 1) with
        | error e => rw [hs] at hsel; cases hsel
        | ok r =>
          rw [hs] at hsel
          simp only at hsel
          by_cases hr : r = endBP
          · rw [if_pos hr] at hsel; cases hsel
          · rw [if_neg hr] at hsel
            simp only [Except.ok.injEq] at hsel
            exact absurd hsel hr

/-- C20 at the read [380,600] over a list with a begin boundary at 400:
`bgnBP` is 0, `endBP` is 1, the boundary after piece 0 is begin-type, and the
read is placed in piece 0. -/
theorem tie_break_priority_witness :
    softBP ≠ [] ∧ scanPieces 380 600 softBP 0 UINT32_MAX UINT32_MAX = (0, 1) ∧
    selectPiece softBP 380 600 = .ok 0 ∧
    ((0 : Nat) = 1 → selectPiece softBP 380 600 = .ok 0) ∧
    (∀ nx, (0 : Nat) ≠ 1 → softBP[0 + 1]? = some nx → nx._bgn = true →
      selectPiece softBP 380 600 = .ok 0) ∧
    (∀ nx ld, (0 : Nat) ≠ 1 → softBP[0 + 1]? = some nx → nx._bgn = false →
      softBP[1]? = some ld → ld._bgn = false → selectPiece softBP 380 600 = .ok 1) ∧
    (∀ nx ld, (0 : Nat) ≠ 1 → softBP[0 + 1]? = some nx → softBP[1]? = some ld →
      selectPiece softBP 380 600 = .ok 1 → nx._bgn = false ∧ ld._bgn = false) :=
  ⟨by decide, rfl,
   (tie_break_priority softBP 380 600 0 1 (by decide) (by decide) rfl).2.1 ⟨0, 400, true⟩
     (by decide) rfl rfl,
   tie_break_priority softBP 380 600 0 1 (by decide) (by decide) rfl⟩

/-! ## The well-formed breakpoint list -/

/-- Within one contig, a breakpoint that is not less than another one is not
before it in the order on (position, flag), end before begin. -/
theorem pair_le_of_not_lt_same_tig {a b : breakPointEnd} (ht : a._tigID = b._tigID)
    (ha : a._pos < 2 ^ 32) (hb : b._pos < 2 ^ 32) (h : b.lt a = false) :
    a._pos * 2 + (if a._bgn then 1 else 0) ≤ b._pos * 2 + (if b._bgn then 1 else 0) := by
  have hk := key_le_of_not_lt h
  rw [key_closed_form, key_closed_form, ht, Nat.mod_eq_of_lt ha, Nat.mod_eq_of_lt hb] at hk
  omega

theorem breakPointEnd_ext {a b : breakPointEnd} (h1 : a._tigID = b._tigID)
    (h2 : a._pos = b._pos) (h3 : a._bgn = b._bgn) : a = b := by
  cases a
  cases b
  simp only at h1 h2 h3
  subst h1 h2 h3
  rfl

/-- C13: for a contig of length `L > 0` whose reads all satisfy
`0 <= min < max <= L`, if the run of the pool for the contig holds its two
sentinels and every other breakpoint of it is begin-type at the `min` coordinate
of some read or end-type at the `max` coordinate of some read, then the sorted,
de-duplicated list passed to `splitTig` starts with the begin-type breakpoint at
position 0 and ends with the end-type breakpoint at position `L`. -/
theorem wellformed_breakpoint_list (tig : Unitig) (tid : Nat) (extra run : List breakPointEnd)
    (hLpos : 0 < tig._length) (hL : tig._length ≤ INT32_MAX)
    (hreads : ∀ rd ∈ tig.ufpath, 0 ≤ rd.position.min ∧
      rd.position.min < rd.position.max ∧ rd.position.max ≤ tig._length)
    (hextra : ∀ x ∈ extra, x._tigID = tid ∧ ∃ rd ∈ tig.ufpath,
      (x._bgn = true ∧ x._pos = toUInt32 rd.position.min) ∨
      (x._bgn = false ∧ x._pos = toUInt32 rd.position.max))
    (hsort : IsSortOf ([⟨tid, 0, true⟩, ⟨tid, toUInt32 tig._length, false⟩] ++ extra) run) :
    (buildBP [] run).head? = some ⟨tid, 0, true⟩ ∧
    (buildBP [] run).getLast? = some ⟨tid, toUInt32 tig._length, false⟩ := by
  obtain ⟨hperm, hpw⟩ := hsort
  have hLlt : toUInt32 tig._length < 2 ^ 32 := toUInt32_lt _
  have hLnat : 0 < toUInt32 tig._length := by
    rw [toUInt32_of_nonneg (by omega) (by unfold INT32_MAX at hL; omega)]
    omega
  have hshape : ∀ x ∈ run, x._tigID = tid ∧ x._pos < 2 ^ 32 ∧
      ((x._bgn = true ∧ x._pos < toUInt32 tig._length) ∨
       (x._bgn = false ∧ 0 < x._pos ∧ x._pos ≤ toUInt32 tig._length)) := by
    intro x hx
    have hx' := hperm.mem_iff.1 hx
    simp only [List.cons_append, List.nil_append, List.mem_cons] at hx'
    rcases hx' with h | h | h
    · rw [h]; exact ⟨rfl, by norm_num, Or.inl ⟨rfl, hLnat⟩⟩
    · rw [h]; exact ⟨rfl, hLlt, Or.inr ⟨rfl, hLnat, le_refl _⟩⟩
    · obtain ⟨ht, rd, hrd, hcase⟩ := hextra x h
      obtain ⟨e1, e2, e3, e4, e5⟩ := read_span_in_range hL (hreads rd hrd)
      rcases hcase with ⟨hb, hp⟩ | ⟨hb, hp⟩
      · refine ⟨ht, by rw [hp]; exact toUInt32_lt _, Or.inl ⟨hb, ?_⟩⟩
        rw [hp, e1, e3]; omega
      · refine ⟨ht, by rw [hp]; exact toUInt32_lt _, Or.inr ⟨hb, ?_, ?_⟩⟩
        · rw [hp, e2]; omega
        · rw [hp, e2, e3]; exact e5
  have h0 : (⟨tid, 0, true⟩ : breakPointEnd) ∈ run := hperm.mem_iff.2 (by simp)
  have hend : (⟨tid, toUInt32 tig._length, false⟩ : breakPointEnd) ∈ run :=
    hperm.mem_iff.2 (by simp)
  have hne : run ≠ [] := List.ne_nil_of_mem h0
  obtain ⟨kept, hk, hsub, hhead⟩ := buildBP_sublist run []
  rw [List.nil_append] at hk
  have hlast := buildBP_last run []
  rw [List.nil_append] at hlast
  rw [hk] at hlast ⊢
  refine ⟨?_, ?_⟩
  · cases hr : run.head? with
    | none =>
      rw [List.head?_eq_none_iff] at hr
      exact absurd hr hne
    | some f =>
      rw [hhead rfl, hr]
      have hfmem : f ∈ run := List.mem_of_mem_head? hr
      obtain ⟨hft, hfp, hfs⟩ := hshape f hfmem
      congr 1
      rcases rel_head_of_pairwise hpw hr h0 with h | h
      · exact h.symm
      · have := pair_le_of_not_lt_same_tig (a := f) (b := ⟨tid, 0, true⟩) hft hfp
          (by norm_num) h
        simp only [Nat.zero_mul, if_true] at this
        rcases hfs with ⟨hb, _⟩ | ⟨hb, hp, _⟩
        · refine breakPointEnd_ext hft ?_ hb
          show f._pos = 0
          rw [hb] at this
          simp only [if_true] at this
          omega
        · omega
  · cases hr : run.getLast? with
    | none =>
      rw [List.getLast?_eq_none_iff] at hr
      exact absurd hr hne
    | some z =>
      rw [hr] at hlast
      have hzmem : z ∈ run := List.mem_of_getLast?_eq_some hr
      obtain ⟨hzt, hzp, hzs⟩ := hshape z hzmem
      have hz : z._pos = toUInt32 tig._length ∧ z._bgn = false := by
        rcases rel_last_of_pairwise hpw hr hend with h | h
        · rw [← h]; exact ⟨rfl, rfl⟩
        · have := pair_le_of_not_lt_same_tig (a := ⟨tid, toUInt32 tig._length, false⟩)
            (b := z) hzt.symm hLlt hzp h
          simp only [Bool.false_eq_true, if_false, Nat.add_zero] at this
          rcases hzs with ⟨hb, hp⟩ | ⟨hb, _, hp⟩
          · rw [hb] at this; simp at this; omega
          · rw [hb] at this; simp at this
            exact ⟨by omega, hb⟩
      cases hkl : kept.getLast? with
      | none => rw [hkl] at hlast; simp at hlast
      | some z' =>
        rw [hkl] at hlast
        simp only [Option.map_some', Option.some.injEq, Prod.mk.injEq] at hlast
        have hz'mem : z' ∈ run := hsub.subset (List.mem_of_getLast?_eq_some hkl)
        congr 1
        exact breakPointEnd_ext (hshape z' hz'mem).1 (by rw [hlast.1, hz.1]) (by rw [hlast.2, hz.2])

/-- C13 at scenario B. -/
theorem wellformed_breakpoint_list_witness :
    IsSortOf ([⟨0, 0, true⟩, ⟨0, toUInt32 scenarioTig._length, false⟩] ++
      [⟨0, 400, false⟩, ⟨0, 380, true⟩]) [⟨0, 0, true⟩, ⟨0, 380, true⟩, ⟨0, 400, false⟩,
        ⟨0, 1000, false⟩] ∧
    (buildBP [] [⟨0, 0, true⟩, ⟨0, 380, true⟩, ⟨0, 400, false⟩, ⟨0, 1000, false⟩]).head? =
      some ⟨0, 0, true⟩ ∧
    (buildBP [] [⟨0, 0, true⟩, ⟨0, 380, true⟩, ⟨0, 400, false⟩, ⟨0, 1000, false⟩]).getLast? =
      some ⟨0, toUInt32 scenarioTig._length, false⟩ :=
  have hsort : IsSortOf ([⟨0, 0, true⟩, ⟨0, toUInt32 scenarioTig._length, false⟩] ++
      [⟨0, 400, false⟩, ⟨0, 380, true⟩]) [⟨0, 0, true⟩, ⟨0, 380, true⟩, ⟨0, 400, false⟩,
        ⟨0, 1000, false⟩] := ⟨by decide, by decide⟩
  have hextra : ∀ x ∈ ([⟨0, 400, false⟩, ⟨0, 380, true⟩] : List breakPointEnd),
      x._tigID = 0 ∧ ∃ rd ∈ scenarioTig.ufpath,
        (x._bgn = true ∧ x._pos = toUInt32 rd.position.min) ∨
        (x._bgn = false ∧ x._pos = toUInt32 rd.position.max) := by
    intro x hx
    have e : x = ⟨0, 400, false⟩ ∨ x = ⟨0, 380, true⟩ := by simpa using hx
    rcases e with e | e
    · rw [e]; exact ⟨rfl, ⟨2, ⟨150, 400⟩⟩, by decide, Or.inr ⟨rfl, by decide⟩⟩
    · rw [e]; exact ⟨rfl, ⟨3, ⟨380, 600⟩⟩, by decide, Or.inl ⟨rfl, by decide⟩⟩
  ⟨hsort, wellformed_breakpoint_list scenarioTig 0 [⟨0, 400, false⟩, ⟨0, 380, true⟩] _
    (by decide) (by decide) (by decide) hextra hsort⟩

/-! ## De-duplication -/

theorem rank_eq_iff (a b : breakPointEnd) :
    a.rank = b.rank ↔ (a._pos = b._pos ∧ a._bgn = b._bgn) := by
  unfold breakPointEnd.rank
  cases a._bgn <;> cases b._bgn <;> simp <;> omega

theorem rank_le_of_not_lt_same_tig {a b : breakPointEnd} (ht : a._tigID = b._tigID)
    (ha : a._pos < 2 ^ 32) (hb : b._pos < 2 ^ 32) (h : b.lt a = false) :
    a.rank ≤ b.rank :=
  pair_le_of_not_lt_same_tig ht ha hb h

theorem lt_of_rank_lt_same_tig {a b : breakPointEnd} (ht : a._tigID = b._tigID)
    (ha : a._pos < 2 ^ 32) (hb : b._pos < 2 ^ 32) (h : a.rank < b.rank) :
    a.lt b = true := by
  unfold breakPointEnd.lt
  rw [decide_eq_true_iff, key_closed_form, key_closed_form, ht, Nat.mod_eq_of_lt ha,
    Nat.mod_eq_of_lt hb]
  unfold breakPointEnd.rank at h
  omega

/-- The de-duplication of a run sorted by rank: what it keeps is strictly
increasing in rank and holds the same (position, flag) pairs as the run. -/
theorem buildBP_strict :
    ∀ (run acc : List breakPointEnd),
      (acc ++ run).Pairwise (fun x y => x.rank ≤ y.rank) →
      acc.Pairwise (fun x y => x.rank < y.rank) →
      (buildBP acc run).Pairwise (fun x y => x.rank < y.rank) ∧
      ∀ p, p ∈ (buildBP acc run).map (fun x => (x._pos, x._bgn)) ↔
        p ∈ (acc ++ run).map (fun x => (x._pos, x._bgn)) := by
  intro run
  induction run with
  | nil => intro acc _ hacc; simp [buildBP, hacc]
  | cons b more ih =>
    intro acc hall hacc
    have hall' : ((acc ++ [b]) ++ more).Pairwise (fun x y => x.rank ≤ y.rank) := by
      rw [List.append_assoc]; exact hall
    unfold buildBP
    cases hback : acc.getLast? with
    | none =>
      simp only
      have hnil : acc = [] := List.getLast?_eq_none_iff.1 hback
      subst hnil
      have := ih ([] ++ [b]) hall' (by simp)
      refine ⟨this.1, fun p => ?_⟩
      rw [this.2 p, List.append_assoc]
      rfl
    | some back =>
      simp only
      have hbackmem : back ∈ acc := List.mem_of_getLast?_eq_some hback
      have hle : back.rank ≤ b.rank :=
        (List.pairwise_append.1 hall).2.2 back hbackmem b (List.mem_cons_self _ _)
      by_cases hd : back._pos ≠ b._pos ∨ back._bgn ≠ b._bgn
      · rw [if_pos hd]
        have hne : back.rank ≠ b.rank := by
          intro e
          have := (rank_eq_iff back b).1 e
          rcases hd with h | h
          · exact h this.1
          · exact h this.2
        have hacc' : (acc ++ [b]).Pairwise (fun x y => x.rank < y.rank) := by
          rw [List.pairwise_append]
          refine ⟨hacc, by simp, ?_⟩
          intro a ha c hc
          rw [List.mem_singleton] at hc
          subst hc
          rcases rel_last_of_pairwise hacc hback ha with e | e
          · rw [e]; omega
          · omega
        have := ih (acc ++ [b]) hall' hacc'
        refine ⟨this.1, fun p => ?_⟩
        rw [this.2 p, List.append_assoc]
        rfl
      · rw [if_neg hd]
        have h1 : back._pos = b._pos := by
          by_contra h; exact hd (Or.inl h)
        have h2 : back._bgn = b._bgn := by
          by_contra h; exact hd (Or.inr h)
        have hsub : (acc ++ more).Pairwise (fun x y => x.rank ≤ y.rank) :=
          hall.sublist (List.Sublist.append_left (List.sublist_cons_self b more) acc)
        have := ih acc hsub hacc
        refine ⟨this.1, fun p => ?_⟩
        rw [this.2 p]
        simp only [List.map_append, List.mem_append, List.map_cons, List.mem_cons]
        constructor
        · rintro (h | h)
          · exact Or.inl h
          · exact Or.inr (Or.inr h)
        · rintro (h | h | h)
          · exact Or.inl h
          · refine Or.inl ?_
            rw [h, List.mem_map]
            exact ⟨back, hbackmem, by rw [h1, h2]⟩
          · exact Or.inr h

/-- What holds of the de-duplication: for every breakpoint pool, every result of
sorting it, and every position of the walk in it, the list `BP` built by the
adjacent-duplicate filter from the run of one contig starting there is strictly
increasing under
`operator<` and holds each distinct (position, isBegin) pair of the run exactly
once; and when the contig ids are below `2^31` and the run starts at the first
breakpoint of its contig, the run holds every breakpoint of that contig in the
pool. -/
theorem dedup_of_run (breaks sorted pre more : List breakPointEnd)
    (b : breakPointEnd)
    (hpos : ∀ x ∈ breaks, x._pos < 2 ^ 32)
    (hsort : IsSortOf breaks sorted)
    (hat : sorted = pre ++ b :: more) :
    (buildBP [] (b :: more.takeWhile (fun x => decide (x._tigID = b._tigID)))).Pairwise
      (fun x y => x.lt y = true) ∧
    ((buildBP [] (b :: more.takeWhile (fun x => decide (x._tigID = b._tigID)))).map
      (fun x => (x._pos, x._bgn))).Nodup ∧
    (∀ p, p ∈ (buildBP [] (b :: more.takeWhile (fun x => decide (x._tigID = b._tigID)))).map
        (fun x => (x._pos, x._bgn)) ↔
      p ∈ (b :: more.takeWhile (fun x => decide (x._tigID = b._tigID))).map
        (fun x => (x._pos, x._bgn))) ∧
    ((∀ x ∈ breaks, x._tigID < 2 ^ 31) → (∀ x ∈ pre, x._tigID ≠ b._tigID) →
      ∀ x ∈ breaks, x._tigID = b._tigID →
        x ∈ b :: more.takeWhile (fun x => decide (x._tigID = b._tigID))) := by
  obtain ⟨hperm, hpw⟩ := hsort
  have hsub : (b :: more.takeWhile (fun x => decide (x._tigID = b._tigID))).Sublist sorted := by
    rw [hat]
    exact List.sublist_append_of_sublist_right
      ((List.takeWhile_sublist _).cons₂ b)
  have hrun : ∀ x ∈ b :: more.takeWhile (fun x => decide (x._tigID = b._tigID)),
      x._tigID = b._tigID ∧ x._pos < 2 ^ 32 := by
    intro x hx
    have hp := hpos x (hperm.mem_iff.1 (hsub.subset hx))
    rcases List.mem_cons.1 hx with e | e
    · rw [e]; exact ⟨rfl, by rw [← e]; exact hp⟩
    · exact ⟨by simpa using List.mem_takeWhile_imp e, hp⟩
  have hrank : ([] ++ (b :: more.takeWhile (fun x => decide (x._tigID = b._tigID)))).Pairwise
      (fun x y : breakPointEnd => x.rank ≤ y.rank) := by
    rw [List.nil_append]
    refine (hpw.sublist hsub).imp_of_mem ?_
    intro x y hx hy h
    exact rank_le_of_not_lt_same_tig ((hrun x hx).1.trans (hrun y hy).1.symm)
      (hrun x hx).2 (hrun y hy).2 h
  obtain ⟨hstrict, hpairs⟩ := buildBP_strict _ [] hrank List.Pairwise.nil
  obtain ⟨kept, hk, hksub, _⟩ :=
    buildBP_sublist (b :: more.takeWhile (fun x => decide (x._tigID = b._tigID))) []
  rw [List.nil_append] at hk
  have hkept : ∀ x ∈ buildBP [] (b :: more.takeWhile (fun x => decide (x._tigID = b._tigID))),
      x._tigID = b._tigID ∧ x._pos < 2 ^ 32 := by
    intro x hx
    rw [hk] at hx
    exact hrun x (hksub.subset hx)
  refine ⟨?_, ?_, ?_, ?_⟩
  · refine hstrict.imp_of_mem ?_
    intro x y hx hy h
    exact lt_of_rank_lt_same_tig ((hkept x hx).1.trans (hkept y hy).1.symm)
      (hkept x hx).2 (hkept y hy).2 h
  · rw [List.Nodup, List.pairwise_map]
    refine hstrict.imp ?_
    intro x y h e
    simp only [Prod.mk.injEq] at e
    have := (rank_eq_iff x y).2 e
    omega
  · intro p
    rw [hpairs p, List.nil_append]
  · intro h31 hpre x hx hxt
    have hxs : x ∈ sorted := hperm.mem_iff.2 hx
    rw [hat] at hxs hpw
    rcases List.mem_append.1 hxs with e | e
    · exact absurd hxt (hpre x e)
    · rcases List.mem_cons.1 e with e1 | e1
      · rw [e1]; exact List.mem_cons_self _ _
      · refine List.mem_cons_of_mem _ ?_
        have hbm : (b :: more).Pairwise (fun a c => a._tigID ≤ c._tigID) := by
          refine (List.pairwise_append.1 hpw).2.1.imp_of_mem ?_
          intro a c ha hc h
          have ha' : a ∈ breaks := hperm.mem_iff.1 (by rw [hat]; exact List.mem_append_right _ ha)
          have hc' : c ∈ breaks := hperm.mem_iff.1 (by rw [hat]; exact List.mem_append_right _ hc)
          exact tigID_le_of_not_lt (h31 a ha') (h31 c hc') (hpos a ha') (hpos c hc') h
        have hgt := mem_dropWhile_gt b._tigID more (List.pairwise_cons.1 hbm).2
          (List.pairwise_cons.1 hbm).1
        rw [← List.takeWhile_append_dropWhile (fun x => decide (x._tigID = b._tigID)) more] at e1
        rcases List.mem_append.1 e1 with e2 | e2
        · exact e2
        · have := hgt x e2
          omega

/-- The de-duplication at a pool with a doubled breakpoint: the sentinels of the
scenario contig, the pair at 400, and `(U, 400, end)` once more. -/
theorem dedup_of_run_at_doubled :
    IsSortOf (scenarioBreaks ++ [⟨0, 400, false⟩])
      ([] ++ ⟨0, 0, true⟩ :: [⟨0, 400, false⟩, ⟨0, 400, false⟩, ⟨0, 400, true⟩,
        ⟨0, 1000, false⟩]) ∧
    buildBP [] (⟨0, 0, true⟩ :: ([⟨0, 400, false⟩, ⟨0, 400, false⟩, ⟨0, 400, true⟩,
        ⟨0, 1000, false⟩] : List breakPointEnd).takeWhile
          (fun x => decide (x._tigID = 0))) = scenarioBP ∧
    (buildBP [] (⟨0, 0, true⟩ :: ([⟨0, 400, false⟩, ⟨0, 400, false⟩, ⟨0, 400, true⟩,
        ⟨0, 1000, false⟩] : List breakPointEnd).takeWhile
          (fun x => decide (x._tigID = (⟨0, 0, true⟩ : breakPointEnd)._tigID)))).Pairwise
      (fun x y => x.lt y = true) :=
  have hsort : IsSortOf (scenarioBreaks ++ [⟨0, 400, false⟩])
      ([] ++ ⟨0, 0, true⟩ :: [⟨0, 400, false⟩, ⟨0, 400, false⟩, ⟨0, 400, true⟩,
        ⟨0, 1000, false⟩]) := ⟨by decide, by decide⟩
  ⟨hsort, by decide,
   (dedup_of_run (scenarioBreaks ++ [⟨0, 400, false⟩]) _ [] _ ⟨0, 0, true⟩
      (by decide) hsort rfl).1⟩

/-! ## The result of the backbone trim -/

theorem head?_dropWhile_false {α : Type} (p : α → Bool) :
    ∀ (l : List α) (x : α), (l.dropWhile p).head? = some x → p x = false := by
  intro l
  induction l with
  | nil => intro x h; simp at h
  | cons c r ih =>
    intro x h
    by_cases hc : p c = true
    · rw [List.dropWhile_cons_of_pos hc] at h
      exact ih x h
    · rw [List.dropWhile_cons_of_neg hc] at h
      simp only [List.head?_cons, Option.some.injEq] at h
      rw [← h]
      simpa using hc

/-- C18: with the clean-up and reverse step of a unit modelled as the reversal
of its read order, for a unit with at least one backbone read the two
consecutive calls of `stripNonBackboneFromStart` return, and leave exactly the
input read list with its maximal leading run and its maximal trailing run of
non-backbone reads removed, in the original order: every backbone read is kept
and the first and the last remaining read are backbone reads. -/
theorem backbone_trim_result (isBackbone : Nat → Bool) (tig : Unitig)
    (hbb : ∃ rd ∈ tig.ufpath, isBackbone rd.ident = true) :
    ∃ t1 t2 pre post,
      stripNonBackboneFromStart isBackbone tig = .ok t1 ∧
      stripNonBackboneFromStart isBackbone t1 = .ok t2 ∧
      (tig._isUnassembled = false → trimUnitig isBackbone (some tig) = .ok (some t2)) ∧
      t2.ufpath = trimEnds isBackbone tig.ufpath ∧
      tig.ufpath = pre ++ t2.ufpath ++ post ∧
      (∀ rd ∈ pre, isBackbone rd.ident = false) ∧
      (∀ rd ∈ post, isBackbone rd.ident = false) ∧
      (∃ f, t2.ufpath.head? = some f ∧ isBackbone f.ident = true) ∧
      (∃ z, t2.ufpath.getLast? = some z ∧ isBackbone z.ident = true) ∧
      (∀ rd ∈ tig.ufpath, isBackbone rd.ident = true → rd ∈ t2.ufpath) := by
  obtain ⟨rd, hrd, hb⟩ := hbb
  have h1 : stripNonBackboneFromStart isBackbone tig =
      .ok (cleanUpReverse
        { tig with ufpath := (tig.ufpath.dropWhile (fun rd => !isBackbone rd.ident)) }) := by
    unfold stripNonBackboneFromStart
    rw [stripScan_eq isBackbone _ ⟨rd, hrd, hb⟩]
  have hrd1 : rd ∈ (tig.ufpath.dropWhile (fun rd => !isBackbone rd.ident)).reverse :=
    List.mem_reverse.2 (mem_dropWhile_of_not _ _ rd hrd (by simp [hb]))
  have h2 : stripNonBackboneFromStart isBackbone (cleanUpReverse
        { tig with ufpath := (tig.ufpath.dropWhile (fun rd => !isBackbone rd.ident)) }) =
      .ok (cleanUpReverse
        { tig with ufpath := ((tig.ufpath.dropWhile
            (fun rd => !isBackbone rd.ident)).reverse.dropWhile
              (fun rd => !isBackbone rd.ident)) }) := by
    unfold stripNonBackboneFromStart
    simp only [cleanUpReverse]
    rw [stripScan_eq isBackbone _ ⟨rd, hrd1, hb⟩]
  have hd1 : tig.ufpath = tig.ufpath.takeWhile (fun rd => !isBackbone rd.ident) ++
      tig.ufpath.dropWhile (fun rd => !isBackbone rd.ident) :=
    (List.takeWhile_append_dropWhile _ _).symm
  have hd2 : tig.ufpath.dropWhile (fun rd => !isBackbone rd.ident) =
      ((tig.ufpath.dropWhile (fun rd => !isBackbone rd.ident)).reverse.dropWhile
        (fun rd => !isBackbone rd.ident)).reverse ++
      ((tig.ufpath.dropWhile (fun rd => !isBackbone rd.ident)).reverse.takeWhile
        (fun rd => !isBackbone rd.ident)).reverse := by
    rw [← List.reverse_append, List.takeWhile_append_dropWhile, List.reverse_reverse]
  have hpre : ∀ r ∈ tig.ufpath.takeWhile (fun rd => !isBackbone rd.ident),
      isBackbone r.ident = false := by
    intro r hr
    simpa using List.mem_takeWhile_imp hr
  have hpost : ∀ r ∈ ((tig.ufpath.dropWhile (fun rd => !isBackbone rd.ident)).reverse.takeWhile
      (fun rd => !isBackbone rd.ident)).reverse, isBackbone r.ident = false := by
    intro r hr
    simpa using List.mem_takeWhile_imp (List.mem_reverse.1 hr)
  have hrd2 : rd ∈ (tig.ufpath.dropWhile (fun rd => !isBackbone rd.ident)).reverse.dropWhile
      (fun rd => !isBackbone rd.ident) := mem_dropWhile_of_not _ _ rd hrd1 (by simp [hb])
  refine ⟨_, _, tig.ufpath.takeWhile (fun rd => !isBackbone rd.ident),
    ((tig.ufpath.dropWhile (fun rd => !isBackbone rd.ident)).reverse.takeWhile
      (fun rd => !isBackbone rd.ident)).reverse, h1, h2, ?_, ?_, ?_, hpre, hpost, ?_, ?_, ?_⟩
  · intro hu
    unfold trimUnitig
    simp only
    rw [if_neg (by rw [hu]; simp)]
    have hlen : ¬ (tig.ufpath.filter (fun rd => isBackbone rd.ident)).length = 0 := by
      intro h0
      have hm : rd ∈ tig.ufpath.filter (fun rd => isBackbone rd.ident) :=
        List.mem_filter.2 ⟨hrd, hb⟩
      rw [List.length_eq_zero.1 h0] at hm
      cases hm
    rw [if_neg hlen, h1]
    simp only
    rw [h2]
  · simp only [cleanUpReverse, trimEnds, List.rdropWhile]
  · simp only [cleanUpReverse]
    rw [List.append_assoc, ← hd2]
    exact hd1
  · simp only [cleanUpReverse]
    cases hk : ((tig.ufpath.dropWhile (fun rd => !isBackbone rd.ident)).reverse.dropWhile
        (fun rd => !isBackbone rd.ident)).reverse with
    | nil =>
      rw [List.reverse_eq_nil_iff] at hk
      rw [hk] at hrd2
      cases hrd2
    | cons f rest =>
      refine ⟨f, rfl, ?_⟩
      have hh : (tig.ufpath.dropWhile (fun rd => !isBackbone rd.ident)).head? = some f := by
        rw [hd2, hk]
        rfl
      simpa using head?_dropWhile_false _ _ f hh
  · simp only [cleanUpReverse]
    cases hk : (tig.ufpath.dropWhile (fun rd => !isBackbone rd.ident)).reverse.dropWhile
        (fun rd => !isBackbone rd.ident) with
    | nil =>
      rw [hk] at hrd2
      cases hrd2
    | cons z rest =>
      refine ⟨z, by simp, ?_⟩
      have hh : ((tig.ufpath.dropWhile (fun rd => !isBackbone rd.ident)).reverse.dropWhile
        (fun rd => !isBackbone rd.ident)).head? = some z := by rw [hk]; rfl
      simpa using head?_dropWhile_false _ _ z hh
  · intro r hr hrb
    simp only [cleanUpReverse]
    rw [hd1] at hr
    rcases List.mem_append.1 hr with e | e
    · rw [hpre r e] at hrb; cases hrb
    · rw [hd2] at e
      rcases List.mem_append.1 e with e1 | e1
      · exact e1
      · rw [hpost r e1] at hrb; cases hrb

theorem backbone_trim_result_witness :
    (∃ rd ∈ scenarioTig.ufpath, (fun ident : Nat => ident == 2 || ident == 3) rd.ident = true) ∧
    ∃ t1 t2 pre post,
      stripNonBackboneFromStart (fun ident : Nat => ident == 2 || ident == 3) scenarioTig
        = .ok t1 ∧
      stripNonBackboneFromStart (fun ident : Nat => ident == 2 || ident == 3) t1 = .ok t2 ∧
      (scenarioTig._isUnassembled = false →
        trimUnitig (fun ident : Nat => ident == 2 || ident == 3) (some scenarioTig)
          = .ok (some t2)) ∧
      t2.ufpath = trimEnds (fun ident : Nat => ident == 2 || ident == 3) scenarioTig.ufpath ∧
      scenarioTig.ufpath = pre ++ t2.ufpath ++ post ∧
      (∀ rd ∈ pre, (fun ident : Nat => ident == 2 || ident == 3) rd.ident = false) ∧
      (∀ rd ∈ post, (fun ident : Nat => ident == 2 || ident == 3) rd.ident = false) ∧
      (∃ f, t2.ufpath.head? = some f ∧
        (fun ident : Nat => ident == 2 || ident == 3) f.ident = true) ∧
      (∃ z, t2.ufpath.getLast? = some z ∧
        (fun ident : Nat => ident == 2 || ident == 3) z.ident = true) ∧
      (∀ rd ∈ scenarioTig.ufpath,
        (fun ident : Nat => ident == 2 || ident == 3) rd.ident = true → rd ∈ t2.ufpath) :=
  ⟨⟨⟨2, ⟨150, 400⟩⟩, by simp [scenarioTig], rfl⟩,
    backbone_trim_result (fun ident : Nat => ident == 2 || ident == 3) scenarioTig
      ⟨⟨2, ⟨150, 400⟩⟩, by simp [scenarioTig], rfl⟩⟩

/-! ## Order and shape of the moved reads -/

/-- A read of a shifted list, at its index. -/
theorem getElem?_map_shiftRead (off : Int) (src : List ufNode) (i : Nat) (m : ufNode)
    (h : (src.map (shiftRead off))[i]? = some m) :
    ∃ rd : ufNode, src[i]? = some rd ∧ m.ident = rd.ident ∧
      m.position.bgn = rd.position.bgn + off ∧ m.position.end_ = rd.position.end_ + off := by
  rw [List.getElem?_map] at h
  cases hs : src[i]? with
  | none => rw [hs] at h; cases h
  | some rd =>
    rw [hs] at h
    simp only [Option.map_some', Option.some.injEq] at h
    subst h
    exact ⟨rd, rfl, rfl, rfl, rfl⟩

/-- C11: the move pass of `splitTig` runs through whenever every read selects a
piece, and whenever it returns, the units that were in the collection before
(among them the input contig, when it is one of them) are unchanged, and every
unit it creates holds a sublist of the contig's read list in the same relative
order, each read with its ident and with both coordinates shifted by one offset
common to the unit: `end - bgn` and the orientation of each read and the
coordinate differences between any two reads of the unit are as in the contig. -/
theorem move_pass_order_shape (tigs : TigVector) (tig : Unitig) (BP : List breakPointEnd) :
    ((∀ rd ∈ tig.ufpath, ∃ k, pieceOf BP rd = some k ∧ k < BP.length + 2) →
      ∃ st', splitTig tigs tig BP true = .ok (0, st')) ∧
    ∀ n st', splitTig tigs tig BP true = .ok (n, st') →
      st'.tigs.take tigs.length = tigs ∧
      (∀ i : Nat, tigs[i]? = some (some tig) → st'.tigs[i]? = some (some tig)) ∧
      ∀ ptr u, tigs.length ≤ ptr → st'.tigs[ptr]? = some (some u) →
        ∃ (src : List ufNode) (off : Int), src.Sublist tig.ufpath ∧ u.ufpath.length = src.length ∧
          u.ufpath.map (fun m => m.ident) = src.map (fun rd => rd.ident) ∧
          (∀ (i : Nat) (m : ufNode), u.ufpath[i]? = some m →
            ∃ rd : ufNode, src[i]? = some rd ∧ m.ident = rd.ident ∧
              m.position.bgn = rd.position.bgn + off ∧
              m.position.end_ = rd.position.end_ + off ∧
              m.position.end_ - m.position.bgn = rd.position.end_ - rd.position.bgn ∧
              m.position.isForward = rd.position.isForward) ∧
          (∀ (i j : Nat) (mi mj : ufNode), u.ufpath[i]? = some mi → u.ufpath[j]? = some mj →
            ∃ ri rj : ufNode, src[i]? = some ri ∧ src[j]? = some rj ∧
              mi.position.bgn - mj.position.bgn = ri.position.bgn - rj.position.bgn ∧
              mi.position.end_ - mj.position.end_ = ri.position.end_ - rj.position.end_ ∧
              mi.position.end_ - mj.position.bgn = ri.position.end_ - rj.position.bgn) := by
  refine ⟨?_, ?_⟩
  · intro hall
    obtain ⟨st', h, _⟩ := splitTig_move_total tigs tig BP hall
    exact ⟨st', h⟩
  · intro n st' h
    obtain ⟨hinv, _⟩ := splitTig_move_ok tigs tig BP n st' h
    refine ⟨hinv.old_kept, ?_, ?_⟩
    · intro i hi
      have hlt : i < tigs.length := (List.getElem?_eq_some_iff.1 hi).1
      have : (st'.tigs.take tigs.length)[i]? = some (some tig) := by
        rw [hinv.old_kept]; exact hi
      rw [List.getElem?_take_of_lt hlt] at this
      exact this
    · intro ptr u hptr hu
      obtain ⟨k, first, rest, _, _, _, hpath⟩ := created_unit_spec hinv ptr u hptr hu
      refine ⟨pieceReads BP k tig.ufpath, - first.position.min, List.filter_sublist _, ?_, ?_,
        ?_, ?_⟩
      · rw [hpath, List.length_map]
      · rw [hpath, List.map_map]
        rfl
      · intro i m hm
        rw [hpath] at hm
        obtain ⟨rd, hrd, hid, hb, he⟩ := getElem?_map_shiftRead _ _ i m hm
        refine ⟨rd, hrd, hid, hb, he, by omega, ?_⟩
        unfold SeqInterval.isForward
        rw [hb, he]
        simp
      · intro i j mi mj hmi hmj
        rw [hpath] at hmi hmj
        obtain ⟨ri, hri, _, hbi, hei⟩ := getElem?_map_shiftRead _ _ i mi hmi
        obtain ⟨rj, hrj, _, hbj, hej⟩ := getElem?_map_shiftRead _ _ j mj hmj
        exact ⟨ri, rj, hri, hrj, by omega, by omega, by omega⟩

/-- C11 at scenario B: the move pass on the scenario contig. -/
theorem move_pass_order_shape_witness :
    (∃ st', splitTig [some scenarioTig] scenarioTig scenarioBP true = .ok (0, st')) ∧
    ∀ n st', splitTig [some scenarioTig] scenarioTig scenarioBP true = .ok (n, st') →
      st'.tigs.take [some scenarioTig].length = [some scenarioTig] ∧
      (∀ i : Nat, [some scenarioTig][i]? = some (some scenarioTig) →
        st'.tigs[i]? = some (some scenarioTig)) ∧
      ∀ ptr u, [some scenarioTig].length ≤ ptr → st'.tigs[ptr]? = some (some u) →
        ∃ (src : List ufNode) (off : Int), src.Sublist scenarioTig.ufpath ∧ u.ufpath.length = src.length ∧
          u.ufpath.map (fun m => m.ident) = src.map (fun rd => rd.ident) ∧
          (∀ (i : Nat) (m : ufNode), u.ufpath[i]? = some m →
            ∃ rd : ufNode, src[i]? = some rd ∧ m.ident = rd.ident ∧
              m.position.bgn = rd.position.bgn + off ∧
              m.position.end_ = rd.position.end_ + off ∧
              m.position.end_ - m.position.bgn = rd.position.end_ - rd.position.bgn ∧
              m.position.isForward = rd.position.isForward) ∧
          (∀ (i j : Nat) (mi mj : ufNode), u.ufpath[i]? = some mi → u.ufpath[j]? = some mj →
            ∃ ri rj : ufNode, src[i]? = some ri ∧ src[j]? = some rj ∧
              mi.position.bgn - mj.position.bgn = ri.position.bgn - rj.position.bgn ∧
              mi.position.end_ - mj.position.end_ = ri.position.end_ - rj.position.end_ ∧
              mi.position.end_ - mj.position.bgn = ri.position.end_ - rj.position.bgn) :=
  ⟨(move_pass_order_shape [some scenarioTig] scenarioTig scenarioBP).1 (by
      intro rd hrd
      simp only [scenarioTig, List.mem_cons, List.mem_singleton, List.not_mem_nil,
        or_false] at hrd
      rcases hrd with e | e | e | e
      · rw [e]; exact ⟨0, rfl, by decide⟩
      · rw [e]; exact ⟨0, rfl, by decide⟩
      · rw [e]; exact ⟨1, rfl, by decide⟩
      · rw [e]; exact ⟨2, rfl, by decide⟩),
    (move_pass_order_shape [some scenarioTig] scenarioTig scenarioBP).2⟩

/-! ## The count pass and the move pass -/

/-- The indices the scan returns are the initial values or indices of a pair of
consecutive breakpoints. -/
theorem scan_bounds (lo hi : Nat) :
    ∀ (l : List breakPointEnd) (tt b e : Nat),
      ((scanPieces lo hi l tt b e).1 = b ∨
        (tt ≤ (scanPieces lo hi l tt b e).1 ∧ (scanPieces lo hi l tt b e).1 + 1 < tt + l.length)) ∧
      ((scanPieces lo hi l tt b e).2 = e ∨
        (tt ≤ (scanPieces lo hi l tt b e).2 ∧ (scanPieces lo hi l tt b e).2 + 1 < tt + l.length)) := by
  intro l
  induction l with
  | nil => intro tt b e; simp [scanPieces]
  | cons p tl ih =>
    intro tt b e
    cases tl with
    | nil => simp [scanPieces]
    | cons n tl2 =>
      rw [scanPieces_cons_cons]
      have h := ih (tt + 1) (if p._pos ≤ lo ∧ lo < n._pos then tt else b)
        (if p._pos < hi ∧ hi ≤ n._pos then tt else e)
      simp only [List.length_cons] at h ⊢
      refine ⟨?_, ?_⟩
      · rcases h.1 with h1 | h1
        · rw [h1]
          split
          · right; omega
          · left; rfl
        · right; omega
      · rcases h.2 with h1 | h1
        · rw [h1]
          split
          · right; omega
          · left; rfl
        · right; omega

/-- The index the fallback loop returns is an index of `BP` or the bound
`endBP`, when the loop runs, and the start index when it does not. -/
theorem searchFree_bound (BP : List breakPointEnd) (endBP : Nat) :
    ∀ (fuel fin r : Nat), searchFree BP endBP fuel fin = .ok r →
      (fin < endBP → r < BP.length ∨ r = endBP) ∧ (¬ fin < endBP → r = fin) := by
  intro fuel
  induction fuel with
  | zero =>
    intro fin r h
    unfold searchFree at h
    split at h
    · cases h
    · simp only [Except.ok.injEq] at h
      exact ⟨fun hlt => absurd hlt (by assumption), fun _ => h.symm⟩
  | succ fuel ih =>
    intro fin r h
    unfold searchFree at h
    by_cases hlt : fin < endBP
    · rw [if_pos hlt] at h
      refine ⟨fun _ => ?_, fun hn => absurd hlt hn⟩
      have hrec : ∀ r, searchFree BP endBP fuel (fin + 1) = .ok r →
          r < BP.length ∨ r = endBP := by
        intro r hr
        have := ih (fin + 1) r hr
        by_cases h1 : fin + 1 < endBP
        · exact this.1 h1
        · right
          have := this.2 h1
          omega
      cases ha : BP[fin]? with
      | none => rw [ha] at h; cases h
      | some a =>
        have hfin : fin < BP.length := (List.getElem?_eq_some_iff.1 ha).1
        rw [ha] at h
        simp only at h
        by_cases hab : a._bgn = false
        · rw [if_pos hab] at h
          cases hb : BP[fin + 1]? with
          | none => rw [hb] at h; cases h
          | some b =>
            rw [hb] at h
            simp only at h
            by_cases hbb : b._bgn = true
            · rw [if_pos hbb] at h
              simp only [Except.ok.injEq] at h
              left; omega
            · rw [if_neg hbb] at h
              exact hrec r h
        · rw [if_neg hab] at h
          exact hrec r h
    · rw [if_neg hlt] at h
      simp only [Except.ok.injEq] at h
      exact ⟨fun h1 => absurd h1 hlt, fun _ => h.symm⟩

/-- The piece index `splitTig` selects is an index of `BP`, or the initial value
`UINT32_MAX` of `bgnBP`. -/
theorem selectPiece_bound (BP : List breakPointEnd) (lo hi k : Nat)
    (h : selectPiece BP lo hi = .ok k) : k < BP.length ∨ k = UINT32_MAX := by
  unfold selectPiece at h
  by_cases hnil : BP = []
  · rw [if_pos hnil] at h; cases h
  · rw [if_neg hnil] at h
    simp only at h
    have hb := (scan_bounds lo hi BP 0 UINT32_MAX UINT32_MAX).1
    have hfst : (scanPieces lo hi BP 0 UINT32_MAX UINT32_MAX).1 < BP.length ∨
        (scanPieces lo hi BP 0 UINT32_MAX UINT32_MAX).1 = UINT32_MAX := by
      rcases hb with e | e
      · right; exact e
      · left; omega
    by_cases heq : (scanPieces lo hi BP 0 UINT32_MAX UINT32_MAX).1 =
        (scanPieces lo hi BP 0 UINT32_MAX UINT32_MAX).2
    · rw [if_pos heq] at h
      simp only [Except.ok.injEq] at h
      rw [← h]; exact hfst
    · rw [if_neg heq] at h
      cases hnx : BP[((scanPieces lo hi BP 0 UINT32_MAX UINT32_MAX).1 + 1) % 2 ^ 32]? with
      | none => rw [hnx] at h; cases h
      | some nx =>
        have hfin := (List.getElem?_eq_some_iff.1 hnx).1
        rw [hnx] at h
        simp only at h
        by_cases hnb : nx._bgn = true
        · rw [if_pos hnb] at h
          simp only [Except.ok.injEq] at h
          rw [← h]; exact hfst
        · rw [if_neg hnb] at h
          cases hld : BP[(scanPieces lo hi BP 0 UINT32_MAX UINT32_MAX).2]? with
          | none => rw [hld] at h; cases h
          | some ld =>
            have hend := (List.getElem?_eq_some_iff.1 hld).1
            rw [hld] at h
            simp only at h
            by_cases hlb : ld._bgn = false
            · rw [if_pos hlb] at h
              simp only [Except.ok.injEq] at h
              rw [← h]; left; exact hend
            · rw [if_neg hlb] at h
              cases hsf : searchFree BP (scanPieces lo hi BP 0 UINT32_MAX UINT32_MAX).2
                  ((scanPieces lo hi BP 0 UINT32_MAX UINT32_MAX).2 -
                    ((scanPieces lo hi BP 0 UINT32_MAX UINT32_MAX).1 + 1) % 2 ^ 32)
                  (((scanPieces lo hi BP 0 UINT32_MAX UINT32_MAX).1 + 1) % 2 ^ 32) with
              | error e => rw [hsf] at h; cases h
              | ok r =>
                rw [hsf] at h
                simp only at h
                by_cases hre : r = (scanPieces lo hi BP 0 UINT32_MAX UINT32_MAX).2
                · rw [if_pos hre] at h; cases h
                · rw [if_neg hre] at h
                  simp only [Except.ok.injEq] at h
                  rw [← h]
                  left
                  have hsb := searchFree_bound BP _ _ _ r hsf
                  by_cases hlt : ((scanPieces lo hi BP 0 UINT32_MAX UINT32_MAX).1 + 1) % 2 ^ 32 <
                      (scanPieces lo hi BP 0 UINT32_MAX UINT32_MAX).2
                  · rcases hsb.1 hlt with e | e
                    · exact e
                    · exact absurd e hre
                  · rw [hsb.2 hlt]; exact hfin

/-- The count pass of `splitTig` over reads that all select a piece: it runs
through, and each counter holds the number of reads of its piece, modulo
`2^32`. -/
theorem countLoop_spec (BP : List breakPointEnd) :
    ∀ (reads done : List ufNode) (st : SplitState), st.nMoved.length = BP.length + 2 →
      (∀ k : Nat, k < BP.length + 2 →
        st.nMoved[k]? = some ((pieceReads BP k done).length % 2 ^ 32)) →
      (∀ rd ∈ reads, ∃ k, pieceOf BP rd = some k ∧ k < BP.length + 2) →
      ∃ st', splitTigLoop BP false st reads = .ok st' ∧
        st'.nMoved.length = BP.length + 2 ∧
        ∀ k : Nat, k < BP.length + 2 →
          st'.nMoved[k]? = some ((pieceReads BP k (done ++ reads)).length % 2 ^ 32) := by
  intro reads
  induction reads with
  | nil =>
    intro done st hlen hcnt _
    exact ⟨st, rfl, hlen, by rw [List.append_nil]; exact hcnt⟩
  | cons rd more ih =>
    intro done st hlen hcnt hall
    obtain ⟨k, hk, hlt⟩ := hall rd (List.mem_cons_self _ _)
    have hsel := pieceOf_eq_some.1 hk
    obtain ⟨c, hc⟩ : ∃ c, c = (pieceReads BP k done).length := ⟨_, rfl⟩
    have hstep : splitTigRead BP false st rd =
        .ok { st with nMoved := st.nMoved.set k ((c % 2 ^ 32 + 1) % 2 ^ 32) } := by
      unfold splitTigRead
      rw [hsel]
      simp only [Bool.false_eq_true, if_false]
      rw [hcnt k hlt, hc]
    obtain ⟨st', h, hlen', hcnt'⟩ := ih (done ++ [rd])
      { st with nMoved := st.nMoved.set k ((c % 2 ^ 32 + 1) % 2 ^ 32) }
      (by simp only [List.length_set]; exact hlen)
      (by
        intro k' hk'
        show (st.nMoved.set k _)[k']? = _
        by_cases e : k = k'
        · subst e
          rw [List.getElem?_set_self (by omega)]
          rw [pieceReads_snoc, if_pos hk, List.length_append, List.length_singleton, ← hc]
          simp only [Option.some.injEq]
          omega
        · rw [List.getElem?_set_ne e, hcnt k' hk', pieceReads_snoc,
            if_neg (by rw [hk]; intro h; exact e (Option.some.inj h))]
          simp)
      (fun r hr => hall r (List.mem_cons_of_mem _ hr))
    refine ⟨st', ?_, hlen', ?_⟩
    · unfold splitTigLoop
      rw [hstep]
      exact h
    · rw [List.append_cons]
      exact hcnt'

theorem mem_populatedPieces {BP : List breakPointEnd} {reads : List ufNode} {k : Nat} :
    k ∈ populatedPieces BP reads ↔ ∃ rd ∈ reads, pieceOf BP rd = some k := by
  unfold populatedPieces
  rw [List.mem_dedup, List.mem_filterMap]

theorem pieceReads_ne_nil {BP : List breakPointEnd} {reads : List ufNode} {k : Nat} :
    pieceReads BP k reads ≠ [] ↔ ∃ rd ∈ reads, pieceOf BP rd = some k := by
  unfold pieceReads
  constructor
  · intro h
    obtain ⟨rd, hrd⟩ := List.exists_mem_of_ne_nil _ h
    rw [List.mem_filter] at hrd
    exact ⟨rd, hrd.1, by simpa using hrd.2⟩
  · rintro ⟨rd, hrd, hk⟩ h
    have : rd ∈ reads.filter (fun rd => pieceOf BP rd = some k) :=
      List.mem_filter.2 ⟨hrd, by simpa using hk⟩
    rw [h] at this
    cases this

/-- The slots of `newTigs` that hold a unit after the move pass are the populated
pieces, and the units made are as many as the populated pieces. -/
theorem moveInv_created {BP : List breakPointEnd} {old : TigVector} {reads : List ufNode}
    {st : SplitState} (hinv : MoveInv BP old reads st)
    (hall : ∀ rd ∈ reads, ∃ k, pieceOf BP rd = some k ∧ k < BP.length + 2) :
    (∀ k : Nat, k ∈ populatedPieces BP reads ↔
      ∃ ptr, st.newTigs[k]? = some (some ptr) ∧ old.length ≤ ptr ∧ ptr < st.tigs.length) ∧
    st.tigs.length = old.length + (populatedPieces BP reads).length := by
  have hslot : ∀ k : Nat, k ∈ populatedPieces BP reads ↔
      ∃ ptr, st.newTigs[k]? = some (some ptr) ∧ old.length ≤ ptr ∧ ptr < st.tigs.length := by
    intro k
    constructor
    · intro hk
      obtain ⟨rd, hrd, hp⟩ := mem_populatedPieces.1 hk
      obtain ⟨k', hk', hlt⟩ := hall rd hrd
      rw [hp] at hk'
      cases hk'
      have hne : pieceReads BP k reads ≠ [] := pieceReads_ne_nil.2 ⟨rd, hrd, hp⟩
      have hklt : k < st.newTigs.length := by rw [hinv.newTigs_length]; exact hlt
      obtain ⟨slot, hget⟩ : ∃ slot, st.newTigs[k]? = some slot :=
        ⟨_, List.getElem?_eq_getElem hklt⟩
      cases slot with
      | none => exact absurd (hinv.empty_slot k hget) hne
      | some ptr =>
        obtain ⟨hple, u, _, _, hu, _⟩ := hinv.full_slot k ptr hget
        exact ⟨ptr, hget, hple, (List.getElem?_eq_some_iff.1 hu).1⟩
    · rintro ⟨ptr, hget, _, _⟩
      obtain ⟨_, u, first, rest, _, _, _, _, hpr, _⟩ := hinv.full_slot k ptr hget
      have hne : pieceReads BP k reads ≠ [] := by rw [hpr]; exact List.cons_ne_nil _ _
      exact mem_populatedPieces.2 (pieceReads_ne_nil.1 hne)
  refine ⟨hslot, ?_⟩
  have hcard : (populatedPieces BP reads).toFinset.card =
      (Finset.Ico old.length st.tigs.length).card := by
    refine Finset.card_bij
      (fun k _ => match st.newTigs[k]? with
        | some (some p) => p
        | _ => 0) ?_ ?_ ?_
    · intro k hk
      obtain ⟨ptr, hget, h1, h2⟩ := (hslot k).1 (List.mem_toFinset.1 hk)
      simp only [hget]
      exact Finset.mem_Ico.2 ⟨h1, h2⟩
    · intro k1 hk1 k2 hk2 he
      obtain ⟨p1, hg1, _, _⟩ := (hslot k1).1 (List.mem_toFinset.1 hk1)
      obtain ⟨p2, hg2, _, _⟩ := (hslot k2).1 (List.mem_toFinset.1 hk2)
      simp only [hg1, hg2] at he
      subst he
      exact hinv.slot_inj k1 k2 p1 hg1 hg2
    · intro ptr hptr
      rw [Finset.mem_Ico] at hptr
      obtain ⟨k, hk⟩ := hinv.slot_surj ptr hptr.1 hptr.2
      refine ⟨k, List.mem_toFinset.2 ((hslot k).2 ⟨ptr, hk, hptr.1, hptr.2⟩), ?_⟩
      simp only [hk]
  have hnd : (populatedPieces BP reads).Nodup := List.nodup_dedup _
  rw [List.toFinset_card_of_nodup hnd, Nat.card_Ico] at hcard
  have := hinv.old_le
  omega

/-- The count pass leaves the collection of units as it is. -/
theorem countLoop_tigs (BP : List breakPointEnd) :
    ∀ (reads : List ufNode) (st st' : SplitState),
      splitTigLoop BP false st reads = .ok st' → st'.tigs = st.tigs := by
  intro reads
  induction reads with
  | nil =>
    intro st st' h
    unfold splitTigLoop at h
    cases h
    rfl
  | cons rd more ih =>
    intro st st' h
    unfold splitTigLoop at h
    cases h1 : splitTigRead BP false st rd with
    | error e => rw [h1] at h; cases h
    | ok s1 =>
      rw [h1] at h
      have := ih s1 st' h
      rw [this]
      unfold splitTigRead at h1
      cases hsel : selectPiece BP (toUInt32 rd.position.min) (toUInt32 rd.position.max) with
      | error e => rw [hsel] at h1; cases h1
      | ok k =>
        rw [hsel] at h1
        simp only [Bool.false_eq_true, if_false] at h1
        cases hc : st.nMoved[k]? with
        | none => rw [hc] at h1; cases h1
        | some c =>
          rw [hc] at h1
          cases h1
          rfl

/-- The number the count pass returns, from the counters: the number of
populated pieces. -/
theorem count_populated (BP : List breakPointEnd) (reads : List ufNode) (nMoved : List Nat)
    (hBP : BP.length + 2 < 2 ^ 32) (hreads : reads.length < 2 ^ 32)
    (hall : ∀ rd ∈ reads, ∃ k, pieceOf BP rd = some k ∧ k < BP.length + 2)
    (hlen : nMoved.length = BP.length + 2)
    (hcnt : ∀ k : Nat, k < BP.length + 2 →
      nMoved[k]? = some ((pieceReads BP k reads).length % 2 ^ 32)) :
    ((nMoved.take BP.length).filter (fun c => 0 < c)).length =
      (populatedPieces BP reads).length := by
  have hsmall : ∀ k, (pieceReads BP k reads).length % 2 ^ 32 = (pieceReads BP k reads).length := by
    intro k
    exact Nat.mod_eq_of_lt (lt_of_le_of_lt (List.length_filter_le _ _) hreads)
  have htake : nMoved.take BP.length =
      (List.range BP.length).map (fun k => (pieceReads BP k reads).length) := by
    apply List.ext_getElem?
    intro i
    by_cases hi : i < BP.length
    · rw [List.getElem?_take_of_lt hi, hcnt i (by omega), hsmall, List.getElem?_map,
        List.getElem?_range hi]
      rfl
    · rw [List.getElem?_eq_none (by rw [List.length_take]; omega),
        List.getElem?_eq_none (by rw [List.length_map, List.length_range]; omega)]
  have hnd : (populatedPieces BP reads).Nodup := List.nodup_dedup _
  rw [htake, List.filter_map, List.length_map,
    ← List.toFinset_card_of_nodup ((List.nodup_range BP.length).filter _),
    ← List.toFinset_card_of_nodup hnd]
  congr 1
  ext k
  simp only [List.mem_toFinset, List.mem_filter, List.mem_range, Function.comp,
    decide_eq_true_eq]
  rw [mem_populatedPieces]
  constructor
  · rintro ⟨_, hpos⟩
    exact pieceReads_ne_nil.1 (List.length_pos.1 hpos)
  · rintro ⟨rd, hrd, hp⟩
    obtain ⟨k', hk', hlt⟩ := hall rd hrd
    rw [hp] at hk'
    cases hk'
    refine ⟨?_, List.length_pos.2 (pieceReads_ne_nil.2 ⟨rd, hrd, hp⟩)⟩
    rcases selectPiece_bound BP _ _ k (pieceOf_eq_some.1 hp) with h | h
    · exact h
    · unfold UINT32_MAX at h
      omega

/-- C12: for a contig with fewer than `2^32` reads and a breakpoint list whose
arrays fit 32-bit indices, when every read selects a piece, `splitTig` with
`doMove = false` returns the number of distinct piece indices that receive at
least one read and leaves the units as they are, `splitTig` with
`doMove = true` creates exactly that many units, one for each populated piece,
and the counter of each piece in the count pass is the number of reads in the
unit the move pass makes for it, which holds the reads of that piece. -/
theorem count_pass_agrees_with_move (tigs : TigVector) (tig : Unitig)
    (BP : List breakPointEnd)
    (hBP : BP.length + 2 < 2 ^ 32) (hreads : tig.ufpath.length < 2 ^ 32)
    (hall : ∀ rd ∈ tig.ufpath, ∃ k, pieceOf BP rd = some k ∧ k < BP.length + 2) :
    ∃ stc stm,
      splitTig tigs tig BP false = .ok ((populatedPieces BP tig.ufpath).length, stc) ∧
      stc.tigs = tigs ∧
      splitTig tigs tig BP true = .ok (0, stm) ∧
      stm.tigs.length = tigs.length + (populatedPieces BP tig.ufpath).length ∧
      (∀ k : Nat, k ∈ populatedPieces BP tig.ufpath ↔
        ∃ ptr, stm.newTigs[k]? = some (some ptr) ∧ tigs.length ≤ ptr ∧
          ptr < stm.tigs.length) ∧
      (∀ k1 k2 ptr : Nat, stm.newTigs[k1]? = some (some ptr) →
        stm.newTigs[k2]? = some (some ptr) → k1 = k2) ∧
      (∀ k ptr : Nat, stm.newTigs[k]? = some (some ptr) →
        ∃ u, stm.tigs[ptr]? = some (some u) ∧
          stc.nMoved[k]? = some u.ufpath.length ∧
          u.ufpath.map (fun m => m.ident) =
            (pieceReads BP k tig.ufpath).map (fun rd => rd.ident)) ∧
      (∀ k : Nat, stm.newTigs[k]? = some none → stc.nMoved[k]? = some 0) := by
  obtain ⟨stc, hc, hclen, hccnt⟩ := countLoop_spec BP tig.ufpath []
    { tigs := tigs, newTigs := [], lowCoord := [],
      nMoved := List.replicate (BP.length + 2) 0 } (by simp)
    (by
      intro k hk
      show (List.replicate (BP.length + 2) 0)[k]? = _
      rw [List.getElem?_replicate, if_pos hk]
      rfl) hall
  rw [List.nil_append] at hccnt
  obtain ⟨stm, hm, hinv⟩ := splitTig_move_total tigs tig BP hall
  obtain ⟨hslot, hcount⟩ := moveInv_created hinv hall
  have hsmall : ∀ k, (pieceReads BP k tig.ufpath).length % 2 ^ 32 =
      (pieceReads BP k tig.ufpath).length := by
    intro k
    exact Nat.mod_eq_of_lt (lt_of_le_of_lt (List.length_filter_le _ _) hreads)
  refine ⟨stc, stm, ?_, countLoop_tigs BP _ _ _ hc, hm, hcount, hslot, hinv.slot_inj, ?_, ?_⟩
  · unfold splitTig
    simp only [Bool.false_eq_true, if_false, if_true]
    rw [hc]
    simp only
    rw [count_populated BP tig.ufpath stc.nMoved hBP hreads hall hclen hccnt]
  · intro k ptr hk
    have hklt : k < BP.length + 2 := by
      rw [← hinv.newTigs_length]
      exact (List.getElem?_eq_some_iff.1 hk).1
    obtain ⟨_, u, first, rest, hu, _, _, _, _, _, hpath⟩ := hinv.full_slot k ptr hk
    refine ⟨u, hu, ?_, ?_⟩
    · rw [hccnt k hklt, hsmall, hpath, List.length_map]
    · rw [hpath, List.map_map]
      rfl
  · intro k hk
    have hklt : k < BP.length + 2 := by
      rw [← hinv.newTigs_length]
      exact (List.getElem?_eq_some_iff.1 hk).1
    rw [hccnt k hklt, hinv.empty_slot k hk]
    rfl

/-- C12 at scenario B: three populated pieces, three units. -/
theorem count_pass_agrees_with_move_witness :
    (populatedPieces scenarioBP scenarioTig.ufpath).length = 3 ∧
    ∃ stc stm,
      splitTig [] scenarioTig scenarioBP false
        = .ok ((populatedPieces scenarioBP scenarioTig.ufpath).length, stc) ∧
      stc.tigs = [] ∧
      splitTig [] scenarioTig scenarioBP true = .ok (0, stm) ∧
      stm.tigs.length
        = ([] : TigVector).length + (populatedPieces scenarioBP scenarioTig.ufpath).length ∧
      (∀ k : Nat, k ∈ populatedPieces scenarioBP scenarioTig.ufpath ↔
        ∃ ptr, stm.newTigs[k]? = some (some ptr) ∧ ([] : TigVector).length ≤ ptr ∧
          ptr < stm.tigs.length) ∧
      (∀ k1 k2 ptr : Nat, stm.newTigs[k1]? = some (some ptr) →
        stm.newTigs[k2]? = some (some ptr) → k1 = k2) ∧
      (∀ k ptr : Nat, stm.newTigs[k]? = some (some ptr) →
        ∃ u, stm.tigs[ptr]? = some (some u) ∧
          stc.nMoved[k]? = some u.ufpath.length ∧
          u.ufpath.map (fun m => m.ident) =
            (pieceReads scenarioBP k scenarioTig.ufpath).map (fun rd => rd.ident)) ∧
      (∀ k : Nat, stm.newTigs[k]? = some none → stc.nMoved[k]? = some 0) :=
  ⟨by decide,
    count_pass_agrees_with_move [] scenarioTig scenarioBP (by decide) (by decide) (by
      intro rd hrd
      simp only [scenarioTig, List.mem_cons, List.mem_singleton, List.not_mem_nil,
        or_false] at hrd
      rcases hrd with e | e | e | e
      · rw [e]; exact ⟨0, rfl, by decide⟩
      · rw [e]; exact ⟨0, rfl, by decide⟩
      · rw [e]; exact ⟨1, rfl, by decide⟩
      · rw [e]; exact ⟨2, rfl, by decide⟩)⟩

/-! ## Breakpoint discovery -/

theorem min_le_max (p : SeqInterval) : p.min ≤ p.max := by
  unfold SeqInterval.min SeqInterval.max
  split <;> omega

theorem tooSmall_of_lt (op : overlapPlacement) (minOverlap : Nat)
    (h : op.verified.max - op.verified.min < (minOverlap : Int)) :
    tooSmall op minOverlap = true := by
  have := min_le_max op.verified
  simp only [tooSmall, toUInt32, decide_eq_true_eq]
  omega

theorem tooSmall_of_eq (op : overlapPlacement) (minOverlap : Nat)
    (h : op.verified.max - op.verified.min = (minOverlap : Int)) (hm : minOverlap < 2 ^ 32) :
    tooSmall op minOverlap = false := by
  simp only [tooSmall, toUInt32, decide_eq_false_iff_not]
  omega

theorem tooSmall_zero (op : overlapPlacement) : tooSmall op 0 = false := by
  simp [tooSmall]

/-- The result of the loop body for one placement with `verbose = true`: the
scan runs unless the placement is a self edge, the log line fetches its two
reads, and the placement is kept unless a flag is set. -/
theorem checkPlacementWith_true (env : Collaborators) (contigs : TigVector) (tgA : Unitig)
    (rdA : ufNode) (minOverlap : Nat) (isFirst : Bool) (op : overlapPlacement) (tgB : Unitig)
    (htgB : contigs[op.tigID]? = some (some tgB)) (hasm : tgB._isUnassembled = false) :
    checkPlacementWith true env contigs tgA rdA minOverlap isFirst op =
      match (if toSelf env tgA tgB rdA op = false then anchorScan env tgB rdA isFirst op
             else .ok (false, { erates := [], rdB := none, coord := 0 })) with
      | .error e => .error e
      | .ok r =>
        match logReads tgB op with
        | .error e => .error e
        | .ok _ =>
          .ok (if disqualified env tgA tgB rdA minOverlap isFirst op r.2 = true then none
               else some { _tigID := op.tigID, _pos := toUInt32 r.2.coord, _bgn := r.1 }) := by
  unfold checkPlacementWith
  rw [htgB]
  simp only [hasm, Bool.false_eq_true, if_false, and_false, if_true, Bool.true_eq_false]
  cases hs : (if toSelf env tgA tgB rdA op = false then anchorScan env tgB rdA isFirst op
             else .ok (false, { erates := [], rdB := none, coord := 0 })) with
  | error e => rfl
  | ok r =>
    obtain ⟨isLow, s⟩ := r
    simp only
    by_cases hd : disqualified env tgA tgB rdA minOverlap isFirst op s = true
    · rw [if_pos hd, if_pos hd]
    · rw [if_neg hd, if_neg hd]

/-- The result of the loop body for one placement with `verbose = false`: a flag
set before the scan ends the iteration, else the scan runs and the placement is
kept unless it found no read or is of low similarity. -/
theorem checkPlacementWith_false (env : Collaborators) (contigs : TigVector) (tgA : Unitig)
    (rdA : ufNode) (minOverlap : Nat) (isFirst : Bool) (op : overlapPlacement) (tgB : Unitig)
    (htgB : contigs[op.tigID]? = some (some tgB)) (hasm : tgB._isUnassembled = false) :
    checkPlacementWith false env contigs tgA rdA minOverlap isFirst op =
      if (toSelf env tgA tgB rdA op || expected5 isFirst rdA op
            || expected3 env isFirst rdA op || tooSmall op minOverlap) = true then .ok none
      else
        match anchorScan env tgB rdA isFirst op with
        | .error e => .error e
        | .ok r =>
          .ok (if disqualified env tgA tgB rdA minOverlap isFirst op r.2 = true then none
               else some { _tigID := op.tigID, _pos := toUInt32 r.2.coord, _bgn := r.1 }) := by
  unfold checkPlacementWith
  rw [htgB]
  simp only [hasm, Bool.false_eq_true, if_false, and_true]
  by_cases h1 : toSelf env tgA tgB rdA op = true
  · simp [h1]
  · by_cases h2 : expected5 isFirst rdA op = true
    · simp [h1, h2]
    · by_cases h3 : expected3 env isFirst rdA op = true
      · simp [h1, h2, h3]
      · by_cases h4 : tooSmall op minOverlap = true
        · simp [h1, h2, h3, h4]
        · simp only [Bool.not_eq_true] at h1 h2 h3 h4
          simp only [h1, h2, h3, h4, Bool.false_eq_true, if_false, Bool.or_self, if_true]
          cases hs : anchorScan env tgB rdA isFirst op with
          | error e => rfl
          | ok r =>
            obtain ⟨isLow, s⟩ := r
            simp only [disqualified, h1, h2, h3, h4, Bool.not_false, Bool.true_and,
              Bool.false_or]
            cases hr : s.rdB.isNone
            · cases hl : env.lowSimilarity tgB op.verified.min op.verified.max s.erates
              · simp
              · simp
            · simp

/-- A placement for which the loop body pushes a breakpoint: its contig is there and
is not flagged unassembled, it is no self edge, the scan returned, no flag is set,
and the breakpoint is the one of the scan. -/
theorem checkPlacementWith_some (v : Bool) (env : Collaborators) (contigs : TigVector)
    (tgA : Unitig) (rdA : ufNode) (minOverlap : Nat) (isFirst : Bool) (op : overlapPlacement)
    (b : breakPointEnd)
    (h : checkPlacementWith v env contigs tgA rdA minOverlap isFirst op = .ok (some b)) :
    ∃ tgB r, contigs[op.tigID]? = some (some tgB) ∧ tgB._isUnassembled = false ∧
      toSelf env tgA tgB rdA op = false ∧
      anchorScan env tgB rdA isFirst op = .ok r ∧
      disqualified env tgA tgB rdA minOverlap isFirst op r.2 = false ∧
      b = { _tigID := op.tigID, _pos := toUInt32 r.2.coord, _bgn := r.1 } := by
  cases hc : contigs[op.tigID]? with
  | none => unfold checkPlacementWith at h; rw [hc] at h; cases h
  | some slot =>
    cases slot with
    | none => unfold checkPlacementWith at h; rw [hc] at h; cases h
    | some tgB =>
      by_cases hu : tgB._isUnassembled = true
      · unfold checkPlacementWith at h
        rw [hc] at h
        simp only [hu, if_true] at h
        cases h
      · have hasm : tgB._isUnassembled = false := by simpa using hu
        by_cases hself : toSelf env tgA tgB rdA op = true
        · exfalso
          have hd : ∀ s, disqualified env tgA tgB rdA minOverlap isFirst op s = true := by
            intro s
            simp [disqualified, hself]
          cases v with
          | true =>
            rw [checkPlacementWith_true env contigs tgA rdA minOverlap isFirst op tgB hc hasm,
              if_neg (by rw [hself]; simp)] at h
            simp only [hd, if_true] at h
            cases hl : logReads tgB op with
            | error e => rw [hl] at h; cases h
            | ok u => rw [hl] at h; cases h
          | false =>
            rw [checkPlacementWith_false env contigs tgA rdA minOverlap isFirst op tgB hc hasm,
              if_pos (by simp [hself])] at h
            cases h
        · have hself' : toSelf env tgA tgB rdA op = false := by simpa using hself
          have key : ∃ r, anchorScan env tgB rdA isFirst op = .ok r ∧
              (.ok (if disqualified env tgA tgB rdA minOverlap isFirst op r.2 = true then none
                else some { _tigID := op.tigID, _pos := toUInt32 r.2.coord, _bgn := r.1 }) :
                Except Fault (Option breakPointEnd)) = .ok (some b) := by
            cases v with
            | true =>
              rw [checkPlacementWith_true env contigs tgA rdA minOverlap isFirst op tgB hc hasm,
                if_pos hself'] at h
              cases hs : anchorScan env tgB rdA isFirst op with
              | error e => rw [hs] at h; cases h
              | ok r =>
                rw [hs] at h
                simp only at h
                cases hl : logReads tgB op with
                | error e => rw [hl] at h; cases h
                | ok u =>
                  rw [hl] at h
                  exact ⟨r, rfl, h⟩
            | false =>
              rw [checkPlacementWith_false env contigs tgA rdA minOverlap isFirst op tgB hc
                hasm] at h
              split at h
              · cases h
              · cases hs : anchorScan env tgB rdA isFirst op with
                | error e => rw [hs] at h; cases h
                | ok r =>
                  rw [hs] at h
                  exact ⟨r, rfl, h⟩
          obtain ⟨r, hs, hres⟩ := key
          by_cases hd : disqualified env tgA tgB rdA minOverlap isFirst op r.2 = true
          · rw [if_pos hd] at hres
            cases hres
          · rw [if_neg hd] at hres
            simp only [Except.ok.injEq, Option.some.injEq] at hres
            exact ⟨tgB, r, rfl, hasm, hself', hs, by simpa using hd, hres.symm⟩

/-- A placement that is too small pushes no breakpoint, whatever `verbose` is. -/
theorem checkPlacementWith_tooSmall (v : Bool) (env : Collaborators) (contigs : TigVector)
    (tgA : Unitig) (rdA : ufNode) (minOverlap : Nat) (isFirst : Bool) (op : overlapPlacement)
    (h : tooSmall op minOverlap = true) (b : breakPointEnd) :
    checkPlacementWith v env contigs tgA rdA minOverlap isFirst op ≠ .ok (some b) := by
  intro hc
  obtain ⟨tgB, r, _, _, _, _, hd, _⟩ :=
    checkPlacementWith_some v env contigs tgA rdA minOverlap isFirst op b hc
  simp [disqualified, h] at hd

/-- A placement that is too small pushes no breakpoint. -/
theorem checkPlacement_tooSmall (env : Collaborators) (contigs : TigVector) (tgA : Unitig)
    (rdA : ufNode) (minOverlap : Nat) (isFirst : Bool) (op : overlapPlacement)
    (h : tooSmall op minOverlap = true) (b : breakPointEnd) :
    checkPlacement env contigs tgA rdA minOverlap isFirst op ≠ .ok (some b) :=
  checkPlacementWith_tooSmall beVerbose env contigs tgA rdA minOverlap isFirst op h b

/-- The loop over the placements collects the survivors, in placement order, and
returns exactly when the check of every placement returns. -/
theorem checkReadLoopWith_spec (v : Bool) (env : Collaborators) (contigs : TigVector) (tgA : Unitig)
    (rdA : ufNode) (minOverlap : Nat) (isFirst : Bool) :
    ∀ (pls : List overlapPlacement) (acc : List breakPointEnd),
      ((∀ op ∈ pls, ∃ r, checkPlacementWith v env contigs tgA rdA minOverlap isFirst op = .ok r) →
        checkReadLoopWith v env contigs tgA rdA minOverlap isFirst pls acc =
          .ok (acc ++ survivorsWith v env contigs tgA rdA minOverlap isFirst pls)) ∧
      (∀ out, checkReadLoopWith v env contigs tgA rdA minOverlap isFirst pls acc = .ok out →
        out = acc ++ survivorsWith v env contigs tgA rdA minOverlap isFirst pls) := by
  intro pls
  induction pls with
  | nil =>
    intro acc
    refine ⟨fun _ => by simp [checkReadLoopWith, survivorsWith], fun out h => ?_⟩
    unfold checkReadLoopWith at h
    cases h
    simp [survivorsWith]
  | cons op more ih =>
    intro acc
    cases hc : checkPlacementWith v env contigs tgA rdA minOverlap isFirst op with
    | error e =>
      refine ⟨fun hall => ?_, fun out h => ?_⟩
      · obtain ⟨r, hr⟩ := hall op (List.mem_cons_self _ _)
        rw [hc] at hr
        cases hr
      · unfold checkReadLoopWith at h
        rw [hc] at h
        cases h
    | ok r =>
      cases r with
      | none =>
        have hs : survivorsWith v env contigs tgA rdA minOverlap isFirst (op :: more) =
            survivorsWith v env contigs tgA rdA minOverlap isFirst more := by
          unfold survivorsWith
          rw [List.filterMap_cons, hc]
        rw [hs]
        refine ⟨fun hall => ?_, fun out h => ?_⟩
        · unfold checkReadLoopWith
          rw [hc]
          exact (ih acc).1 (fun o ho => hall o (List.mem_cons_of_mem _ ho))
        · unfold checkReadLoopWith at h
          rw [hc] at h
          exact (ih acc).2 out h
      | some b =>
        have hs : survivorsWith v env contigs tgA rdA minOverlap isFirst (op :: more) =
            b :: survivorsWith v env contigs tgA rdA minOverlap isFirst more := by
          unfold survivorsWith
          rw [List.filterMap_cons, hc]
        rw [hs]
        refine ⟨fun hall => ?_, fun out h => ?_⟩
        · unfold checkReadLoopWith
          rw [hc]
          simp only
          rw [(ih (acc ++ [b])).1 (fun o ho => hall o (List.mem_cons_of_mem _ ho))]
          simp
        · unfold checkReadLoopWith at h
          rw [hc] at h
          simp only at h
          rw [(ih (acc ++ [b])).2 out h]
          simp

/-- Placements that are all too small leave no survivor. -/
theorem survivorsWith_tooSmall (v : Bool) (env : Collaborators) (contigs : TigVector) (tgA : Unitig)
    (rdA : ufNode) (minOverlap : Nat) (isFirst : Bool) (pls : List overlapPlacement)
    (h : ∀ op ∈ pls, tooSmall op minOverlap = true) :
    survivorsWith v env contigs tgA rdA minOverlap isFirst pls = [] := by
  unfold survivorsWith
  rw [List.filterMap_eq_nil_iff]
  intro op hop
  split
  · rename_i b hb
    exact absurd hb (checkPlacementWith_tooSmall v env contigs tgA rdA minOverlap isFirst op
      (h op hop) b)
  · rfl

/-- What `checkRead` returns, from the survivors. -/
theorem checkReadWith_spec (v : Bool) (env : Collaborators) (contigs : TigVector) (tgA : Unitig)
    (rdA : ufNode) (pls : List overlapPlacement) (pool : List breakPointEnd)
    (minOverlap maxPlacements : Nat) (isFirst : Bool) :
    ((∀ op ∈ pls, ∃ r, checkPlacementWith v env contigs tgA rdA minOverlap isFirst op = .ok r) →
      ∃ r, checkReadWith v env contigs tgA rdA pls pool minOverlap maxPlacements isFirst = .ok r) ∧
    ∀ r, checkReadWith v env contigs tgA rdA pls pool minOverlap maxPlacements isFirst = .ok r →
      r = ((survivorsWith v env contigs tgA rdA minOverlap isFirst pls).length % 2 ^ 32,
           if maxPlacements < (survivorsWith v env contigs tgA rdA minOverlap isFirst pls).length
           then pool
           else pool ++ survivorsWith v env contigs tgA rdA minOverlap isFirst pls) := by
  refine ⟨fun hall => ?_, fun r h => ?_⟩
  · unfold checkReadWith
    rw [(checkReadLoopWith_spec v env contigs tgA rdA minOverlap isFirst pls []).1 hall]
    exact ⟨_, rfl⟩
  · unfold checkReadWith at h
    cases hl : checkReadLoopWith v env contigs tgA rdA minOverlap isFirst pls [] with
    | error e => rw [hl] at h; cases h
    | ok breaks =>
      rw [hl] at h
      have hb := (checkReadLoopWith_spec v env contigs tgA rdA minOverlap isFirst pls []).2 breaks hl
      rw [List.nil_append] at hb
      simp only [Except.ok.injEq] at h
      rw [← h, hb]
      congr 1
      by_cases h0 : (survivorsWith v env contigs tgA rdA minOverlap isFirst pls).length = 0
      · rw [if_pos h0, if_neg (by omega), List.length_eq_zero.1 h0, List.append_nil]
      · rw [if_neg h0]

/-- Placements that are all too small leave no survivor. -/
theorem survivors_tooSmall (env : Collaborators) (contigs : TigVector) (tgA : Unitig)
    (rdA : ufNode) (minOverlap : Nat) (isFirst : Bool) (pls : List overlapPlacement)
    (h : ∀ op ∈ pls, tooSmall op minOverlap = true) :
    survivors env contigs tgA rdA minOverlap isFirst pls = [] :=
  survivorsWith_tooSmall beVerbose env contigs tgA rdA minOverlap isFirst pls h

/-- What `checkRead` returns, from the survivors. -/
theorem checkRead_spec (env : Collaborators) (contigs : TigVector) (tgA : Unitig)
    (rdA : ufNode) (pls : List overlapPlacement) (pool : List breakPointEnd)
    (minOverlap maxPlacements : Nat) (isFirst : Bool) :
    ((∀ op ∈ pls, ∃ r, checkPlacement env contigs tgA rdA minOverlap isFirst op = .ok r) →
      ∃ r, checkRead env contigs tgA rdA pls pool minOverlap maxPlacements isFirst = .ok r) ∧
    ∀ r, checkRead env contigs tgA rdA pls pool minOverlap maxPlacements isFirst = .ok r →
      r = ((survivors env contigs tgA rdA minOverlap isFirst pls).length % 2 ^ 32,
           if maxPlacements < (survivors env contigs tgA rdA minOverlap isFirst pls).length
           then pool
           else pool ++ survivors env contigs tgA rdA minOverlap isFirst pls) :=
  checkReadWith_spec beVerbose env contigs tgA rdA pls pool minOverlap maxPlacements isFirst

/-- C15: a placement whose verified interval has `max - min` strictly below
`minOverlap` sets the too-small flag of `checkRead` and pushes no breakpoint, and
a call of `checkRead` whose placements are all of this kind returns 0 and leaves
the pool as it was; a placement with `max - min` equal to `minOverlap` does not
set the flag, and is treated as it is without the filter (threshold 0). -/
theorem too_small_filter (env : Collaborators) (contigs : TigVector) (tgA : Unitig)
    (rdA : ufNode) (minOverlap : Nat) (isFirst : Bool) :
    (∀ op : overlapPlacement, op.verified.max - op.verified.min < (minOverlap : Int) →
      tooSmall op minOverlap = true ∧
      ∀ b, checkPlacement env contigs tgA rdA minOverlap isFirst op ≠ .ok (some b)) ∧
    (∀ (pls : List overlapPlacement) (pool : List breakPointEnd) (maxPlacements : Nat)
      (r : Nat × List breakPointEnd),
      (∀ op ∈ pls, op.verified.max - op.verified.min < (minOverlap : Int)) →
      checkRead env contigs tgA rdA pls pool minOverlap maxPlacements isFirst = .ok r →
      r = (0, pool)) ∧
    (∀ op : overlapPlacement, op.verified.max - op.verified.min = (minOverlap : Int) →
      minOverlap < 2 ^ 32 →
      tooSmall op minOverlap = false ∧
      checkPlacement env contigs tgA rdA minOverlap isFirst op =
        checkPlacement env contigs tgA rdA 0 isFirst op) := by
  refine ⟨?_, ?_, ?_⟩
  · intro op h
    exact ⟨tooSmall_of_lt op minOverlap h,
      checkPlacement_tooSmall env contigs tgA rdA minOverlap isFirst op
        (tooSmall_of_lt op minOverlap h)⟩
  · intro pls pool maxPlacements r hall h
    have hr := (checkRead_spec env contigs tgA rdA pls pool minOverlap maxPlacements isFirst).2
      r h
    rw [survivors_tooSmall env contigs tgA rdA minOverlap isFirst pls
      (fun op hop => tooSmall_of_lt op minOverlap (hall op hop))] at hr
    rw [hr]
    simp
  · intro op h hm
    refine ⟨tooSmall_of_eq op minOverlap h hm, ?_⟩
    unfold checkPlacement checkPlacementWith disqualified
    rw [tooSmall_of_eq op minOverlap h hm, tooSmall_zero]

/-- C15 at scenario C: verified length 8 against `minOverlap` 10 is filtered, and
verified length 10 is not. -/
theorem too_small_filter_witness :
    (tooSmall smallOp 10 = true ∧
      ∀ b, checkPlacement discEnv discContigs discTgA ⟨1, ⟨0, 300⟩⟩ 10 true smallOp
        ≠ .ok (some b)) ∧
    checkRead discEnv discContigs discTgA ⟨1, ⟨0, 300⟩⟩ [smallOp] [⟨0, 0, true⟩] 10 2 true
      = .ok (0, [⟨0, 0, true⟩]) ∧
    (tooSmall exactOp 10 = false ∧
      checkPlacement discEnv discContigs discTgA ⟨1, ⟨0, 300⟩⟩ 10 true exactOp =
        checkPlacement discEnv discContigs discTgA ⟨1, ⟨0, 300⟩⟩ 0 true exactOp) ∧
    checkPlacement discEnv discContigs discTgA ⟨1, ⟨0, 300⟩⟩ 10 true exactOp
      = .ok (some ⟨1, 205, false⟩) ∧
    checkPlacement discEnv discContigs discTgA ⟨1, ⟨0, 300⟩⟩ 0 true smallOp
      = .ok (some ⟨1, 205, false⟩) :=
  ⟨(too_small_filter discEnv discContigs discTgA ⟨1, ⟨0, 300⟩⟩ 10 true).1 smallOp (by decide),
    rfl,
    (too_small_filter discEnv discContigs discTgA ⟨1, ⟨0, 300⟩⟩ 10 true).2.2 exactOp
      (by decide) (by decide),
    rfl, rfl⟩

/-- C16: `checkRead` returns whenever the check of every placement does, and
whenever it returns, with `n` the number of surviving placements: if `n` exceeds
`maxPlacements` the pool is exactly as before, otherwise the pool is its old
content followed by the `n` surviving breakpoints in placement order; the value
returned is `n` as a `uint32`, which is `n` for fewer than `2^32` placements. -/
theorem all_or_nothing (env : Collaborators) (contigs : TigVector) (tgA : Unitig)
    (rdA : ufNode) (pls : List overlapPlacement) (pool : List breakPointEnd)
    (minOverlap maxPlacements : Nat) (isFirst : Bool) :
    ((∀ op ∈ pls, ∃ r, checkPlacement env contigs tgA rdA minOverlap isFirst op = .ok r) →
      ∃ ret pool',
        checkRead env contigs tgA rdA pls pool minOverlap maxPlacements isFirst
          = .ok (ret, pool')) ∧
    ∀ ret pool',
      checkRead env contigs tgA rdA pls pool minOverlap maxPlacements isFirst
        = .ok (ret, pool') →
      (maxPlacements < (survivors env contigs tgA rdA minOverlap isFirst pls).length →
        pool' = pool) ∧
      ((survivors env contigs tgA rdA minOverlap isFirst pls).length ≤ maxPlacements →
        pool' = pool ++ survivors env contigs tgA rdA minOverlap isFirst pls) ∧
      ret = (survivors env contigs tgA rdA minOverlap isFirst pls).length % 2 ^ 32 ∧
      (pls.length < 2 ^ 32 →
        ret = (survivors env contigs tgA rdA minOverlap isFirst pls).length) := by
  have hspec := checkRead_spec env contigs tgA rdA pls pool minOverlap maxPlacements isFirst
  refine ⟨fun hall => ?_, fun ret pool' h => ?_⟩
  · obtain ⟨r, hr⟩ := hspec.1 hall
    exact ⟨r.1, r.2, hr⟩
  · have hr := hspec.2 _ h
    simp only [Prod.mk.injEq] at hr
    obtain ⟨h1, h2⟩ := hr
    refine ⟨fun hgt => ?_, fun hle => ?_, h1, fun hlen => ?_⟩
    · rw [h2, if_pos hgt]
    · rw [h2, if_neg (by omega)]
    · rw [h1]
      apply Nat.mod_eq_of_lt
      have : (survivors env contigs tgA rdA minOverlap isFirst pls).length ≤ pls.length := by
        unfold survivors
        exact List.length_filterMap_le _ _
      omega

/-- C16 at scenario D: three survivors against `maxPlacements` 2 add nothing to
the pool, and `checkRead` returns 3. -/
theorem all_or_nothing_witness :
    survivors discEnv discContigs discTgA ⟨1, ⟨0, 300⟩⟩ 10 true threeOps
      = [⟨1, 500, false⟩, ⟨1, 550, false⟩, ⟨1, 550, false⟩] ∧
    ∃ ret pool',
      checkRead discEnv discContigs discTgA ⟨1, ⟨0, 300⟩⟩ threeOps [⟨0, 0, true⟩] 10 2 true
        = .ok (ret, pool') ∧
      pool' = [⟨0, 0, true⟩] ∧ ret = 3 := by
  have hall : ∀ op ∈ threeOps, ∃ r,
      checkPlacement discEnv discContigs discTgA ⟨1, ⟨0, 300⟩⟩ 10 true op = .ok r := by
    intro op hop
    simp only [threeOps, List.mem_cons, List.mem_singleton, List.not_mem_nil, or_false] at hop
    rcases hop with e | e | e
    · rw [e]; exact ⟨_, rfl⟩
    · rw [e]; exact ⟨_, rfl⟩
    · rw [e]; exact ⟨_, rfl⟩
  obtain ⟨ret, pool', h⟩ :=
    (all_or_nothing discEnv discContigs discTgA ⟨1, ⟨0, 300⟩⟩ threeOps [⟨0, 0, true⟩]
      10 2 true).1 hall
  obtain ⟨h1, _, _, h4⟩ :=
    (all_or_nothing discEnv discContigs discTgA ⟨1, ⟨0, 300⟩⟩ threeOps [⟨0, 0, true⟩]
      10 2 true).2 ret pool' h
  exact ⟨rfl, ret, pool', h, h1 (by decide), h4 (by decide)⟩

/-! ## The contigs the pool names -/

theorem namesAssembled_append {contigs : TigVector} {p q : List breakPointEnd}
    (hp : NamesAssembled contigs p) (hq : NamesAssembled contigs q) :
    NamesAssembled contigs (p ++ q) := by
  intro b hb
  rcases List.mem_append.1 hb with e | e
  · exact hp b e
  · exact hq b e

theorem namesAssembled_sentinels (contigs : TigVector) :
    NamesAssembled contigs (sentinelBreaks contigs 0) := by
  intro b hb
  obtain ⟨_, _, tig, h3, h4⟩ := sentinelBreaks_mem contigs 0 b hb
  exact ⟨tig, by simpa using h3, h4⟩

/-- A breakpoint `checkRead` pushes for a placement names the contig of the
placement, which is there and is not flagged unassembled. -/
theorem checkPlacement_names (env : Collaborators) (contigs : TigVector) (tgA : Unitig)
    (rdA : ufNode) (minOverlap : Nat) (isFirst : Bool) (op : overlapPlacement)
    (b : breakPointEnd)
    (h : checkPlacement env contigs tgA rdA minOverlap isFirst op = .ok (some b)) :
    ∃ tig, contigs[b._tigID]? = some (some tig) ∧ tig._isUnassembled = false := by
  obtain ⟨tgB, r, htgB, hasm, _, _, _, hb⟩ :=
    checkPlacementWith_some beVerbose env contigs tgA rdA minOverlap isFirst op b h
  rw [hb]
  exact ⟨tgB, htgB, hasm⟩

theorem survivors_names (env : Collaborators) (contigs : TigVector) (tgA : Unitig)
    (rdA : ufNode) (minOverlap : Nat) (isFirst : Bool) (pls : List overlapPlacement) :
    NamesAssembled contigs (survivors env contigs tgA rdA minOverlap isFirst pls) := by
  intro b hb
  unfold survivors survivorsWith at hb
  rw [List.mem_filterMap] at hb
  obtain ⟨op, _, hop⟩ := hb
  split at hop
  · rename_i b' hb'
    simp only [Option.some.injEq] at hop
    subst hop
    exact checkPlacement_names env contigs tgA rdA minOverlap isFirst op _ hb'
  · cases hop

theorem checkRead_names (env : Collaborators) (contigs : TigVector) (tgA : Unitig)
    (rdA : ufNode) (pls : List overlapPlacement) (pool : List breakPointEnd)
    (minOverlap maxPlacements : Nat) (isFirst : Bool) (r : Nat × List breakPointEnd)
    (hp : NamesAssembled contigs pool)
    (h : checkRead env contigs tgA rdA pls pool minOverlap maxPlacements isFirst = .ok r) :
    NamesAssembled contigs r.2 := by
  rw [(checkRead_spec env contigs tgA rdA pls pool minOverlap maxPlacements isFirst).2 r h]
  simp only
  split
  · exact hp
  · exact namesAssembled_append hp (survivors_names env contigs tgA rdA minOverlap isFirst pls)

theorem push_unless_back (bp : breakPointEnd) (pool pool' : List breakPointEnd)
    (h : (match pool.getLast? with
      | none => (.error .outOfBounds : Except Fault (List breakPointEnd))
      | some back => if back.eq bp = true then .ok pool else .ok (pool ++ [bp])) = .ok pool') :
    pool' = pool ∨ pool' = pool ++ [bp] := by
  cases hl : pool.getLast? with
  | none => rw [hl] at h; cases h
  | some back =>
    rw [hl] at h
    simp only at h
    by_cases he : back.eq bp = true
    · rw [if_pos he] at h; cases h; left; rfl
    · rw [if_neg he] at h; cases h; right; rfl

theorem confusedBreak_names (env : Collaborators) (contigs : TigVector)
    (pool pool' : List breakPointEnd) (ce : confusedEdge)
    (hp : NamesAssembled contigs pool)
    (h : confusedBreak env contigs pool ce = .ok pool') :
    NamesAssembled contigs pool' := by
  unfold confusedBreak at h
  simp only at h
  cases hc : contigs[env.inUnitig ce.aid]? with
  | none => rw [hc] at h; cases h
  | some slot =>
    cases slot with
    | none => rw [hc] at h; cases h; exact hp
    | some tig =>
      rw [hc] at h
      simp only at h
      by_cases hu : tig._isUnassembled = true
      · rw [if_pos hu] at h; cases h; exact hp
      · rw [if_neg hu] at h
        cases hr : tig.ufpath[env.ufpathIdx ce.aid]? with
        | none => rw [hr] at h; cases h
        | some rda =>
          rw [hr] at h
          simp only at h
          rcases push_unless_back _ _ _ h with e | e
          · rw [e]; exact hp
          · rw [e]
            refine namesAssembled_append hp ?_
            intro b hb
            rw [List.mem_singleton] at hb
            rw [hb]
            exact ⟨tig, hc, by simpa using hu⟩

theorem confusedBreaks_names (env : Collaborators) (contigs : TigVector) :
    ∀ (ces : List confusedEdge) (pool pool' : List breakPointEnd),
      NamesAssembled contigs pool → confusedBreaks env contigs ces pool = .ok pool' →
      NamesAssembled contigs pool' := by
  intro ces
  induction ces with
  | nil =>
    intro pool pool' hp h
    unfold confusedBreaks at h
    cases h
    exact hp
  | cons ce more ih =>
    intro pool pool' hp h
    unfold confusedBreaks at h
    cases hc : confusedBreak env contigs pool ce with
    | error e => rw [hc] at h; cases h
    | ok p1 =>
      rw [hc] at h
      exact ih p1 pool' (confusedBreak_names env contigs pool p1 ce hp hc) h

theorem intersectionBreaks_names (env : Collaborators) (contigs : TigVector)
    (minIntersectLen maxPlacements : Nat) :
    ∀ (l : List (Option Unitig)) (pool pool' : List breakPointEnd),
      NamesAssembled contigs pool →
      intersectionBreaks env contigs minIntersectLen maxPlacements l pool = .ok pool' →
      NamesAssembled contigs pool' := by
  intro l
  induction l with
  | nil =>
    intro pool pool' hp h
    unfold intersectionBreaks at h
    cases h
    exact hp
  | cons c more ih =>
    intro pool pool' hp h
    cases c with
    | none =>
      unfold intersectionBreaks at h
      exact ih pool pool' hp h
    | some tig =>
      unfold intersectionBreaks at h
      by_cases hu : tig._isUnassembled = true
      · rw [if_pos hu] at h
        exact ih pool pool' hp h
      · rw [if_neg hu] at h
        split at h
        · rename_i fi li _ _
          cases h1 : checkRead env contigs tig fi (env.placeReadUsingOverlaps contigs fi.ident)
              pool minIntersectLen maxPlacements true with
          | error e => rw [h1] at h; cases h
          | ok npf =>
            rw [h1] at h
            simp only at h
            cases h2 : checkRead env contigs tig li
                (env.placeReadUsingOverlaps contigs li.ident)
                npf.2 minIntersectLen maxPlacements false with
            | error e => rw [h2] at h; cases h
            | ok npr =>
              rw [h2] at h
              simp only at h
              exact ih npr.2 pool'
                (checkRead_names env contigs tig li _ npf.2 minIntersectLen maxPlacements false
                  npr (checkRead_names env contigs tig fi _ pool minIntersectLen maxPlacements
                    true npf hp h1) h2) h
        · cases h

theorem discoverBreaks_names (env : Collaborators) (contigs : TigVector)
    (minIntersectLen maxPlacements : Nat) (ces : List confusedEdge)
    (pool : List breakPointEnd)
    (h : discoverBreaks env contigs minIntersectLen maxPlacements ces = .ok pool) :
    NamesAssembled contigs pool := by
  unfold discoverBreaks at h
  cases hc : confusedBreaks env contigs ces (sentinelBreaks contigs 0) with
  | error e => rw [hc] at h; cases h
  | ok p1 =>
    rw [hc] at h
    exact intersectionBreaks_names env contigs minIntersectLen maxPlacements contigs p1 pool
      (confusedBreaks_names env contigs ces _ p1 (namesAssembled_sentinels contigs) hc) h

theorem namesAssembled_sort {contigs : TigVector} {pool : List breakPointEnd}
    (hp : NamesAssembled contigs pool) : NamesAssembled contigs (sortBreaks pool) := by
  intro b hb
  exact hp b ((sortBreaks_isSortOf pool).1.mem_iff.1 hb)

/-- The units one split step adds to the output: the units that were there are
kept, and each new unit holds reads of the contig handled, and is not flagged
unassembled unless that contig is. -/
theorem splitContig_units (dflt : tigLoc) (contigs : TigVector) (st st1 : CreateState)
    (tig : Unitig) (BP : List breakPointEnd)
    (h : splitContig dflt contigs st tig BP = .ok st1) :
    st1.unitigs.take st.unitigs.length = st.unitigs ∧
    st.unitigs.length ≤ st1.unitigs.length ∧
    ∀ (ptr : Nat) (u : Unitig), st.unitigs.length ≤ ptr → st1.unitigs[ptr]? = some (some u) →
      (tig._isUnassembled = false → u._isUnassembled = false) ∧
      (u.ufpath.map (fun rd => rd.ident)).Sublist (tig.ufpath.map (fun rd => rd.ident)) := by
  unfold splitContig at h
  cases hcount : splitTig contigs tig BP false with
  | error e => rw [hcount] at h; cases h
  | ok counted =>
    rw [hcount] at h
    simp only at h
    by_cases hsplit : 1 < counted.1
    · rw [if_pos hsplit] at h
      cases hmove : splitTig st.unitigs tig BP true with
      | error e => rw [hmove] at h; cases h
      | ok r =>
        rw [hmove] at h
        simp only at h
        obtain ⟨hinv, _⟩ := splitTig_move_ok st.unitigs tig BP r.1 r.2 hmove
        cases hrec : recordSources r.2.tigs tig r.2.newTigs r.2.lowCoord (List.range counted.1)
            (resize dflt st.unitigSource (r.2.tigs.length + 1)) with
        | error e => rw [hrec] at h; cases h
        | ok src =>
          rw [hrec] at h
          simp only [Except.ok.injEq] at h
          subst h
          refine ⟨hinv.old_kept, hinv.old_le, ?_⟩
          intro ptr u hptr hu
          obtain ⟨k, hk⟩ := hinv.slot_surj ptr hptr (List.getElem?_eq_some_iff.1 hu).1
          obtain ⟨_, u', first, rest, hu', _, hun, _, _, _, hpath⟩ := hinv.full_slot k ptr hk
          have hu2 : r.2.tigs[ptr]? = some (some u) := hu
          rw [hu2] at hu'
          simp only [Option.some.injEq] at hu'
          subst hu'
          refine ⟨fun _ => hun, ?_⟩
          rw [hpath, List.map_map]
          exact (List.filter_sublist _).map _
    · rw [if_neg hsplit] at h
      simp only at h
      obtain ⟨u0, hc, hpath, _, hun, _⟩ := copyTig_spec st.unitigs tig
      rw [hc] at h
      simp only at h
      cases hrec : recordSources (st.unitigs ++ [some u0]) tig [some st.unitigs.length] [0]
          (List.range counted.1)
          (resize dflt st.unitigSource ((st.unitigs ++ [some u0]).length + 1)) with
      | error e => rw [hrec] at h; cases h
      | ok src =>
        rw [hrec] at h
        simp only [Except.ok.injEq] at h
        subst h
        refine ⟨List.take_left' rfl, by simp, ?_⟩
        intro ptr u hptr hu
        have hu2 : (st.unitigs ++ [some u0])[ptr]? = some (some u) := hu
        have hlt : ptr < (st.unitigs ++ [some u0]).length := (List.getElem?_eq_some_iff.1 hu2).1
        rw [List.length_append, List.length_singleton] at hlt
        have hp : ptr = st.unitigs.length := by omega
        subst hp
        rw [List.getElem?_append_right (le_refl _), Nat.sub_self] at hu2
        simp only [List.getElem?_cons_zero, Option.some.injEq] at hu2
        subst hu2
        refine ⟨fun ht => by rw [hun]; exact ht, ?_⟩
        rw [hpath]

/-- The units the walk adds to the output, for a pool that names only contigs
that are not flagged unassembled: each holds reads of one such contig and is not
flagged unassembled. -/
theorem walk_units (dflt : tigLoc) (contigs : TigVector) :
    ∀ (fuel : Nat) (l : List breakPointEnd) (st st' : CreateState),
      NamesAssembled contigs l → walkBreaks dflt contigs fuel l st = .ok st' →
      st'.unitigs.take st.unitigs.length = st.unitigs ∧
      st.unitigs.length ≤ st'.unitigs.length ∧
      ∀ (ptr : Nat) (u : Unitig), st.unitigs.length ≤ ptr →
        st'.unitigs[ptr]? = some (some u) →
        ∃ tig, some tig ∈ contigs ∧ tig._isUnassembled = false ∧
          u._isUnassembled = false ∧
          (u.ufpath.map (fun rd => rd.ident)).Sublist (tig.ufpath.map (fun rd => rd.ident)) := by
  have hnil : ∀ (st st' : CreateState), (Except.ok st : Except Fault CreateState) = .ok st' →
      st'.unitigs.take st.unitigs.length = st.unitigs ∧
      st.unitigs.length ≤ st'.unitigs.length ∧
      ∀ (ptr : Nat) (u : Unitig), st.unitigs.length ≤ ptr →
        st'.unitigs[ptr]? = some (some u) →
        ∃ tig, some tig ∈ contigs ∧ tig._isUnassembled = false ∧
          u._isUnassembled = false ∧
          (u.ufpath.map (fun rd => rd.ident)).Sublist
            (tig.ufpath.map (fun rd => rd.ident)) := by
    intro st st' h
    cases h
    refine ⟨List.take_length _, le_refl _, ?_⟩
    intro ptr u hptr hu
    have := (List.getElem?_eq_some_iff.1 hu).1
    omega
  intro fuel
  induction fuel with
  | zero =>
    intro l st st' _ h
    cases l with
    | nil => exact hnil st st' h
    | cons b more => cases h
  | succ fuel ih =>
    intro l st st' hp h
    cases l with
    | nil => exact hnil st st' h
    | cons b more =>
      obtain ⟨tig, htig, hlive⟩ := hp b (List.mem_cons_self _ _)
      unfold walkBreaks at h
      rw [htig] at h
      simp only at h
      cases hs : splitContig dflt contigs st tig
          (buildBP [] (b :: more.takeWhile (fun x => x._tigID = b._tigID))) with
      | error e => rw [hs] at h; cases h
      | ok st1 =>
        rw [hs] at h
        simp only at h
        obtain ⟨t1, l1, u1⟩ := splitContig_units dflt contigs st st1 tig _ hs
        obtain ⟨t2, l2, u2⟩ := ih _ st1 st' (by
          intro x hx
          exact hp x (List.mem_cons_of_mem _ ((List.dropWhile_sublist _).subset hx))) h
        refine ⟨?_, le_trans l1 l2, ?_⟩
        · calc st'.unitigs.take st.unitigs.length
              = (st'.unitigs.take st1.unitigs.length).take st.unitigs.length := by
                rw [List.take_take, Nat.min_eq_left l1]
            _ = st.unitigs := by rw [t2, t1]
        · intro ptr u hptr hu
          by_cases hlt : ptr < st1.unitigs.length
          · have hu1 : st1.unitigs[ptr]? = some (some u) := by
              rw [← t2, List.getElem?_take_of_lt hlt]
              exact hu
            obtain ⟨hf, hsub⟩ := u1 ptr u hptr hu1
            exact ⟨tig, List.getElem?_mem htig, hlive, hf hlive, hsub⟩
          · exact u2 ptr u (by omega) hu

/-- C17: at every point of `createUnitigs` each breakpoint of the pool names a
contig that is there and is not flagged unassembled: the sentinels do, and every
confused-edge step and every call of `checkRead` keeps it so, hence the pool
before and after the sort does; and every unit the walk over the sorted pool adds
to the output is not flagged unassembled and holds reads of one contig that is
not flagged unassembled. -/
theorem unassembled_excluded (env : Collaborators) (dflt : tigLoc) (contigs : TigVector)
    (minIntersectLen maxPlacements : Nat) :
    NamesAssembled contigs (sentinelBreaks contigs 0) ∧
    (∀ (pool pool' : List breakPointEnd) (ce : confusedEdge),
      NamesAssembled contigs pool → confusedBreak env contigs pool ce = .ok pool' →
      NamesAssembled contigs pool') ∧
    (∀ (tgA : Unitig) (rdA : ufNode) (pls : List overlapPlacement)
      (pool : List breakPointEnd) (isFirst : Bool) (r : Nat × List breakPointEnd),
      NamesAssembled contigs pool →
      checkRead env contigs tgA rdA pls pool minIntersectLen maxPlacements isFirst = .ok r →
      NamesAssembled contigs r.2) ∧
    (∀ (confusedEdges : List confusedEdge) (pool : List breakPointEnd),
      discoverBreaks env contigs minIntersectLen maxPlacements confusedEdges = .ok pool →
      NamesAssembled contigs pool ∧ NamesAssembled contigs (sortBreaks pool) ∧
      ∀ (out st' : CreateState),
        walkBreaks dflt contigs pool.length (sortBreaks pool) out = .ok st' →
        st'.unitigs.take out.unitigs.length = out.unitigs ∧
        ∀ (ptr : Nat) (u : Unitig), out.unitigs.length ≤ ptr →
          st'.unitigs[ptr]? = some (some u) →
          ∃ tig, some tig ∈ contigs ∧ tig._isUnassembled = false ∧
            u._isUnassembled = false ∧
            (u.ufpath.map (fun rd => rd.ident)).Sublist
              (tig.ufpath.map (fun rd => rd.ident))) := by
  refine ⟨namesAssembled_sentinels contigs, ?_, ?_, ?_⟩
  · intro pool pool' ce hp h
    exact confusedBreak_names env contigs pool pool' ce hp h
  · intro tgA rdA pls pool isFirst r hp h
    exact checkRead_names env contigs tgA rdA pls pool minIntersectLen maxPlacements isFirst r
      hp h
  · intro ces pool h
    have hp := discoverBreaks_names env contigs minIntersectLen maxPlacements ces pool h
    refine ⟨hp, namesAssembled_sort hp, ?_⟩
    intro out st' hw
    obtain ⟨t, _, hu⟩ := walk_units dflt contigs pool.length (sortBreaks pool) out st'
      (namesAssembled_sort hp) hw
    exact ⟨t, hu⟩

/-- C17 on the discovery scenario with a NULL entry and an unassembled contig: the
pool `createUnitigs` builds, and the contigs it names. -/
theorem unassembled_excluded_witness :
    ∃ pool, discoverBreaks discEnv discContigsU 10 2 [⟨1, true, 5⟩] = .ok pool ∧
      pool = [⟨0, 0, true⟩, ⟨0, 300, false⟩, ⟨1, 0, true⟩, ⟨1, 1000, false⟩,
              ⟨0, 300, false⟩, ⟨1, 205, false⟩] ∧
      NamesAssembled discContigsU pool ∧ NamesAssembled discContigsU (sortBreaks pool) :=
  ⟨_, rfl, rfl,
    ((unassembled_excluded discEnv scenarioLoc discContigsU 10 2).2.2.2 [⟨1, true, 5⟩] _ rfl).1,
    ((unassembled_excluded discEnv scenarioLoc discContigsU 10 2).2.2.2 [⟨1, true, 5⟩] _ rfl).2.1⟩

/-! ## The free-zone fallback and the boundaries of the selected piece -/

/-- The branch `selectPiece` takes, from what the scan found, when `bgnBP` is an
index of the list. -/
theorem selectPiece_branch (BP : List breakPointEnd) (lo hi bgnBP endBP f : Nat)
    (hscan : scanPieces lo hi BP 0 UINT32_MAX UINT32_MAX = (bgnBP, endBP))
    (hb : bgnBP + 1 < 2 ^ 32)
    (hsel : selectPiece BP lo hi = .ok f) :
    (bgnBP = endBP ∧ f = bgnBP) ∨
    (bgnBP ≠ endBP ∧ ∃ nx, BP[bgnBP + 1]? = some nx ∧
      ((nx._bgn = true ∧ f = bgnBP) ∨
       (nx._bgn = false ∧ ∃ ld, BP[endBP]? = some ld ∧
         ((ld._bgn = false ∧ f = endBP) ∨
          (ld._bgn = true ∧ f ≠ endBP ∧
            searchFree BP endBP (endBP - (bgnBP + 1)) (bgnBP + 1) = .ok f))))) := by
  unfold selectPiece at hsel
  by_cases hnil : BP = []
  · rw [if_pos hnil] at hsel; cases hsel
  · rw [if_neg hnil, hscan] at hsel
    simp only at hsel
    rw [Nat.mod_eq_of_lt hb] at hsel
    by_cases he : bgnBP = endBP
    · rw [if_pos he] at hsel
      simp only [Except.ok.injEq] at hsel
      exact Or.inl ⟨he, hsel.symm⟩
    · rw [if_neg he] at hsel
      refine Or.inr ⟨he, ?_⟩
      cases hnx : BP[bgnBP + 1]? with
      | none => rw [hnx] at hsel; cases hsel
      | some nx =>
        rw [hnx] at hsel
        simp only at hsel
        refine ⟨nx, rfl, ?_⟩
        by_cases hnb : nx._bgn = true
        · rw [if_pos hnb] at hsel
          simp only [Except.ok.injEq] at hsel
          exact Or.inl ⟨hnb, hsel.symm⟩
        · rw [if_neg hnb] at hsel
          refine Or.inr ⟨by simpa using hnb, ?_⟩
          cases hld : BP[endBP]? with
          | none => rw [hld] at hsel; cases hsel
          | some ld =>
            rw [hld] at hsel
            simp only at hsel
            refine ⟨ld, rfl, ?_⟩
            by_cases hlb : ld._bgn = false
            · rw [if_pos hlb] at hsel
              simp only [Except.ok.injEq] at hsel
              exact Or.inl ⟨hlb, hsel.symm⟩
            · rw [if_neg hlb] at hsel
              cases hs : searchFree BP endBP (endBP - (bgnBP + 1)) (bgnBP + 1) with
              | error e => rw [hs] at hsel; cases hsel
              | ok r =>
                rw [hs] at hsel
                simp only at hsel
                by_cases hr : r = endBP
                · rw [if_pos hr] at hsel; cases hsel
                · rw [if_neg hr] at hsel
                  simp only [Except.ok.injEq] at hsel
                  subst hsel
                  exact Or.inr ⟨by simpa using hlb, hr, rfl⟩

/-- C21: when the scan leaves `bgnBP < endBP`, the boundary after `bgnBP` is
end-type and the leading boundary of `endBP` is begin-type, `splitTig` selects a
piece `finBP` with `bgnBP < finBP < endBP` whose leading boundary is end-type and
whose trailing boundary is begin-type, and no smaller index above `bgnBP` is such
a piece. -/
theorem free_zone_fallback (BP : List breakPointEnd) (lo hi bgnBP endBP : Nat)
    (nx ld : breakPointEnd) (hsize : BP.length < 2 ^ 32)
    (hscan : scanPieces lo hi BP 0 UINT32_MAX UINT32_MAX = (bgnBP, endBP))
    (hlt : bgnBP < endBP)
    (hnx : BP[bgnBP + 1]? = some nx) (hnxb : nx._bgn = false)
    (hld : BP[endBP]? = some ld) (hldb : ld._bgn = true) :
    ∃ finBP x y, selectPiece BP lo hi = .ok finBP ∧ bgnBP < finBP ∧ finBP < endBP ∧
      BP[finBP]? = some x ∧ x._bgn = false ∧ BP[finBP + 1]? = some y ∧ y._bgn = true ∧
      ∀ j u v, bgnBP < j → j < finBP → BP[j]? = some u → BP[j + 1]? = some v →
        ¬ (u._bgn = false ∧ v._bgn = true) := by
  have hlen := (List.getElem?_eq_some_iff.1 hnx).1
  obtain ⟨r, x, y, hs, hle, hrlt, hx, hxb, hy, hyb, hmin⟩ :=
    searchFree_spec BP endBP (endBP - (bgnBP + 1)) (bgnBP + 1) nx ld rfl (by omega)
      hnx hnxb hld hldb
  refine ⟨r, x, y, ?_, by omega, hrlt, hx, hxb, hy, hyb, ?_⟩
  · unfold selectPiece
    rw [if_neg (by intro h; rw [h] at hnx; simp at hnx), hscan]
    simp only
    rw [if_neg (by omega), Nat.mod_eq_of_lt (by omega), hnx]
    simp only
    rw [if_neg (by rw [hnxb]; simp), hld]
    simp only
    rw [if_neg (by rw [hldb]; simp), hs]
    simp only
    rw [if_neg (by omega)]
  · intro j u v hj1 hj2 hu hv
    exact hmin j u v (by omega) hj2 hu hv

/-- C21 at the read [380,600] of scenario B: the zero-width piece 1 between the
end boundary and the begin boundary at 400. -/
theorem free_zone_fallback_witness :
    selectPiece scenarioBP 380 600 = .ok 1 ∧
    ∃ finBP x y, selectPiece scenarioBP 380 600 = .ok finBP ∧ 0 < finBP ∧ finBP < 2 ∧
      scenarioBP[finBP]? = some x ∧ x._bgn = false ∧
      scenarioBP[finBP + 1]? = some y ∧ y._bgn = true ∧
      ∀ j u v, 0 < j → j < finBP → scenarioBP[j]? = some u → scenarioBP[j + 1]? = some v →
        ¬ (u._bgn = false ∧ v._bgn = true) :=
  ⟨rfl, free_zone_fallback scenarioBP 380 600 0 2 ⟨0, 400, false⟩ ⟨0, 400, true⟩ (by decide)
    rfl (by decide) rfl rfl rfl rfl⟩

/-- C22: for a breakpoint list sorted by position and a read with
`BP[0].pos <= lo < hi <= BP[last].pos`, `splitTig` selects a piece `finBP`, and if
the leading boundary of that piece is begin-type the read does not start before
it, and if its trailing boundary is end-type the read does not end after it. -/
theorem boundary_respect (BP : List breakPointEnd) (lo hi : Nat)
    (hlen : 2 ≤ BP.length) (hsize : BP.length < 2 ^ 32)
    (hsorted : BP.Pairwise (fun x y => x._pos ≤ y._pos))
    (hfirst : ∃ f, BP.head? = some f ∧ f._pos ≤ lo)
    (hlohi : lo < hi)
    (hlast : ∃ z, BP.getLast? = some z ∧ hi ≤ z._pos) :
    ∃ finBP p n, selectPiece BP lo hi = .ok finBP ∧
      BP[finBP]? = some p ∧ BP[finBP + 1]? = some n ∧
      (p._bgn = true → p._pos ≤ lo) ∧ (n._bgn = false → hi ≤ n._pos) := by
  obtain ⟨b, e, f, hscan, ⟨pb, nb, hpb, hnb, hpblo, _⟩, ⟨pe, ne, hpe, hne, _, hnehi⟩, hsel,
    hbf, hfe, hend⟩ := selectPiece_spec BP lo hi hlen hsize hsorted hfirst hlohi hlast
  rcases selectPiece_branch BP lo hi b e f hscan (by omega) hsel with
    ⟨hbe, hf⟩ | ⟨hbe, nx, hnx, hcase⟩
  · rw [hf] at hsel
    rw [← hbe] at hne
    rw [hnb] at hne
    cases hne
    exact ⟨b, pb, nb, hsel, hpb, hnb, fun _ => hpblo, fun _ => hnehi⟩
  · rcases hcase with ⟨hnxb, hf⟩ | ⟨hnxb, ld, hld, hcase2⟩
    · subst hf
      rw [hnb] at hnx
      cases hnx
      exact ⟨f, pb, nb, hsel, hpb, hnb, fun _ => hpblo,
        fun h => (by rw [hnxb] at h; cases h)⟩
    · rcases hcase2 with ⟨hldb, hf⟩ | ⟨hldb, _, hs⟩
      · subst hf
        rw [hpe] at hld
        cases hld
        exact ⟨f, pe, ne, hsel, hpe, hne, fun h => (by rw [hldb] at h; cases h),
          fun _ => hnehi⟩
      · obtain ⟨r, x, y, hs', _, _, hx, hxb, hy, hyb, _⟩ :=
          searchFree_spec BP e (e - (b + 1)) (b + 1) nx ld rfl (by omega) hnx hnxb hld hldb
        rw [hs] at hs'
        cases hs'
        exact ⟨f, x, y, hsel, hx, hy, fun h => (by rw [hxb] at h; cases h),
          fun h => (by rw [hyb] at h; cases h)⟩

/-- C22 at the read [150,400] of scenario B: piece 0, from the begin boundary at
0 to the end boundary at 400. -/
theorem boundary_respect_witness :
    selectPiece scenarioBP 150 400 = .ok 0 ∧
    ∃ finBP p n, selectPiece scenarioBP 150 400 = .ok finBP ∧
      scenarioBP[finBP]? = some p ∧ scenarioBP[finBP + 1]? = some n ∧
      (p._bgn = true → p._pos ≤ 150) ∧ (n._bgn = false → 400 ≤ n._pos) :=
  ⟨rfl, boundary_respect scenarioBP 150 400 (by decide) (by decide) (by decide)
    ⟨_, rfl, by decide⟩ (by decide) ⟨_, rfl, by decide⟩⟩

/-! ## The anchor of a placement -/

/-- One step of the inner loop of the anchor scan keeps the state of the scan. -/
theorem scanOverlap_inv (op : overlapPlacement) (isLow : Bool) (c0 : Int) (rd : ufNode)
    (ov : BAToverlap) (s : AnchorScan) (C C' : ufNode → Prop)
    (hinv : ScanInv isLow c0 C s)
    (hC : ∀ x, C' x ↔ C x ∨ (x = rd ∧ ov.b_iid = rd.ident ∧ anchorTest op isLow rd)) :
    ScanInv isLow c0 C' (scanOverlap op isLow rd s ov) := by
  obtain ⟨h1, h2, h3, h4⟩ := hinv
  unfold scanOverlap
  by_cases hid : ov.b_iid ≠ rd.ident
  · rw [if_pos hid]
    have hCC : ∀ x, C' x ↔ C x := by
      intro x
      rw [hC x]
      constructor
      · rintro (h | ⟨_, h, _⟩)
        · exact h
        · exact absurd h hid
      · intro h; exact Or.inl h
    exact ⟨fun x hx => h1 x ((hCC x).1 hx), fun r hr => ⟨(hCC r).2 (h2 r hr).1, (h2 r hr).2⟩,
      h3, h4⟩
  · rw [if_neg hid]
    have hid' : ov.b_iid = rd.ident := by simpa using hid
    cases isLow with
    | true =>
      simp only [Bool.true_eq_false, false_and, if_false, true_and, if_true, anchorTest,
        anchorCoord] at h1 h2 h4 hC ⊢
      by_cases ha : rd.position.min > op.verified.min
      · rw [if_pos ha]
        by_cases hb : rd.position.min < s.coord ∧ rd.position.max > op.verified.max
        · rw [if_pos hb]
          refine ⟨?_, ?_, ?_, ?_⟩
          · intro x hx
            simp only [if_true]
            rcases (hC x).1 hx with h | ⟨h, _⟩
            · have := h1 x h
              simp only [if_true] at this
              show rd.position.min ≤ x.position.min
              omega
            · rw [h]
              exact le_refl _
          · intro r hr
            simp only [Option.some.injEq] at hr
            subst hr
            exact ⟨(hC _).2 (Or.inr ⟨rfl, hid', ha, hb.2⟩), rfl⟩
          · intro hn
            cases hn
          · simp only [if_true] at h4 ⊢
            show rd.position.min ≤ c0
            omega
        · rw [if_neg hb]
          refine ⟨?_, ?_, h3, h4⟩
          · intro x hx
            rcases (hC x).1 hx with h | ⟨h, _, _, h'⟩
            · exact h1 x h
            · rw [h]
              simp only [if_true]
              show s.coord ≤ rd.position.min
              by_contra hlt
              exact hb ⟨by omega, h'⟩
          · intro r hr
            exact ⟨(hC r).2 (Or.inl (h2 r hr).1), (h2 r hr).2⟩
      · rw [if_neg ha]
        refine ⟨?_, ?_, h3, h4⟩
        · intro x hx
          rcases (hC x).1 hx with h | ⟨_, _, h', _⟩
          · exact h1 x h
          · exact absurd h' ha
        · intro r hr
          exact ⟨(hC r).2 (Or.inl (h2 r hr).1), (h2 r hr).2⟩
    | false =>
      simp only [Bool.false_eq_true, false_and, if_false, true_and, anchorTest,
        anchorCoord] at h1 h2 h4 hC ⊢
      by_cases ha : rd.position.max < op.verified.max
      · rw [if_pos ha]
        by_cases hb : rd.position.max > s.coord ∧ rd.position.min < op.verified.min
        · rw [if_pos hb]
          refine ⟨?_, ?_, ?_, ?_⟩
          · intro x hx
            rcases (hC x).1 hx with h | ⟨h, _⟩
            · have := h1 x h
              show x.position.max ≤ rd.position.max
              omega
            · rw [h]
              exact le_refl _
          · intro r hr
            simp only [Option.some.injEq] at hr
            subst hr
            exact ⟨(hC _).2 (Or.inr ⟨rfl, hid', ha, hb.2⟩), rfl⟩
          · intro hn
            cases hn
          · show c0 ≤ rd.position.max
            omega
        · rw [if_neg hb]
          refine ⟨?_, ?_, h3, h4⟩
          · intro x hx
            rcases (hC x).1 hx with h | ⟨h, _, _, h'⟩
            · exact h1 x h
            · rw [h]
              show rd.position.max ≤ s.coord
              by_contra hlt
              exact hb ⟨by omega, h'⟩
          · intro r hr
            exact ⟨(hC r).2 (Or.inl (h2 r hr).1), (h2 r hr).2⟩
      · rw [if_neg ha]
        refine ⟨?_, ?_, h3, h4⟩
        · intro x hx
          rcases (hC x).1 hx with h | ⟨_, _, h', _⟩
          · exact h1 x h
          · exact absurd h' ha
        · intro r hr
          exact ⟨(hC r).2 (Or.inl (h2 r hr).1), (h2 r hr).2⟩

theorem scanInv_congr {isLow : Bool} {c0 : Int} {C C' : ufNode → Prop} {s : AnchorScan}
    (hC : ∀ x, C' x ↔ C x) (hinv : ScanInv isLow c0 C s) : ScanInv isLow c0 C' s := by
  obtain ⟨h1, h2, h3, h4⟩ := hinv
  exact ⟨fun x hx => h1 x ((hC x).1 hx), fun r hr => ⟨(hC r).2 (h2 r hr).1, (h2 r hr).2⟩,
    h3, h4⟩

/-- The inner loop of the anchor scan, for one read of the other contig. -/
theorem foldl_scanOverlap_inv (op : overlapPlacement) (isLow : Bool) (c0 : Int) (rd : ufNode) :
    ∀ (ovl : List BAToverlap) (s : AnchorScan) (C C' : ufNode → Prop),
      ScanInv isLow c0 C s →
      (∀ x, C' x ↔ C x ∨ (x = rd ∧ (∃ ov ∈ ovl, ov.b_iid = rd.ident) ∧
        anchorTest op isLow rd)) →
      ScanInv isLow c0 C' (ovl.foldl (scanOverlap op isLow rd) s) := by
  intro ovl
  induction ovl with
  | nil =>
    intro s C C' hinv hC
    refine scanInv_congr ?_ hinv
    intro x
    rw [hC x]
    simp
  | cons ov rest ih =>
    intro s C C' hinv hC
    rw [List.foldl_cons]
    refine ih _ (fun x => C x ∨ (x = rd ∧ ov.b_iid = rd.ident ∧ anchorTest op isLow rd)) C'
      (scanOverlap_inv op isLow c0 rd ov s C _ hinv (fun x => Iff.rfl)) ?_
    intro x
    rw [hC x]
    simp only [List.mem_cons, exists_eq_or_imp]
    tauto

/-- The anchor scan over a list of read indices. -/
theorem scanReads_inv (tgB : Unitig) (op : overlapPlacement) (isLow : Bool) (c0 : Int)
    (ovl : List BAToverlap) :
    ∀ (idxs : List Nat) (s s' : AnchorScan) (C C' : ufNode → Prop),
      ScanInv isLow c0 C s → scanReads tgB op isLow ovl idxs s = .ok s' →
      (∀ x, C' x ↔ C x ∨ ((∃ ii ∈ idxs, tgB.ufpath[ii]? = some x) ∧
        (∃ ov ∈ ovl, ov.b_iid = x.ident) ∧ anchorTest op isLow x)) →
      ScanInv isLow c0 C' s' := by
  intro idxs
  induction idxs with
  | nil =>
    intro s s' C C' hinv h hC
    unfold scanReads at h
    cases h
    refine scanInv_congr ?_ hinv
    intro x
    rw [hC x]
    simp
  | cons ii more ih =>
    intro s s' C C' hinv h hC
    unfold scanReads at h
    by_cases hovl : ovl = []
    · rw [if_pos hovl] at h
      refine ih s s' C C' hinv h ?_
      intro x
      rw [hC x, hovl]
      simp
    · rw [if_neg hovl] at h
      cases hrd : tgB.ufpath[ii]? with
      | none => rw [hrd] at h; cases h
      | some rd =>
        rw [hrd] at h
        simp only at h
        refine ih _ s'
          (fun x => C x ∨ (x = rd ∧ (∃ ov ∈ ovl, ov.b_iid = rd.ident) ∧
            anchorTest op isLow rd)) C'
          (foldl_scanOverlap_inv op isLow c0 rd ovl s C _ hinv (fun x => Iff.rfl)) h ?_
        intro x
        rw [hC x]
        simp only [List.mem_cons, exists_eq_or_imp]
        constructor
        · rintro (h1 | ⟨h1 | h1, h2, h3⟩)
          · exact Or.inl (Or.inl h1)
          · rw [hrd] at h1
            simp only [Option.some.injEq] at h1
            subst h1
            exact Or.inl (Or.inr ⟨rfl, h2, h3⟩)
          · exact Or.inr ⟨h1, h2, h3⟩
        · rintro ((h1 | ⟨h1, h2, h3⟩) | ⟨h1, h2, h3⟩)
          · exact Or.inl h1
          · subst h1
            exact Or.inr ⟨Or.inl hrd, h2, h3⟩
          · exact Or.inr ⟨Or.inr h1, h2, h3⟩

/-- What the anchor scan of a placement leaves: `coord` is beyond no candidate,
and `rdB` is a candidate at `coord`, or NULL. -/
theorem anchorScan_spec (env : Collaborators) (tgB : Unitig) (rdA : ufNode) (isFirst : Bool)
    (op : overlapPlacement) (r : Bool × AnchorScan)
    (h : anchorScan env tgB rdA isFirst op = .ok r) :
    r.1 = (findEnd op rdA.position.isForward isFirst).1 ∧
    ScanInv r.1 (findEnd op rdA.position.isForward isFirst).2
      (anchorCandidate env tgB rdA op r.1) r.2 := by
  unfold anchorScan at h
  simp only at h
  by_cases hL : op.tigLidx = UINT32_MAX
  · rw [if_pos hL] at h; cases h
  · rw [if_neg hL] at h
    cases hs : scanReads tgB op (findEnd op rdA.position.isForward isFirst).1
        (env.getOverlaps rdA.ident) (List.range' op.tigFidx (op.tigLidx + 1 - op.tigFidx))
        { erates := [], rdB := none,
          coord := (findEnd op rdA.position.isForward isFirst).2 } with
    | error e => rw [hs] at h; cases h
    | ok s =>
      rw [hs] at h
      simp only [Except.ok.injEq] at h
      subst h
      refine ⟨rfl, ?_⟩
      refine scanReads_inv tgB op _ _ _ _ _ s (fun _ => False) _ ?_ hs ?_
      · refine ⟨fun x hx => hx.elim, fun r hr => (Option.noConfusion hr), fun _ => rfl, ?_⟩
        show (if (findEnd op rdA.position.isForward isFirst).1 = true
          then (findEnd op rdA.position.isForward isFirst).2
            ≤ (findEnd op rdA.position.isForward isFirst).2
          else (findEnd op rdA.position.isForward isFirst).2
            ≤ (findEnd op rdA.position.isForward isFirst).2)
        split <;> exact le_refl _
      · intro x
        unfold anchorCandidate
        simp only [false_or, List.mem_range'_1]
        constructor
        · rintro ⟨⟨ii, h1, h2, h3⟩, h4, h5⟩
          exact ⟨⟨ii, ⟨h1, by omega⟩, h3⟩, h4, h5⟩
        · rintro ⟨⟨ii, ⟨h1, h2⟩, h3⟩, h4, h5⟩
          exact ⟨⟨ii, h1, by omega, h3⟩, h4, h5⟩

/-- C23: a breakpoint `checkRead` pushes for a placement (with either value of
`beVerbose`) names the contig of the placement and carries the flag `isLow` of
`findEnd`; for a begin-type (low) breakpoint its position is the least `min`
coordinate among the reads of that contig with index in `[tigFidx, tigLidx]` that
overlap the boundary read and have `min > verified.min` and `max > verified.max`,
for an end-type (high) breakpoint it is the greatest `max` coordinate among those
with `max < verified.max` and `min < verified.min`; and when there is no such read
no breakpoint is pushed for the placement. -/
theorem anchor_selection (v : Bool) (env : Collaborators) (contigs : TigVector) (tgA : Unitig)
    (rdA : ufNode) (minOverlap : Nat) (isFirst : Bool) (op : overlapPlacement) :
    (∀ b, checkPlacementWith v env contigs tgA rdA minOverlap isFirst op = .ok (some b) →
      ∃ tgB rdB, contigs[op.tigID]? = some (some tgB) ∧
        anchorCandidate env tgB rdA op b._bgn rdB ∧
        b._tigID = op.tigID ∧ b._bgn = (findEnd op rdA.position.isForward isFirst).1 ∧
        (b._bgn = true → b._pos = toUInt32 rdB.position.min ∧
          ∀ x, anchorCandidate env tgB rdA op true x →
            rdB.position.min ≤ x.position.min) ∧
        (b._bgn = false → b._pos = toUInt32 rdB.position.max ∧
          ∀ x, anchorCandidate env tgB rdA op false x →
            x.position.max ≤ rdB.position.max)) ∧
    (∀ tgB, contigs[op.tigID]? = some (some tgB) →
      (¬ ∃ x, anchorCandidate env tgB rdA op
          (findEnd op rdA.position.isForward isFirst).1 x) →
      ∀ b, checkPlacementWith v env contigs tgA rdA minOverlap isFirst op ≠ .ok (some b)) := by
  have key : ∀ b, checkPlacementWith v env contigs tgA rdA minOverlap isFirst op = .ok (some b) →
      ∃ tgB rdB, contigs[op.tigID]? = some (some tgB) ∧
        anchorCandidate env tgB rdA op b._bgn rdB ∧
        b._tigID = op.tigID ∧ b._bgn = (findEnd op rdA.position.isForward isFirst).1 ∧
        (b._bgn = true → b._pos = toUInt32 rdB.position.min ∧
          ∀ x, anchorCandidate env tgB rdA op true x →
            rdB.position.min ≤ x.position.min) ∧
        (b._bgn = false → b._pos = toUInt32 rdB.position.max ∧
          ∀ x, anchorCandidate env tgB rdA op false x →
            x.position.max ≤ rdB.position.max) := by
    intro b h
    obtain ⟨tgB, r, htgB, _, hself, hs, hd, hb⟩ :=
      checkPlacementWith_some v env contigs tgA rdA minOverlap isFirst op b h
    obtain ⟨hlow, h1, h2, _, _⟩ := anchorScan_spec env tgB rdA isFirst op r hs
    have hsome : r.2.rdB.isNone = false := by
      simp only [disqualified, hself, Bool.not_false, Bool.true_and, Bool.false_or,
        Bool.or_eq_false_iff] at hd
      exact hd.1.2
    cases hrb : r.2.rdB with
    | none => rw [hrb] at hsome; cases hsome
    | some rb =>
      obtain ⟨hcand, hcoord⟩ := h2 rb hrb
      rw [hb]
      refine ⟨tgB, rb, htgB, hcand, rfl, hlow, ?_, ?_⟩
      · intro ht
        have ht' : r.1 = true := ht
        rw [ht'] at h1 hcoord
        simp only [anchorCoord, if_true] at h1 hcoord
        refine ⟨by show toUInt32 r.2.coord = _; rw [hcoord], ?_⟩
        intro x hx
        have := h1 x hx
        omega
      · intro hf
        have hf' : r.1 = false := hf
        rw [hf'] at h1 hcoord
        simp only [anchorCoord, Bool.false_eq_true, if_false] at h1 hcoord
        refine ⟨by show toUInt32 r.2.coord = _; rw [hcoord], ?_⟩
        intro x hx
        have := h1 x hx
        omega
  refine ⟨key, ?_⟩
  intro tgB htgB hnone b h
  obtain ⟨tgB', rdB, htgB', hcand, _, hbgn, _⟩ := key b h
  rw [htgB] at htgB'
  simp only [Option.some.injEq] at htgB'
  subst htgB'
  rw [hbgn] at hcand
  exact hnone ⟨rdB, hcand⟩

/-- C23 on the discovery scenario: the placement with verified interval
[200,210] gives the end-type breakpoint at 205, the `max` coordinate of its only
candidate. -/
theorem anchor_selection_witness :
    checkPlacementWith true discEnv discContigs discTgA ⟨1, ⟨0, 300⟩⟩ 10 true exactOp
      = .ok (some ⟨1, 205, false⟩) ∧
    ∃ tgB rdB, discContigs[exactOp.tigID]? = some (some tgB) ∧
      anchorCandidate discEnv tgB ⟨1, ⟨0, 300⟩⟩ exactOp false rdB ∧
      (1 : Nat) = exactOp.tigID ∧
      false = (findEnd exactOp (⟨1, ⟨0, 300⟩⟩ : ufNode).position.isForward true).1 ∧
      (false = true → 205 = toUInt32 rdB.position.min ∧
        ∀ x, anchorCandidate discEnv tgB ⟨1, ⟨0, 300⟩⟩ exactOp true x →
          rdB.position.min ≤ x.position.min) ∧
      (false = false → 205 = toUInt32 rdB.position.max ∧
        ∀ x, anchorCandidate discEnv tgB ⟨1, ⟨0, 300⟩⟩ exactOp false x →
          x.position.max ≤ rdB.position.max) :=
  ⟨rfl, (anchor_selection true discEnv discContigs discTgA ⟨1, ⟨0, 300⟩⟩ 10 true exactOp).1
    ⟨1, 205, false⟩ rfl⟩

/-! ## The filters of `checkRead` and the verbose flag -/

/-- When the loop body pushes a breakpoint for a placement, exactly. -/
theorem checkPlacementWith_some_iff (v : Bool) (env : Collaborators) (contigs : TigVector)
    (tgA : Unitig) (rdA : ufNode) (minOverlap : Nat) (isFirst : Bool) (op : overlapPlacement)
    (b : breakPointEnd) :
    checkPlacementWith v env contigs tgA rdA minOverlap isFirst op = .ok (some b) ↔
    ∃ tgB r, contigs[op.tigID]? = some (some tgB) ∧ tgB._isUnassembled = false ∧
      anchorScan env tgB rdA isFirst op = .ok r ∧
      (v = true → ∃ u, logReads tgB op = .ok u) ∧
      disqualified env tgA tgB rdA minOverlap isFirst op r.2 = false ∧
      b = { _tigID := op.tigID, _pos := toUInt32 r.2.coord, _bgn := r.1 } := by
  constructor
  · intro h
    obtain ⟨tgB, r, htgB, hasm, hself, hs, hd, hb⟩ :=
      checkPlacementWith_some v env contigs tgA rdA minOverlap isFirst op b h
    refine ⟨tgB, r, htgB, hasm, hs, ?_, hd, hb⟩
    intro hv
    subst hv
    rw [checkPlacementWith_true env contigs tgA rdA minOverlap isFirst op tgB htgB hasm,
      if_pos hself, hs] at h
    simp only at h
    cases hl : logReads tgB op with
    | error e => rw [hl] at h; cases h
    | ok u => exact ⟨u, rfl⟩
  · rintro ⟨tgB, r, htgB, hasm, hs, hlog, hd, hb⟩
    have hself : toSelf env tgA tgB rdA op = false := by
      simp only [disqualified, Bool.or_eq_false_iff] at hd
      exact hd.1.1.1.1.1
    cases v with
    | true =>
      obtain ⟨u, hu⟩ := hlog rfl
      rw [checkPlacementWith_true env contigs tgA rdA minOverlap isFirst op tgB htgB hasm,
        if_pos hself, hs]
      simp only
      rw [hu]
      simp only
      rw [if_neg (by rw [hd]; simp), hb]
    | false =>
      have hpre : (toSelf env tgA tgB rdA op || expected5 isFirst rdA op
            || expected3 env isFirst rdA op || tooSmall op minOverlap) = false := by
        simp only [disqualified, Bool.or_eq_false_iff] at hd
        simp only [Bool.or_eq_false_iff]
        exact ⟨⟨⟨hd.1.1.1.1.1, hd.1.1.1.1.2⟩, hd.1.1.1.2⟩, hd.1.1.2⟩
      rw [checkPlacementWith_false env contigs tgA rdA minOverlap isFirst op tgB htgB hasm,
        if_neg (by rw [hpre]; simp), hs]
      simp only
      rw [if_neg (by rw [hd]; simp), hb]

/-- Placements that push no breakpoint leave no survivor. -/
theorem survivorsWith_nil (v : Bool) (env : Collaborators) (contigs : TigVector) (tgA : Unitig)
    (rdA : ufNode) (minOverlap : Nat) (isFirst : Bool) (pls : List overlapPlacement)
    (h : ∀ op ∈ pls, ∀ b,
      checkPlacementWith v env contigs tgA rdA minOverlap isFirst op ≠ .ok (some b)) :
    survivorsWith v env contigs tgA rdA minOverlap isFirst pls = [] := by
  unfold survivorsWith
  rw [List.filterMap_eq_nil_iff]
  intro op hop
  split
  · rename_i b hb
    exact absurd hb (h op hop b)
  · rfl

/-- A call of `checkRead` whose placements push no breakpoint returns 0 and
leaves the pool as it was. -/
theorem checkReadWith_none (v : Bool) (env : Collaborators) (contigs : TigVector)
    (tgA : Unitig) (rdA : ufNode) (pls : List overlapPlacement) (pool : List breakPointEnd)
    (minOverlap maxPlacements : Nat) (isFirst : Bool) (r : Nat × List breakPointEnd)
    (hall : ∀ op ∈ pls, ∀ b,
      checkPlacementWith v env contigs tgA rdA minOverlap isFirst op ≠ .ok (some b))
    (h : checkReadWith v env contigs tgA rdA pls pool minOverlap maxPlacements isFirst = .ok r) :
    r = (0, pool) := by
  have hr := (checkReadWith_spec v env contigs tgA rdA pls pool minOverlap maxPlacements
    isFirst).2 r h
  rw [survivorsWith_nil v env contigs tgA rdA minOverlap isFirst pls hall] at hr
  rw [hr]
  simp

/-- C24: for a placement on the contig of the boundary read itself (same id) whose
verified interval overlaps the read's own position, the flag `toSelf` is set and
`checkRead` pushes no breakpoint, with `beVerbose` true (as in the code) and with
`beVerbose` false; a call whose placements are all of this kind returns 0 and
leaves the pool as it was. -/
theorem self_edge_filter (env : Collaborators) (contigs : TigVector) (tgA : Unitig)
    (rdA : ufNode) (minOverlap : Nat) (isFirst : Bool) :
    (∀ (v : Bool) (op : overlapPlacement) (tgB : Unitig),
      contigs[op.tigID]? = some (some tgB) → tgA._id = tgB._id →
      env.isOverlapping op.verified rdA.position = true →
      toSelf env tgA tgB rdA op = true ∧
      (∀ b, checkPlacementWith v env contigs tgA rdA minOverlap isFirst op ≠ .ok (some b)) ∧
      (∀ b, checkPlacement env contigs tgA rdA minOverlap isFirst op ≠ .ok (some b))) ∧
    (∀ (v : Bool) (pls : List overlapPlacement) (pool : List breakPointEnd)
      (maxPlacements : Nat) (r : Nat × List breakPointEnd),
      (∀ op ∈ pls, ∃ tgB, contigs[op.tigID]? = some (some tgB) ∧ tgA._id = tgB._id ∧
        env.isOverlapping op.verified rdA.position = true) →
      checkReadWith v env contigs tgA rdA pls pool minOverlap maxPlacements isFirst = .ok r →
      r = (0, pool)) := by
  have key : ∀ (v : Bool) (op : overlapPlacement) (tgB : Unitig),
      contigs[op.tigID]? = some (some tgB) → tgA._id = tgB._id →
      env.isOverlapping op.verified rdA.position = true →
      ∀ b, checkPlacementWith v env contigs tgA rdA minOverlap isFirst op ≠ .ok (some b) := by
    intro v op tgB htgB hid hov b h
    obtain ⟨tgB', r, htgB', _, hself, _⟩ :=
      checkPlacementWith_some v env contigs tgA rdA minOverlap isFirst op b h
    rw [htgB] at htgB'
    simp only [Option.some.injEq] at htgB'
    subst htgB'
    simp [toSelf, hid, hov] at hself
  refine ⟨?_, ?_⟩
  · intro v op tgB htgB hid hov
    exact ⟨by simp [toSelf, hid, hov], key v op tgB htgB hid hov,
      key beVerbose op tgB htgB hid hov⟩
  · intro v pls pool maxPlacements r hall h
    refine checkReadWith_none v env contigs tgA rdA pls pool minOverlap maxPlacements isFirst r
      ?_ h
    intro op hop
    obtain ⟨tgB, htgB, hid, hov⟩ := hall op hop
    exact key v op tgB htgB hid hov

/-- C24 on the discovery scenario, with every interval overlapping the boundary
read: the placement on the read's own contig is dropped in both modes. -/
theorem self_edge_filter_witness :
    checkReadWith true selfEnv discContigs discTgA ⟨1, ⟨0, 300⟩⟩ [selfOp] [⟨0, 0, true⟩]
      10 2 true = .ok (0, [⟨0, 0, true⟩]) ∧
    checkReadWith false selfEnv discContigs discTgA ⟨1, ⟨0, 300⟩⟩ [selfOp] [⟨0, 0, true⟩]
      10 2 true = .ok (0, [⟨0, 0, true⟩]) ∧
    toSelf selfEnv discTgA discTgA ⟨1, ⟨0, 300⟩⟩ selfOp = true ∧
    (∀ b, checkPlacementWith true selfEnv discContigs discTgA ⟨1, ⟨0, 300⟩⟩ 10 true selfOp
      ≠ .ok (some b)) ∧
    (∀ b, checkPlacement selfEnv discContigs discTgA ⟨1, ⟨0, 300⟩⟩ 10 true selfOp
      ≠ .ok (some b)) :=
  ⟨rfl, rfl,
    (self_edge_filter selfEnv discContigs discTgA ⟨1, ⟨0, 300⟩⟩ 10 true).1 true selfOp discTgA
      rfl rfl rfl⟩

/-- C25: with `is5 = (isFirst == the boundary read is forward)`, a placement with
`is5` and `covered.bgn != 0` sets `expected5`, a placement without `is5` whose
`covered.end` differs from the read length sets `expected3`, and in both cases
`checkRead` pushes no breakpoint (with either value of `beVerbose`); a placement
with `is5` and `covered.bgn == 0`, or without `is5` and `covered.end` equal to the
read length, sets neither flag, and a breakpoint is pushed for it exactly when
it is no self edge, is not too small, the scan finds an anchor and the
similarity is not low.  The comparison with the read length is between `uint32`
values; for `0 <= covered.end < 2^32` it is the comparison of the numbers. -/
theorem used_end_filter (v : Bool) (env : Collaborators) (contigs : TigVector) (tgA : Unitig)
    (rdA : ufNode) (minOverlap : Nat) (isFirst : Bool) (op : overlapPlacement) :
    (is5 isFirst rdA = true → op.covered.bgn ≠ 0 →
      expected5 isFirst rdA op = true ∧
      ∀ b, checkPlacementWith v env contigs tgA rdA minOverlap isFirst op ≠ .ok (some b)) ∧
    (is5 isFirst rdA = false → toUInt32 op.covered.end_ ≠ env.readLength rdA.ident →
      expected3 env isFirst rdA op = true ∧
      ∀ b, checkPlacementWith v env contigs tgA rdA minOverlap isFirst op ≠ .ok (some b)) ∧
    ((is5 isFirst rdA = true ∧ op.covered.bgn = 0) ∨
     (is5 isFirst rdA = false ∧ toUInt32 op.covered.end_ = env.readLength rdA.ident) →
      expected5 isFirst rdA op = false ∧ expected3 env isFirst rdA op = false ∧
      ∀ b, (checkPlacementWith v env contigs tgA rdA minOverlap isFirst op = .ok (some b) ↔
        ∃ tgB r, contigs[op.tigID]? = some (some tgB) ∧ tgB._isUnassembled = false ∧
          anchorScan env tgB rdA isFirst op = .ok r ∧
          (v = true → ∃ u, logReads tgB op = .ok u) ∧
          toSelf env tgA tgB rdA op = false ∧ tooSmall op minOverlap = false ∧
          r.2.rdB.isNone = false ∧
          env.lowSimilarity tgB op.verified.min op.verified.max r.2.erates = false ∧
          b = { _tigID := op.tigID, _pos := toUInt32 r.2.coord, _bgn := r.1 })) ∧
    (0 ≤ op.covered.end_ → op.covered.end_ < 2 ^ 32 →
      (toUInt32 op.covered.end_ ≠ env.readLength rdA.ident ↔
        op.covered.end_ ≠ (env.readLength rdA.ident : Int))) := by
  refine ⟨?_, ?_, ?_, ?_⟩
  · intro h5 hb
    have he : expected5 isFirst rdA op = true := by simp [expected5, h5, hb]
    refine ⟨he, ?_⟩
    intro b h
    obtain ⟨tgB, r, _, _, _, _, hd, _⟩ :=
      checkPlacementWith_some v env contigs tgA rdA minOverlap isFirst op b h
    simp [disqualified, he] at hd
  · intro h5 hb
    have he : expected3 env isFirst rdA op = true := by simp [expected3, h5, hb]
    refine ⟨he, ?_⟩
    intro b h
    obtain ⟨tgB, r, _, _, _, _, hd, _⟩ :=
      checkPlacementWith_some v env contigs tgA rdA minOverlap isFirst op b h
    simp [disqualified, he] at hd
  · intro hcase
    have h5 : expected5 isFirst rdA op = false := by
      rcases hcase with ⟨h, hb⟩ | ⟨h, _⟩
      · simp [expected5, h, hb]
      · simp [expected5, h]
    have h3 : expected3 env isFirst rdA op = false := by
      rcases hcase with ⟨h, _⟩ | ⟨h, hb⟩
      · simp [expected3, h]
      · simp [expected3, h, hb]
    refine ⟨h5, h3, ?_⟩
    intro b
    rw [checkPlacementWith_some_iff]
    constructor
    · rintro ⟨tgB, r, h1, h2, hs, hl, hd, hb⟩
      simp only [disqualified, Bool.or_eq_false_iff] at hd
      obtain ⟨⟨⟨⟨⟨d1, _⟩, _⟩, d4⟩, d5⟩, d6⟩ := hd
      rw [d1] at d5
      exact ⟨tgB, r, h1, h2, hs, hl, d1, d4, by simpa using d5, d6, hb⟩
    · rintro ⟨tgB, r, h1, h2, hs, hl, d1, d4, d5, d6, hb⟩
      refine ⟨tgB, r, h1, h2, hs, hl, ?_, hb⟩
      simp [disqualified, d1, h5, h3, d4, d5, d6]
  · intro h0 h1
    rw [toUInt32_of_nonneg h0 h1]
    constructor
    · intro h e
      apply h
      rw [e]
      simp
    · intro h e
      apply h
      rw [← e]
      exact (Int.toNat_of_nonneg h0).symm

/-- C25 on the discovery scenario: the boundary read is the first read and is
forward, so a placement that starts at base 5 of the read is dropped, and the same
placement starting at base 0 gives a breakpoint. -/
theorem used_end_filter_witness :
    is5 true ⟨1, ⟨0, 300⟩⟩ = true ∧ usedOp.covered.bgn ≠ 0 ∧
    (expected5 true ⟨1, ⟨0, 300⟩⟩ usedOp = true ∧
      ∀ b, checkPlacementWith true discEnv discContigs discTgA ⟨1, ⟨0, 300⟩⟩ 10 true usedOp
        ≠ .ok (some b)) ∧
    checkPlacementWith true discEnv discContigs discTgA ⟨1, ⟨0, 300⟩⟩ 10 true usedOp
      = .ok none ∧
    checkPlacementWith true discEnv discContigs discTgA ⟨1, ⟨0, 300⟩⟩ 10 true exactOp
      = .ok (some ⟨1, 205, false⟩) :=
  ⟨rfl, by decide,
    (used_end_filter true discEnv discContigs discTgA ⟨1, ⟨0, 300⟩⟩ 10 true usedOp).1 rfl
      (by decide),
    rfl, rfl⟩

/-- The anchor scan returns when the indices it visits are indices of the read
list. -/
theorem scanReads_total (tgB : Unitig) (op : overlapPlacement) (isLow : Bool)
    (ovl : List BAToverlap) :
    ∀ (idxs : List Nat) (s : AnchorScan), (∀ ii ∈ idxs, ii < tgB.ufpath.length) →
      ∃ s', scanReads tgB op isLow ovl idxs s = .ok s' := by
  intro idxs
  induction idxs with
  | nil => intro s _; exact ⟨s, rfl⟩
  | cons ii more ih =>
    intro s hall
    unfold scanReads
    by_cases hovl : ovl = []
    · rw [if_pos hovl]
      exact ih s (fun j hj => hall j (List.mem_cons_of_mem _ hj))
    · rw [if_neg hovl, List.getElem?_eq_getElem (hall ii (List.mem_cons_self _ _))]
      exact ih _ (fun j hj => hall j (List.mem_cons_of_mem _ hj))

theorem anchorScan_total (env : Collaborators) (tgB : Unitig) (rdA : ufNode) (isFirst : Bool)
    (op : overlapPlacement) (hL : op.tigLidx < tgB.ufpath.length)
    (hsize : tgB.ufpath.length < 2 ^ 32) :
    ∃ r, anchorScan env tgB rdA isFirst op = .ok r := by
  unfold anchorScan
  simp only
  rw [if_neg (by unfold UINT32_MAX; omega)]
  obtain ⟨s', hs⟩ := scanReads_total tgB op (findEnd op rdA.position.isForward isFirst).1
    (env.getOverlaps rdA.ident) (List.range' op.tigFidx (op.tigLidx + 1 - op.tigFidx))
    { erates := [], rdB := none, coord := (findEnd op rdA.position.isForward isFirst).2 }
    (by
      intro ii hii
      rw [List.mem_range'_1] at hii
      omega)
  rw [hs]
  exact ⟨_, rfl⟩

theorem logReads_total (tgB : Unitig) (op : overlapPlacement)
    (hF : op.tigFidx < tgB.ufpath.length) (hL : op.tigLidx < tgB.ufpath.length) :
    logReads tgB op = .ok () := by
  unfold logReads
  rw [List.getElem?_eq_getElem hF, List.getElem?_eq_getElem hL]

/-- The test of line 497 holds for a placement when one of the flags tested before
the scan is set. -/
theorem disqualified_of_pre (env : Collaborators) (tgA tgB : Unitig) (rdA : ufNode)
    (minOverlap : Nat) (isFirst : Bool) (op : overlapPlacement) (s : AnchorScan)
    (h : (toSelf env tgA tgB rdA op || expected5 isFirst rdA op
            || expected3 env isFirst rdA op || tooSmall op minOverlap) = true) :
    disqualified env tgA tgB rdA minOverlap isFirst op s = true := by
  unfold disqualified
  rw [h]
  simp

/-- What the loop body returns with `verbose = true`, it returns with
`verbose = false`. -/
theorem checkPlacement_quiet_of_verbose (env : Collaborators) (contigs : TigVector)
    (tgA : Unitig) (rdA : ufNode) (minOverlap : Nat) (isFirst : Bool) (op : overlapPlacement)
    (r : Option breakPointEnd)
    (h : checkPlacementWith true env contigs tgA rdA minOverlap isFirst op = .ok r) :
    checkPlacementWith false env contigs tgA rdA minOverlap isFirst op = .ok r := by
  cases hc : contigs[op.tigID]? with
  | none => unfold checkPlacementWith at h; rw [hc] at h; cases h
  | some slot =>
    cases slot with
    | none => unfold checkPlacementWith at h; rw [hc] at h; cases h
    | some tgB =>
      by_cases hu : tgB._isUnassembled = true
      · unfold checkPlacementWith at h ⊢
        rw [hc] at h ⊢
        simp only [hu, if_true] at h ⊢
        exact h
      · have hasm : tgB._isUnassembled = false := by simpa using hu
        rw [checkPlacementWith_true env contigs tgA rdA minOverlap isFirst op tgB hc hasm] at h
        rw [checkPlacementWith_false env contigs tgA rdA minOverlap isFirst op tgB hc hasm]
        cases hsc : (if toSelf env tgA tgB rdA op = false then anchorScan env tgB rdA isFirst op
             else .ok (false, { erates := [], rdB := none, coord := 0 })) with
        | error e => rw [hsc] at h; cases h
        | ok r0 =>
          rw [hsc] at h
          simp only at h
          cases hl : logReads tgB op with
          | error e => rw [hl] at h; cases h
          | ok u =>
            rw [hl] at h
            simp only at h
            by_cases hpre : (toSelf env tgA tgB rdA op || expected5 isFirst rdA op
                || expected3 env isFirst rdA op || tooSmall op minOverlap) = true
            · rw [if_pos hpre]
              rw [disqualified_of_pre env tgA tgB rdA minOverlap isFirst op r0.2 hpre,
                if_pos rfl] at h
              exact h
            · rw [if_neg hpre]
              have hself : toSelf env tgA tgB rdA op = false := by
                simp only [Bool.not_eq_true, Bool.or_eq_false_iff] at hpre
                exact hpre.1.1.1
              rw [if_pos hself] at hsc
              rw [hsc]
              exact h

/-- What the loop over the placements returns with `verbose = true`, it returns
with `verbose = false`. -/
theorem checkReadLoop_quiet_of_verbose (env : Collaborators) (contigs : TigVector)
    (tgA : Unitig) (rdA : ufNode) (minOverlap : Nat) (isFirst : Bool) :
    ∀ (pls : List overlapPlacement) (acc out : List breakPointEnd),
      checkReadLoopWith true env contigs tgA rdA minOverlap isFirst pls acc = .ok out →
      checkReadLoopWith false env contigs tgA rdA minOverlap isFirst pls acc = .ok out := by
  intro pls
  induction pls with
  | nil => intro acc out h; exact h
  | cons op more ih =>
    intro acc out h
    unfold checkReadLoopWith at h ⊢
    cases hc : checkPlacementWith true env contigs tgA rdA minOverlap isFirst op with
    | error e => rw [hc] at h; cases h
    | ok r =>
      rw [hc] at h
      rw [checkPlacement_quiet_of_verbose env contigs tgA rdA minOverlap isFirst op r hc]
      cases r with
      | none => exact ih acc out h
      | some b => exact ih (acc ++ [b]) out h

/-- C26: with `beVerbose` as a parameter, whatever the loop body of `checkRead`
returns for a placement with `beVerbose == true` (the code's setting) it returns
with `beVerbose == false`, and so does the whole of `checkRead` (the breakpoints
collected, the pool, the value returned); both modes return for a placement whose
index range lies inside the read list of its contig; and in either mode a
breakpoint is pushed for a placement exactly when its contig is there and not
flagged unassembled, the scan returns, and none of self edge, used 5' end, used
3' end, too small, no anchor, low similarity holds (with `beVerbose == true` the
two reads named in the log line are fetched as well). -/
theorem verbose_irrelevant (env : Collaborators) (contigs : TigVector) (tgA : Unitig)
    (rdA : ufNode) (minOverlap : Nat) (isFirst : Bool) :
    (∀ (op : overlapPlacement) (r : Option breakPointEnd),
      checkPlacementWith true env contigs tgA rdA minOverlap isFirst op = .ok r →
      checkPlacementWith false env contigs tgA rdA minOverlap isFirst op = .ok r) ∧
    (∀ (pls : List overlapPlacement) (pool : List breakPointEnd) (maxPlacements : Nat)
      (r : Nat × List breakPointEnd),
      checkReadWith true env contigs tgA rdA pls pool minOverlap maxPlacements isFirst = .ok r →
      checkReadWith false env contigs tgA rdA pls pool minOverlap maxPlacements isFirst
        = .ok r) ∧
    (∀ (op : overlapPlacement) (tgB : Unitig), contigs[op.tigID]? = some (some tgB) →
      op.tigFidx < tgB.ufpath.length → op.tigLidx < tgB.ufpath.length →
      tgB.ufpath.length < 2 ^ 32 →
      ∃ r, checkPlacementWith true env contigs tgA rdA minOverlap isFirst op = .ok r ∧
        checkPlacementWith false env contigs tgA rdA minOverlap isFirst op = .ok r) ∧
    (∀ (v : Bool) (op : overlapPlacement) (b : breakPointEnd),
      checkPlacementWith v env contigs tgA rdA minOverlap isFirst op = .ok (some b) ↔
      ∃ tgB r, contigs[op.tigID]? = some (some tgB) ∧ tgB._isUnassembled = false ∧
        anchorScan env tgB rdA isFirst op = .ok r ∧
        (v = true → ∃ u, logReads tgB op = .ok u) ∧
        toSelf env tgA tgB rdA op = false ∧ expected5 isFirst rdA op = false ∧
        expected3 env isFirst rdA op = false ∧ tooSmall op minOverlap = false ∧
        r.2.rdB.isNone = false ∧
        env.lowSimilarity tgB op.verified.min op.verified.max r.2.erates = false ∧
        b = { _tigID := op.tigID, _pos := toUInt32 r.2.coord, _bgn := r.1 }) := by
  refine ⟨?_, ?_, ?_, ?_⟩
  · intro op r h
    exact checkPlacement_quiet_of_verbose env contigs tgA rdA minOverlap isFirst op r h
  · intro pls pool maxPlacements r h
    unfold checkReadWith at h ⊢
    cases hl : checkReadLoopWith true env contigs tgA rdA minOverlap isFirst pls [] with
    | error e => rw [hl] at h; cases h
    | ok breaks =>
      rw [hl] at h
      rw [checkReadLoop_quiet_of_verbose env contigs tgA rdA minOverlap isFirst pls [] breaks hl]
      exact h
  · intro op tgB htgB hF hL hsize
    have htrue : ∃ r, checkPlacementWith true env contigs tgA rdA minOverlap isFirst op
        = .ok r := by
      by_cases hu : tgB._isUnassembled = true
      · unfold checkPlacementWith
        rw [htgB]
        simp only [hu, if_true]
        exact ⟨_, rfl⟩
      · have hasm : tgB._isUnassembled = false := by simpa using hu
        rw [checkPlacementWith_true env contigs tgA rdA minOverlap isFirst op tgB htgB hasm,
          logReads_total tgB op hF hL]
        obtain ⟨r0, hr0⟩ := anchorScan_total env tgB rdA isFirst op hL hsize
        by_cases hself : toSelf env tgA tgB rdA op = false
        · rw [if_pos hself, hr0]
          exact ⟨_, rfl⟩
        · rw [if_neg hself]
          exact ⟨_, rfl⟩
    obtain ⟨r, hr⟩ := htrue
    exact ⟨r, hr,
      checkPlacement_quiet_of_verbose env contigs tgA rdA minOverlap isFirst op r hr⟩
  · intro v op b
    rw [checkPlacementWith_some_iff]
    constructor
    · rintro ⟨tgB, r, h1, h2, hs, hl, hd, hb⟩
      simp only [disqualified, Bool.or_eq_false_iff] at hd
      obtain ⟨⟨⟨⟨⟨d1, d2⟩, d3⟩, d4⟩, d5⟩, d6⟩ := hd
      rw [d1] at d5
      exact ⟨tgB, r, h1, h2, hs, hl, d1, d2, d3, d4, by simpa using d5, d6, hb⟩
    · rintro ⟨tgB, r, h1, h2, hs, hl, d1, d2, d3, d4, d5, d6, hb⟩
      refine ⟨tgB, r, h1, h2, hs, hl, ?_, hb⟩
      simp [disqualified, d1, d2, d3, d4, d5, d6]

/-- C26 on the discovery scenario: the same survivors in both modes, for the
three placements of scenario D followed by a too-small one and a used-end one. -/
theorem verbose_irrelevant_witness :
    checkReadWith true discEnv discContigs discTgA ⟨1, ⟨0, 300⟩⟩
        (threeOps ++ [smallOp, usedOp]) [⟨0, 0, true⟩] 10 3 true
      = .ok (3, [⟨0, 0, true⟩, ⟨1, 500, false⟩, ⟨1, 550, false⟩, ⟨1, 550, false⟩]) ∧
    checkReadWith false discEnv discContigs discTgA ⟨1, ⟨0, 300⟩⟩
        (threeOps ++ [smallOp, usedOp]) [⟨0, 0, true⟩] 10 3 true
      = .ok (3, [⟨0, 0, true⟩, ⟨1, 500, false⟩, ⟨1, 550, false⟩, ⟨1, 550, false⟩]) :=
  ⟨rfl, (verbose_irrelevant discEnv discContigs discTgA ⟨1, ⟨0, 300⟩⟩ 10 true).2.1
    (threeOps ++ [smallOp, usedOp]) [⟨0, 0, true⟩] 3 _ rfl⟩

/-! ## The confused edges -/

/-- The body of the loop over the confused edges, for an edge whose read is read
`rda` of a contig that is there and is not flagged unassembled. -/
theorem confusedBreak_eq (env : Collaborators) (contigs : TigVector)
    (pool : List breakPointEnd) (ce : confusedEdge) (tig : Unitig) (rda : ufNode)
    (htig : contigs[env.inUnitig ce.aid]? = some (some tig))
    (hasm : tig._isUnassembled = false)
    (hrda : tig.ufpath[env.ufpathIdx ce.aid]? = some rda) :
    confusedBreak env contigs pool ce =
      match pool.getLast? with
      | none => .error .outOfBounds
      | some back =>
        if back.eq (confusedPoint (env.inUnitig ce.aid) rda ce.a3p) = true then .ok pool
        else .ok (pool ++ [confusedPoint (env.inUnitig ce.aid) rda ce.a3p]) := by
  unfold confusedBreak
  simp only
  rw [htig]
  simp only
  rw [if_neg (by rw [hasm]; simp), hrda]

/-- The coordinate and the flag of the breakpoint built for a confused read end. -/
theorem confusedPoint_spec (tid : Nat) (rda : ufNode) (a3p : Bool)
    (hne : rda.position.bgn ≠ rda.position.end_) :
    (confusedPoint tid rda a3p)._tigID = tid ∧
    (confusedPoint tid rda a3p)._pos =
      toUInt32 (if a3p = true then rda.position.end_ else rda.position.bgn) ∧
    ((confusedPoint tid rda a3p)._bgn = true ↔
      (if a3p = true then rda.position.end_ else rda.position.bgn) = rda.position.min) ∧
    ((confusedPoint tid rda a3p)._bgn = false ↔
      (if a3p = true then rda.position.end_ else rda.position.bgn) = rda.position.max) := by
  unfold confusedPoint SeqInterval.isForward SeqInterval.min SeqInterval.max
  by_cases hf : rda.position.bgn < rda.position.end_
  · cases a3p
    · simp [hf]
      omega
    · simp [hf]
      omega
  · have hgt : rda.position.end_ < rda.position.bgn := by omega
    cases a3p
    · simp [hf]
      omega
    · simp [hf]
      omega

/-- C27: for a confused edge `(aid, a3p)` whose read is in a contig that is there
and is not flagged unassembled, at a position with `bgn != end`, the breakpoint
`createUnitigs` builds and compares with the last one of the pool carries the id
of that contig, its position is `position.end` when `a3p` and `position.bgn`
otherwise (as `uint32`), and it is begin-type exactly when that coordinate is the
`min` coordinate of the read and end-type exactly when it is the `max`. -/
theorem confused_edge_breakpoint (env : Collaborators) (contigs : TigVector)
    (pool : List breakPointEnd) (ce : confusedEdge) (tig : Unitig) (rda : ufNode)
    (htig : contigs[env.inUnitig ce.aid]? = some (some tig))
    (hasm : tig._isUnassembled = false)
    (hrda : tig.ufpath[env.ufpathIdx ce.aid]? = some rda)
    (hne : rda.position.bgn ≠ rda.position.end_) :
    ∃ bp : breakPointEnd,
      (∀ back, pool.getLast? = some back →
        confusedBreak env contigs pool ce =
          .ok (if back.eq bp = true then pool else pool ++ [bp])) ∧
      bp._tigID = env.inUnitig ce.aid ∧
      bp._pos = toUInt32 (if ce.a3p = true then rda.position.end_ else rda.position.bgn) ∧
      (bp._bgn = true ↔
        (if ce.a3p = true then rda.position.end_ else rda.position.bgn) = rda.position.min) ∧
      (bp._bgn = false ↔
        (if ce.a3p = true then rda.position.end_ else rda.position.bgn)
          = rda.position.max) := by
  obtain ⟨h1, h2, h3, h4⟩ := confusedPoint_spec (env.inUnitig ce.aid) rda ce.a3p hne
  refine ⟨confusedPoint (env.inUnitig ce.aid) rda ce.a3p, ?_, h1, h2, h3, h4⟩
  intro back hback
  rw [confusedBreak_eq env contigs pool ce tig rda htig hasm hrda, hback]
  simp only
  split <;> rfl

/-- C27 on the discovery scenario: the 3' end of the forward read [0,300] of
contig 0 gives the end-type breakpoint (0, 300). -/
theorem confused_edge_breakpoint_witness :
    confusedBreak discEnv discContigsU [⟨0, 0, true⟩] ⟨1, true, 5⟩
      = .ok [⟨0, 0, true⟩, ⟨0, 300, false⟩] ∧
    ∃ bp : breakPointEnd,
      (∀ back, [(⟨0, 0, true⟩ : breakPointEnd)].getLast? = some back →
        confusedBreak discEnv discContigsU [⟨0, 0, true⟩] ⟨1, true, 5⟩ =
          .ok (if back.eq bp = true then [⟨0, 0, true⟩] else [⟨0, 0, true⟩] ++ [bp])) ∧
      bp._tigID = discEnv.inUnitig (⟨1, true, 5⟩ : confusedEdge).aid ∧
      bp._pos = toUInt32 (if (⟨1, true, 5⟩ : confusedEdge).a3p = true
        then (⟨1, ⟨0, 300⟩⟩ : ufNode).position.end_ else (⟨1, ⟨0, 300⟩⟩ : ufNode).position.bgn) ∧
      (bp._bgn = true ↔
        (if (⟨1, true, 5⟩ : confusedEdge).a3p = true
          then (⟨1, ⟨0, 300⟩⟩ : ufNode).position.end_
          else (⟨1, ⟨0, 300⟩⟩ : ufNode).position.bgn) = (⟨1, ⟨0, 300⟩⟩ : ufNode).position.min) ∧
      (bp._bgn = false ↔
        (if (⟨1, true, 5⟩ : confusedEdge).a3p = true
          then (⟨1, ⟨0, 300⟩⟩ : ufNode).position.end_
          else (⟨1, ⟨0, 300⟩⟩ : ufNode).position.bgn) = (⟨1, ⟨0, 300⟩⟩ : ufNode).position.max) :=
  ⟨rfl, confused_edge_breakpoint discEnv discContigsU [⟨0, 0, true⟩] ⟨1, true, 5⟩ discTgA
    ⟨1, ⟨0, 300⟩⟩ rfl rfl rfl (by decide)⟩

/-- One confused-edge step leaves the pool as it is or appends one breakpoint. -/
theorem confusedBreak_grows (env : Collaborators) (contigs : TigVector)
    (pool pool' : List breakPointEnd) (ce : confusedEdge)
    (h : confusedBreak env contigs pool ce = .ok pool') :
    pool' = pool ∨ ∃ bp, pool' = pool ++ [bp] := by
  unfold confusedBreak at h
  simp only at h
  cases hc : contigs[env.inUnitig ce.aid]? with
  | none => rw [hc] at h; cases h
  | some slot =>
    cases slot with
    | none => rw [hc] at h; cases h; exact Or.inl rfl
    | some tig =>
      rw [hc] at h
      simp only at h
      by_cases hu : tig._isUnassembled = true
      · rw [if_pos hu] at h; cases h; exact Or.inl rfl
      · rw [if_neg hu] at h
        cases hr : tig.ufpath[env.ufpathIdx ce.aid]? with
        | none => rw [hr] at h; cases h
        | some rda =>
          rw [hr] at h
          simp only at h
          rcases push_unless_back _ _ _ h with e | e
          · exact Or.inl e
          · exact Or.inr ⟨_, e⟩

/-- The loop over the confused edges only appends to the pool. -/
theorem confusedBreaks_prefix (env : Collaborators) (contigs : TigVector) :
    ∀ (ces : List confusedEdge) (pool pool' : List breakPointEnd),
      confusedBreaks env contigs ces pool = .ok pool' → pool <+: pool' := by
  intro ces
  induction ces with
  | nil =>
    intro pool pool' h
    unfold confusedBreaks at h
    cases h
    exact List.prefix_refl _
  | cons ce more ih =>
    intro pool pool' h
    unfold confusedBreaks at h
    cases hc : confusedBreak env contigs pool ce with
    | error e => rw [hc] at h; cases h
    | ok p1 =>
      rw [hc] at h
      have h1 : pool <+: p1 := by
        rcases confusedBreak_grows env contigs pool p1 ce hc with e | ⟨bp, e⟩
        · rw [e]
        · rw [e]; exact List.prefix_append _ _
      exact h1.trans (ih p1 pool' h)

/-- C28: a confused-edge step of `createUnitigs` leaves the pool as it is or
appends one breakpoint to it, so nothing pushed before is removed or altered;
when the step builds its breakpoint (the read is in a contig that is there and
is not flagged unassembled) the breakpoint is appended exactly when it differs
under `operator==` from the last breakpoint of the pool; and at every point of the
loop over the confused edges, which starts from the sentinels, the pool holds the
sentinels as a prefix, is not empty when that comparison is made, and the step
returns. -/
theorem confused_append_rule (env : Collaborators) (contigs : TigVector) :
    (∀ (pool pool' : List breakPointEnd) (ce : confusedEdge),
      confusedBreak env contigs pool ce = .ok pool' →
      pool' = pool ∨ ∃ bp, pool' = pool ++ [bp]) ∧
    (∀ (pool pool' : List breakPointEnd) (ce : confusedEdge) (tig : Unitig) (rda : ufNode),
      contigs[env.inUnitig ce.aid]? = some (some tig) → tig._isUnassembled = false →
      tig.ufpath[env.ufpathIdx ce.aid]? = some rda →
      confusedBreak env contigs pool ce = .ok pool' →
      ∃ back, pool.getLast? = some back ∧
        (pool' = pool ++ [confusedPoint (env.inUnitig ce.aid) rda ce.a3p] ↔
          back.eq (confusedPoint (env.inUnitig ce.aid) rda ce.a3p) = false) ∧
        (pool' = pool ↔
          back.eq (confusedPoint (env.inUnitig ce.aid) rda ce.a3p) = true)) ∧
    (∀ (done : List confusedEdge) (pool : List breakPointEnd),
      confusedBreaks env contigs done (sentinelBreaks contigs 0) = .ok pool →
      sentinelBreaks contigs 0 <+: pool ∧
      ∀ (ce : confusedEdge) (tig : Unitig) (rda : ufNode),
        contigs[env.inUnitig ce.aid]? = some (some tig) → tig._isUnassembled = false →
        tig.ufpath[env.ufpathIdx ce.aid]? = some rda →
        pool ≠ [] ∧ ∃ pool', confusedBreak env contigs pool ce = .ok pool') := by
  refine ⟨?_, ?_, ?_⟩
  · intro pool pool' ce h
    exact confusedBreak_grows env contigs pool pool' ce h
  · intro pool pool' ce tig rda htig hasm hrda h
    rw [confusedBreak_eq env contigs pool ce tig rda htig hasm hrda] at h
    cases hl : pool.getLast? with
    | none => rw [hl] at h; cases h
    | some back =>
      rw [hl] at h
      simp only at h
      refine ⟨back, rfl, ?_⟩
      have hne : pool ++ [confusedPoint (env.inUnitig ce.aid) rda ce.a3p] ≠ pool := by
        intro e
        have := congrArg List.length e
        simp at this
      by_cases he : back.eq (confusedPoint (env.inUnitig ce.aid) rda ce.a3p) = true
      · rw [if_pos he] at h
        cases h
        rw [he]
        exact ⟨⟨fun e => absurd e.symm hne, fun e => by cases e⟩, ⟨fun _ => rfl, fun _ => rfl⟩⟩
      · rw [if_neg he] at h
        cases h
        have he' : back.eq (confusedPoint (env.inUnitig ce.aid) rda ce.a3p) = false := by
          simpa using he
        rw [he']
        exact ⟨⟨fun _ => rfl, fun _ => rfl⟩, ⟨fun e => absurd e hne, fun e => by cases e⟩⟩
  · intro done pool h
    have hpre := confusedBreaks_prefix env contigs done _ pool h
    refine ⟨hpre, ?_⟩
    intro ce tig rda htig hasm hrda
    have hmem := (sentinelBreaks_has contigs 0 (env.inUnitig ce.aid) tig htig hasm).1
    have hne : pool ≠ [] := by
      intro e
      rw [e, List.prefix_nil] at hpre
      rw [hpre] at hmem
      cases hmem
    refine ⟨hne, ?_⟩
    rw [confusedBreak_eq env contigs pool ce tig rda htig hasm hrda]
    cases hl : pool.getLast? with
    | none => exact absurd (List.getLast?_eq_none_iff.1 hl) hne
    | some back =>
      simp only
      split
      · exact ⟨_, rfl⟩
      · exact ⟨_, rfl⟩

/-- C28 on the discovery scenario: the breakpoint of the 3' end of read 1 is
appended after the sentinels, and is not appended a second time. -/
theorem confused_append_rule_witness :
    confusedBreaks discEnv discContigsU [⟨1, true, 5⟩, ⟨1, true, 6⟩]
        (sentinelBreaks discContigsU 0)
      = .ok [⟨0, 0, true⟩, ⟨0, 300, false⟩, ⟨1, 0, true⟩, ⟨1, 1000, false⟩,
             ⟨0, 300, false⟩] ∧
    sentinelBreaks discContigsU 0 <+:
      [⟨0, 0, true⟩, ⟨0, 300, false⟩, ⟨1, 0, true⟩, ⟨1, 1000, false⟩, ⟨0, 300, false⟩] ∧
    ∀ (ce : confusedEdge) (tig : Unitig) (rda : ufNode),
      discContigsU[discEnv.inUnitig ce.aid]? = some (some tig) → tig._isUnassembled = false →
      tig.ufpath[discEnv.ufpathIdx ce.aid]? = some rda →
      ([⟨0, 0, true⟩, ⟨0, 300, false⟩, ⟨1, 0, true⟩, ⟨1, 1000, false⟩, ⟨0, 300, false⟩] :
          List breakPointEnd) ≠ [] ∧
      ∃ pool', confusedBreak discEnv discContigsU
        [⟨0, 0, true⟩, ⟨0, 300, false⟩, ⟨1, 0, true⟩, ⟨1, 1000, false⟩, ⟨0, 300, false⟩] ce
          = .ok pool' :=
  ⟨rfl, (confused_append_rule discEnv discContigsU).2.2 [⟨1, true, 5⟩, ⟨1, true, 6⟩] _ rfl⟩

/-! ## The provenance window -/

theorem foldl_max_spec :
    ∀ (reads : List ufNode) (m : Int),
      m ≤ reads.foldl (fun m rd => if m < rd.position.max then rd.position.max else m) m ∧
      (∀ rd ∈ reads, rd.position.max ≤
        reads.foldl (fun m rd => if m < rd.position.max then rd.position.max else m) m) ∧
      (reads.foldl (fun m rd => if m < rd.position.max then rd.position.max else m) m = m ∨
        ∃ rd ∈ reads, rd.position.max =
          reads.foldl (fun m rd => if m < rd.position.max then rd.position.max else m) m) := by
  intro reads
  induction reads with
  | nil => intro m; simp
  | cons rd rest ih =>
    intro m
    rw [List.foldl_cons]
    by_cases hlt : m < rd.position.max
    · rw [if_pos hlt]
      obtain ⟨h1, h2, h3⟩ := ih rd.position.max
      refine ⟨by omega, ?_, ?_⟩
      · intro x hx
        rcases List.mem_cons.1 hx with e | e
        · rw [e]; exact h1
        · exact h2 x e
      · rcases h3 with e | ⟨x, hx, e⟩
        · exact Or.inr ⟨rd, List.mem_cons_self _ _, e.symm⟩
        · exact Or.inr ⟨x, List.mem_cons_of_mem _ hx, e⟩
    · rw [if_neg hlt]
      obtain ⟨h1, h2, h3⟩ := ih m
      refine ⟨h1, ?_, ?_⟩
      · intro x hx
        rcases List.mem_cons.1 hx with e | e
        · rw [e]; omega
        · exact h2 x e
      · rcases h3 with e | ⟨x, hx, e⟩
        · exact Or.inl e
        · exact Or.inr ⟨x, List.mem_cons_of_mem _ hx, e⟩

/-- The length of a unit built by `addRead`: no read of the unit ends beyond it,
and it is 0 or the `max` coordinate of one of the reads. -/
theorem spanLength_spec (reads : List ufNode) :
    0 ≤ spanLength reads ∧ (∀ rd ∈ reads, rd.position.max ≤ spanLength reads) ∧
    (spanLength reads = 0 ∨ ∃ rd ∈ reads, rd.position.max = spanLength reads) :=
  foldl_max_spec reads 0

theorem spanLength_snoc (reads : List ufNode) (rd : ufNode) :
    spanLength (reads ++ [rd]) =
      if spanLength reads < rd.position.max then rd.position.max else spanLength reads := by
  unfold spanLength
  rw [List.foldl_append]
  rfl

/-- Adding a read keeps the length of a unit the span length of its reads. -/
theorem addRead_length (u : Unitig) (rd : ufNode) (off : Int)
    (h : u._length = spanLength u.ufpath) :
    (u.addRead rd off)._length = spanLength (u.addRead rd off).ufpath := by
  rw [addRead_ufpath, spanLength_snoc, ← h]
  rfl

theorem freshUnitig_length (id : Nat) :
    (freshUnitig id)._length = spanLength (freshUnitig id).ufpath := rfl

/-- Every unit the move pass works on keeps its length the span length of its
reads. -/
theorem moveLoop_length (BP : List breakPointEnd) (n0 : Nat) :
    ∀ (reads : List ufNode) (st st' : SplitState),
      splitTigLoop BP true st reads = .ok st' →
      (∀ (ptr : Nat) (u : Unitig), n0 ≤ ptr → st.tigs[ptr]? = some (some u) →
        u._length = spanLength u.ufpath) →
      ∀ (ptr : Nat) (u : Unitig), n0 ≤ ptr → st'.tigs[ptr]? = some (some u) →
        u._length = spanLength u.ufpath := by
  intro reads
  induction reads with
  | nil =>
    intro st st' h hinv
    unfold splitTigLoop at h
    cases h
    exact hinv
  | cons rd more ih =>
    intro st st' h hinv
    unfold splitTigLoop at h
    cases h1 : splitTigRead BP true st rd with
    | error e => rw [h1] at h; cases h
    | ok s1 =>
      rw [h1] at h
      refine ih s1 st' h ?_
      unfold splitTigRead at h1
      cases hsel : selectPiece BP (toUInt32 rd.position.min) (toUInt32 rd.position.max) with
      | error e => rw [hsel] at h1; cases h1
      | ok k =>
        rw [hsel] at h1
        simp only [if_true] at h1
        cases hslot : st.newTigs[k]? with
        | none => rw [hslot] at h1; cases h1
        | some slot =>
          rw [hslot] at h1
          cases slot with
          | none =>
            simp only [Except.ok.injEq] at h1
            subst h1
            intro ptr u hptr hu
            simp only [newUnitig] at hu
            rw [addReadAt_last] at hu
            by_cases hlt : ptr < st.tigs.length
            · rw [List.getElem?_append_left hlt] at hu
              exact hinv ptr u hptr hu
            · have hlen := (List.getElem?_eq_some_iff.1 hu).1
              rw [List.length_append, List.length_singleton] at hlen
              have hp : ptr = st.tigs.length := by omega
              subst hp
              rw [List.getElem?_append_right (le_refl _), Nat.sub_self] at hu
              simp only [List.getElem?_cons_zero, Option.some.injEq] at hu
              subst hu
              exact addRead_length _ _ _ (freshUnitig_length _)
          | some p =>
            cases hlow : st.lowCoord[k]? with
            | none => rw [hlow] at h1; cases h1
            | some low =>
              rw [hlow] at h1
              simp only [Except.ok.injEq] at h1
              subst h1
              intro ptr u hptr hu
              by_cases hp : p = ptr
              · subst hp
                have hu2 : (addReadAt st.tigs p rd (-low))[p]? = some (some u) := hu
                cases hold : st.tigs[p]? with
                | none =>
                  unfold addReadAt at hu2
                  rw [List.getElem?_modify_eq, hold] at hu2
                  cases hu2
                | some o =>
                  cases o with
                  | none =>
                    unfold addReadAt at hu2
                    rw [List.getElem?_modify_eq, hold] at hu2
                    cases hu2
                  | some u0 =>
                    rw [getElem?_addReadAt_eq _ _ _ _ u0 hold] at hu2
                    simp only [Option.some.injEq] at hu2
                    subst hu2
                    exact addRead_length _ _ _ (hinv p u0 hptr hold)
              · have hu2 : (addReadAt st.tigs p rd (-low))[ptr]? = some (some u) := hu
                rw [getElem?_addReadAt_ne _ _ _ _ _ hp] at hu2
                exact hinv ptr u hptr hu2

theorem foldl_addRead_length :
    ∀ (reads : List ufNode) (u : Unitig), u._length = spanLength u.ufpath →
      (reads.foldl (fun t rd => t.addRead rd 0) u)._length =
        spanLength (reads.foldl (fun t rd => t.addRead rd 0) u).ufpath := by
  intro reads
  induction reads with
  | nil => intro u h; exact h
  | cons rd rest ih =>
    intro u h
    rw [List.foldl_cons]
    exact ih _ (addRead_length u rd 0 h)

/-- The unit `copyTig` makes: the reads of the old unit, and their span length. -/
theorem copyTig_length (tigs : TigVector) (oldtig : Unitig) :
    ∃ u : Unitig, copyTig tigs oldtig = (tigs ++ [some u], tigs.length) ∧
      u.ufpath = oldtig.ufpath ∧ u._id = tigs.length ∧
      u._length = spanLength oldtig.ufpath := by
  unfold copyTig newUnitig freshUnitig
  simp only
  rw [modify_append_last]
  simp only [Option.map_some']
  rw [foldl_addReadAt_last]
  refine ⟨_, rfl, ?_⟩
  obtain ⟨h1, h2, _, _⟩ := foldl_addRead_zero oldtig.ufpath
    { _id := tigs.length, ufpath := [], _length := 0,
      _isUnassembled := oldtig._isUnassembled, _isRepeat := oldtig._isRepeat }
  have h3 := foldl_addRead_length oldtig.ufpath
    { _id := tigs.length, ufpath := [], _length := 0,
      _isUnassembled := oldtig._isUnassembled, _isRepeat := oldtig._isRepeat } rfl
  rw [h3, h1, h2]
  simp

/-- The provenance loop leaves each entry of the table as it was, or writes the
record of a unit held by one of the slots it visits. -/
theorem recordSources_form (unitigs : TigVector) (tig : Unitig) (newTigs : List (Option Nat))
    (lowCoord : List Int) :
    ∀ (tts : List Nat) (src src' : List tigLoc),
      recordSources unitigs tig newTigs lowCoord tts src = .ok src' →
      ∀ id : Nat, src'[id]? = src[id]? ∨
        ∃ tt ∈ tts, ∃ ptr u low, newTigs[tt]? = some (some ptr) ∧
          unitigs[ptr]? = some (some u) ∧ u._id = id ∧ lowCoord[tt]? = some low ∧
          src'[id]? = some { cID := tig._id, cBgn := low, cEnd := low + u._length,
                             uID := u._id } := by
  intro tts
  induction tts with
  | nil =>
    intro src src' h id
    unfold recordSources at h
    cases h
    exact Or.inl rfl
  | cons tt more ih =>
    intro src src' h id
    unfold recordSources at h
    cases hslot : newTigs[tt]? with
    | none => rw [hslot] at h; cases h
    | some slot =>
      rw [hslot] at h
      cases slot with
      | none =>
        simp only at h
        rcases ih src src' h id with e | ⟨t, ht, rest⟩
        · exact Or.inl e
        · exact Or.inr ⟨t, List.mem_cons_of_mem _ ht, rest⟩
      | some ptr =>
        simp only at h
        cases hu : unitigs[ptr]? with
        | none => rw [hu] at h; cases h
        | some o =>
          cases o with
          | none => rw [hu] at h; cases h
          | some u =>
            cases hlow : lowCoord[tt]? with
            | none => rw [hu, hlow] at h; cases h
            | some low =>
              rw [hu, hlow] at h
              simp only at h
              by_cases hlt : u._id < src.length
              · rw [if_pos hlt] at h
                rcases ih _ src' h id with e | ⟨t, ht, rest⟩
                · by_cases hid : u._id = id
                  · refine Or.inr ⟨tt, List.mem_cons_self _ _, ptr, u, low, hslot, hu, hid, hlow,
                      ?_⟩
                    rw [e, ← hid, List.getElem?_set_self hlt]
                  · left
                    rw [e, List.getElem?_set_ne hid]
                · exact Or.inr ⟨t, List.mem_cons_of_mem _ ht, rest⟩
              · rw [if_neg hlt] at h
                cases h

theorem shiftRead_max (off : Int) (rd : ufNode) :
    (shiftRead off rd).position.max = rd.position.max + off := by
  unfold shiftRead SeqInterval.max
  simp only
  split <;> split <;> omega

theorem shiftRead_zero (rd : ufNode) : shiftRead 0 rd = rd := by
  cases rd with
  | mk ident position =>
    cases position
    simp [shiftRead]

/-- Every unit the move pass of `splitTig` makes has the span length of its
reads. -/
theorem splitTig_move_length (tigs : TigVector) (tig : Unitig) (BP : List breakPointEnd)
    (n : Nat) (st' : SplitState) (h : splitTig tigs tig BP true = .ok (n, st')) :
    ∀ (ptr : Nat) (u : Unitig), tigs.length ≤ ptr → st'.tigs[ptr]? = some (some u) →
      u._length = spanLength u.ufpath := by
  unfold splitTig at h
  simp only [if_true, Bool.true_eq_false, if_false] at h
  cases hl : splitTigLoop BP true
      { tigs := tigs, newTigs := List.replicate (BP.length + 2) none,
        lowCoord := List.replicate (BP.length + 2) INT32_MAX, nMoved := [] } tig.ufpath with
  | error e => rw [hl] at h; cases h
  | ok s =>
    rw [hl] at h
    simp only [Except.ok.injEq, Prod.mk.injEq] at h
    obtain ⟨_, rfl⟩ := h
    refine moveLoop_length BP tigs.length tig.ufpath _ s hl ?_
    intro ptr u hptr hu
    have := (List.getElem?_eq_some_iff.1 hu).1
    have hlen : ptr < tigs.length := this
    omega

/-- C29 as stated fails for a copied unit: the contig whose only read is [5,100]
is not split, the unit copied from it gets the record with window [0,100), and
the span covered by its reads is [5,100). -/
theorem copied_window_starts_at_zero :
    splitContig scenarioLoc [some lateTig] { unitigs := [], unitigSource := [] } lateTig
        [⟨0, 0, true⟩, ⟨0, 100, false⟩] =
      .ok { unitigs := [some ⟨0, [⟨1, ⟨5, 100⟩⟩], 100, false, false⟩],
            unitigSource := [⟨0, 0, 100, 0⟩, scenarioLoc] } ∧
    lateTig.ufpath.Pairwise (fun a b => a.position.min ≤ b.position.min) ∧
    ∀ rd ∈ lateTig.ufpath, rd.position.min ≠ 0 :=
  ⟨rfl, by decide, by decide⟩

/-- C29, amended: every record a split step of `createUnitigs` writes belongs to
a unit made in that step and names the contig and the unit; `cBgn` is the offset
subtracted from the reads of the unit (the unit holds reads of the contig, in
order, shifted by `-cBgn`), `cEnd - cBgn` is the length of the unit, and no read
of the unit ends beyond `cEnd`.  For a unit made by the move pass, when the
contig's reads are ordered by `min` coordinate, `cBgn` is the least `min` and
`cEnd` the greatest `max` coordinate of the reads of the unit.  For a unit
made by `copyTig`, `cBgn` is 0, the unit holds all reads of the contig, and
`cEnd` is the greatest `max` coordinate of the reads (when one is `>= 0`). -/
theorem provenance_window (dflt : tigLoc) (contigs : TigVector) (st st' : CreateState)
    (tig : Unitig) (BP : List breakPointEnd)
    (h : splitContig dflt contigs st tig BP = .ok st') :
    ∃ n s, splitTig contigs tig BP false = .ok (n, s) ∧
    ∀ id : Nat,
      st'.unitigSource[id]? = (resize dflt st.unitigSource (st'.unitigs.length + 1))[id]? ∨
      ∃ (u : Unitig) (rc : tigLoc) (src : List ufNode),
        st'.unitigSource[id]? = some rc ∧
        st.unitigs.length ≤ id ∧ st'.unitigs[id]? = some (some u) ∧
        rc.cID = tig._id ∧ rc.uID = id ∧ rc.cEnd - rc.cBgn = u._length ∧
        src.Sublist tig.ufpath ∧ u.ufpath = src.map (shiftRead (- rc.cBgn)) ∧
        (∀ rd ∈ src, rd.position.max ≤ rc.cEnd) ∧
        (1 < n → tig.ufpath.Pairwise (fun a b => a.position.min ≤ b.position.min) →
          (∃ rd ∈ src, rd.position.min = rc.cBgn) ∧
          (∀ rd ∈ src, rc.cBgn ≤ rd.position.min) ∧
          (∃ rd ∈ src, rd.position.max = rc.cEnd)) ∧
        (¬ 1 < n → rc.cBgn = 0 ∧ src = tig.ufpath ∧
          ((∃ rd ∈ src, 0 ≤ rd.position.max) → ∃ rd ∈ src, rd.position.max = rc.cEnd)) := by
  unfold splitContig at h
  cases hcount : splitTig contigs tig BP false with
  | error e => rw [hcount] at h; cases h
  | ok counted =>
    rw [hcount] at h
    simp only at h
    refine ⟨counted.1, counted.2, rfl, ?_⟩
    by_cases hsplit : 1 < counted.1
    · rw [if_pos hsplit] at h
      cases hmove : splitTig st.unitigs tig BP true with
      | error e => rw [hmove] at h; cases h
      | ok r =>
        rw [hmove] at h
        simp only at h
        obtain ⟨hinv, _⟩ := splitTig_move_ok st.unitigs tig BP r.1 r.2 hmove
        have hlen := splitTig_move_length st.unitigs tig BP r.1 r.2 hmove
        cases hrec : recordSources r.2.tigs tig r.2.newTigs r.2.lowCoord (List.range counted.1)
            (resize dflt st.unitigSource (r.2.tigs.length + 1)) with
        | error e => rw [hrec] at h; cases h
        | ok src' =>
          rw [hrec] at h
          simp only [Except.ok.injEq] at h
          subst h
          intro id
          rcases recordSources_form r.2.tigs tig r.2.newTigs r.2.lowCoord _ _ src' hrec id with
            e | ⟨tt, _, ptr, u, low, hslot, hu, hid, hlow, hrc⟩
          · exact Or.inl e
          · right
            obtain ⟨hple, u', first, rest, hu', hid', _, _, hpr, hlow', hpath⟩ :=
              hinv.full_slot tt ptr hslot
            rw [hu] at hu'
            simp only [Option.some.injEq] at hu'
            subst hu'
            rw [hlow] at hlow'
            simp only [Option.some.injEq] at hlow'
            subst hlow'
            have hidp : id = ptr := by rw [← hid, hid']
            subst hidp
            have hL := hlen id u hple hu
            obtain ⟨_, hmax, hatt⟩ := spanLength_spec u.ufpath
            refine ⟨u, _, pieceReads BP tt tig.ufpath, hrc, hple, hu, rfl, hid, ?_,
              List.filter_sublist _, hpath, ?_, ?_, ?_⟩
            · show first.position.min + u._length - first.position.min = u._length
              omega
            · intro rd hrd
              have h1 := hmax (shiftRead (- first.position.min) rd) (by
                rw [hpath]; exact List.mem_map_of_mem _ hrd)
              rw [shiftRead_max] at h1
              show rd.position.max ≤ first.position.min + u._length
              omega
            · intro _ hsorted
              have hfm : first ∈ pieceReads BP tt tig.ufpath := by
                rw [hpr]; exact List.mem_cons_self _ _
              have hpw : (pieceReads BP tt tig.ufpath).Pairwise
                  (fun a b => a.position.min ≤ b.position.min) :=
                hsorted.sublist (List.filter_sublist _)
              refine ⟨⟨first, hfm, rfl⟩, ?_, ?_⟩
              · intro rd hrd
                rw [hpr] at hrd hpw
                rcases List.mem_cons.1 hrd with e | e
                · rw [e]
                · exact (List.pairwise_cons.1 hpw).1 rd e
              · rcases hatt with e0 | ⟨m, hm, e⟩
                · refine ⟨first, hfm, ?_⟩
                  have h1 := hmax (shiftRead (- first.position.min) first) (by
                    rw [hpath]; exact List.mem_map_of_mem _ hfm)
                  rw [shiftRead_max] at h1
                  have h2 := min_le_max first.position
                  show first.position.max = first.position.min + u._length
                  omega
                · rw [hpath, List.mem_map] at hm
                  obtain ⟨rd, hrd, rfl⟩ := hm
                  rw [shiftRead_max] at e
                  refine ⟨rd, hrd, ?_⟩
                  show rd.position.max = first.position.min + u._length
                  omega
            · intro hn
              exact absurd hsplit hn
    · rw [if_neg hsplit] at h
      simp only at h
      obtain ⟨u0, hc, hpath, hid0, hL⟩ := copyTig_length st.unitigs tig
      rw [hc] at h
      simp only at h
      cases hrec : recordSources (st.unitigs ++ [some u0]) tig [some st.unitigs.length] [0]
          (List.range counted.1)
          (resize dflt st.unitigSource ((st.unitigs ++ [some u0]).length + 1)) with
      | error e => rw [hrec] at h; cases h
      | ok src' =>
        rw [hrec] at h
        simp only [Except.ok.injEq] at h
        subst h
        intro id
        rcases recordSources_form _ tig _ _ _ _ src' hrec id with
          e | ⟨tt, _, ptr, u, low, hslot, hu, hid, hlow, hrc⟩
        · exact Or.inl e
        · right
          have htt : tt = 0 := by
            have := (List.getElem?_eq_some_iff.1 hslot).1
            simpa using this
          subst htt
          simp only [List.getElem?_cons_zero, Option.some.injEq] at hslot hlow
          subst hslot
          subst hlow
          rw [List.getElem?_append_right (le_refl _), Nat.sub_self] at hu
          simp only [List.getElem?_cons_zero, Option.some.injEq] at hu
          subst hu
          have hidp : id = st.unitigs.length := by rw [← hid, hid0]
          subst hidp
          obtain ⟨_, hmax, hatt⟩ := spanLength_spec tig.ufpath
          refine ⟨u0, _, tig.ufpath, hrc, le_refl _, by simp, rfl, hid, ?_,
            List.Sublist.refl _, ?_, ?_, ?_, ?_⟩
          · show (0 : Int) + u0._length - 0 = u0._length
            omega
          · show u0.ufpath = tig.ufpath.map (shiftRead (- 0))
            rw [hpath]
            simp only [neg_zero]
            rw [show shiftRead 0 = id from funext shiftRead_zero, List.map_id]
          · intro rd hrd
            have := hmax rd hrd
            show rd.position.max ≤ 0 + u0._length
            omega
          · intro hn
            exact absurd hn hsplit
          · intro _
            refine ⟨rfl, rfl, ?_⟩
            rintro ⟨rd, hrd, hnn⟩
            rcases hatt with e0 | ⟨m, hm, e⟩
            · refine ⟨rd, hrd, ?_⟩
              have := hmax rd hrd
              show rd.position.max = 0 + u0._length
              omega
            · refine ⟨m, hm, ?_⟩
              show m.position.max = 0 + u0._length
              omega

/-- C29 at scenario B: the three records written for the three units. -/
theorem provenance_window_witness :
    ∃ st', splitContig scenarioLoc [some scenarioTig] { unitigs := [], unitigSource := [] }
        scenarioTig scenarioBP = .ok st' ∧
      st'.unitigSource = [⟨0, 0, 400, 0⟩, ⟨0, 380, 600, 1⟩, ⟨0, 590, 1000, 2⟩, scenarioLoc] ∧
      ∃ n s, splitTig [some scenarioTig] scenarioTig scenarioBP false = .ok (n, s) ∧
      ∀ id : Nat,
        st'.unitigSource[id]? =
          (resize scenarioLoc ([] : List tigLoc) (st'.unitigs.length + 1))[id]? ∨
        ∃ (u : Unitig) (rc : tigLoc) (src : List ufNode),
          st'.unitigSource[id]? = some rc ∧
          ([] : TigVector).length ≤ id ∧ st'.unitigs[id]? = some (some u) ∧
          rc.cID = scenarioTig._id ∧ rc.uID = id ∧ rc.cEnd - rc.cBgn = u._length ∧
          src.Sublist scenarioTig.ufpath ∧ u.ufpath = src.map (shiftRead (- rc.cBgn)) ∧
          (∀ rd ∈ src, rd.position.max ≤ rc.cEnd) ∧
          (1 < n →
            scenarioTig.ufpath.Pairwise (fun a b => a.position.min ≤ b.position.min) →
            (∃ rd ∈ src, rd.position.min = rc.cBgn) ∧
            (∀ rd ∈ src, rc.cBgn ≤ rd.position.min) ∧
            (∃ rd ∈ src, rd.position.max = rc.cEnd)) ∧
          (¬ 1 < n → rc.cBgn = 0 ∧ src = scenarioTig.ufpath ∧
            ((∃ rd ∈ src, 0 ≤ rd.position.max) → ∃ rd ∈ src, rd.position.max = rc.cEnd)) :=
  ⟨_, rfl, rfl,
    provenance_window scenarioLoc [some scenarioTig] { unitigs := [], unitigSource := [] } _
      scenarioTig scenarioBP rfl⟩

/-! ## Grouping the pool by contig -/

/-- For contig ids below `2^31`, a breakpoint that is not less than another one
does not belong to a smaller contig id, whatever the positions are. -/
theorem tigID_le_of_not_lt_small {a b : breakPointEnd}
    (ha : a._tigID < 2 ^ 31) (hb : b._tigID < 2 ^ 31) (h : b.lt a = false) :
    a._tigID ≤ b._tigID := by
  have hk := key_le_of_not_lt h
  rw [key_closed_form, key_closed_form, Nat.mod_eq_of_lt ha, Nat.mod_eq_of_lt hb] at hk
  have h1 : (if b._bgn = true then 1 else 0) ≤ 1 := by split <;> omega
  have h2 : b._pos % 2 ^ 32 < 2 ^ 32 := Nat.mod_lt _ (by norm_num)
  omega

/-- The walk of `createUnitigs` is its body applied run by run. -/
theorem walkBreaks_eq_walkRuns (dflt : tigLoc) (contigs : TigVector) :
    ∀ (fuel : Nat) (l : List breakPointEnd) (st : CreateState), l.length ≤ fuel →
      walkBreaks dflt contigs fuel l st = walkRuns dflt contigs (poolRuns fuel l) st := by
  intro fuel
  induction fuel with
  | zero =>
    intro l st hlen
    have hl : l = [] := List.length_eq_zero.1 (by omega)
    subst hl
    rfl
  | succ fuel ih =>
    intro l st hlen
    cases l with
    | nil => rfl
    | cons b more =>
      unfold walkBreaks poolRuns walkRuns
      cases hc : contigs[b._tigID]? with
      | none => rfl
      | some slot =>
        cases slot with
        | none => rfl
        | some tig =>
          simp only
          cases hs : splitContig dflt contigs st tig
              (buildBP [] (b :: more.takeWhile (fun x => x._tigID = b._tigID))) with
          | error e => rfl
          | ok st1 =>
            simp only
            refine ih _ st1 ?_
            have := (List.dropWhile_sublist (fun x : breakPointEnd =>
              decide (x._tigID = b._tigID)) (l := more)).length_le
            simp only [List.length_cons] at hlen
            omega

/-- The runs of a list whose contig ids do not decrease: together they are the
list, each is the part of the list with the contig id of its first breakpoint,
and later runs have larger contig ids. -/
theorem poolRuns_spec :
    ∀ (fuel : Nat) (l : List breakPointEnd),
      l.Pairwise (fun a b => a._tigID ≤ b._tigID) → l.length ≤ fuel →
      (poolRuns fuel l).flatten = l ∧
      (∀ run ∈ poolRuns fuel l, ∃ b, run.head? = some b ∧ b ∈ l ∧
        run = l.filter (fun x => x._tigID = b._tigID)) ∧
      (poolRuns fuel l).Pairwise
        (fun r1 r2 => ∀ x ∈ r1, ∀ y ∈ r2, x._tigID < y._tigID) := by
  intro fuel
  induction fuel with
  | zero =>
    intro l _ hlen
    have hl : l = [] := List.length_eq_zero.1 (by omega)
    subst hl
    simp [poolRuns]
  | succ fuel ih =>
    intro l hpw hlen
    cases l with
    | nil => simp [poolRuns]
    | cons b more =>
      have hge : ∀ x ∈ more, b._tigID ≤ x._tigID := (List.pairwise_cons.1 hpw).1
      have hpm : more.Pairwise (fun a b => a._tigID ≤ b._tigID) := (List.pairwise_cons.1 hpw).2
      have hdw : ∀ x ∈ more.dropWhile (fun x => decide (x._tigID = b._tigID)),
          b._tigID < x._tigID := mem_dropWhile_gt b._tigID more hpm hge
      have htw : ∀ x ∈ more.takeWhile (fun x => decide (x._tigID = b._tigID)),
          x._tigID = b._tigID := by
        intro x hx
        simpa using List.mem_takeWhile_imp hx
      have hsplit : more = more.takeWhile (fun x => decide (x._tigID = b._tigID)) ++
          more.dropWhile (fun x => decide (x._tigID = b._tigID)) :=
        (List.takeWhile_append_dropWhile _ _).symm
      have hlen' : (more.dropWhile (fun x => decide (x._tigID = b._tigID))).length ≤ fuel := by
        have := (List.dropWhile_sublist (fun x : breakPointEnd =>
          decide (x._tigID = b._tigID)) (l := more)).length_le
        simp only [List.length_cons] at hlen
        omega
      obtain ⟨h1, h2, h3⟩ := ih (more.dropWhile (fun x => decide (x._tigID = b._tigID)))
        (hpm.sublist (List.dropWhile_sublist _)) hlen'
      have hfilter : ∀ t : Nat, (b :: more).filter (fun x => decide (x._tigID = t)) =
          (if b._tigID = t then
            b :: more.takeWhile (fun x => decide (x._tigID = b._tigID)) else []) ++
          (more.dropWhile (fun x => decide (x._tigID = b._tigID))).filter
            (fun x => decide (x._tigID = t)) := by
        intro t
        conv_lhs => rw [hsplit]
        by_cases ht : b._tigID = t
        · rw [if_pos ht, List.filter_cons_of_pos (by simpa using ht), List.filter_append,
            List.cons_append]
          congr 2
          rw [List.filter_eq_self]
          intro x hx
          simpa [ht] using htw x hx
        · rw [if_neg ht, List.filter_cons_of_neg (by simpa using ht), List.filter_append,
            List.nil_append]
          have : (more.takeWhile (fun x => decide (x._tigID = b._tigID))).filter
              (fun x => decide (x._tigID = t)) = [] := by
            rw [List.filter_eq_nil_iff]
            intro x hx
            have := htw x hx
            simp only [decide_eq_true_eq]
            omega
          rw [this, List.nil_append]
      unfold poolRuns
      refine ⟨?_, ?_, ?_⟩
      · rw [List.flatten_cons, h1, List.cons_append, ← hsplit]
      · intro run hrun
        rcases List.mem_cons.1 hrun with e | e
        · refine ⟨b, by rw [e]; rfl, List.mem_cons_self _ _, ?_⟩
          rw [hfilter b._tigID, if_pos rfl, e]
          have : (more.dropWhile (fun x => decide (x._tigID = b._tigID))).filter
              (fun x => decide (x._tigID = b._tigID)) = [] := by
            rw [List.filter_eq_nil_iff]
            intro x hx
            have := hdw x hx
            simp only [decide_eq_true_eq]
            omega
          rw [this, List.append_nil]
        · obtain ⟨b', hb', hmem, hrun'⟩ := h2 run e
          refine ⟨b', hb', List.mem_cons_of_mem _ ((List.dropWhile_sublist _).subset hmem), ?_⟩
          rw [hfilter b'._tigID, if_neg (by have := hdw b' hmem; omega), List.nil_append]
          exact hrun'
      · rw [List.pairwise_cons]
        refine ⟨?_, h3⟩
        intro run hrun x hx y hy
        obtain ⟨b', _, _, hrun'⟩ := h2 run hrun
        rw [hrun'] at hy
        have hy' := hdw y (List.mem_filter.1 hy).1
        rcases List.mem_cons.1 hx with e | e
        · rw [e]; exact hy'
        · rw [htw x e]; exact hy'

theorem countP_eq_one_of_pairwise {α : Type} (p : α → Bool) :
    ∀ (l : List α), l.Pairwise (fun a b => ¬ (p a = true ∧ p b = true)) →
      (∃ a ∈ l, p a = true) → l.countP p = 1 := by
  intro l
  induction l with
  | nil => intro _ h; obtain ⟨a, ha, _⟩ := h; cases ha
  | cons a r ih =>
    intro hpw hex
    obtain ⟨h1, h2⟩ := List.pairwise_cons.1 hpw
    by_cases hpa : p a = true
    · rw [List.countP_cons_of_pos _ _ hpa]
      have : r.countP p = 0 := by
        rw [List.countP_eq_zero]
        intro b hb hpb
        exact h1 b hb ⟨hpa, hpb⟩
      omega
    · rw [List.countP_cons_of_neg _ _ hpa]
      obtain ⟨b, hb, hpb⟩ := hex
      rcases List.mem_cons.1 hb with e | e
      · rw [e] at hpb; exact absurd hpb hpa
      · exact ih h2 ⟨b, e, hpb⟩

/-- C30: for a pool whose contig ids are below `2^31`, the runs the walk of
`createUnitigs` takes from the sorted pool are contiguous and make up the sorted
pool, each run holds all and only the breakpoints of the contig id of its first
breakpoint, later runs have larger contig ids, so each contig id of the pool is
the id of exactly one run, and the walk applies its body (count pass, then move
pass or copy, then provenance) once per run. -/
theorem grouping_by_contig (dflt : tigLoc) (contigs : TigVector) (pool : List breakPointEnd)
    (hsmall : ∀ x ∈ pool, x._tigID < 2 ^ 31) :
    (poolRuns pool.length (sortBreaks pool)).flatten = sortBreaks pool ∧
    (∀ run ∈ poolRuns pool.length (sortBreaks pool), ∃ b, run.head? = some b ∧ b ∈ pool ∧
      run = (sortBreaks pool).filter (fun x => x._tigID = b._tigID) ∧
      run.Perm (pool.filter (fun x => x._tigID = b._tigID))) ∧
    (poolRuns pool.length (sortBreaks pool)).Pairwise
      (fun r1 r2 => ∀ x ∈ r1, ∀ y ∈ r2, x._tigID < y._tigID) ∧
    (∀ x ∈ pool,
      (poolRuns pool.length (sortBreaks pool)).countP
        (fun run => decide (run.head?.map (fun b => b._tigID) = some x._tigID)) = 1) ∧
    (∀ st, walkBreaks dflt contigs pool.length (sortBreaks pool) st =
      walkRuns dflt contigs (poolRuns pool.length (sortBreaks pool)) st) := by
  obtain ⟨hperm, hsorted⟩ := sortBreaks_isSortOf pool
  have hpw : (sortBreaks pool).Pairwise (fun a b => a._tigID ≤ b._tigID) := by
    refine hsorted.imp_of_mem ?_
    intro a b ha hb h
    exact tigID_le_of_not_lt_small (hsmall a (hperm.mem_iff.1 ha))
      (hsmall b (hperm.mem_iff.1 hb)) h
  have hlen : (sortBreaks pool).length ≤ pool.length := by rw [hperm.length_eq]
  obtain ⟨h1, h2, h3⟩ := poolRuns_spec pool.length (sortBreaks pool) hpw hlen
  refine ⟨h1, ?_, h3, ?_, ?_⟩
  · intro run hrun
    obtain ⟨b, hb, hmem, hrun'⟩ := h2 run hrun
    refine ⟨b, hb, hperm.mem_iff.1 hmem, hrun', ?_⟩
    rw [hrun']
    exact hperm.filter _
  · intro x hx
    refine countP_eq_one_of_pairwise _ _ ?_ ?_
    · refine List.Pairwise.imp_of_mem ?_ h3
      intro r1 r2 hr1 hr2 hlt hboth
      obtain ⟨b1, hb1, _, _⟩ := h2 r1 hr1
      obtain ⟨b2, hb2, _, _⟩ := h2 r2 hr2
      rw [hb1, hb2] at hboth
      simp only [Option.map_some', Option.some.injEq, decide_eq_true_eq] at hboth
      have := hlt b1 (List.mem_of_mem_head? hb1) b2 (List.mem_of_mem_head? hb2)
      omega
    · have hxs : x ∈ (poolRuns pool.length (sortBreaks pool)).flatten := by
        rw [h1]; exact hperm.mem_iff.2 hx
      rw [List.mem_flatten] at hxs
      obtain ⟨run, hrun, hxr⟩ := hxs
      obtain ⟨b, hb, _, hrun'⟩ := h2 run hrun
      refine ⟨run, hrun, ?_⟩
      rw [hb]
      rw [hrun'] at hxr
      have := (List.mem_filter.1 hxr).2
      simp only [decide_eq_true_eq] at this
      simp [this]
  · intro st
    exact walkBreaks_eq_walkRuns dflt contigs pool.length (sortBreaks pool) st hlen

/-- C30 on the pool of the discovery scenario: two runs, one for each contig. -/
theorem grouping_by_contig_witness :
    poolRuns 6 (sortBreaks [⟨0, 0, true⟩, ⟨0, 300, false⟩, ⟨1, 0, true⟩, ⟨1, 1000, false⟩,
        ⟨0, 300, false⟩, ⟨1, 205, false⟩])
      = [[⟨0, 0, true⟩, ⟨0, 300, false⟩, ⟨0, 300, false⟩],
         [⟨1, 0, true⟩, ⟨1, 205, false⟩, ⟨1, 1000, false⟩]] ∧
    ∀ x ∈ ([⟨0, 0, true⟩, ⟨0, 300, false⟩, ⟨1, 0, true⟩, ⟨1, 1000, false⟩,
        ⟨0, 300, false⟩, ⟨1, 205, false⟩] : List breakPointEnd),
      (poolRuns
          ([⟨0, 0, true⟩, ⟨0, 300, false⟩, ⟨1, 0, true⟩, ⟨1, 1000, false⟩,
            ⟨0, 300, false⟩, ⟨1, 205, false⟩] : List breakPointEnd).length
          (sortBreaks [⟨0, 0, true⟩, ⟨0, 300, false⟩, ⟨1, 0, true⟩, ⟨1, 1000, false⟩,
            ⟨0, 300, false⟩, ⟨1, 205, false⟩])).countP
        (fun run => decide (run.head?.map (fun b => b._tigID) = some x._tigID)) = 1 :=
  ⟨by decide,
    (grouping_by_contig scenarioLoc discContigsU
      [⟨0, 0, true⟩, ⟨0, 300, false⟩, ⟨1, 0, true⟩, ⟨1, 1000, false⟩, ⟨0, 300, false⟩,
        ⟨1, 205, false⟩] (by decide)).2.2.2.1⟩

/-! ## Direction parity of `findEnd` -/

theorem findEnd_cases (op : overlapPlacement) (rdAfwd isFirst : Bool) :
    findEnd op rdAfwd isFirst =
      if isFirst = (rdAfwd == op.verified.isForward) then (false, INT32_MIN)
      else (true, INT32_MAX) := by
  unfold findEnd
  cases isFirst <;> cases rdAfwd <;> cases op.verified.isForward <;> simp

/-- C33: for all inputs `findEnd` sets `isLow` to false exactly when
`isFirst == (rdAfwd == verified.isForward())`; flipping `isFirst` alone, `rdAfwd`
alone, or the orientation of the verified interval alone flips `isLow`; and
`coord` is `INT32_MAX` when `isLow` is true and `INT32_MIN` when it is false. -/
theorem findEnd_direction_parity (op : overlapPlacement) (rdAfwd isFirst : Bool) :
    ((findEnd op rdAfwd isFirst).1 = false ↔ isFirst = (rdAfwd == op.verified.isForward)) ∧
    (findEnd op rdAfwd (!isFirst)).1 = !(findEnd op rdAfwd isFirst).1 ∧
    (findEnd op (!rdAfwd) isFirst).1 = !(findEnd op rdAfwd isFirst).1 ∧
    (∀ op2 : overlapPlacement, op2.verified.isForward = !op.verified.isForward →
      (findEnd op2 rdAfwd isFirst).1 = !(findEnd op rdAfwd isFirst).1) ∧
    ((findEnd op rdAfwd isFirst).1 = true → (findEnd op rdAfwd isFirst).2 = INT32_MAX) ∧
    ((findEnd op rdAfwd isFirst).1 = false → (findEnd op rdAfwd isFirst).2 = INT32_MIN) := by
  refine ⟨?_, ?_, ?_, ?_, ?_, ?_⟩
  · rw [findEnd_cases]
    cases isFirst <;> cases rdAfwd <;> cases op.verified.isForward <;> simp
  · rw [findEnd_cases, findEnd_cases]
    cases isFirst <;> cases rdAfwd <;> cases op.verified.isForward <;> simp
  · rw [findEnd_cases, findEnd_cases]
    cases isFirst <;> cases rdAfwd <;> cases op.verified.isForward <;> simp
  · intro op2 h2
    rw [findEnd_cases, findEnd_cases, h2]
    cases isFirst <;> cases rdAfwd <;> cases op.verified.isForward <;> simp
  · rw [findEnd_cases]
    cases isFirst <;> cases rdAfwd <;> cases op.verified.isForward <;> simp
  · rw [findEnd_cases]
    cases isFirst <;> cases rdAfwd <;> cases op.verified.isForward <;> simp

/-- C33 at a forward placement seen from the first end of a forward read, with
the reversed placement as the flipped one. -/
theorem findEnd_direction_parity_witness :
    ((findEnd exactOp true true).1 = false ↔
      true = (true == exactOp.verified.isForward)) ∧
    (findEnd exactOp true (!true)).1 = !(findEnd exactOp true true).1 ∧
    (findEnd exactOp (!true) true).1 = !(findEnd exactOp true true).1 ∧
    (∀ op2 : overlapPlacement, op2.verified.isForward = !exactOp.verified.isForward →
      (findEnd op2 true true).1 = !(findEnd exactOp true true).1) ∧
    ((findEnd exactOp true true).1 = true → (findEnd exactOp true true).2 = INT32_MAX) ∧
    ((findEnd exactOp true true).1 = false → (findEnd exactOp true true).2 = INT32_MIN) :=
  findEnd_direction_parity exactOp true true

/-! ## The two comparison operators together -/

theorem eq_iff_key (a b : breakPointEnd) : a.eq b = true ↔ a.key = b.key := by
  unfold breakPointEnd.eq
  simp

theorem lt_iff_key (a b : breakPointEnd) : a.lt b = true ↔ a.key < b.key := by
  unfold breakPointEnd.lt
  simp

/-- For contig ids below `2^31` and positions that are `uint32` values, two
breakpoints with the same key have the same three fields. -/
theorem fields_of_key_eq (a b : breakPointEnd)
    (ha : a._tigID < 2 ^ 31) (hb : b._tigID < 2 ^ 31)
    (hpa : a._pos < 2 ^ 32) (hpb : b._pos < 2 ^ 32) (h : a.key = b.key) :
    a._tigID = b._tigID ∧ a._pos = b._pos ∧ a._bgn = b._bgn := by
  rw [key_closed_form, key_closed_form, Nat.mod_eq_of_lt ha, Nat.mod_eq_of_lt hb,
    Nat.mod_eq_of_lt hpa, Nat.mod_eq_of_lt hpb] at h
  cases hab : a._bgn <;> cases hbb : b._bgn <;> rw [hab, hbb] at h <;>
    simp only [if_true, if_false, Bool.false_eq_true] at h <;>
    first
      | exact ⟨by omega, by omega, rfl⟩
      | (exfalso; omega)

/-- C32: `operator<` and `operator==` are one consistent comparison: for all
breakpoints `a` and `b` exactly one of `a < b`, `a == b`, `b < a` holds, and
`a == b` is true iff neither operand is less than the other; and for contig ids
below `2^31` (positions being `uint32` values) `a == b` holds iff `_tigID`,
`_pos` and `_bgn` are all equal. -/
theorem one_consistent_comparison (a b : breakPointEnd) :
    ((a.lt b = true ∧ a.eq b = false ∧ b.lt a = false) ∨
     (a.lt b = false ∧ a.eq b = true ∧ b.lt a = false) ∨
     (a.lt b = false ∧ a.eq b = false ∧ b.lt a = true)) ∧
    (a.eq b = true ↔ (a.lt b = false ∧ b.lt a = false)) ∧
    (a._tigID < 2 ^ 31 → b._tigID < 2 ^ 31 → a._pos < 2 ^ 32 → b._pos < 2 ^ 32 →
      (a.eq b = true ↔ (a._tigID = b._tigID ∧ a._pos = b._pos ∧ a._bgn = b._bgn))) := by
  refine ⟨?_, ?_, ?_⟩
  · simp only [breakPointEnd.lt, breakPointEnd.eq, decide_eq_true_eq, decide_eq_false_iff_not]
    omega
  · simp only [breakPointEnd.lt, breakPointEnd.eq, decide_eq_true_eq, decide_eq_false_iff_not]
    omega
  · intro ha hb hpa hpb
    rw [eq_iff_key]
    constructor
    · exact fields_of_key_eq a b ha hb hpa hpb
    · intro h
      rw [breakPointEnd_ext h.1 h.2.1 h.2.2]

/-- C32 at the two breakpoints of the tie at position 400: the end-type one is
less, they are not equal, and their fields differ. -/
theorem one_consistent_comparison_witness :
    (((breakPointEnd.lt ⟨0, 400, false⟩ ⟨0, 400, true⟩ = true ∧
        breakPointEnd.eq ⟨0, 400, false⟩ ⟨0, 400, true⟩ = false ∧
        breakPointEnd.lt ⟨0, 400, true⟩ ⟨0, 400, false⟩ = false) ∨
      (breakPointEnd.lt ⟨0, 400, false⟩ ⟨0, 400, true⟩ = false ∧
        breakPointEnd.eq ⟨0, 400, false⟩ ⟨0, 400, true⟩ = true ∧
        breakPointEnd.lt ⟨0, 400, true⟩ ⟨0, 400, false⟩ = false) ∨
      (breakPointEnd.lt ⟨0, 400, false⟩ ⟨0, 400, true⟩ = false ∧
        breakPointEnd.eq ⟨0, 400, false⟩ ⟨0, 400, true⟩ = false ∧
        breakPointEnd.lt ⟨0, 400, true⟩ ⟨0, 400, false⟩ = true)) ∧
     (breakPointEnd.eq ⟨0, 400, false⟩ ⟨0, 400, true⟩ = true ↔
       (breakPointEnd.lt ⟨0, 400, false⟩ ⟨0, 400, true⟩ = false ∧
        breakPointEnd.lt ⟨0, 400, true⟩ ⟨0, 400, false⟩ = false))) ∧
    (breakPointEnd.eq ⟨0, 400, false⟩ ⟨0, 400, true⟩ = true ↔
      ((⟨0, 400, false⟩ : breakPointEnd)._tigID = (⟨0, 400, true⟩ : breakPointEnd)._tigID ∧
       (⟨0, 400, false⟩ : breakPointEnd)._pos = (⟨0, 400, true⟩ : breakPointEnd)._pos ∧
       (⟨0, 400, false⟩ : breakPointEnd)._bgn = (⟨0, 400, true⟩ : breakPointEnd)._bgn)) :=
  ⟨⟨(one_consistent_comparison ⟨0, 400, false⟩ ⟨0, 400, true⟩).1,
      (one_consistent_comparison ⟨0, 400, false⟩ ⟨0, 400, true⟩).2.1⟩,
    (one_consistent_comparison ⟨0, 400, false⟩ ⟨0, 400, true⟩).2.2
      (by decide) (by decide) (by decide) (by decide)⟩

/-! ## The trim scan stays inside the read list -/

/-- The scan `while (isBackbone(ufpath[ii].ident) == false) ii++` on a list with
a backbone read stops at an index `ii` inside the list: the reads before `ii`
are not backbone, the read at `ii` is, and the reads from `ii` on are kept. -/
theorem stripScan_index (isBackbone : Nat → Bool) :
    ∀ (l : List ufNode), (∃ rd ∈ l, isBackbone rd.ident = true) →
      ∃ ii, ii < l.length ∧ (∀ rd ∈ l.take ii, isBackbone rd.ident = false) ∧
        (∃ rd, l[ii]? = some rd ∧ isBackbone rd.ident = true) ∧
        stripScan isBackbone l = .ok (l.drop ii) := by
  intro l
  induction l with
  | nil => intro h; obtain ⟨rd, hrd, _⟩ := h; cases hrd
  | cons c r ih =>
    intro h
    by_cases hc : isBackbone c.ident = true
    · refine ⟨0, by simp, by simp, ⟨c, by simp, hc⟩, ?_⟩
      unfold stripScan
      simp [hc]
    · have hc' : isBackbone c.ident = false := by simpa using hc
      have hr : ∃ rd ∈ r, isBackbone rd.ident = true := by
        obtain ⟨rd, hrd, hb⟩ := h
        rcases List.mem_cons.1 hrd with e | e
        · subst e; rw [hc'] at hb; cases hb
        · exact ⟨rd, e, hb⟩
      obtain ⟨ii, hlt, hpre, hat, hscan⟩ := ih hr
      refine ⟨ii + 1, by simp only [List.length_cons]; omega, ?_, ?_, ?_⟩
      · intro rd hrd
        rw [List.take_succ_cons] at hrd
        rcases List.mem_cons.1 hrd with e | e
        · rw [e]; exact hc'
        · exact hpre rd e
      · simpa using hat
      · unfold stripScan
        rw [if_pos hc', hscan]
        rfl

/-- On a list without a backbone read the scan runs past the end. -/
theorem stripScan_no_backbone (isBackbone : Nat → Bool) :
    ∀ (l : List ufNode), (∀ rd ∈ l, isBackbone rd.ident = false) →
      stripScan isBackbone l = .error .outOfBounds := by
  intro l
  induction l with
  | nil => intro _; rfl
  | cons c r ih =>
    intro h
    unfold stripScan
    rw [if_pos (h c (List.mem_cons_self _ _))]
    exact ih (fun rd hrd => h rd (List.mem_cons_of_mem _ hrd))

theorem filter_backbone_dropWhile (isBackbone : Nat → Bool) :
    ∀ (l : List ufNode),
      (l.dropWhile (fun rd => !isBackbone rd.ident)).filter (fun rd => isBackbone rd.ident)
        = l.filter (fun rd => isBackbone rd.ident) := by
  intro l
  induction l with
  | nil => rfl
  | cons c r ih =>
    by_cases hc : isBackbone c.ident = true
    · rw [List.dropWhile_cons_of_neg (by simp [hc])]
    · have hc' : isBackbone c.ident = false := by simpa using hc
      rw [List.dropWhile_cons_of_pos (by simp [hc']), ih, List.filter_cons_of_neg (by simp [hc'])]

/-- C31: the trim of `createUnitigs` never indexes a read list past its end.  A
unit without a backbone read is returned as it is, without a call of
`stripNonBackboneFromStart` (whose scan would run past the end of such a list);
for a unit with a backbone read the scan of the first call stops at an index
`ii < ufpath.size()` on a backbone read, the first call keeps every backbone
read, and the scan of the second call stops at an index `jj` inside the list the
first call left; so both calls return, and the trim of every unit collection
returns. -/
theorem trim_scan_in_bounds (isBackbone : Nat → Bool) :
    (∀ tigs : TigVector, ∃ r, trimUnitigs isBackbone tigs = .ok r) ∧
    (∀ tig : Unitig, (∀ rd ∈ tig.ufpath, isBackbone rd.ident = false) →
      trimUnitig isBackbone (some tig) = .ok (some tig) ∧
      stripScan isBackbone tig.ufpath = .error .outOfBounds) ∧
    (∀ tig : Unitig, (∃ rd ∈ tig.ufpath, isBackbone rd.ident = true) →
      ∃ (ii jj : Nat) (t1 t2 : Unitig),
        ii < tig.ufpath.length ∧
        (∀ rd ∈ tig.ufpath.take ii, isBackbone rd.ident = false) ∧
        (∃ rd, tig.ufpath[ii]? = some rd ∧ isBackbone rd.ident = true) ∧
        stripScan isBackbone tig.ufpath = .ok (tig.ufpath.drop ii) ∧
        stripNonBackboneFromStart isBackbone tig = .ok t1 ∧
        (∀ rd ∈ tig.ufpath, isBackbone rd.ident = true → rd ∈ t1.ufpath) ∧
        (t1.ufpath.filter (fun rd => isBackbone rd.ident)).length
          = (tig.ufpath.filter (fun rd => isBackbone rd.ident)).length ∧
        jj < t1.ufpath.length ∧
        (∀ rd ∈ t1.ufpath.take jj, isBackbone rd.ident = false) ∧
        (∃ rd, t1.ufpath[jj]? = some rd ∧ isBackbone rd.ident = true) ∧
        stripScan isBackbone t1.ufpath = .ok (t1.ufpath.drop jj) ∧
        stripNonBackboneFromStart isBackbone t1 = .ok t2 ∧
        (tig._isUnassembled = false → trimUnitig isBackbone (some tig) = .ok (some t2))) := by
  refine ⟨?_, ?_, ?_⟩
  · intro tigs
    obtain ⟨r, hr, _⟩ := trimUnitigs_spec isBackbone tigs
    exact ⟨r, hr⟩
  · intro tig hnb
    refine ⟨?_, stripScan_no_backbone isBackbone _ hnb⟩
    have hf : tig.ufpath.filter (fun rd => isBackbone rd.ident) = [] := by
      rw [List.filter_eq_nil_iff]
      intro rd hrd
      rw [hnb rd hrd]
      simp
    unfold trimUnitig
    simp only
    by_cases hu : tig._isUnassembled = true
    · rw [if_pos hu]
    · rw [if_neg hu, hf, if_pos List.length_nil]
  · intro tig hbb
    obtain ⟨ii, hii, hpre, hat, hscan⟩ := stripScan_index isBackbone tig.ufpath hbb
    have hdrop : tig.ufpath.drop ii = tig.ufpath.dropWhile (fun rd => !isBackbone rd.ident) := by
      have h := stripScan_eq isBackbone tig.ufpath hbb
      rw [hscan] at h
      exact Except.ok.inj h
    have h1 : stripNonBackboneFromStart isBackbone tig =
        .ok (cleanUpReverse { tig with ufpath := tig.ufpath.drop ii }) := by
      unfold stripNonBackboneFromStart
      rw [hscan]
    have hkeep : ∀ rd ∈ tig.ufpath, isBackbone rd.ident = true →
        rd ∈ (cleanUpReverse { tig with ufpath := tig.ufpath.drop ii }).ufpath := by
      intro rd hrd hb
      simp only [cleanUpReverse]
      rw [hdrop]
      exact List.mem_reverse.2 (mem_dropWhile_of_not _ _ rd hrd (by simp [hb]))
    have hbb1 : ∃ rd ∈ (cleanUpReverse { tig with ufpath := tig.ufpath.drop ii }).ufpath,
        isBackbone rd.ident = true := by
      obtain ⟨rd, hrd, hb⟩ := hbb
      exact ⟨rd, hkeep rd hrd hb, hb⟩
    obtain ⟨jj, hjj, hpre1, hat1, hscan1⟩ := stripScan_index isBackbone _ hbb1
    have h2 : stripNonBackboneFromStart isBackbone
        (cleanUpReverse { tig with ufpath := tig.ufpath.drop ii }) =
        .ok (cleanUpReverse { (cleanUpReverse { tig with ufpath := tig.ufpath.drop ii }) with
          ufpath := (cleanUpReverse { tig with ufpath := tig.ufpath.drop ii }).ufpath.drop jj }) := by
      unfold stripNonBackboneFromStart
      rw [hscan1]
    refine ⟨ii, jj, _, _, hii, hpre, hat, hscan, h1, hkeep, ?_, hjj, hpre1, hat1, hscan1, h2, ?_⟩
    · simp only [cleanUpReverse]
      rw [hdrop, List.filter_reverse, List.length_reverse, filter_backbone_dropWhile]
    · intro hu
      have hne : (tig.ufpath.filter (fun rd => isBackbone rd.ident)).length ≠ 0 := by
        obtain ⟨rd, hrd, hb⟩ := hbb
        have hm : rd ∈ tig.ufpath.filter (fun rd => isBackbone rd.ident) :=
          List.mem_filter.2 ⟨hrd, hb⟩
        intro h0
        rw [List.length_eq_zero] at h0
        rw [h0] at hm
        cases hm
      unfold trimUnitig
      simp only
      rw [if_neg (by rw [hu]; simp), if_neg hne, h1]
      simp only
      rw [h2]

/-- C31 on the four-read contig with reads 2 and 3 as the backbone: the first
scan stops inside the list and so does the second. -/
theorem trim_scan_in_bounds_witness :
    (∃ rd ∈ scenarioTig.ufpath, (fun ident : Nat => ident == 2 || ident == 3) rd.ident = true) ∧
    ∃ (ii jj : Nat) (t1 t2 : Unitig),
      ii < scenarioTig.ufpath.length ∧
      (∀ rd ∈ scenarioTig.ufpath.take ii,
        (fun ident : Nat => ident == 2 || ident == 3) rd.ident = false) ∧
      (∃ rd, scenarioTig.ufpath[ii]? = some rd ∧
        (fun ident : Nat => ident == 2 || ident == 3) rd.ident = true) ∧
      stripScan (fun ident : Nat => ident == 2 || ident == 3) scenarioTig.ufpath
        = .ok (scenarioTig.ufpath.drop ii) ∧
      stripNonBackboneFromStart (fun ident : Nat => ident == 2 || ident == 3) scenarioTig
        = .ok t1 ∧
      (∀ rd ∈ scenarioTig.ufpath,
        (fun ident : Nat => ident == 2 || ident == 3) rd.ident = true → rd ∈ t1.ufpath) ∧
      (t1.ufpath.filter (fun rd => (fun ident : Nat => ident == 2 || ident == 3) rd.ident)).length
        = (scenarioTig.ufpath.filter
            (fun rd => (fun ident : Nat => ident == 2 || ident == 3) rd.ident)).length ∧
      jj < t1.ufpath.length ∧
      (∀ rd ∈ t1.ufpath.take jj,
        (fun ident : Nat => ident == 2 || ident == 3) rd.ident = false) ∧
      (∃ rd, t1.ufpath[jj]? = some rd ∧
        (fun ident : Nat => ident == 2 || ident == 3) rd.ident = true) ∧
      stripScan (fun ident : Nat => ident == 2 || ident == 3) t1.ufpath
        = .ok (t1.ufpath.drop jj) ∧
      stripNonBackboneFromStart (fun ident : Nat => ident == 2 || ident == 3) t1 = .ok t2 ∧
      (scenarioTig._isUnassembled = false →
        trimUnitig (fun ident : Nat => ident == 2 || ident == 3) (some scenarioTig)
          = .ok (some t2)) :=
  ⟨⟨⟨2, ⟨150, 400⟩⟩, by simp [scenarioTig], rfl⟩,
    (trim_scan_in_bounds (fun ident : Nat => ident == 2 || ident == 3)).2.2 scenarioTig
      ⟨⟨2, ⟨150, 400⟩⟩, by simp [scenarioTig], rfl⟩⟩

/-! ## The tables of GF(4) -/

/-- C34: the tables `gf4add` and `gf4mult` define a field on `{0,1,2,3}`: every
entry for two indices below 4 is again below 4, addition and multiplication are
commutative and associative, 0 is the additive and 1 the multiplicative
identity, every element is its own additive inverse, every element other than 0
has a multiplicative inverse, and multiplication distributes over addition. -/
theorem gf4_tables_field :
    (∀ a b : Fin 4, ∃ s p : Fin 4,
      tableAt gf4add a b = some s.val ∧ tableAt gf4mult a b = some p.val) ∧
    (∀ a b : Fin 4, tableAt gf4add a b = tableAt gf4add b a) ∧
    (∀ a b : Fin 4, tableAt gf4mult a b = tableAt gf4mult b a) ∧
    (∀ a b c : Fin 4,
      (tableAt gf4add a b).bind (fun ab => tableAt gf4add ab c) =
      (tableAt gf4add b c).bind (fun bc => tableAt gf4add a bc)) ∧
    (∀ a b c : Fin 4,
      (tableAt gf4mult a b).bind (fun ab => tableAt gf4mult ab c) =
      (tableAt gf4mult b c).bind (fun bc => tableAt gf4mult a bc)) ∧
    (∀ a : Fin 4, tableAt gf4add 0 a = some a.val ∧ tableAt gf4add a 0 = some a.val) ∧
    (∀ a : Fin 4, tableAt gf4mult 1 a = some a.val ∧ tableAt gf4mult a 1 = some a.val) ∧
    (∀ a : Fin 4, tableAt gf4add a a = some 0) ∧
    (∀ a : Fin 4, a = 0 ∨ ∃ b : Fin 4, tableAt gf4mult a b = some 1 ∧
      tableAt gf4mult b a = some 1) ∧
    (∀ a b c : Fin 4,
      (tableAt gf4add b c).bind (fun bc => tableAt gf4mult a bc) =
      (tableAt gf4mult a b).bind (fun ab =>
        (tableAt gf4mult a c).bind (fun ac => tableAt gf4add ab ac))) ∧
    (∀ a b c : Fin 4,
      (tableAt gf4add a b).bind (fun ab => tableAt gf4mult ab c) =
      (tableAt gf4mult a c).bind (fun ac =>
        (tableAt gf4mult b c).bind (fun bc => tableAt gf4add ac bc))) := by
  refine ⟨?_, ?_, ?_, ?_, ?_, ?_, ?_, ?_, ?_, ?_, ?_⟩ <;> decide

/-! ## The letters of the shift register -/

/-- C38: `numberToBase` maps 0 to `A`, 1 to `C`, 2 to `T` and 3 to `G`; on the
four symbols it is injective, and each of the four results is one of the
letters `A`, `C`, `G`, `T`. -/
theorem numberToBase_letters :
    Char.ofNat (numberToBase 0) = 'A' ∧
    Char.ofNat (numberToBase 1) = 'C' ∧
    Char.ofNat (numberToBase 2) = 'T' ∧
    Char.ofNat (numberToBase 3) = 'G' ∧
    (∀ a b : Fin 4, numberToBase a = numberToBase b ↔ a = b) ∧
    (∀ a : Fin 4, Char.ofNat (numberToBase a) ∈ ['A', 'C', 'G', 'T']) ∧
    (∀ a : Fin 4, numberToBase a ∈ [('A').toNat, ('C').toNat, ('G').toNat, ('T').toNat]) := by
  refine ⟨?_, ?_, ?_, ?_, ?_, ?_, ?_⟩ <;> decide

/-! ## The accumulation of `trimStat` -/

/-- The invariant of `operator+=`: from any state, the calls for the values of
a list append the list to `histo`, add its length to `nReads` modulo `2^32` and
add its sum to `nBases` modulo `2^64`. -/
theorem trimStat_foldl (vals : List Nat) :
    ∀ s : trimStat,
      (vals.foldl trimStat.add s).histo = s.histo ++ vals ∧
      (vals.foldl trimStat.add s).nReads % 2 ^ 32 = (s.nReads + vals.length) % 2 ^ 32 ∧
      (vals.foldl trimStat.add s).nBases % 2 ^ 64 = (s.nBases + vals.sum) % 2 ^ 64 := by
  induction vals with
  | nil => intro s; simp
  | cons v rest ih =>
    intro s
    obtain ⟨h1, h2, h3⟩ := ih (s.add v)
    rw [List.foldl_cons]
    refine ⟨?_, ?_, ?_⟩
    · rw [h1]; simp [trimStat.add]
    · rw [h2]
      simp only [trimStat.add, List.length_cons]
      omega
    · rw [h3]
      simp only [trimStat.add, List.sum_cons]
      omega

theorem trimStat_range (vals : List Nat) :
    ∀ s : trimStat, s.nReads < 2 ^ 32 → s.nBases < 2 ^ 64 →
      (vals.foldl trimStat.add s).nReads < 2 ^ 32 ∧
      (vals.foldl trimStat.add s).nBases < 2 ^ 64 := by
  induction vals with
  | nil => intro s h1 h2; exact ⟨h1, h2⟩
  | cons v rest ih =>
    intro s _ _
    rw [List.foldl_cons]
    exact ih (s.add v) (Nat.mod_lt _ (by norm_num)) (Nat.mod_lt _ (by norm_num))

/-- C36: starting from a freshly constructed `trimStat`, after the calls of
`operator+=` for the `uint32` values of a list, in the order of the list,
`histo` is that list, `nReads` is `histo.size()` modulo `2^32` and `nBases` is
the sum of the entries of `histo` modulo `2^64`. -/
theorem accumulation_invariant (vals : List Nat) (hvals : ∀ v ∈ vals, v < 2 ^ 32) :
    (vals.foldl trimStat.add trimStat.fresh).histo = vals ∧
    (vals.foldl trimStat.add trimStat.fresh).nReads
      = (vals.foldl trimStat.add trimStat.fresh).histo.length % 2 ^ 32 ∧
    (vals.foldl trimStat.add trimStat.fresh).nBases
      = (vals.foldl trimStat.add trimStat.fresh).histo.sum % 2 ^ 64 ∧
    (∀ v ∈ (vals.foldl trimStat.add trimStat.fresh).histo, v < 2 ^ 32) := by
  obtain ⟨h1, h2, h3⟩ := trimStat_foldl vals trimStat.fresh
  obtain ⟨r1, r2⟩ := trimStat_range vals trimStat.fresh (by decide) (by decide)
  have hh : (vals.foldl trimStat.add trimStat.fresh).histo = vals := by
    rw [h1]; simp [trimStat.fresh]
  refine ⟨hh, ?_, ?_, ?_⟩
  · rw [Nat.mod_eq_of_lt r1] at h2
    rw [h2, hh]
    simp [trimStat.fresh]
  · rw [Nat.mod_eq_of_lt r2] at h3
    rw [h3, hh]
    simp [trimStat.fresh]
  · rw [hh]; exact hvals

/-- C36 for the three values 100, 4294967295 and 7. -/
theorem accumulation_invariant_witness :
    (∀ v ∈ [100, 4294967295, 7], v < 2 ^ 32) ∧
    (([100, 4294967295, 7] : List Nat).foldl trimStat.add trimStat.fresh).histo
      = [100, 4294967295, 7] ∧
    (([100, 4294967295, 7] : List Nat).foldl trimStat.add trimStat.fresh).nReads
      = (([100, 4294967295, 7] : List Nat).foldl trimStat.add trimStat.fresh).histo.length
          % 2 ^ 32 ∧
    (([100, 4294967295, 7] : List Nat).foldl trimStat.add trimStat.fresh).nBases
      = (([100, 4294967295, 7] : List Nat).foldl trimStat.add trimStat.fresh).histo.sum
          % 2 ^ 64 ∧
    (∀ v ∈ (([100, 4294967295, 7] : List Nat).foldl trimStat.add trimStat.fresh).histo,
      v < 2 ^ 32) :=
  ⟨by decide, accumulation_invariant [100, 4294967295, 7] (by decide)⟩

/-! ## The sequence ranges in `extractParameters::finalize` -/

theorem finalizeSeqs_spec :
    ∀ l : List Nat,
      (0 ∈ l → finalizeSeqs l = .error .exit1) ∧
      (0 ∉ l → finalizeSeqs l = .ok (l.map (fun bgn => bgn - 1))) := by
  intro l
  induction l with
  | nil => exact ⟨fun h => (by cases h), fun _ => rfl⟩
  | cons b rest ih =>
    by_cases hb : b = 0
    · refine ⟨fun _ => ?_, fun h => ?_⟩
      · unfold finalizeSeqs
        rw [if_pos hb]
      · exact absurd (by rw [hb]; exact List.mem_cons_self _ _) h
    · refine ⟨fun h => ?_, fun h => ?_⟩
      · have hr : 0 ∈ rest := by
          rcases List.mem_cons.1 h with e | e
          · exact absurd e.symm hb
          · exact e
        unfold finalizeSeqs
        rw [if_neg hb, ih.1 hr]
      · have hr : 0 ∉ rest := fun e => h (List.mem_cons_of_mem _ e)
        unfold finalizeSeqs
        rw [if_neg hb, ih.2 hr]
        rfl

theorem finalizeBases_total :
    ∀ bgns ends : List Nat, bgns.length ≤ ends.length →
      ∃ r, finalizeBases bgns ends = .ok r := by
  intro bgns
  induction bgns with
  | nil => intro ends _; exact ⟨ends, by unfold finalizeBases; rfl⟩
  | cons b bs ih =>
    intro ends h
    cases ends with
    | nil => simp at h
    | cons e es =>
      obtain ⟨r, hr⟩ := ih es (by simpa using h)
      refine ⟨(if b = e then (e + 1) % 2 ^ 64 else e) :: r, ?_⟩
      unfold finalizeBases
      rw [hr]

theorem finalizeBases_not_exit :
    ∀ bgns ends : List Nat, finalizeBases bgns ends ≠ .error .exit1 := by
  intro bgns
  induction bgns with
  | nil => intro ends h; unfold finalizeBases at h; cases h
  | cons b bs ih =>
    intro ends h
    cases ends with
    | nil => unfold finalizeBases at h; cases h
    | cons e es =>
      unfold finalizeBases at h
      cases hr : finalizeBases bs es with
      | error x =>
        rw [hr] at h
        simp only [Except.error.injEq] at h
        rw [h] at hr
        exact ih es hr
      | ok r => rw [hr] at h; cases h

/-- The sequence begins `finalize` loops over: the list given, or the single
begin 1 of the default range when the list given is empty. -/
theorem finalize_cases (p : extractParameters) :
    p.finalize =
      match finalizeSeqs (if p.seqsBgn.length = 0 then p.seqsBgn ++ [1] else p.seqsBgn) with
      | .error e => .error e
      | .ok seqsBgn =>
        match finalizeBases
            (if p.baseBgn.length = 0 then p.baseBgn ++ [0] else p.baseBgn)
            (if p.baseBgn.length = 0 then p.baseEnd ++ [UINT64_MAX] else p.baseEnd) with
        | .error e => .error e
        | .ok baseEnd =>
          .ok { baseBgn := if p.baseBgn.length = 0 then p.baseBgn ++ [0] else p.baseBgn,
                baseEnd := baseEnd,
                seqsBgn := seqsBgn,
                seqsEnd := if p.seqsBgn.length = 0 then p.seqsEnd ++ [UINT64_MAX]
                           else p.seqsEnd,
                lensBgn := if p.lensBgn.length = 0 then p.lensBgn ++ [0] else p.lensBgn,
                lensEnd := if p.lensBgn.length = 0 then p.lensEnd ++ [UINT64_MAX]
                           else p.lensEnd } := by
  unfold extractParameters.finalize
  by_cases h1 : p.baseBgn.length = 0 <;> by_cases h2 : p.seqsBgn.length = 0 <;>
    by_cases h3 : p.lensBgn.length = 0 <;> simp [h1, h2, h3]

/-- C35: `finalize` stops with the error exit iff, after the begin 1 of the
default range has been supplied for an empty list, some sequence range begins
at 0; otherwise, for base ranges given in pairs, it returns, every `seqsBgn`
entry is decreased by exactly 1, `seqsEnd` is the list given (followed by
`UINT64_MAX` when the default range was supplied), and an empty sequence-range
list becomes the single range `[0, UINT64_MAX]`. -/
theorem finalize_sequence_ranges (p : extractParameters) :
    (p.finalize = .error .exit1 ↔
      0 ∈ (if p.seqsBgn.length = 0 then p.seqsBgn ++ [1] else p.seqsBgn)) ∧
    (p.finalize = .error .exit1 ↔ 0 ∈ p.seqsBgn) ∧
    (0 ∉ p.seqsBgn → p.baseBgn.length = p.baseEnd.length →
      ∃ q, p.finalize = .ok q ∧
        q.seqsBgn = (if p.seqsBgn.length = 0 then p.seqsBgn ++ [1] else p.seqsBgn).map
          (fun bgn => bgn - 1) ∧
        q.seqsBgn.length = (if p.seqsBgn.length = 0 then 1 else p.seqsBgn.length) ∧
        (∀ (i bgn : Nat), p.seqsBgn[i]? = some bgn →
          0 < bgn ∧ q.seqsBgn[i]? = some (bgn - 1) ∧ (bgn - 1) + 1 = bgn) ∧
        q.seqsEnd = (if p.seqsBgn.length = 0 then p.seqsEnd ++ [UINT64_MAX] else p.seqsEnd) ∧
        (p.seqsBgn.length ≠ 0 → q.seqsEnd = p.seqsEnd) ∧
        (p.seqsBgn = [] → p.seqsEnd = [] → q.seqsBgn = [0] ∧ q.seqsEnd = [UINT64_MAX])) := by
  have hmem : 0 ∈ (if p.seqsBgn.length = 0 then p.seqsBgn ++ [1] else p.seqsBgn)
      ↔ 0 ∈ p.seqsBgn := by
    by_cases h : p.seqsBgn.length = 0
    · rw [if_pos h, List.length_eq_zero.1 h]
      simp
    · rw [if_neg h]
  have hexit : p.finalize = .error .exit1 ↔
      0 ∈ (if p.seqsBgn.length = 0 then p.seqsBgn ++ [1] else p.seqsBgn) := by
    rw [finalize_cases]
    constructor
    · intro h
      by_contra hn
      rw [(finalizeSeqs_spec _).2 hn] at h
      simp only at h
      cases hb : finalizeBases
          (if p.baseBgn.length = 0 then p.baseBgn ++ [0] else p.baseBgn)
          (if p.baseBgn.length = 0 then p.baseEnd ++ [UINT64_MAX] else p.baseEnd) with
      | error x =>
        rw [hb] at h
        simp only [Except.error.injEq] at h
        rw [h] at hb
        exact finalizeBases_not_exit _ _ hb
      | ok r => rw [hb] at h; cases h
    · intro h
      rw [(finalizeSeqs_spec _).1 h]
  refine ⟨hexit, hexit.trans hmem, ?_⟩
  intro h0 hlen
  have hn : 0 ∉ (if p.seqsBgn.length = 0 then p.seqsBgn ++ [1] else p.seqsBgn) :=
    fun h => h0 (hmem.1 h)
  obtain ⟨r, hr⟩ := finalizeBases_total
    (if p.baseBgn.length = 0 then p.baseBgn ++ [0] else p.baseBgn)
    (if p.baseBgn.length = 0 then p.baseEnd ++ [UINT64_MAX] else p.baseEnd)
    (by split <;> simp [hlen])
  refine ⟨_, by rw [finalize_cases, (finalizeSeqs_spec _).2 hn, hr], rfl, ?_, ?_, rfl, ?_, ?_⟩
  · simp only [List.length_map]
    split
    · next h => rw [List.length_eq_zero.1 h]; rfl
    · rfl
  · intro i bgn hi
    have hne : p.seqsBgn.length ≠ 0 := by
      intro h
      rw [List.length_eq_zero.1 h] at hi
      simp at hi
    have hpos : 0 < bgn := by
      rcases Nat.eq_zero_or_pos bgn with e | e
      · exact absurd (by rw [← e]; exact List.mem_iff_getElem?.2 ⟨i, hi⟩) h0
      · exact e
    refine ⟨hpos, ?_, by omega⟩
    simp only [if_neg hne, List.getElem?_map, hi, Option.map_some']
  · intro hne
    simp only [if_neg hne]
  · intro hb he
    simp [hb, he]

/-- C35 for the two ranges `[1, 10]` and `[5, 7]`, which become `[0, 10]` and
`[4, 7]`. -/
theorem finalize_sequence_ranges_witness :
    0 ∉ twoSeqRanges.seqsBgn ∧
    ∃ q, twoSeqRanges.finalize = .ok q ∧ q.seqsBgn = [0, 4] ∧ q.seqsEnd = [10, 7] := by
  have h0 : 0 ∉ twoSeqRanges.seqsBgn := by decide
  obtain ⟨q, hq, hb, _, _, he, _, _⟩ := (finalize_sequence_ranges twoSeqRanges).2.2 h0 rfl
  exact ⟨h0, q, hq, by rw [hb]; rfl, by rw [he]; rfl⟩

/-! ## The work blocks of `Process_Overlaps` -/

/-- The next block without overflow: it starts right after the block before and
holds `perThread` ids, or fewer when it is cut at `endRefID`. -/
theorem nextBlock_eq (endRefID perThread : Nat) (s : WorkBlock)
    (hper : 1 ≤ perThread) (hfit : endRefID + perThread < 2 ^ 32)
    (hend : s.endID ≤ endRefID) (hcur : s.curRefID = s.endID + 1) :
    nextBlock endRefID perThread s =
      { bgnID := s.endID + 1,
        endID := min (s.endID + perThread) endRefID,
        curRefID := min (s.endID + perThread) endRefID + 1 } := by
  unfold nextBlock
  have h1 : (s.curRefID + perThread + (2 ^ 32 - 1)) % 2 ^ 32 = s.endID + perThread := by
    rw [hcur]
    omega
  simp only [h1]
  by_cases h : s.endID + perThread > endRefID
  · rw [if_pos h, Nat.min_eq_right (by omega), Nat.mod_eq_of_lt (by omega), hcur]
  · rw [if_neg h, Nat.min_eq_left (by omega), Nat.mod_eq_of_lt (by omega), hcur]

/-- What the block loop does for one worker when nothing overflows: from a block
`[bgnID, endID]` with `bgnID <= endID <= endRefID` and `curRefID = endID + 1` the
loop is left after at most `endRefID - bgnID` blocks; every block is an interval
with `bgnID <= endID <= endRefID`, every block after the first holds at most
`perThread` ids, and the ids of the blocks in the order they are processed are
the consecutive ids from the first `bgnID` up to `endRefID - 1` or up to
`endRefID`. -/
theorem work_blocks_spec (endRefID perThread : Nat)
    (hper : 1 ≤ perThread) (hfit : endRefID + perThread < 2 ^ 32) :
    ∀ (fuel : Nat) (s : WorkBlock),
      s.bgnID ≤ s.endID → s.endID ≤ endRefID → s.curRefID = s.endID + 1 →
      endRefID - s.bgnID < fuel →
      ∃ blocks last n,
        Process_Overlaps endRefID perThread fuel s = .ok (blocks, last) ∧
        (blocks.map blockIds).flatten = List.range' s.bgnID n ∧
        (s.bgnID + n = endRefID ∨ s.bgnID + n = endRefID + 1) ∧
        (∀ b ∈ blocks, b.1 ≤ b.2 ∧ b.2 ≤ endRefID) ∧
        (∀ b ∈ blocks.tail, b.2 + 1 - b.1 ≤ perThread) ∧
        blocks.head? = (if s.bgnID < endRefID then some (s.bgnID, s.endID) else none) := by
  intro fuel
  induction fuel with
  | zero => intro s _ _ _ h; omega
  | succ fuel ih =>
    intro s hbe hend hcur hfuel
    by_cases hlt : s.bgnID < endRefID
    · have hnext := nextBlock_eq endRefID perThread s hper hfit hend hcur
      by_cases hlast : s.endID = endRefID
      · -- the block reaches `endRefID`: the next one is empty and the loop is left
        obtain ⟨f, hf⟩ : ∃ f, fuel = f + 1 := ⟨fuel - 1, by omega⟩
        have hstop : Process_Overlaps endRefID perThread fuel
            (nextBlock endRefID perThread s) = .ok ([], nextBlock endRefID perThread s) := by
          rw [hf]
          unfold Process_Overlaps
          rw [if_neg (by rw [hnext]; simp only; omega)]
        refine ⟨[(s.bgnID, s.endID)], nextBlock endRefID perThread s,
          s.endID + 1 - s.bgnID, ?_, ?_, Or.inr (by omega), ?_, ?_, ?_⟩
        · unfold Process_Overlaps
          rw [if_pos hlt, hstop]
        · simp [blockIds]
        · intro b hb
          rw [List.mem_singleton] at hb
          rw [hb]
          exact ⟨hbe, hend⟩
        · intro b hb
          cases hb
        · rw [if_pos hlt]
          rfl
      · obtain ⟨blocks, last, n, hrun, hids, hn, hint, hsz, hhead⟩ :=
          ih (nextBlock endRefID perThread s)
            (by rw [hnext]; simp only; omega)
            (by rw [hnext]; simp only; omega)
            (by rw [hnext])
            (by rw [hnext]; simp only; omega)
        refine ⟨(s.bgnID, s.endID) :: blocks, last, (s.endID + 1 - s.bgnID) + n,
          ?_, ?_, ?_, ?_, ?_, ?_⟩
        · unfold Process_Overlaps
          rw [if_pos hlt, hrun]
        · rw [List.map_cons, List.flatten_cons, hids, hnext]
          simp only [blockIds]
          obtain ⟨k, hk⟩ : ∃ k, s.endID + 1 = s.bgnID + k := ⟨s.endID + 1 - s.bgnID, by omega⟩
          have hk2 : s.endID + 1 - s.bgnID = k := by omega
          rw [hk2, hk, List.range'_append_1, Nat.add_comm n k]
        · rw [hnext] at hn
          simp only at hn
          omega
        · intro b hb
          rcases List.mem_cons.1 hb with e | e
          · rw [e]; exact ⟨hbe, hend⟩
          · exact hint b e
        · intro b hb
          rw [List.tail_cons] at hb
          cases blocks with
          | nil => cases hb
          | cons c rest =>
            rcases List.mem_cons.1 hb with e | e
            · rw [hnext] at hhead
              simp only [List.head?_cons] at hhead
              split at hhead
              · have hc := Option.some.inj hhead
                rw [e, hc]
                simp only
                omega
              · cases hhead
            · exact hsz b (by rw [List.tail_cons]; exact e)
        · rw [if_pos hlt]
          rfl
    · refine ⟨[], s, 0, ?_, by simp, Or.inl (by omega), ?_, ?_, ?_⟩
      · unfold Process_Overlaps
        rw [if_neg hlt]
      · intro b hb; cases hb
      · intro b hb; cases hb
      · rw [if_neg hlt]
        rfl

/-- C37, the input where the coverage fails: with `G.endRefID = 3` and
`G.perThread = 2`, from the block `[1, 2]` with `G.curRefID = 3` (so that
`bgnID <= endID <= G.endRefID` and `G.curRefID = endID + 1`) the loop processes
the block `[1, 2]`, makes `[3, 3]` the next block and is left at the test
`3 < 3`: read 3, the read `G.endRefID`, is in no processed block. -/
theorem last_block_left_out :
    ((⟨1, 2, 3⟩ : WorkBlock).bgnID ≤ (⟨1, 2, 3⟩ : WorkBlock).endID ∧
      (⟨1, 2, 3⟩ : WorkBlock).endID ≤ 3 ∧
      (⟨1, 2, 3⟩ : WorkBlock).curRefID = (⟨1, 2, 3⟩ : WorkBlock).endID + 1) ∧
    nextBlock 3 2 ⟨1, 2, 3⟩ = ⟨3, 3, 4⟩ ∧
    (∀ fuel : Nat, Process_Overlaps 3 2 (fuel + 2) ⟨1, 2, 3⟩ = .ok ([(1, 2)], ⟨3, 3, 4⟩)) ∧
    ([(1, 2)].map blockIds).flatten = [1, 2] ∧
    3 ∉ ([(1, 2)].map blockIds).flatten := by
  refine ⟨⟨by decide, by decide, rfl⟩, by decide, ?_, by decide, by decide⟩
  intro fuel
  rfl

/-! ## De-duplication across the wrap of the key -/

/-- Whatever order `std::sort` leaves among the equal keys of `wrapPool`, one of
the two contigs has its two breakpoints in different runs of the walk. -/
theorem wrapPool_every_sort (s : List breakPointEnd) (hs : IsSortOf wrapPool s) :
    ∃ x ∈ wrapPool, ∃ y ∈ wrapPool, x._tigID = y._tigID ∧
      ∀ run ∈ poolRuns 4 s, ¬ (x ∈ run ∧ y ∈ run) := by
  obtain ⟨hperm, hpw⟩ := hs
  have hlen : s.length = 4 := hperm.length_eq
  match s, hperm, hpw, hlen with
  | [a, b, c, d], hperm, hpw, _ =>
    have ha : a ∈ wrapPool := hperm.subset (by simp)
    have hb : b ∈ wrapPool := hperm.subset (by simp)
    have hc : c ∈ wrapPool := hperm.subset (by simp)
    have hd : d ∈ wrapPool := hperm.subset (by simp)
    simp only [wrapPool, List.mem_cons, List.mem_singleton, List.not_mem_nil, or_false]
      at ha hb hc hd
    rcases ha with rfl | rfl | rfl | rfl <;> rcases hb with rfl | rfl | rfl | rfl <;>
      rcases hc with rfl | rfl | rfl | rfl <;> rcases hd with rfl | rfl | rfl | rfl <;>
      first
        | (exfalso; revert hpw; decide)
        | (exfalso; revert hperm; decide)
        | decide

/-- C14: the list built for one contig does not hold every breakpoint of the
contig for every pool.  For the sentinels of contig `0` and contig `2^31`, both
of length 5, the keys are 1, 1, 10, 10, so the pool is a sorted arrangement of
itself in which the two contigs alternate; the walk takes four runs of one
breakpoint each, and the list built for contig `0` from the first run is
`[(0, 0, begin)]`, without the pair `(5, end)` of the contig's other
breakpoint. -/
theorem wrapped_key_splits_run :
    wrapPool.map breakPointEnd.key = [1, 1, 10, 10] ∧
    sortBreaks wrapPool = wrapPool ∧
    IsSortOf wrapPool (sortBreaks wrapPool) ∧
    poolRuns 4 (sortBreaks wrapPool) =
      [[⟨0, 0, true⟩], [⟨2147483648, 0, true⟩], [⟨0, 5, false⟩], [⟨2147483648, 5, false⟩]] ∧
    (poolRuns 4 (sortBreaks wrapPool)).map (buildBP []) =
      [[⟨0, 0, true⟩], [⟨2147483648, 0, true⟩], [⟨0, 5, false⟩], [⟨2147483648, 5, false⟩]] ∧
    (⟨0, 5, false⟩ : breakPointEnd) ∈ wrapPool ∧
    (5, false) ∉ (buildBP [] [⟨0, 0, true⟩]).map (fun x => (x._pos, x._bgn)) := by
  refine ⟨by decide, by decide, ⟨by decide, by decide⟩, by decide, by decide, by decide,
    by decide⟩

end Canu
